import Mathlib

/-!
Forward convolution and deconvolution kernels of `convolution_layer.cpp`:
a shallow embedding of `modules/dnn/src/layers/convolution_layer.cpp`.

* `float` values are rationals (exact arithmetic), tensors are flat memories
  addressed by element offsets, exactly as the pointer arithmetic of the source.
* Sizes and loop counters are natural numbers; quantities that the source lets
  go negative (`in_i`, `in_j`, `imgptr`, `coeff_h`, ...) are integers, and `/` on
  them is the truncating division of C++ (`Int.tdiv`).
* The kernels are the generic ones: the `CV_DNN_TRY_AVX2` branches call
  `fastConv_avx2` / `fastGEMM_avx2`, which live in another file.  The
  `CV_SIMD128` blocks are embedded and selected by a flag `simd`.
* A call `parallel_for_(Range(0, n), body, n)` is a list of sub-ranges of `[0, n)`
  that the body receives one after the other; the theorems hold for every such list
  that contains each index once (`IsSplit`).
* `CV_Assert` failures and divisions by zero make the layer functions return `none`.
-/

namespace ConvLayer

/-! ## Loops and memories -/

/-- The loop `for (i = start; i < stop; i += step) s = body i s` for `step ≥ 1`,
with a body that does not assign `i`. -/
def forStep {σ : Type} (start stop step : Nat) (body : Nat → σ → σ) (s : σ) : σ :=
  Nat.fold (fun t acc => body (start + t * step) acc) ((stop - start + step - 1) / step) s

/-- Auxiliary recursion of `forBreak`: `n` iterations remain, the counter is `i`. -/
def forBreakAux {σ : Type} (body : Nat → σ → Option σ) : Nat → Nat → σ → σ
  | 0, _, s => s
  | n + 1, i, s =>
    match body i s with
    | none => s
    | some s1 => forBreakAux body n (i + 1) s1

/-- The loop `for (i = start; i < stop; i++)` whose body may `break`
(the body returns `none`). -/
def forBreak {σ : Type} (start stop : Nat) (body : Nat → σ → Option σ) (s : σ) : σ :=
  forBreakAux body (stop - start) start s

/-- A flat `float` memory addressed from its base pointer. -/
abbrev Mem := Nat → ℚ

/-- The assignment `m[i] = v`. -/
def store (m : Mem) (i : Nat) (v : ℚ) : Mem := fun t => if t = i then v else m t

/-- The call `memset(m + base, 0, len * sizeof(float))`. -/
def memset0 (m : Mem) (base len : Nat) : Mem :=
  fun t => if base ≤ t ∧ t < base + len then 0 else m t

/-- Modelled from the spec: `alignSize(sz, n)` of the core library, which rounds
`sz` up to the alignment granularity `n` (a power of two). -/
def alignSize (sz n : Nat) : Nat := (sz + n - 1) / n * n

/-! ## Data model -/

/-- The type `cv::Size`. -/
structure Size where
  width : Nat
  height : Nat
deriving DecidableEq

/-- The type `cv::Range`. -/
structure Range where
  start : Nat
  end_ : Nat
deriving DecidableEq

/-- A continuous 4-dimensional `CV_32F` `Mat`: `size0 .. size3` are `size[0] .. size[3]`
and `data` is the memory seen from `ptr<float>()`, so that element `(a,b,c,d)` is
`data (((a*size1 + b)*size2 + c)*size3 + d)`.  Offsets are integers because the
source forms pointers below the base before adding a non-negative offset. -/
structure Mat4 where
  size0 : Nat
  size1 : Nat
  size2 : Nat
  size3 : Nat
  data : Int → ℚ

/-- A 2-dimensional `CV_32F` `Mat` with `rows`, `cols` and row stride `step1()`;
element `(r,c)` is `data (r*step1 + c)`. -/
structure Mat2 where
  rows : Nat
  cols : Nat
  step1 : Nat
  data : Mem

/-- The constant `ConvolutionLayerImpl::VEC_ALIGN`. -/
def VEC_ALIGN : Nat := 8

/-- The constant `ParallelConv::BLK_SIZE`. -/
def BLK_SIZE : Nat := 32

/-- The constant `ParallelConv::BLK_SIZE_CN`. -/
def BLK_SIZE_CN : Nat := 64

/-- Modelled from the spec: `ActivationLayer::forwardSlice(src, dst, len, planeSize, cn0, cn1)`
of an element-wise activation `f`, applied in place: for every channel `cn0 ≤ cn < cn1`
the `len` elements at `base + (cn - cn0)*planeSize` are replaced by `f cn` of them. -/
def forwardSlice (f : Nat → ℚ → ℚ) (out : Mem) (base len planeSize cn0 cn1 : Nat) : Mem :=
  forStep cn0 cn1 1 (fun cn o =>
    forStep 0 len 1 (fun i o =>
      store o (base + (cn - cn0) * planeSize + i) (f cn (o (base + (cn - cn0) * planeSize + i)))) o) out

/-- The members of `ConvolutionLayerImpl::ParallelConv`.  The output `Mat` is
represented by its four sizes; its memory is threaded through `operator()`.
`simd` records whether the `CV_SIMD128` blocks are compiled in. -/
structure ParallelConv where
  input_ : Mat4
  weights_ : Mat2
  outSize0 : Nat
  outSize1 : Nat
  outSize2 : Nat
  outSize3 : Nat
  kernel_ : Size
  pad_ : Size
  stride_ : Size
  dilation_ : Size
  ngroups_ : Nat
  nstripes_ : Nat
  ofstab_ : List Nat
  biasvec_ : List ℚ
  activ_ : Option (Nat → ℚ → ℚ)
  is1x1_ : Bool
  simd : Bool

namespace ParallelConv

variable (p : ParallelConv)

/-! Locals of `operator()` that depend on the members only (lines 335-347). -/

/-- The local `batchSize = input_->size[0]*ngroups`. -/
def batchSize : Nat := p.input_.size0 * p.ngroups_
/-- The local `outW = output_->size[3]`. -/
def outW : Nat := p.outSize3
/-- The local `outH = output_->size[2]`. -/
def outH : Nat := p.outSize2
/-- The local `outCn = output_->size[1]/ngroups`. -/
def outCn : Nat := p.outSize1 / p.ngroups_
/-- The local `width = input_->size[3]`. -/
def width : Nat := p.input_.size3
/-- The local `height = input_->size[2]`. -/
def height : Nat := p.input_.size2
/-- The local `inpCn = input_->size[1]/ngroups`. -/
def inpCn : Nat := p.input_.size1 / p.ngroups_
/-- The local `karea = kernel_w*kernel_h`. -/
def karea : Nat := p.kernel_.width * p.kernel_.height
/-- The local `inpPlaneSize = width*height`. -/
def inpPlaneSize : Nat := p.width * p.height
/-- The local `outPlaneSize = outW*outH`. -/
def outPlaneSize : Nat := p.outW * p.outH

/-- Lines 349-367: the stripe geometry.  Returns `stripesPerSample`, `stripeSize`
and the factor by which `r.start`, `r.end` (and `nstripes`) are multiplied, which is
`samplesPerStripe` in the second regime and `1` in the first. -/
def stripeParams : Nat × Nat × Nat :=
  if p.nstripes_ ≥ p.batchSize * 2 then
    let stripesPerSample := p.nstripes_ / p.batchSize
    let stripeSize := alignSize ((p.outPlaneSize + stripesPerSample - 1) / stripesPerSample) VEC_ALIGN
    let stripeSize := min stripeSize p.outPlaneSize
    (stripesPerSample, stripeSize, 1)
  else
    let samplesPerStripe := max ((p.batchSize + p.nstripes_ - 1) / p.nstripes_) 1
    (1, p.outPlaneSize, samplesPerStripe)

/-- The local `stripesPerSample`. -/
def stripesPerSample : Nat := p.stripeParams.1
/-- The local `stripeSize`. -/
def stripeSize : Nat := p.stripeParams.2.1
/-- The factor applied to `r.start` and `r.end` (lines 363-364). -/
def rangeScale : Nat := p.stripeParams.2.2

/-- Lines 419-428: the `is1x1` gather of the row of output position `ofs`. -/
def gatherRow1x1 (data_inp0 : Int) (cn0 vsz vsz_a ofs0 ofs : Nat) (rb : Mem) : Mem :=
  let out_i := ofs / p.outW
  let out_j := ofs - out_i * p.outW
  let rowbuf := (ofs - ofs0) * vsz_a
  let in_i : Int := (out_i : Int) * p.stride_.height - p.pad_.height
  let in_j : Int := (out_j : Int) * p.stride_.width - p.pad_.width
  let imgptr : Int := data_inp0 + ((cn0 : Int) * p.height + in_i) * p.width + in_j
  forStep 0 vsz 1 (fun k rb =>
    store rb (rowbuf + k) (p.input_.data (imgptr + (k : Int) * p.inpPlaneSize))) rb

/-- Lines 417-429: the `is1x1` gather of the rows `ofs0 ≤ ofs < ofs1`. -/
def im2row1x1 (data_inp0 : Int) (cn0 vsz vsz_a ofs0 ofs1 : Nat) (rowbuf0 : Mem) : Mem :=
  forStep ofs0 ofs1 1 (fun ofs rb => p.gatherRow1x1 data_inp0 cn0 vsz vsz_a ofs0 ofs rb) rowbuf0

/-- Lines 435-474: the general gather of the row of output position `ofs`; the first
branch reads through the offset table, the second clears the row and copies the taps
that fall inside the image. -/
def gatherRow (data_inp0 : Int) (cn0 ncn vsz vsz_a ofs0 ofs : Nat) (rb : Mem) : Mem :=
  let out_i := ofs / p.outW
  let out_j := ofs - out_i * p.outW
  let rowbuf := (ofs - ofs0) * vsz_a
  let in_i : Int := (out_i : Int) * p.stride_.height - p.pad_.height
  let in_j : Int := (out_j : Int) * p.stride_.width - p.pad_.width
  let imgptr : Int := data_inp0 + ((cn0 : Int) * p.height + in_i) * p.width + in_j
  let kernel_h : Int := p.kernel_.height
  let kernel_w : Int := p.kernel_.width
  let dilation_h : Int := p.dilation_.height
  let dilation_w : Int := p.dilation_.width
  if 0 ≤ in_i ∧ in_i < (p.height : Int) - (kernel_h - 1) * dilation_h ∧
     0 ≤ in_j ∧ in_j < (p.width : Int) - (kernel_w - 1) * dilation_w then
    forStep 0 vsz 1 (fun k rb =>
      store rb (rowbuf + k) (p.input_.data (imgptr + (p.ofstab_.getD k 0 : Nat)))) rb
  else
    let i0 : Int := max 0 ((-in_i + dilation_h - 1).tdiv dilation_h)
    let i1 : Int := min kernel_h (((p.height : Int) - in_i + dilation_h - 1).tdiv dilation_h)
    let j0 : Int := max 0 ((-in_j + dilation_w - 1).tdiv dilation_w)
    let j1 : Int := min kernel_w (((p.width : Int) - in_j + dilation_w - 1).tdiv dilation_w)
    let rb := memset0 rb rowbuf vsz
    forStep 0 ncn 1 (fun k rb =>
      let imgptr : Int := imgptr + (k : Int) * ((p.width : Int) * p.height)
      forStep i0.toNat i1.toNat 1 (fun i rb =>
        forStep j0.toNat j1.toNat 1 (fun j rb =>
          let imgofs : Int := (i : Int) * (dilation_h * p.width) + (j : Int) * dilation_w
          store rb (rowbuf + ((k * p.kernel_.height + i) * p.kernel_.width + j))
            (p.input_.data (imgptr + imgofs))) rb) rb) rb

/-- Lines 433-475: the general gather of the rows `ofs0 ≤ ofs < ofs1`. -/
def im2rowGeneral (data_inp0 : Int) (cn0 ncn vsz vsz_a ofs0 ofs1 : Nat) (rowbuf0 : Mem) : Mem :=
  forStep ofs0 ofs1 1 (fun ofs rb => p.gatherRow data_inp0 cn0 ncn vsz vsz_a ofs0 ofs rb) rowbuf0

/-- Lines 546-571: the scalar loop over the positions `jstart ≤ j < bsz` of a tile,
for the pair of output channels whose weight rows start at `wptr0`, `wptr1` and whose
output rows start at `outptr0`, `outptr1`. -/
def dotScalar (wptr0 wptr1 outptr0 outptr1 : Nat) (bias0 bias1 : ℚ)
    (cn0 vsz vsz_a jstart bsz : Nat) (rowbuf0 : Mem) (out : Mem) : Mem :=
  forStep jstart bsz 1 (fun j out =>
    let rptr := j * vsz_a
    let s00 := if cn0 = 0 then bias0 else out (outptr0 + j)
    let s10 := if cn0 = 0 then bias1 else out (outptr1 + j)
    let s := forStep 0 vsz 1 (fun k (s : ℚ × ℚ) =>
      let r0 := rowbuf0 (rptr + k)
      (s.1 + p.weights_.data (wptr0 + k) * r0, s.2 + p.weights_.data (wptr1 + k) * r0)) (s00, s10)
    store (store out (outptr0 + j) s.1) (outptr1 + j) s.2) out

end ParallelConv

/-- Modelled from the spec: the type `v_float32x4` of the universal intrinsics, four
`float` lanes. -/
abbrev v_float32x4 := Fin 4 → ℚ

/-- Modelled from the spec: the intrinsics `v_load` and `v_load_aligned`; lane `l` is
`m[ptr + l]`. -/
def v_load (m : Mem) (ptr : Nat) : v_float32x4 := fun l => m (ptr + l.val)

/-- Modelled from the spec: the intrinsic `v_setall_f32`. -/
def v_setall_f32 (x : ℚ) : v_float32x4 := fun _ => x

/-- Modelled from the spec: the intrinsic `v_setzero_f32`. -/
def v_setzero_f32 : v_float32x4 := fun _ => 0

/-- Modelled from the spec: the intrinsic `v_reduce_sum4(a, b, c, d)`; the lanes are the
sums of the lanes of `a`, `b`, `c` and `d`. -/
def v_reduce_sum4 (a b c d : v_float32x4) : v_float32x4 :=
  ![a 0 + a 1 + a 2 + a 3, b 0 + b 1 + b 2 + b 3, c 0 + c 1 + c 2 + c 3, d 0 + d 1 + d 2 + d 3]

/-- Modelled from the spec: the intrinsic `v_store(m + ptr, v)`. -/
def v_store (m : Mem) (ptr : Nat) (v : v_float32x4) : Mem :=
  store (store (store (store m ptr (v 0)) (ptr + 1) (v 1)) (ptr + 2) (v 2)) (ptr + 3) (v 3)

namespace ParallelConv

variable (p : ParallelConv)

/-- Lines 503-544 (`CV_SIMD128`): four positions at a time, `for( ; j <= bsz - 4; j += 4 )`.
The eight accumulators `vs00 .. vs03`, `vs10 .. vs13` are the two components of the
state of the `k` loop, indexed by the position `0 .. 3`. -/
def dotSimd (wptr0 wptr1 outptr0 outptr1 : Nat) (bias0 bias1 : ℚ)
    (cn0 vsz vsz_a bsz : Nat) (rowbuf0 : Mem) (out : Mem) : Mem :=
  forStep 0 (bsz - 3) 4 (fun j out =>
    let rptr := j * vsz_a
    let s0 := if cn0 = 0 then v_setall_f32 bias0 else v_load out (outptr0 + j)
    let s1 := if cn0 = 0 then v_setall_f32 bias1 else v_load out (outptr1 + j)
    let vs := forStep 0 vsz 4 (fun k (vs : (Fin 4 → v_float32x4) × (Fin 4 → v_float32x4)) =>
      let w0 := v_load p.weights_.data (wptr0 + k)
      let w1 := v_load p.weights_.data (wptr1 + k)
      let r : Fin 4 → v_float32x4 := fun q => v_load rowbuf0 (rptr + k + vsz_a * q.val)
      ((fun q => vs.1 q + w0 * r q), (fun q => vs.2 q + w1 * r q)))
      ((fun _ => v_setzero_f32), (fun _ => v_setzero_f32))
    let s0 := s0 + v_reduce_sum4 (vs.1 0) (vs.1 1) (vs.1 2) (vs.1 3)
    let s1 := s1 + v_reduce_sum4 (vs.2 0) (vs.2 1) (vs.2 2) (vs.2 3)
    v_store (v_store out (outptr0 + j) s0) (outptr1 + j) s1) out

/-- Lines 486-572: the product of the weights with the gathered tile, two output
channels at a time.  After the `CV_SIMD128` loop `j` is `bsz/4*4`. -/
def dotProduct (wptr biasptr data_out0 ofs0 cn0 vsz vsz_a bsz : Nat)
    (rowbuf0 : Mem) (out : Mem) : Mem :=
  forStep 0 p.outCn 2 (fun i out =>
    let wstep := p.weights_.step1
    let wptr0 := wptr + i * wstep
    let wptr1 := wptr0 + wstep
    let outptr0 := data_out0 + ofs0 + i * p.outPlaneSize
    let outptr1 := outptr0 + p.outPlaneSize
    let bias0 := p.biasvec_.getD (biasptr + i) 0
    let bias1 := p.biasvec_.getD (biasptr + (i + 1)) 0
    let wptr1 := if i + 1 ≥ p.outCn then wptr0 else wptr1
    let outptr1 := if i + 1 ≥ p.outCn then outptr0 else outptr1
    let bias1 := if i + 1 ≥ p.outCn then bias0 else bias1
    let out := if p.simd then
        p.dotSimd wptr0 wptr1 outptr0 outptr1 bias0 bias1 cn0 vsz vsz_a bsz rowbuf0 out
      else out
    let j := if p.simd then bsz / 4 * 4 else 0
    p.dotScalar wptr0 wptr1 outptr0 outptr1 bias0 bias1 cn0 vsz vsz_a j bsz rowbuf0 out) out

/-- Lines 412-572: one tile `ofs0 ≤ ofs < min(ofs0 + BLK_SIZE, stripeEnd)` of a channel
block, on the state (row buffer, output): the gather, then the product. -/
def tile (data_inp0 : Int) (data_out0 wptr biasptr cn0 ncn vsz vsz_a stripeEnd ofs0 : Nat)
    (st : Mem × Mem) : Mem × Mem :=
  let ofs1 := min (ofs0 + BLK_SIZE) stripeEnd
  let rowbuf :=
    if p.is1x1_ then p.im2row1x1 data_inp0 cn0 vsz vsz_a ofs0 ofs1 st.1
    else p.im2rowGeneral data_inp0 cn0 ncn vsz vsz_a ofs0 ofs1 st.1
  let bsz := ofs1 - ofs0
  (rowbuf, p.dotProduct wptr biasptr data_out0 ofs0 cn0 vsz vsz_a bsz rowbuf st.2)

/-- Lines 405-573: the block of input channels `cn0 ≤ c < min(cn0 + BLK_SIZE_CN, inpCn)`
over the output positions of the stripe. -/
def channelBlock (data_inp0 : Int) (data_out0 wptr_orig biasptr stripeStart stripeEnd cn0 : Nat)
    (st : Mem × Mem) : Mem × Mem :=
  let cn1 := min (cn0 + BLK_SIZE_CN) p.inpCn
  let ncn := cn1 - cn0
  let vsz := p.karea * ncn
  let vsz_a := alignSize vsz VEC_ALIGN
  let wptr := wptr_orig + cn0 * p.karea
  forStep stripeStart stripeEnd BLK_SIZE (fun ofs0 st =>
    p.tile data_inp0 data_out0 wptr biasptr cn0 ncn vsz vsz_a stripeEnd ofs0 st) st

/-- Lines 392-396: the piece of work of stripe number `stripe`: `none` is the `break`
of line 394, otherwise `(subsampleIdx, stripeStart, stripeEnd)`. -/
def stripeGeom (stripe : Nat) : Option (Nat × Nat × Nat) :=
  let subsampleIdx := stripe / p.stripesPerSample
  if subsampleIdx ≥ p.batchSize then none
  else
    let stripeStart := (stripe - subsampleIdx * p.stripesPerSample) * p.stripeSize
    let stripeEnd := min (stripeStart + p.stripeSize) p.outPlaneSize
    some (subsampleIdx, stripeStart, stripeEnd)

/-- Lines 397-579: the work on one stripe, on the state (row buffer, output). -/
def processStripe (subsampleIdx stripeStart stripeEnd : Nat) (st : Mem × Mem) : Mem × Mem :=
  let data_inp0 : Int := ((subsampleIdx * p.inpPlaneSize * p.inpCn : Nat) : Int)
  let data_out0 := subsampleIdx * p.outPlaneSize * p.outCn
  let startOutCn := (subsampleIdx % p.ngroups_) * p.outCn
  let wptr_orig := p.weights_.step1 * startOutCn
  let biasptr := startOutCn
  let st := forStep 0 p.inpCn BLK_SIZE_CN (fun cn0 st =>
    p.channelBlock data_inp0 data_out0 wptr_orig biasptr stripeStart stripeEnd cn0 st) st
  match p.activ_ with
  | some f =>
    (st.1, forwardSlice f st.2 (data_out0 + stripeStart) (stripeEnd - stripeStart)
      p.outPlaneSize startOutCn (startOutCn + p.outCn))
  | none => st

/-- Lines 390-580: the body of the loop over stripes; `none` is the `break`. -/
def stripeBody (stripe : Nat) (st : Mem × Mem) : Option (Mem × Mem) :=
  (p.stripeGeom stripe).map (fun g => p.processStripe g.1 g.2.1 g.2.2 st)

/-- The pieces `(subsampleIdx, stripeStart, stripeEnd)` that `operator()` processes on
the range `r0`, in order: the loop of lines 390-580 with the work on a stripe replaced
by recording its piece. -/
def callPieces (r0 : Range) : List (Nat × Nat × Nat) :=
  let r : Range := ⟨r0.start * p.rangeScale, r0.end_ * p.rangeScale⟩
  forBreak r.start r.end_ (fun stripe acc => (p.stripeGeom stripe).map (fun g => acc ++ [g])) []

/-- Lines 332-581: `ParallelConv::operator()` on the range `r0`.  `scratch` is the
content of the freshly allocated row buffer, of which the first
`karea*BLK_SIZE_CN*BLK_SIZE` elements are cleared (line 388). -/
def call (scratch : Mem) (r0 : Range) (out : Mem) : Mem :=
  let r : Range := ⟨r0.start * p.rangeScale, r0.end_ * p.rangeScale⟩
  let rowbufsz := p.karea * BLK_SIZE_CN * BLK_SIZE
  let rowbuf0 := memset0 scratch 0 rowbufsz
  (forBreak r.start r.end_ p.stripeBody (rowbuf0, out)).2

/-- Lines 306-314: the offset table. -/
def makeOfstab (kernel dilation : Size) (ncn height width : Nat) : List Nat :=
  forStep 0 ncn 1 (fun k tab =>
    forStep 0 kernel.height 1 (fun k_r tab =>
      forStep 0 kernel.width 1 (fun k_c tab =>
        tab.set ((k * kernel.height + k_r) * kernel.width + k_c)
          ((k * height + k_r * dilation.height) * width + k_c * dilation.width)) tab) tab)
    (List.replicate (kernel.width * kernel.height * ncn) 0)

/-- Lines 316-328: the bias vector; `bias = []` is the empty `Mat`. -/
def makeBiasvec (bias : List ℚ) (outCn : Nat) : List ℚ :=
  let biasvec : List ℚ := List.replicate (outCn + 2) 0
  let biasvec :=
    if bias.isEmpty then forStep 0 outCn 1 (fun k b => b.set k 0) biasvec
    else forStep 0 outCn 1 (fun k b => b.set k (bias.getD k 0)) biasvec
  let v := biasvec.getD (outCn - 1) 0
  (biasvec.set (outCn + 1) v).set outCn v

/-- The members set by `ParallelConv::run` before the parallel loop (lines 289-328). -/
def setup (input : Mat4) (outSize0 outSize1 outSize2 outSize3 : Nat) (weights : Mat2)
    (bias : List ℚ) (kernel pad stride dilation : Size) (ngroups nstripes : Nat)
    (activ : Option (Nat → ℚ → ℚ)) (simd : Bool) : ParallelConv :=
  let inpCn := input.size1 / ngroups
  let ncn := min inpCn BLK_SIZE_CN
  { input_ := input, weights_ := weights,
    outSize0 := outSize0, outSize1 := outSize1, outSize2 := outSize2, outSize3 := outSize3,
    kernel_ := kernel, pad_ := pad, stride_ := stride, dilation_ := dilation,
    ngroups_ := ngroups, nstripes_ := nstripes,
    ofstab_ := makeOfstab kernel dilation ncn input.size2 input.size3,
    biasvec_ := makeBiasvec bias outSize1,
    activ_ := activ,
    is1x1_ := decide (kernel = Size.mk 0 0 ∧ pad = Size.mk 0 0),
    simd := simd }

/-- Modelled from the spec: `parallel_for_(Range(0, nstripes), body, nstripes)` of the core
library hands the body sub-ranges that together contain every index of the range
exactly once; `sched` is the list of sub-ranges in the order in which they run. -/
def IsSplit (sched : List Range) (nstripes : Nat) : Prop :=
  (sched.flatMap (fun r => List.range' r.start (r.end_ - r.start))).Perm (List.range nstripes)

/-- Lines 273-330: `ParallelConv::run`.  The result is `none` when the `CV_Assert`
of lines 278-288 fails, and the final output memory otherwise. -/
def run (input : Mat4) (outSize0 outSize1 outSize2 outSize3 : Nat) (out0 : Mem)
    (weights : Mat2) (bias : List ℚ) (kernel pad stride dilation : Size)
    (ngroups nstripes : Nat) (activ : Option (Nat → ℚ → ℚ)) (simd : Bool)
    (scratch : Mem) (sched : List Range) : Option Mem :=
  if input.size0 = outSize0 ∧ weights.rows = outSize1 ∧
      weights.cols = (input.size1 / ngroups) * kernel.width * kernel.height ∧
      (bias.isEmpty ∨ bias.length = outSize1) then
    let p := setup input outSize0 outSize1 outSize2 outSize3 weights bias kernel pad stride
      dilation ngroups nstripes activ simd
    some (sched.foldl (fun out r => p.call scratch r out) out0)
  else none

end ParallelConv

/-! ## Reference semantics -/

/-- The input element `X[n][c][y][x]`, read as `0` outside `[0,H) x [0,W)`. -/
def Mat4.atPad (X : Mat4) (n c : Nat) (y x : Int) : ℚ :=
  if 0 ≤ y ∧ y < X.size2 ∧ 0 ≤ x ∧ x < X.size3 then
    X.data ((((n : Int) * X.size1 + c) * X.size2 + y) * X.size3 + x)
  else 0

/-- The bias of output channel `o`; an empty bias `Mat` stands for all zeros. -/
def biasAt (bias : List ℚ) (o : Nat) : ℚ := bias.getD o 0

/-- The direct grouped convolution: the value of `output[n][o][y][x]`, with the
weight of output channel `o` and tap `(c,i,j)` at `W[o][(c*kh+i)*kw+j]`. -/
def convRef (X : Mat4) (W : Mat2) (bias : List ℚ) (kernel pad stride dilation : Size)
    (ngroups outC : Nat) (n o y x : Nat) : ℚ :=
  let g := o / (outC / ngroups)
  biasAt bias o +
    ∑ c in Finset.range (X.size1 / ngroups), ∑ i in Finset.range kernel.height,
      ∑ j in Finset.range kernel.width,
        W.data (o * W.step1 + ((c * kernel.height + i) * kernel.width + j)) *
          X.atPad n (g * (X.size1 / ngroups) + c)
            ((y : Int) * stride.height - pad.height + (i : Int) * dilation.height)
            ((x : Int) * stride.width - pad.width + (j : Int) * dilation.width)

/-! ## The convolution layer -/

/-- A continuous `CV_32F` blob of the layer (`blobs[i]`) with its four sizes. -/
structure Blob where
  size0 : Nat
  size1 : Nat
  size2 : Nat
  size3 : Nat
  data : Mem

/-- Modelled from the spec: the method `Mat::total()` of the core library. -/
def Blob.total (b : Blob) : Nat := b.size0 * b.size1 * b.size2 * b.size3

/-- Modelled from the spec: the call `blob.reshape(1, rows)` of the core library on a
continuous blob: the same memory seen as a matrix of `rows` rows. -/
def Blob.reshape (b : Blob) (rows : Nat) : Mat2 :=
  { rows := rows, cols := b.total / rows, step1 := b.total / rows, data := b.data }

/-- The elements of a blob in memory order (the bias handed to `ParallelConv::run`). -/
def Blob.toList (b : Blob) : List ℚ := (List.range b.total).map b.data

/-- The type `MatShape` (`std::vector<int>`). -/
abbrev MatShape := List Int

/-- An `int` of the source has 32 bits: `int32 x` is the value that `int` arithmetic
leaves for the mathematical result `x`, which is `x` reduced modulo `2^32` into the range
`[-2^31, 2^31)` (two's complement). -/
def int32 (x : Int) : Int := (x + 2147483648) % 4294967296 - 2147483648

/-- The value `x` is representable as an `int`: it lies in `[-2^31, 2^31)`. -/
@[reducible] def IsInt32 (x : Int) : Prop := -2147483648 ≤ x ∧ x < 2147483648

/-- The members of `ConvolutionLayerImpl` (with those of its base classes) that the
kernels use.  `weightsMat = none` is the empty `Mat` before the first `forward`. -/
structure ConvolutionLayerImpl where
  blobs : List Blob
  kernel : Size
  pad : Size
  stride : Size
  dilation : Size
  padMode : String
  weightsMat : Option Mat2
  activ : Option (Nat → ℚ → ℚ)

namespace ConvolutionLayerImpl

/-- Lines 86-89: `hasBias()`. -/
def hasBias (l : ConvolutionLayerImpl) : Bool := decide (l.blobs.length ≥ 2)

/-- Lines 151-186: `getMemoryShapes`; the result is the pair (outputs, internals), or
`none` when a `CV_Assert` fails or a division is by zero (by the stride, lines 171-172,
or by the group count, line 180).  The `int` arithmetic of lines 171-172 is reduced by
`int32`.  `getConvPoolOutParams` is the function of `layers_common` used for a named pad
mode; it receives the two components of `Size(inpH, inpW)` as the source passes them. -/
def getMemoryShapes (l : ConvolutionLayerImpl)
    (getConvPoolOutParams : Int → Int → Size → Size → String → Int × Int)
    (inputs : List MatShape) : Option (List MatShape × List MatShape) :=
  match l.blobs with
  | [] => none
  | b0 :: rest =>
    let biasOK : Bool := match rest with
      | [] => true
      | b1 :: _ => decide (b1.total = b0.size0)
    if biasOK then
      match inputs with
      | [inp] =>
        let inpCn : Int := inp.getD 1 0
        let inpH : Int := inp.getD 2 0
        let inpW : Int := inp.getD 3 0
        let outCn : Int := b0.size0
        if l.padMode.isEmpty ∧ (l.stride.height = 0 ∨ l.stride.width = 0) then none
        else
          let out : Int × Int :=
            if l.padMode.isEmpty then
              (int32 ((int32 (inpH + 2 * l.pad.height -
                  (l.dilation.height * ((l.kernel.height : Int) - 1) + 1))).tdiv
                  l.stride.height + 1),
               int32 ((int32 (inpW + 2 * l.pad.width -
                  (l.dilation.width * ((l.kernel.width : Int) - 1) + 1))).tdiv
                  l.stride.width + 1))
            else getConvPoolOutParams inpH inpW l.kernel l.stride l.padMode
          let ngroups : Int := inpCn.tdiv b0.size1
          if ngroups = 0 then none
          else if inpCn.tmod ngroups = 0 ∧ outCn.tmod ngroups = 0 then
            some ([[inp.getD 0 0, outCn, out.1, out.2]], [])
          else none
      | _ => none
    else none

/-- Lines 935-946: the weight matrix prepared on the first call: `wm` itself when its
row stride is a multiple of `VEC_ALIGN`, otherwise a copy into a buffer of
`alignSize(step1, VEC_ALIGN)` columns whose extra columns are set to zero. -/
def alignWeights (wm : Mat2) : Mat2 :=
  if wm.step1 % VEC_ALIGN ≠ 0 then
    let newcols := alignSize wm.step1 VEC_ALIGN
    { rows := wm.rows, cols := wm.cols, step1 := newcols,
      data := fun a =>
        if a % newcols < wm.cols then wm.data (a / newcols * wm.step1 + a % newcols) else 0 }
  else wm

/-- Line 948: `biasesMat`, the bias blob `blobs[1]` when there is one (`rest` are the
blobs after `blobs[0]`) and the empty `Mat` otherwise. -/
def biasList (rest : List Blob) : List ℚ :=
  match rest with
  | [] => []
  | b1 :: _ => b1.toList

/-- Lines 921-963: `forward` for one input and one output.  `numThreads` is the value of
`getNumThreads()`.  The result is the layer with its cached weight matrix and the output
memory, or `none` when an assertion fails (or a modulus is taken by zero). -/
def forward (l : ConvolutionLayerImpl) (input : Mat4)
    (outSize0 outSize1 outSize2 outSize3 : Nat) (out0 : Mem) (numThreads : Nat)
    (simd : Bool) (scratch : Mem) (sched : List Range) :
    Option (ConvolutionLayerImpl × Mem) :=
  match l.blobs with
  | [] => none
  | b0 :: rest =>
    if b0.size1 ≠ 0 ∧ input.size1 % b0.size1 = 0 then
      let ngroups := input.size1 / b0.size1
      if ngroups ≠ 0 ∧ outSize1 % ngroups = 0 then
        let outCn := b0.size0
        let weightsMat := match l.weightsMat with
          | some w => w
          | none => alignWeights (b0.reshape outCn)
        let biasesMat : List ℚ := biasList rest
        let nstripes := max numThreads 1
        (ParallelConv.run input outSize0 outSize1 outSize2 outSize3 out0 weightsMat biasesMat
          l.kernel l.pad l.stride l.dilation ngroups nstripes l.activ simd scratch sched).map
          (fun out => ({ l with weightsMat := some weightsMat }, out))
      else none
    else none

end ConvolutionLayerImpl

/-- The direct ungrouped convolution: the value of `output[n][o][y][x]`. -/
def convDirect (X : Mat4) (W : Mat2) (bias : List ℚ) (kernel pad stride dilation : Size)
    (n o y x : Nat) : ℚ :=
  biasAt bias o +
    ∑ c in Finset.range X.size1, ∑ i in Finset.range kernel.height,
      ∑ j in Finset.range kernel.width,
        W.data (o * W.step1 + ((c * kernel.height + i) * kernel.width + j)) *
          X.atPad n c
            ((y : Int) * stride.height - pad.height + (i : Int) * dilation.height)
            ((x : Int) * stride.width - pad.width + (j : Int) * dilation.width)

/-! ## The deconvolution layer -/

/-- The loop `for (int i = lo; i < hi; ++i) s = body i s` with `int` bounds. -/
def forInt {σ : Type} (lo hi : Int) (body : Int → σ → σ) (s : σ) : σ :=
  Nat.fold (fun t acc => body (lo + (t : Int)) acc) (hi - lo).toNat s

/-- Modelled from the spec: `transpose(src, dst)` of the core library; `dst` is the
continuous matrix with `dst(r, c) = src(c, r)`. -/
def transpose (src : Mat2) : Mat2 :=
  { rows := src.cols, cols := src.rows, step1 := src.rows,
    data := fun a => src.data (a % src.rows * src.step1 + a / src.rows) }

/-- Modelled from the spec: `m.rowRange(_Range(start, size))`, the rows
`start ≤ r < start + size` of `m` seen from their first element. -/
def Mat2.rowRange (m : Mat2) (start size : Nat) : Mat2 :=
  { rows := size, cols := m.cols, step1 := m.step1,
    data := fun a => m.data (start * m.step1 + a) }

/-- Modelled from the spec: `m.colRange(_Range(start, size))`, the columns
`start ≤ c < start + size` of `m` seen from their first element. -/
def Mat2.colRange (m : Mat2) (start size : Nat) : Mat2 :=
  { rows := m.rows, cols := size, step1 := m.step1, data := fun a => m.data (start + a) }

/-- Modelled from the spec: `Mat::total()` of a 4-dimensional `Mat`. -/
def Mat4.total (m : Mat4) : Nat := m.size0 * m.size1 * m.size2 * m.size3

/-- Modelled from the spec: `m.reshape(1, rows)` on a continuous 4-dimensional `Mat`: the
same memory seen as a matrix of `rows` rows. -/
def Mat4.reshape (m : Mat4) (rows : Nat) : Mat2 :=
  { rows := rows, cols := m.total / rows, step1 := m.total / rows,
    data := fun a => m.data (a : Int) }

/-- The members of `DeConvolutionLayerImpl::MatMulInvoker`.  The matrices `a_` and `b_`
are read only; of `c_` the invoker uses the position `cptr_` of `c_->ptr<float>()` in
the memory that is written and the row stride `cstep_ = c_->step1()`.  `simd` records
whether the `CV_SIMD128` block is compiled in. -/
structure MatMulInvoker where
  a_ : Mat2
  b_ : Mat2
  cptr_ : Nat
  cstep_ : Nat
  nstripes_ : Nat
  simd : Bool

namespace MatMulInvoker

variable (t : MatMulInvoker)

/-- Lines 1078-1147: the body of the `k` loop for the rows at `dst0`, `dst1` of the
result, the rows at `aptr0`, `aptr1` of `a_` and the columns from `bptr` on of `b_`.
After the `CV_SIMD128` loop `n` is `nmax/4*4`. -/
def kStep (bptr dst0 dst1 aptr0 aptr1 nmax k : Nat) (c : Mem) : Mem :=
  let kmax := t.a_.cols
  let bstep := t.b_.step1
  let a := t.a_.data
  let b := t.b_.data
  let alpha00 := a (aptr0 + k)
  let alpha01 := a (aptr1 + k)
  let bptr0 := bptr + k * bstep
  let alpha10 := if k + 1 < kmax then a (aptr0 + (k + 1)) else 0
  let alpha11 := if k + 1 < kmax then a (aptr1 + (k + 1)) else 0
  let bptr1 := if k + 1 < kmax then bptr0 + bstep else bptr0
  let alpha20 := if k + 1 < kmax ∧ k + 2 < kmax then a (aptr0 + (k + 2)) else 0
  let alpha21 := if k + 1 < kmax ∧ k + 2 < kmax then a (aptr1 + (k + 2)) else 0
  let bptr2 := if k + 1 < kmax ∧ k + 2 < kmax then bptr1 + bstep else bptr0
  let alpha30 := if k + 1 < kmax ∧ k + 2 < kmax ∧ k + 3 < kmax then a (aptr0 + (k + 3)) else 0
  let alpha31 := if k + 1 < kmax ∧ k + 2 < kmax ∧ k + 3 < kmax then a (aptr1 + (k + 3)) else 0
  let bptr3 := if k + 1 < kmax ∧ k + 2 < kmax ∧ k + 3 < kmax then bptr2 + bstep else bptr0
  let c := if t.simd then
      forStep 0 (nmax - 3) 4 (fun n c =>
        let b0 := v_load b (bptr0 + n)
        let b1 := v_load b (bptr1 + n)
        let b2 := v_load b (bptr2 + n)
        let b3 := v_load b (bptr3 + n)
        let d0 := v_load c (dst0 + n)
        let d1 := v_load c (dst1 + n)
        let d0 := d0 + b0 * v_setall_f32 alpha00
        let d1 := d1 + b0 * v_setall_f32 alpha01
        let d0 := d0 + b1 * v_setall_f32 alpha10
        let d1 := d1 + b1 * v_setall_f32 alpha11
        let d0 := d0 + b2 * v_setall_f32 alpha20
        let d1 := d1 + b2 * v_setall_f32 alpha21
        let d0 := d0 + b3 * v_setall_f32 alpha30
        let d1 := d1 + b3 * v_setall_f32 alpha31
        v_store (v_store c (dst0 + n) d0) (dst1 + n) d1) c
    else c
  let n0 := if t.simd then nmax / 4 * 4 else 0
  forStep n0 nmax 1 (fun n c =>
    let b0 := b (bptr0 + n)
    let b1 := b (bptr1 + n)
    let b2 := b (bptr2 + n)
    let b3 := b (bptr3 + n)
    let d0 := c (dst0 + n) + alpha00 * b0 + alpha10 * b1 + alpha20 * b2 + alpha30 * b3
    let d1 := c (dst1 + n) + alpha01 * b0 + alpha11 * b1 + alpha21 * b2 + alpha31 * b3
    store (store c (dst0 + n) d0) (dst1 + n) d1) c

/-- Lines 1065-1148: the body of the `m` loop: the rows `m` and `min(m+1, mmax-1)` of
the result on the columns `rstart ≤ n < rstart + nmax`. -/
def rowPair (rstart nmax m : Nat) (c : Mem) : Mem :=
  let mmax := t.a_.rows
  let kmax := t.a_.cols
  let astep := t.a_.step1
  let cptr := t.cptr_ + rstart
  let dst0 := cptr + t.cstep_ * m
  let dst1 := cptr + t.cstep_ * min (m + 1) (mmax - 1)
  let aptr0 := astep * m
  let aptr1 := astep * min (m + 1) (mmax - 1)
  let c := forStep 0 nmax 1 (fun n c => store (store c (dst0 + n) 0) (dst1 + n) 0) c
  forStep 0 kmax 4 (fun k c => t.kStep rstart dst0 dst1 aptr0 aptr1 nmax k c) c

/-- Lines 1043-1150: `MatMulInvoker::operator()` on the range `r`.  A negative `nmax`
of the source runs no iteration of the `n` loops, as does `nmax = 0` here. -/
def call (r : Range) (c : Mem) : Mem :=
  let stripeSize := alignSize ((t.b_.cols + t.nstripes_ - 1) / t.nstripes_) 16
  let rstart := r.start * stripeSize
  let rend := min (r.end_ * stripeSize) t.b_.cols
  let nmax := rend - rstart
  forStep 0 t.a_.rows 2 (fun m c => t.rowPair rstart nmax m c) c

end MatMulInvoker

/-- The members of `DeConvolutionLayerImpl::Col2ImInvoker`.  `data_col` is the column
matrix seen from its first element, `data_im` the position of the image in the memory
that is written, `biasvec` the bias seen from `curBiasMat.ptr<float>()`. -/
structure Col2ImInvoker where
  data_col : Mem
  biasvec : Mem
  channels : Nat
  height : Nat
  width : Nat
  kernel_h : Nat
  kernel_w : Nat
  pad_h : Nat
  pad_w : Nat
  stride_h : Nat
  stride_w : Nat
  data_im : Nat
  height_col : Int
  width_col : Int
  nstripes : Nat
  is1x1 : Bool

/-- The locals `w`, `h`, `c`, `h_col_start`, `h_col_end`, `offset` of
`Col2ImInvoker::operator()`. -/
structure Col2ImLocals where
  w : Nat
  h : Nat
  c : Nat
  h_col_start : Int
  h_col_end : Int
  offset : Int

namespace Col2ImInvoker

variable (t : Col2ImInvoker)

/-- Lines 1211-1217 and 1244-1249: the locals for the flat index `index`. -/
def locals (index : Nat) : Col2ImLocals :=
  let w := index % t.width + t.pad_w
  let h := (index / t.width) % t.height + t.pad_h
  let c := index / (t.width * t.height)
  let plane_size_col := t.height_col * t.width_col
  { w := w, h := h, c := c,
    h_col_start := if h < t.kernel_h then 0 else (((h - t.kernel_h) / t.stride_h + 1 : Nat) : Int),
    h_col_end := min (((h / t.stride_h + 1 : Nat) : Int)) t.height_col,
    offset := (((c * t.kernel_h * t.kernel_w + h * t.kernel_w + w : Nat) : Int)) * plane_size_col }

/-- Lines 1224-1250: one iteration of the loop over `index`, on the locals and the
image memory.  The column matrix is read at `offset + h_col*coeff_h + w_col*coeff_w`,
an `int` that the model turns into an address with `Int.toNat`. -/
def step (index : Nat) (st : Col2ImLocals × Mem) : Col2ImLocals × Mem :=
  let coeff_h : Int := (1 - (t.stride_h : Int) * t.kernel_w * t.height_col) * t.width_col
  let coeff_w : Int := 1 - (t.stride_w : Int) * t.height_col * t.width_col
  let plane_size_col := t.height_col * t.width_col
  let l := st.1
  let w_col_start : Int :=
    if l.w < t.kernel_w then 0 else (((l.w - t.kernel_w) / t.stride_w + 1 : Nat) : Int)
  let w_col_end : Int := min (((l.w / t.stride_w + 1 : Nat) : Int)) t.width_col
  let val : ℚ :=
    if t.is1x1 then st.2 (t.data_im + index)
    else
      forInt l.h_col_start l.h_col_end (fun h_col val =>
        forInt w_col_start w_col_end (fun w_col val =>
          val + t.data_col (l.offset + h_col * coeff_h + w_col * coeff_w).toNat) val) 0
  let im := store st.2 (t.data_im + index) (val + t.biasvec l.c)
  let offset := l.offset + plane_size_col
  let w := l.w + 1
  if w ≥ t.width + t.pad_w then (t.locals (index + 1), im)
  else ({ l with w := w, offset := offset }, im)

/-- Lines 1201-1252: `Col2ImInvoker::operator()` on the range `r`. -/
def call (r : Range) (im : Mem) : Mem :=
  let total := t.channels * t.height * t.width
  let stripeSize := (total + t.nstripes - 1) / t.nstripes
  let startIndex := r.start * stripeSize
  let endIndex := min (r.end_ * stripeSize) total
  (forStep startIndex endIndex 1 t.step (t.locals startIndex, im)).2

/-- Lines 1174-1199: `Col2ImInvoker::run`; `numThreads` is the value of `getNumThreads()`
and `sched` the sub-ranges that `parallel_for_` hands to the body. -/
def run (data_col : Mem) (channels height width kernel_h kernel_w pad_h pad_w
    stride_h stride_w : Nat) (data_im : Nat) (biasvec : Mem) (is1x1 : Bool)
    (numThreads : Nat) (sched : List Range) (im : Mem) : Mem :=
  let t : Col2ImInvoker :=
    { data_col := data_col, biasvec := biasvec, channels := channels, height := height,
      width := width, kernel_h := kernel_h, kernel_w := kernel_w, pad_h := pad_h,
      pad_w := pad_w, stride_h := stride_h, stride_w := stride_w, data_im := data_im,
      height_col := ((height : Int) + 2 * pad_h - kernel_h).tdiv stride_h + 1,
      width_col := ((width : Int) + 2 * pad_w - kernel_w).tdiv stride_w + 1,
      nstripes := numThreads, is1x1 := is1x1 }
  sched.foldl (fun im r => t.call r im) im

end Col2ImInvoker

/-- The members of `DeConvolutionLayerImpl` (with those of its base classes) that the
kernels use.  `weightsMat = none` is the empty `Mat` before the first `forward`;
`biasesMat` is meaningful once `weightsMat` is set. -/
structure DeConvolutionLayerImpl where
  blobs : List Blob
  kernel : Size
  pad : Size
  stride : Size
  dilation : Size
  adjustPad : Size
  weightsMat : Option Mat2
  biasesMat : Mat2

namespace DeConvolutionLayerImpl

/-- Lines 86-89: `hasBias()`. -/
def hasBias (l : DeConvolutionLayerImpl) : Bool := decide (l.blobs.length ≥ 2)

/-- Lines 92-97: `is1x1()`. -/
def is1x1 (l : DeConvolutionLayerImpl) : Bool :=
  decide ((l.kernel.height = 1 ∧ l.kernel.width = 1) ∧
    (l.stride.height = 1 ∧ l.stride.width = 1) ∧
    (l.dilation.height = 1 ∧ l.dilation.width = 1))

/-- Lines 985-995: `computeColRowShape`; `b0` is `blobs[0]`.  The two products are `int`
arithmetic, reduced by `int32`. -/
def computeColRowShape (l : DeConvolutionLayerImpl) (b0 : Blob) (inpShape outShape : MatShape) :
    MatShape :=
  let inpCn : Int := inpShape.getD 1 0
  let inpH : Int := inpShape.getD 2 0
  let inpW : Int := inpShape.getD 3 0
  let outCn : Int := outShape.getD 1 0
  let ngroups : Int := inpCn.tdiv b0.size1
  let outGroupCn : Int := outCn.tdiv ngroups
  let ksize : Int := int32 (outGroupCn * l.kernel.height * l.kernel.width)
  [ksize, int32 (inpH * inpW)]

/-- Lines 997-1029: `getMemoryShapes`, called with empty `outputs` and `internals`; the
result is the pair (outputs, internals), or `none` when a `CV_Assert` fails (or the
group count is zero, line 1015).  The `int` arithmetic of lines 1006-1007 and 1026 is
reduced by `int32`. -/
def getMemoryShapes (l : DeConvolutionLayerImpl) (inputs : List MatShape) :
    Option (List MatShape × List MatShape) :=
  match l.blobs with
  | [] => none
  | b0 :: rest =>
    let biasOK : Bool := match rest with
      | [] => true
      | b1 :: _ => decide (b1.total = b0.size0)
    if biasOK then
      match inputs with
      | [] => none
      | inp :: _ =>
        let inpCn : Int := inp.getD 1 0
        let inpH : Int := inp.getD 2 0
        let inpW : Int := inp.getD 3 0
        let outH : Int := int32 (l.stride.height * (inpH - 1) + l.kernel.height -
          2 * l.pad.height + l.adjustPad.height)
        let outW : Int := int32 (l.stride.width * (inpW - 1) + l.kernel.width -
          2 * l.pad.width + l.adjustPad.width)
        let outCn : Int := b0.size0
        let ngroups : Int := inpCn.tdiv b0.size1
        if ngroups = 0 then none
        else if inpCn.tmod ngroups = 0 ∧ outCn.tmod ngroups = 0 then
          if (b0.size0 : Int) = outCn ∧ (b0.size1 : Int) = inpCn.tdiv ngroups then
            let dims : MatShape := [inp.getD 0 0, outCn, outH, outW]
            let outputs := List.replicate inputs.length dims
            let internals0 : MatShape :=
              if !l.is1x1 then l.computeColRowShape b0 inp dims else []
            let internals := [internals0] ++
              (if l.hasBias then [[1, int32 (outH * outW)]] else [])
            some (outputs, internals)
          else none
        else none
    else none

/-- Line 1268: `biasesMat`, the bias blob `blobs[1]` reshaped to `outCn` rows when there
is one (`rest` are the blobs after `blobs[0]`) and `Mat::zeros(outCn, 1, CV_32F)`
otherwise. -/
def makeBiases (rest : List Blob) (outCn : Nat) : Mat2 :=
  match rest with
  | [] => { rows := outCn, cols := 1, step1 := 1, data := fun _ => 0 }
  | b1 :: _ => b1.reshape outCn

/-- Lines 1288-1302: the body of the loops over `n` and `g`, on the state (memory of
`internals[0]`, memory of the output); `cstep0` is the row stride of `internals[0]`. -/
def groupStep (l : DeConvolutionLayerImpl) (weightsMat biasesMat convBlob : Mat2)
    (decnStep cstep0 ngroups inpGroupCn outGroupCn outH outW nstripes : Nat) (is1x1flag simd : Bool)
    (schedMM schedCol : Nat → Nat → List Range) (n g : Nat) (st : Mem × Mem) : Mem × Mem :=
  let dstPtr := (g + n * ngroups) * outGroupCn * decnStep
  let convMat := convBlob.rowRange ((g + n * ngroups) * inpGroupCn) inpGroupCn
  let wghtMat := weightsMat.colRange (g * inpGroupCn) inpGroupCn
  let curBiasMat := biasesMat.rowRange (g * outGroupCn) outGroupCn
  let mminvoker : MatMulInvoker :=
    { a_ := wghtMat, b_ := convMat, cptr_ := if is1x1flag then dstPtr else 0,
      cstep_ := if is1x1flag then decnStep else cstep0, nstripes_ := nstripes, simd := simd }
  let st : Mem × Mem :=
    if is1x1flag then (st.1, (schedMM n g).foldl (fun c r => mminvoker.call r c) st.2)
    else ((schedMM n g).foldl (fun c r => mminvoker.call r c) st.1, st.2)
  let data_col : Mem := if is1x1flag then (fun a => st.2 (dstPtr + a)) else st.1
  (st.1, Col2ImInvoker.run data_col outGroupCn outH outW l.kernel.height l.kernel.width
    l.pad.height l.pad.width l.stride.height l.stride.width dstPtr curBiasMat.data is1x1flag
    nstripes (schedCol n g) st.2)

/-- Lines 1255-1306: `forward` for one input and one output.  `numThreads` is the value of
`getNumThreads()`; `internals0` is `internals[0]` and `internals1` the memory of
`internals[1]`; `schedMM n g` and `schedCol n g` are the sub-ranges that the two
`parallel_for_` calls of the iteration `(n, g)` hand to their bodies.  The result is the
layer with its cached matrices, the memories of `internals[0]` and `internals[1]` and the
output memory, or `none` when a division by zero is reached. -/
def forward (l : DeConvolutionLayerImpl) (input : Mat4)
    (outSize0 outSize1 outSize2 outSize3 : Nat) (out0 : Mem) (internals0 : Mat2)
    (internals1 : Mem) (numThreads : Nat) (simd : Bool)
    (schedMM schedCol : Nat → Nat → List Range) :
    Option (DeConvolutionLayerImpl × Mem × Mem × Mem) :=
  match l.blobs with
  | [] => none
  | b0 :: rest =>
    let internals1 : Mem := if l.hasBias then (fun _ => 1) else internals1
    let outCn := b0.size0
    let inpCn := input.size1
    let is1x1flag := l.is1x1
    let nstripes := numThreads
    let weightsMat := match l.weightsMat with
      | some w => w
      | none => transpose (b0.reshape inpCn)
    let biasesMat := match l.weightsMat with
      | some _ => l.biasesMat
      | none => makeBiases rest outCn
    if b0.size1 = 0 then none
    else
      let ngroups := inpCn / b0.size1
      let inpGroupCn := b0.size1
      if ngroups = 0 then none
      else
        let outGroupCn := outCn / ngroups
        let numImg := input.size0
        let outH := outSize2
        let outW := outSize3
        let convBlob := input.reshape (numImg * inpCn)
        let decnStep := (outSize0 * outSize1 * outSize2 * outSize3) / (numImg * outCn)
        let st := forStep 0 numImg 1 (fun n st =>
          forStep 0 ngroups 1 (fun g st =>
            l.groupStep weightsMat biasesMat convBlob decnStep internals0.step1 ngroups
              inpGroupCn outGroupCn outH outW nstripes is1x1flag simd schedMM schedCol n g st) st)
          (internals0.data, out0)
        some ({ l with weightsMat := some weightsMat, biasesMat := biasesMat },
          st.1, internals1, st.2)

end DeConvolutionLayerImpl

/-- The bias of output channel `o`: the element of `blobs[1]` when there is one (`rest`
are the blobs after `blobs[0]`), and `0` otherwise. -/
def deconvBias (rest : List Blob) (o : Nat) : ℚ :=
  match rest with
  | [] => 0
  | b1 :: _ => b1.data o

/-- The transposed convolution: the value of `out[n][g*outG+oc][h][w]` as the bias plus the
sum, over the input channels `ic < inG` of the group, the input positions `(y,x)` and the
kernel taps `(i,j)` with `y*stride_h + i - pad_h = h` and `x*stride_w + j - pad_w = w`, of
`in[n][g*inG+ic][y][x] * R[g*inG+ic][(oc*kh+i)*kw+j]`. -/
def deconvRef (X : Mat4) (R : Mat2) (bias : Nat → ℚ) (kernel pad stride : Size)
    (inG outG n g oc h w : Nat) : ℚ :=
  bias (g * outG + oc) +
    ∑ ic in Finset.range inG, ∑ y in Finset.range X.size2, ∑ x in Finset.range X.size3,
      ∑ i in Finset.range kernel.height, ∑ j in Finset.range kernel.width,
        if y * stride.height + i = h + pad.height ∧ x * stride.width + j = w + pad.width then
          X.data ((((n * X.size1 + (g * inG + ic)) * X.size2 + y) * X.size3 + x : Nat) : Int) *
            R.data ((g * inG + ic) * R.step1 + ((oc * kernel.height + i) * kernel.width + j))
        else 0

/-! ## Vocabulary of the proofs -/

/-- The number of iterations of `forStep`. -/
def iterCount (start stop step : Nat) : Nat := (stop - start + step - 1) / step

/-- The memory `m1` is `m` overwritten with the values `v` on the addresses in `S`. -/
def Upd (S : Set Nat) (v : Nat → ℚ) (m m1 : Mem) : Prop :=
  ∀ a, (a ∈ S → m1 a = v a) ∧ (a ∉ S → m1 a = m a)

/-- The value that the gather has to place at tap `(i,j)` of channel `c` in the row of
output position `ofs`: the input element under the tap, or `0` when the tap lies in the padding. -/
def ParallelConv.tapVal (p : ParallelConv) (data_inp0 : Int) (ofs c i j : Nat) : ℚ :=
  let y : Int := ((ofs / p.outW : Nat) : Int) * p.stride_.height - p.pad_.height +
    (i : Int) * p.dilation_.height
  let x : Int := ((ofs - ofs / p.outW * p.outW : Nat) : Int) * p.stride_.width - p.pad_.width +
    (j : Int) * p.dilation_.width
  if 0 ≤ y ∧ y < p.height ∧ 0 ≤ x ∧ x < p.width then
    p.input_.data (data_inp0 + ((c : Int) * p.height + y) * p.width + x)
  else 0

/-- The offset table holds the offsets of the taps of the first `ncn` channels. -/
def ParallelConv.OfstabOK (p : ParallelConv) (ncn : Nat) : Prop :=
  ∀ k i j, k < ncn → i < p.kernel_.height → j < p.kernel_.width →
    p.ofstab_.getD ((k * p.kernel_.height + i) * p.kernel_.width + j) 0 =
      (k * p.height + i * p.dilation_.height) * p.width + j * p.dilation_.width

/-- The products of the weight row starting at `wrow` with the taps of the first `c1`
input channels of the sample-group at `data_inp0`, for output position `ofs`. -/
def ParallelConv.chanSum (p : ParallelConv) (data_inp0 : Int) (wrow ofs c1 : Nat) : ℚ :=
  ∑ c in Finset.range c1, ∑ i in Finset.range p.kernel_.height,
    ∑ j in Finset.range p.kernel_.width,
      p.weights_.data (wrow + ((c * p.kernel_.height + i) * p.kernel_.width + j)) *
        p.tapVal data_inp0 ofs c i j

/-- The value that a stripe leaves at position `ofs` of channel `i` (within its group)
of the sample-group `b`. -/
def ParallelConv.stripeVal (p : ParallelConv) (b i ofs : Nat) : ℚ :=
  p.biasvec_.getD ((b % p.ngroups_) * p.outCn + i) 0 +
    p.chanSum ((b * p.inpPlaneSize * p.inpCn : Nat) : Int)
      (p.weights_.step1 * ((b % p.ngroups_) * p.outCn) + i * p.weights_.step1) ofs p.inpCn

/-- The value `stripeVal` as a function of the output address. -/
def ParallelConv.outVal (p : ParallelConv) (a : Nat) : ℚ :=
  p.stripeVal (a / p.outPlaneSize / p.outCn) (a / p.outPlaneSize % p.outCn) (a % p.outPlaneSize)

/-- The output addresses of the stripe number `stripe`. -/
def ParallelConv.stripeSet (p : ParallelConv) (stripe : Nat) : Set Nat :=
  {a | ∃ i ofs, i < p.outCn ∧
    (stripe - stripe / p.stripesPerSample * p.stripesPerSample) * p.stripeSize ≤ ofs ∧
    ofs < min ((stripe - stripe / p.stripesPerSample * p.stripesPerSample) * p.stripeSize +
      p.stripeSize) p.outPlaneSize ∧
    a = stripe / p.stripesPerSample * p.outPlaneSize * p.outCn + i * p.outPlaneSize + ofs}

/-- The weight rows are padded with zeros up to a stride that is a multiple of four. -/
def ParallelConv.WeightsPadded (p : ParallelConv) : Prop :=
  p.inpCn * p.karea ≤ p.weights_.step1 ∧ p.weights_.step1 % 4 = 0 ∧
    ∀ o k, o < p.ngroups_ * p.outCn → p.inpCn * p.karea ≤ k → k < p.weights_.step1 →
      p.weights_.data (o * p.weights_.step1 + k) = 0

/-- The entries of an offset table `l` of length `kw*kh*ncn` are right at the taps in `D`. -/
def TabGood (kernel dilation : Size) (ncn height width : Nat) (D : Nat → Nat → Nat → Prop)
    (l : List Nat) : Prop :=
  l.length = kernel.width * kernel.height * ncn ∧
  ∀ k i j, D k i j → k < ncn → i < kernel.height → j < kernel.width →
    l.getD ((k * kernel.height + i) * kernel.width + j) 0 =
      (k * height + i * dilation.height) * width + j * dilation.width

/-- The output addresses written by `operator()` on the range `r0`. -/
def ParallelConv.callSet (p : ParallelConv) (r0 : Range) : Set Nat :=
  {a | ∃ stripe, r0.start * p.rangeScale ≤ stripe ∧ stripe < r0.end_ * p.rangeScale ∧
    stripe / p.stripesPerSample < p.batchSize ∧ a ∈ p.stripeSet stripe}

/-- The rows of a weight matrix are padded with zeros up to a stride that is a multiple
of four (the data model pads them to a multiple of `VEC_ALIGN`). -/
def Mat2.ZeroPadded (W : Mat2) : Prop :=
  W.cols ≤ W.step1 ∧ W.step1 % 4 = 0 ∧
    ∀ o k, o < W.rows → W.cols ≤ k → k < W.step1 → W.data (o * W.step1 + k) = 0

/-- The address of `output[n][o][y][x]` in a continuous output of sizes `[_, C, H, W]`. -/
def outIndex (outSize1 outSize2 outSize3 n o y x : Nat) : Nat :=
  ((n * outSize1 + o) * outSize2 + y) * outSize3 + x

/-- The layer of scenario A: one all-ones `[1,1,3,3]` weight blob with data `w`,
optionally followed by the bias blobs `rest`. -/
def scenarioALayer (w : Mem) (rest : List Blob) : ConvolutionLayerImpl :=
  { blobs := { size0 := 1, size1 := 1, size2 := 3, size3 := 3, data := w } :: rest,
    kernel := ⟨3, 3⟩, pad := ⟨1, 1⟩, stride := ⟨1, 1⟩, dilation := ⟨1, 1⟩,
    padMode := "", weightsMat := none, activ := none }

/-- The layer of scenario C: an `[outC,2,1,1]` weight blob with data `w` and no bias. -/
def scenarioCLayer (outC : Nat) (w : Mem) : ConvolutionLayerImpl :=
  { blobs := [{ size0 := outC, size1 := 2, size2 := 1, size3 := 1, data := w }],
    kernel := ⟨1, 1⟩, pad := ⟨0, 0⟩, stride := ⟨1, 1⟩, dilation := ⟨1, 1⟩,
    padMode := "", weightsMat := none, activ := none }

/-- An all-ones `[1,1,3,3]` input, with other values outside the tensor. -/
def exInput : Mat4 := ⟨1, 1, 3, 3, fun i => if 0 ≤ i ∧ i < 9 then 1 else 777⟩

/-- An all-ones `1 x 9` weight matrix whose rows are padded with zeros to 16 columns. -/
def exWeights : Mat2 := ⟨1, 9, 16, fun a => if a % 16 < 9 then 1 else 0⟩

/-- A layer with an all-zero `[2,1,1,1]` weight blob and the bias `[5, 7]`. -/
def exZeroLayer : ConvolutionLayerImpl :=
  { blobs := [⟨2, 1, 1, 1, fun _ => 0⟩, ⟨2, 1, 1, 1, fun a => if a = 0 then 5 else 7⟩],
    kernel := ⟨1, 1⟩, pad := ⟨0, 0⟩, stride := ⟨1, 1⟩, dilation := ⟨1, 1⟩,
    padMode := "", weightsMat := none, activ := none }

/-- The output size that the specification states along one axis, with the floor
division of the integers. -/
def specOutSize (inp pad kernel stride dilation : Nat) : Int :=
  ((inp : Int) + 2 * pad - (dilation * ((kernel : Int) - 1) + 1)) / stride + 1

/-- The external pad-mode function is not reached with an empty pad mode. -/
def noPadMode : Int → Int → Size → Size → String → Int × Int := fun _ _ _ _ _ => (0, 0)

/-- A convolution layer with a 3x3 kernel, stride 2, no padding, dilation 1 and one
`[1,1,3,3]` weight blob. -/
def exStride2Layer : ConvolutionLayerImpl :=
  { blobs := [⟨1, 1, 3, 3, fun _ => 1⟩],
    kernel := ⟨3, 3⟩, pad := ⟨0, 0⟩, stride := ⟨2, 2⟩, dilation := ⟨1, 1⟩,
    padMode := "", weightsMat := none, activ := none }

/-- The piece `(subsampleIdx, stripeStart, stripeEnd)` of stripe number `stripe`. -/
def ParallelConv.piece (p : ParallelConv) (stripe : Nat) : Nat × Nat × Nat :=
  (stripe / p.stripesPerSample,
   (stripe - stripe / p.stripesPerSample * p.stripesPerSample) * p.stripeSize,
   min ((stripe - stripe / p.stripesPerSample * p.stripesPerSample) * p.stripeSize + p.stripeSize)
     p.outPlaneSize)

/-- The stripe number `stripe` is processed: it does not reach the `break`. -/
def ParallelConv.live (p : ParallelConv) (stripe : Nat) : Bool :=
  decide (stripe / p.stripesPerSample < p.batchSize)

/-- The piece `pc` contains the plane offset `ofs` of the sample-group `b`. -/
def pieceHas (b ofs : Nat) (pc : Nat × Nat × Nat) : Bool :=
  decide (pc.1 = b ∧ pc.2.1 ≤ ofs ∧ ofs < pc.2.2)

/-- Two pieces share no (sample-group, plane offset) pair. -/
def PiecesDisjoint (pc1 pc2 : Nat × Nat × Nat) : Prop :=
  ∀ b ofs, ¬ (pieceHas b ofs pc1 = true ∧ pieceHas b ofs pc2 = true)

/-- The output elements written for two pieces are different: the stripe of the piece
`(b, s0, s1)` writes the addresses `b*outPlaneSize*outCn + i*outPlaneSize + ofs`
for `i < outCn` and `s0 ≤ ofs < s1`. -/
def ParallelConv.WritesDisjoint (p : ParallelConv) (pc1 pc2 : Nat × Nat × Nat) : Prop :=
  ∀ i1 i2 ofs1 ofs2, i1 < p.outCn → i2 < p.outCn →
    pc1.2.1 ≤ ofs1 → ofs1 < pc1.2.2 → pc2.2.1 ≤ ofs2 → ofs2 < pc2.2.2 →
    pc1.1 * p.outPlaneSize * p.outCn + i1 * p.outPlaneSize + ofs1 ≠
      pc2.1 * p.outPlaneSize * p.outCn + i2 * p.outPlaneSize + ofs2

/-- The quotient `a / b` of the specification, rounded up to an integer. -/
def specCeil (a b : Nat) : Nat := ⌈((a : ℚ) / (b : ℚ))⌉₊

/-- The value `x` rounded up to a multiple of the granularity `n`. -/
def specRoundUp (x n : Nat) : Nat := n * specCeil x n

/-- The members of `ParallelConv` for the all-ones `3 x 3` example with four stripes. -/
def exConv : ParallelConv :=
  ParallelConv.setup exInput 1 1 3 3 exWeights [] ⟨3, 3⟩ ⟨1, 1⟩ ⟨1, 1⟩ ⟨1, 1⟩ 1 4 none true

/-- A convolution layer with a 3x3 kernel, stride 2, padding 1, dilation 1 and one
`[4,2,3,3]` weight blob. -/
def exPadLayer : ConvolutionLayerImpl :=
  { blobs := [⟨4, 2, 3, 3, fun _ => 1⟩],
    kernel := ⟨3, 3⟩, pad := ⟨1, 1⟩, stride := ⟨2, 2⟩, dilation := ⟨1, 1⟩,
    padMode := "", weightsMat := none, activ := none }

/-- The sum that one iteration of the `k` loop adds to the element `n` of a result row:
the products of up to four elements of the row at `aptr` of `a_` with the elements of
column `n` of `b_`. -/
def MatMulInvoker.kTerm (t : MatMulInvoker) (aptr bptr k n : Nat) : ℚ :=
  (if k < t.a_.cols then t.a_.data (aptr + k) * t.b_.data (bptr + k * t.b_.step1 + n) else 0) +
  (if k + 1 < t.a_.cols then
    t.a_.data (aptr + (k + 1)) * t.b_.data (bptr + (k + 1) * t.b_.step1 + n) else 0) +
  (if k + 2 < t.a_.cols then
    t.a_.data (aptr + (k + 2)) * t.b_.data (bptr + (k + 2) * t.b_.step1 + n) else 0) +
  (if k + 3 < t.a_.cols then
    t.a_.data (aptr + (k + 3)) * t.b_.data (bptr + (k + 3) * t.b_.step1 + n) else 0)

/-- The memory `c1` is `c` with `d0 n` added at `dst0 + n` and `d1 n` added at `dst1 + n`
for `lo ≤ n < hi`. -/
def PairAdd (dst0 dst1 : Nat) (d0 d1 : Nat → ℚ) (lo hi : Nat) (c c1 : Mem) : Prop :=
  (∀ n, lo ≤ n → n < hi → c1 (dst0 + n) = c (dst0 + n) + d0 n) ∧
  (∀ n, lo ≤ n → n < hi → c1 (dst1 + n) = c (dst1 + n) + d1 n) ∧
  (∀ x, (∀ n, lo ≤ n → n < hi → x ≠ dst0 + n ∧ x ≠ dst1 + n) → c1 x = c x)

/-- Two rows are the same row or do not meet on the first `nmax` elements. -/
def RowsOK (dst0 dst1 : Nat) (d0 d1 : Nat → ℚ) (nmax : Nat) : Prop :=
  ∀ n n1, n < nmax → n1 < nmax → dst0 + n = dst1 + n1 → n = n1 ∧ d0 n = d1 n

/-- The products of the first `K` elements of the row at `aptr` of `a_` with the elements
of the column `n` of `b_` from `bptr` on. -/
def MatMulInvoker.psum (t : MatMulInvoker) (aptr bptr n K : Nat) : ℚ :=
  ∑ k in Finset.range K, t.a_.data (aptr + k) * t.b_.data (bptr + k * t.b_.step1 + n)

/-- The value that the matrix product leaves at the address `x` of the result: the
product of row `(x - cptr_) / cstep_` of `a_` with column `(x - cptr_) % cstep_` of `b_`. -/
def MatMulInvoker.cval (t : MatMulInvoker) (x : Nat) : ℚ :=
  t.psum (t.a_.step1 * ((x - t.cptr_) / t.cstep_)) 0 ((x - t.cptr_) % t.cstep_) t.a_.cols

/-- The addresses of the columns `lo ≤ n < hi` in the rows of the result. -/
def MatMulInvoker.cset (t : MatMulInvoker) (lo hi : Nat) : Set Nat :=
  {x | ∃ m n, m < t.a_.rows ∧ lo ≤ n ∧ n < hi ∧ x = t.cptr_ + t.cstep_ * m + n}

/-- The sum that `Col2ImInvoker::operator()` forms for the flat index `index` of the
image on the general path (lines 1232-1237). -/
def Col2ImInvoker.val (t : Col2ImInvoker) (index : Nat) : ℚ :=
  let coeff_h : Int := (1 - (t.stride_h : Int) * t.kernel_w * t.height_col) * t.width_col
  let coeff_w : Int := 1 - (t.stride_w : Int) * t.height_col * t.width_col
  let l := t.locals index
  let w_col_start : Int :=
    if l.w < t.kernel_w then 0 else (((l.w - t.kernel_w) / t.stride_w + 1 : Nat) : Int)
  let w_col_end : Int := min (((l.w / t.stride_w + 1 : Nat) : Int)) t.width_col
  forInt l.h_col_start l.h_col_end (fun h_col val =>
    forInt w_col_start w_col_end (fun w_col val =>
      val + t.data_col (l.offset + h_col * coeff_h + w_col * coeff_w).toNat) val) 0

/-- The value that the general path of `Col2ImInvoker` leaves at the address `a`. -/
def Col2ImInvoker.imVal (t : Col2ImInvoker) (a : Nat) : ℚ :=
  t.val (a - t.data_im) + t.biasvec (t.locals (a - t.data_im)).c

/-- The transposed convolution as a function of the output address. -/
def deconvVal (X : Mat4) (R : Mat2) (bias : Nat → ℚ) (kernel pad stride : Size)
    (inG outG ngroups outH outW : Nat) (a : Nat) : ℚ :=
  deconvRef X R bias kernel pad stride inG outG
    (a / (outG * outH * outW) / ngroups) (a / (outG * outH * outW) % ngroups)
    (a % (outG * outH * outW) / (outW * outH)) (a % (outG * outH * outW) / outW % outH)
    (a % (outG * outH * outW) % outW)

/-- The layer of scenario B: one `[1,1,2,2]` weight blob with data `w`, stride 2, no
padding, no output adjustment and no bias. -/
def scenarioBLayer (w : Mem) : DeConvolutionLayerImpl :=
  { blobs := [{ size0 := 1, size1 := 1, size2 := 2, size3 := 2, data := w }],
    kernel := ⟨2, 2⟩, pad := ⟨0, 0⟩, stride := ⟨2, 2⟩, dilation := ⟨1, 1⟩,
    adjustPad := ⟨0, 0⟩, weightsMat := none, biasesMat := ⟨0, 0, 0, fun _ => 0⟩ }

/-- The input `[1,1,1,1] = [5]`. -/
def exDeconvInput : Mat4 := ⟨1, 1, 1, 1, fun _ => 5⟩

/-- An all-ones `[1,1,2,2]` weight blob. -/
def exDeconvBlob : Blob := ⟨1, 1, 2, 2, fun _ => 1⟩

/-- A continuous `4 x 1` matrix for `internals[0]`. -/
def exInternals0 : Mat2 := ⟨4, 1, 1, fun _ => 0⟩

/-- A schedule of two stripes, the second one first, for every iteration `(n, g)`. -/
def exSchedule (_ _ : Nat) : List Range := [⟨1, 2⟩, ⟨0, 1⟩]

/-- Lines 399-401 and 492: the indices of `biasvec` at which the pair of output channels
`i`, `i+1` of a stripe of the sample-group `subsampleIdx` reads `bias0` and `bias1`. -/
def ParallelConv.biasReads (p : ParallelConv) (subsampleIdx i : Nat) : Nat × Nat :=
  let startOutCn := (subsampleIdx % p.ngroups_) * p.outCn
  let biasptr := startOutCn
  (biasptr + i, biasptr + (i + 1))

/-- A convolution layer with a `[2,1,1,1]` weight blob and a bias blob of three
elements, one more than there are output channels. -/
def exBadBiasLayer : ConvolutionLayerImpl :=
  { blobs := [⟨2, 1, 1, 1, fun _ => 1⟩, ⟨3, 1, 1, 1, fun _ => 1⟩],
    kernel := ⟨1, 1⟩, pad := ⟨0, 0⟩, stride := ⟨1, 1⟩, dilation := ⟨1, 1⟩,
    padMode := "", weightsMat := none, activ := none }

/-- The all-zero `[2,1,1,1]` weight blob of `exZeroLayer`. -/
def exZeroBlob : Blob := ⟨2, 1, 1, 1, fun _ => 0⟩

/-- Lines 435-474 with a record of the reads: the general gather of the row of output
position `ofs` on the state (row buffer, positions of `input_` read so far); every
`rowbuf[..] = imgptr[..]` appends the position it reads. -/
def ParallelConv.gatherRowReads (p : ParallelConv) (data_inp0 : Int) (cn0 ncn vsz vsz_a ofs0 ofs : Nat)
    (st : Mem × List Int) : Mem × List Int :=
  let out_i := ofs / p.outW
  let out_j := ofs - out_i * p.outW
  let rowbuf := (ofs - ofs0) * vsz_a
  let in_i : Int := (out_i : Int) * p.stride_.height - p.pad_.height
  let in_j : Int := (out_j : Int) * p.stride_.width - p.pad_.width
  let imgptr : Int := data_inp0 + ((cn0 : Int) * p.height + in_i) * p.width + in_j
  let kernel_h : Int := p.kernel_.height
  let kernel_w : Int := p.kernel_.width
  let dilation_h : Int := p.dilation_.height
  let dilation_w : Int := p.dilation_.width
  if 0 ≤ in_i ∧ in_i < (p.height : Int) - (kernel_h - 1) * dilation_h ∧
     0 ≤ in_j ∧ in_j < (p.width : Int) - (kernel_w - 1) * dilation_w then
    forStep 0 vsz 1 (fun k st =>
      (store st.1 (rowbuf + k) (p.input_.data (imgptr + (p.ofstab_.getD k 0 : Nat))),
        st.2 ++ [imgptr + (p.ofstab_.getD k 0 : Nat)])) st
  else
    let i0 : Int := max 0 ((-in_i + dilation_h - 1).tdiv dilation_h)
    let i1 : Int := min kernel_h (((p.height : Int) - in_i + dilation_h - 1).tdiv dilation_h)
    let j0 : Int := max 0 ((-in_j + dilation_w - 1).tdiv dilation_w)
    let j1 : Int := min kernel_w (((p.width : Int) - in_j + dilation_w - 1).tdiv dilation_w)
    let st : Mem × List Int := (memset0 st.1 rowbuf vsz, st.2)
    forStep 0 ncn 1 (fun k st =>
      let imgptr : Int := imgptr + (k : Int) * ((p.width : Int) * p.height)
      forStep i0.toNat i1.toNat 1 (fun i st =>
        forStep j0.toNat j1.toNat 1 (fun j st =>
          let imgofs : Int := (i : Int) * (dilation_h * p.width) + (j : Int) * dilation_w
          (store st.1 (rowbuf + ((k * p.kernel_.height + i) * p.kernel_.width + j))
            (p.input_.data (imgptr + imgofs)), st.2 ++ [imgptr + imgofs])) st) st) st

/-- The tap `(i, j)` of output position `ofs` lies inside the input image. -/
def ParallelConv.tapInside (p : ParallelConv) (ofs i j : Nat) : Prop :=
  0 ≤ ((ofs / p.outW : Nat) : Int) * p.stride_.height - p.pad_.height +
      (i : Int) * p.dilation_.height ∧
  ((ofs / p.outW : Nat) : Int) * p.stride_.height - p.pad_.height +
      (i : Int) * p.dilation_.height < p.height ∧
  0 ≤ ((ofs - ofs / p.outW * p.outW : Nat) : Int) * p.stride_.width - p.pad_.width +
      (j : Int) * p.dilation_.width ∧
  ((ofs - ofs / p.outW * p.outW : Nat) : Int) * p.stride_.width - p.pad_.width +
      (j : Int) * p.dilation_.width < p.width

/-- The position in `input_` of the tap `(i, j)` of channel `c` of the sample-group at
`data_inp0`, for output position `ofs`. -/
def ParallelConv.tapAddr (p : ParallelConv) (data_inp0 : Int) (ofs c i j : Nat) : Int :=
  data_inp0 + (((c : Int) * p.height +
    (((ofs / p.outW : Nat) : Int) * p.stride_.height - p.pad_.height +
      (i : Int) * p.dilation_.height)) * p.width +
    (((ofs - ofs / p.outW * p.outW : Nat) : Int) * p.stride_.width - p.pad_.width +
      (j : Int) * p.dilation_.width))

/-- The members of `ParallelConv` for a 1x1 kernel with padding 1 on the `3 x 3` example
input: the output plane is `5 x 5` and its border positions see only padding. -/
def exBorderConv : ParallelConv :=
  ParallelConv.setup exInput 1 1 5 5 exWeights [] ⟨1, 1⟩ ⟨1, 1⟩ ⟨1, 1⟩ ⟨1, 1⟩ 1 4 none true

/-- A deconvolution layer with a 1x1 kernel, unit stride and dilation, one all-ones
`[1,1,1,1]` weight blob, no bias, and padding 1 along the width. -/
def exPad1x1Layer : DeConvolutionLayerImpl :=
  { blobs := [⟨1, 1, 1, 1, fun _ => 1⟩],
    kernel := ⟨1, 1⟩, pad := ⟨1, 0⟩, stride := ⟨1, 1⟩, dilation := ⟨1, 1⟩,
    adjustPad := ⟨0, 0⟩, weightsMat := none, biasesMat := ⟨0, 0, 0, fun _ => 0⟩ }

/-- The input `[1,1,1,3] = [1, 2, 3]`. -/
def exRowInput : Mat4 := ⟨1, 1, 1, 3, fun a => if a = 0 then 1 else if a = 1 then 2 else 3⟩

/-- A schedule of one stripe for every iteration `(n, g)`. -/
def exOneStripe (_ _ : Nat) : List Range := [⟨0, 1⟩]

/-- The members of `BaseConvolutionLayer` that `initConvDeconvLayerFromCaffe` sets;
`adjustPad` holds the two `int`s (width, height) read from the parameters. -/
structure BaseConvolutionLayer where
  blobs : List Blob
  kernel : Size
  pad : Size
  stride : Size
  dilation : Size
  padMode : String
  adjustPad : Int × Int

/-- Lines 1373-1391: `initConvDeconvLayerFromCaffe`.  `blobs` are the blobs that
`setParamsFrom` takes from the parameters; `kernel`, `pad`, `stride`, `dilation` and
`padMode` are what `getConvolutionKernelParams` of `layers_common` returns; `bias`,
`numOutput`, `ngroups`, `adj_h`, `adj_w` are the values that `params.get` returns for
"bias_term", "num_output", "group", "adj_h" and "adj_w".  The result is `none` when a
`CV_Assert` fails (or the modulus of line 1387 is taken by zero). -/
def initConvDeconvLayerFromCaffe (blobs : List Blob) (kernel pad stride dilation : Size)
    (padMode : String) (bias : Bool) (numOutput ngroups adj_h adj_w : Int) :
    Option BaseConvolutionLayer :=
  if ngroups = 0 then none
  else if numOutput.tmod ngroups = 0 then
    if (bias = true ∧ blobs.length = 2) ∨ (bias = false ∧ blobs.length = 1) then
      if adj_w < stride.width ∧ adj_h < stride.height then
        some { blobs := blobs, kernel := kernel, pad := pad, stride := stride,
               dilation := dilation, padMode := padMode, adjustPad := (adj_w, adj_h) }
      else none
    else none
  else none

/-- The weight matrix that `ConvolutionLayerImpl::forward` hands to `ParallelConv::run`:
the cached one, or the one prepared from `blobs[0] = b0` on the first call. -/
def ConvolutionLayerImpl.usedWeights (l : ConvolutionLayerImpl) (b0 : Blob) : Mat2 :=
  match l.weightsMat with
  | some w => w
  | none => ConvolutionLayerImpl.alignWeights (b0.reshape b0.size0)

/-- The activation `activ` (none: the identity) applied to the value `v` of output
channel `cn`. -/
def applyActiv (activ : Option (Nat → ℚ → ℚ)) (cn : Nat) (v : ℚ) : ℚ :=
  match activ with
  | none => v
  | some f => f cn v

/-- The value that `ParallelConv::operator()` leaves at the output address `a`: the
accumulated value `outVal a`, to which the activation (when there is one) is applied with
the output channel of `a`. -/
def ParallelConv.finalVal (p : ParallelConv) (a : Nat) : ℚ :=
  applyActiv p.activ_
    ((a / p.outPlaneSize / p.outCn % p.ngroups_) * p.outCn + a / p.outPlaneSize % p.outCn)
    (p.outVal a)

/-- An all-ones `[1,65,1,1]` input: one channel more than `BLK_SIZE_CN`. -/
def exDeepInput : Mat4 := ⟨1, 65, 1, 1, fun _ => 1⟩

/-- An all-ones `1 x 65` weight matrix with row stride 72. -/
def exDeepWeights : Mat2 := ⟨1, 65, 72, fun _ => 1⟩

/-- The input `[1,1,1,1] = [1]`. -/
def exUnitInput : Mat4 := ⟨1, 1, 1, 1, fun _ => 1⟩

/-- An all-ones `[2,1,1,1]` blob. -/
def exOnesBlob : Blob := ⟨2, 1, 1, 1, fun _ => 1⟩

/-- The pair (weight matrix, bias matrix) that `DeConvolutionLayerImpl::forward` uses:
the cached pair, or the one prepared from the blobs `b0 :: rest` on the first call for an
input of `inpCn` channels (lines 1265-1269). -/
def DeConvolutionLayerImpl.usedMats (l : DeConvolutionLayerImpl) (b0 : Blob)
    (rest : List Blob) (inpCn : Nat) : Mat2 × Mat2 :=
  match l.weightsMat with
  | some w => (w, l.biasesMat)
  | none => (transpose (b0.reshape inpCn), DeConvolutionLayerImpl.makeBiases rest b0.size0)

/-- Line 1208: the local `stripeSize` of `Col2ImInvoker::operator()`. -/
def Col2ImInvoker.stripeSize (t : Col2ImInvoker) : Nat :=
  (t.channels * t.height * t.width + t.nstripes - 1) / t.nstripes

/-- Lines 1209-1210: the flat index `idx` lies in the range
`[r*stripeSize, min((r+1)*stripeSize, total))` of stripe `r`. -/
def Col2ImInvoker.inStripe (t : Col2ImInvoker) (r idx : Nat) : Prop :=
  r * t.stripeSize ≤ idx ∧ idx < min ((r + 1) * t.stripeSize) (t.channels * t.height * t.width)

/-- An invoker for a `1 x 2 x 2` image and a `2 x 2` kernel with stride 2 (the column
matrix is `4 x 1`, all fives), in three stripes. -/
def exCol2Im : Col2ImInvoker :=
  { data_col := fun _ => 5, biasvec := fun _ => 1, channels := 1, height := 2, width := 2,
    kernel_h := 2, kernel_w := 2, pad_h := 0, pad_w := 0, stride_h := 2, stride_w := 2,
    data_im := 0, height_col := 1, width_col := 1, nstripes := 3, is1x1 := false }

/-- Line 1045: the local `stripeSize` of `MatMulInvoker::operator()`. -/
def MatMulInvoker.stripeSize (t : MatMulInvoker) : Nat :=
  alignSize ((t.b_.cols + t.nstripes_ - 1) / t.nstripes_) 16

/-- Line 1046: the column `n` lies in the range
`[r*stripeSize, min((r+1)*stripeSize, b_->cols))` of stripe `r`. -/
def MatMulInvoker.inStripe (t : MatMulInvoker) (r n : Nat) : Prop :=
  r * t.stripeSize ≤ n ∧ n < min ((r + 1) * t.stripeSize) t.b_.cols

/-- An example of the product: `a_` is `1 x 3` with the entries `1, 2, 3`,
`b_` is `3 x 2` all ones, and the result has two columns, in two stripes. -/
def exMatMul : MatMulInvoker :=
  { a_ := ⟨1, 3, 3, fun a => (a : ℚ) + 1⟩, b_ := ⟨3, 2, 2, fun _ => 1⟩, cptr_ := 0, cstep_ := 2,
    nstripes_ := 2, simd := true }

/-- A deconvolution layer with the `[4,2,3,3]` weight blob of `exPadLayer`: 3x3 kernel,
stride 2, padding 1, no output adjustment and no bias. -/
def exDeconvPadLayer : DeConvolutionLayerImpl :=
  { blobs := [⟨4, 2, 3, 3, fun _ => 1⟩],
    kernel := ⟨3, 3⟩, pad := ⟨1, 1⟩, stride := ⟨2, 2⟩, dilation := ⟨1, 1⟩,
    adjustPad := ⟨0, 0⟩, weightsMat := none, biasesMat := ⟨0, 0, 0, fun _ => 0⟩ }

/-- An all-ones `[1,3,5,5]` input. -/
def exThreeChannelInput : Mat4 := ⟨1, 3, 5, 5, fun _ => 1⟩

/-- Lines 1185-1196: the invoker `t` that `Col2ImInvoker::run` fills in before it starts
the parallel loop; `numThreads` is the value of `getNumThreads()`. -/
def Col2ImInvoker.make (data_col : Mem) (channels height width kernel_h kernel_w pad_h pad_w
    stride_h stride_w : Nat) (data_im : Nat) (biasvec : Mem) (is1x1 : Bool)
    (numThreads : Nat) : Col2ImInvoker :=
  { data_col := data_col, biasvec := biasvec, channels := channels, height := height,
    width := width, kernel_h := kernel_h, kernel_w := kernel_w, pad_h := pad_h,
    pad_w := pad_w, stride_h := stride_h, stride_w := stride_w, data_im := data_im,
    height_col := ((height : Int) + 2 * pad_h - kernel_h).tdiv stride_h + 1,
    width_col := ((width : Int) + 2 * pad_w - kernel_w).tdiv stride_w + 1,
    nstripes := numThreads, is1x1 := is1x1 }

/-- The state (locals, image memory) of `Col2ImInvoker::operator()` at the start of the
iteration for the flat index `index`, when the loop of line 1221 starts at `startIndex`
on the image memory `im`: the iterations `startIndex ≤ i < index` applied to the locals
of lines 1211-1217. -/
def Col2ImInvoker.stateAt (t : Col2ImInvoker) (startIndex index : Nat) (im : Mem) :
    Col2ImLocals × Mem :=
  forStep startIndex index 1 t.step (t.locals startIndex, im)

/-- Lines 1224-1250 with a record of the reads: one iteration of the loop over `index`
on the state (locals and image memory, indices of `data_col_` read so far, indices of
`biasvec_` read so far).  Every `data_col_[..]` of line 1235 appends its index, an `int`,
and line 1239 appends the index `c`. -/
def Col2ImInvoker.stepReads (t : Col2ImInvoker) (index : Nat)
    (st : (Col2ImLocals × Mem) × List Int × List Nat) :
    (Col2ImLocals × Mem) × List Int × List Nat :=
  let coeff_h : Int := (1 - (t.stride_h : Int) * t.kernel_w * t.height_col) * t.width_col
  let coeff_w : Int := 1 - (t.stride_w : Int) * t.height_col * t.width_col
  let l := st.1.1
  let w_col_start : Int :=
    if l.w < t.kernel_w then 0 else (((l.w - t.kernel_w) / t.stride_w + 1 : Nat) : Int)
  let w_col_end : Int := min (((l.w / t.stride_w + 1 : Nat) : Int)) t.width_col
  let colReads : List Int :=
    if t.is1x1 then st.2.1
    else
      forInt l.h_col_start l.h_col_end (fun h_col acc =>
        forInt w_col_start w_col_end (fun w_col acc =>
          acc ++ [l.offset + h_col * coeff_h + w_col * coeff_w]) acc) st.2.1
  (t.step index st.1, colReads, st.2.2 ++ [l.c])

/-- Lines 1201-1252 with a record of the reads: `Col2ImInvoker::operator()` on the range
`r`; the result is the image memory, the indices of `data_col_` read and the indices of
`biasvec_` read. -/
def Col2ImInvoker.callReads (t : Col2ImInvoker) (r : Range) (im : Mem) :
    Mem × List Int × List Nat :=
  let total := t.channels * t.height * t.width
  let stripeSize := (total + t.nstripes - 1) / t.nstripes
  let startIndex := r.start * stripeSize
  let endIndex := min (r.end_ * stripeSize) total
  let st := forStep startIndex endIndex 1 t.stepReads ((t.locals startIndex, im), [], [])
  (st.1.2, st.2.1, st.2.2)

/-- An index that a tile of `ParallelConv::operator()` uses: `rowbuf i` is the element
`rowbuf0[i]` of the row buffer, written by the gather or read by the product, and
`ofstab k` the element `ofstab[k]` of the offset table. -/
inductive TileAccess where
  | rowbuf (i : Nat)
  | ofstab (k : Nat)
  deriving DecidableEq

/-- Lines 419-428 with a record of the indices: the `is1x1` gather of the row of output
position `ofs` on the state (row buffer, accesses so far). -/
def ParallelConv.gatherRow1x1Acc (p : ParallelConv) (data_inp0 : Int)
    (cn0 vsz vsz_a ofs0 ofs : Nat) (st : Mem × List TileAccess) : Mem × List TileAccess :=
  let out_i := ofs / p.outW
  let out_j := ofs - out_i * p.outW
  let rowbuf := (ofs - ofs0) * vsz_a
  let in_i : Int := (out_i : Int) * p.stride_.height - p.pad_.height
  let in_j : Int := (out_j : Int) * p.stride_.width - p.pad_.width
  let imgptr : Int := data_inp0 + ((cn0 : Int) * p.height + in_i) * p.width + in_j
  forStep 0 vsz 1 (fun k st =>
    (store st.1 (rowbuf + k) (p.input_.data (imgptr + (k : Int) * p.inpPlaneSize)),
      st.2 ++ [TileAccess.rowbuf (rowbuf + k)])) st

/-- Lines 417-429 with a record of the indices: the `is1x1` gather of the rows
`ofs0 ≤ ofs < ofs1`. -/
def ParallelConv.im2row1x1Acc (p : ParallelConv) (data_inp0 : Int)
    (cn0 vsz vsz_a ofs0 ofs1 : Nat) (st : Mem × List TileAccess) : Mem × List TileAccess :=
  forStep ofs0 ofs1 1 (fun ofs st => p.gatherRow1x1Acc data_inp0 cn0 vsz vsz_a ofs0 ofs st) st

/-- Lines 435-474 with a record of the indices: the general gather of the row of output
position `ofs` on the state (row buffer, accesses so far).  Line 449 uses `ofstab[k]` and
writes `rowbuf[k]`; the `memset` of line 462 writes the `vsz` elements of the row, and
line 470 writes `rowbuf[(k*kernel_h + i)*kernel_w + j]`. -/
def ParallelConv.gatherRowAcc (p : ParallelConv) (data_inp0 : Int)
    (cn0 ncn vsz vsz_a ofs0 ofs : Nat) (st : Mem × List TileAccess) : Mem × List TileAccess :=
  let out_i := ofs / p.outW
  let out_j := ofs - out_i * p.outW
  let rowbuf := (ofs - ofs0) * vsz_a
  let in_i : Int := (out_i : Int) * p.stride_.height - p.pad_.height
  let in_j : Int := (out_j : Int) * p.stride_.width - p.pad_.width
  let imgptr : Int := data_inp0 + ((cn0 : Int) * p.height + in_i) * p.width + in_j
  let kernel_h : Int := p.kernel_.height
  let kernel_w : Int := p.kernel_.width
  let dilation_h : Int := p.dilation_.height
  let dilation_w : Int := p.dilation_.width
  if 0 ≤ in_i ∧ in_i < (p.height : Int) - (kernel_h - 1) * dilation_h ∧
     0 ≤ in_j ∧ in_j < (p.width : Int) - (kernel_w - 1) * dilation_w then
    forStep 0 vsz 1 (fun k st =>
      (store st.1 (rowbuf + k) (p.input_.data (imgptr + (p.ofstab_.getD k 0 : Nat))),
        st.2 ++ [TileAccess.ofstab k, TileAccess.rowbuf (rowbuf + k)])) st
  else
    let i0 : Int := max 0 ((-in_i + dilation_h - 1).tdiv dilation_h)
    let i1 : Int := min kernel_h (((p.height : Int) - in_i + dilation_h - 1).tdiv dilation_h)
    let j0 : Int := max 0 ((-in_j + dilation_w - 1).tdiv dilation_w)
    let j1 : Int := min kernel_w (((p.width : Int) - in_j + dilation_w - 1).tdiv dilation_w)
    let st : Mem × List TileAccess :=
      (memset0 st.1 rowbuf vsz,
        st.2 ++ (List.range vsz).map (fun t => TileAccess.rowbuf (rowbuf + t)))
    forStep 0 ncn 1 (fun k st =>
      let imgptr : Int := imgptr + (k : Int) * ((p.width : Int) * p.height)
      forStep i0.toNat i1.toNat 1 (fun i st =>
        forStep j0.toNat j1.toNat 1 (fun j st =>
          let imgofs : Int := (i : Int) * (dilation_h * p.width) + (j : Int) * dilation_w
          (store st.1 (rowbuf + ((k * p.kernel_.height + i) * p.kernel_.width + j))
            (p.input_.data (imgptr + imgofs)),
            st.2 ++ [TileAccess.rowbuf (rowbuf + ((k * p.kernel_.height + i) * p.kernel_.width + j))]))
          st) st) st

/-- Lines 433-475 with a record of the indices: the general gather of the rows
`ofs0 ≤ ofs < ofs1`. -/
def ParallelConv.im2rowGeneralAcc (p : ParallelConv) (data_inp0 : Int)
    (cn0 ncn vsz vsz_a ofs0 ofs1 : Nat) (st : Mem × List TileAccess) : Mem × List TileAccess :=
  forStep ofs0 ofs1 1 (fun ofs st => p.gatherRowAcc data_inp0 cn0 ncn vsz vsz_a ofs0 ofs st) st

/-- Lines 546-571 with a record of the indices: the scalar loop on the state (output,
accesses so far); line 564 reads `rptr[k]`, the element `j*vsz_a + k` of the row
buffer. -/
def ParallelConv.dotScalarAcc (p : ParallelConv) (wptr0 wptr1 outptr0 outptr1 : Nat)
    (bias0 bias1 : ℚ) (cn0 vsz vsz_a jstart bsz : Nat) (rowbuf0 : Mem)
    (st : Mem × List TileAccess) : Mem × List TileAccess :=
  forStep jstart bsz 1 (fun j st =>
    let rptr := j * vsz_a
    let s00 := if cn0 = 0 then bias0 else st.1 (outptr0 + j)
    let s10 := if cn0 = 0 then bias1 else st.1 (outptr1 + j)
    let s := forStep 0 vsz 1 (fun k (s : (ℚ × ℚ) × List TileAccess) =>
      let r0 := rowbuf0 (rptr + k)
      ((s.1.1 + p.weights_.data (wptr0 + k) * r0, s.1.2 + p.weights_.data (wptr1 + k) * r0),
        s.2 ++ [TileAccess.rowbuf (rptr + k)])) ((s00, s10), st.2)
    (store (store st.1 (outptr0 + j) s.1.1) (outptr1 + j) s.1.2, s.2)) st

/-- Lines 503-544 with a record of the indices: the vectorized loop on the state
(output, accesses so far); each of the four loads of lines 526-527 reads the four
elements from `rptr + vsz_a*q` on, where `rptr` is at `j*vsz_a + k`. -/
def ParallelConv.dotSimdAcc (p : ParallelConv) (wptr0 wptr1 outptr0 outptr1 : Nat)
    (bias0 bias1 : ℚ) (cn0 vsz vsz_a bsz : Nat) (rowbuf0 : Mem)
    (st : Mem × List TileAccess) : Mem × List TileAccess :=
  forStep 0 (bsz - 3) 4 (fun j st =>
    let rptr := j * vsz_a
    let s0 := if cn0 = 0 then v_setall_f32 bias0 else v_load st.1 (outptr0 + j)
    let s1 := if cn0 = 0 then v_setall_f32 bias1 else v_load st.1 (outptr1 + j)
    let vs := forStep 0 vsz 4
      (fun k (vs : ((Fin 4 → v_float32x4) × (Fin 4 → v_float32x4)) × List TileAccess) =>
        let w0 := v_load p.weights_.data (wptr0 + k)
        let w1 := v_load p.weights_.data (wptr1 + k)
        let r : Fin 4 → v_float32x4 := fun q => v_load rowbuf0 (rptr + k + vsz_a * q.val)
        (((fun q => vs.1.1 q + w0 * r q), (fun q => vs.1.2 q + w1 * r q)),
          vs.2 ++ (List.range 4).flatMap (fun q =>
            (List.range 4).map (fun l => TileAccess.rowbuf (rptr + k + vsz_a * q + l)))))
      (((fun _ => v_setzero_f32), (fun _ => v_setzero_f32)), st.2)
    let s0 := s0 + v_reduce_sum4 (vs.1.1 0) (vs.1.1 1) (vs.1.1 2) (vs.1.1 3)
    let s1 := s1 + v_reduce_sum4 (vs.1.2 0) (vs.1.2 1) (vs.1.2 2) (vs.1.2 3)
    (v_store (v_store st.1 (outptr0 + j) s0) (outptr1 + j) s1, vs.2)) st

/-- Lines 486-572 with a record of the indices: the product of the weights with the
gathered tile on the state (output, accesses so far). -/
def ParallelConv.dotProductAcc (p : ParallelConv)
    (wptr biasptr data_out0 ofs0 cn0 vsz vsz_a bsz : Nat) (rowbuf0 : Mem)
    (st : Mem × List TileAccess) : Mem × List TileAccess :=
  forStep 0 p.outCn 2 (fun i st =>
    let wstep := p.weights_.step1
    let wptr0 := wptr + i * wstep
    let wptr1 := wptr0 + wstep
    let outptr0 := data_out0 + ofs0 + i * p.outPlaneSize
    let outptr1 := outptr0 + p.outPlaneSize
    let bias0 := p.biasvec_.getD (biasptr + i) 0
    let bias1 := p.biasvec_.getD (biasptr + (i + 1)) 0
    let wptr1 := if i + 1 ≥ p.outCn then wptr0 else wptr1
    let outptr1 := if i + 1 ≥ p.outCn then outptr0 else outptr1
    let bias1 := if i + 1 ≥ p.outCn then bias0 else bias1
    let st := if p.simd then
        p.dotSimdAcc wptr0 wptr1 outptr0 outptr1 bias0 bias1 cn0 vsz vsz_a bsz rowbuf0 st
      else st
    let j := if p.simd then bsz / 4 * 4 else 0
    p.dotScalarAcc wptr0 wptr1 outptr0 outptr1 bias0 bias1 cn0 vsz vsz_a j bsz rowbuf0 st) st

/-- Lines 412-572 with a record of the indices: one tile of a channel block on the state
((row buffer, output), accesses so far). -/
def ParallelConv.tileAcc (p : ParallelConv) (data_inp0 : Int)
    (data_out0 wptr biasptr cn0 ncn vsz vsz_a stripeEnd ofs0 : Nat)
    (st : (Mem × Mem) × List TileAccess) : (Mem × Mem) × List TileAccess :=
  let ofs1 := min (ofs0 + BLK_SIZE) stripeEnd
  let g : Mem × List TileAccess :=
    if p.is1x1_ then p.im2row1x1Acc data_inp0 cn0 vsz vsz_a ofs0 ofs1 (st.1.1, st.2)
    else p.im2rowGeneralAcc data_inp0 cn0 ncn vsz vsz_a ofs0 ofs1 (st.1.1, st.2)
  let bsz := ofs1 - ofs0
  let d := p.dotProductAcc wptr biasptr data_out0 ofs0 cn0 vsz vsz_a bsz g.1 (st.1.2, g.2)
  ((g.1, d.1), d.2)

/-- Lines 405-573 with a record of the indices: the block of input channels
`cn0 ≤ c < min(cn0 + BLK_SIZE_CN, inpCn)` over the output positions of the stripe, on the
state ((row buffer, output), accesses so far). -/
def ParallelConv.channelBlockAcc (p : ParallelConv) (data_inp0 : Int)
    (data_out0 wptr_orig biasptr stripeStart stripeEnd cn0 : Nat)
    (st : (Mem × Mem) × List TileAccess) : (Mem × Mem) × List TileAccess :=
  let cn1 := min (cn0 + BLK_SIZE_CN) p.inpCn
  let ncn := cn1 - cn0
  let vsz := p.karea * ncn
  let vsz_a := alignSize vsz VEC_ALIGN
  let wptr := wptr_orig + cn0 * p.karea
  forStep stripeStart stripeEnd BLK_SIZE (fun ofs0 st =>
    p.tileAcc data_inp0 data_out0 wptr biasptr cn0 ncn vsz vsz_a stripeEnd ofs0 st) st

/-- Every row-buffer index of the accesses `tr` is below the size
`karea*BLK_SIZE_CN*BLK_SIZE` that line 375 allocates and line 388 clears, and every
offset-table index is below the size `kernel_w*kernel_h*min(inpCn, BLK_SIZE_CN)` of the
table of line 307. -/
def ParallelConv.TraceOK (p : ParallelConv) (tr : List TileAccess) : Prop :=
  (∀ i, TileAccess.rowbuf i ∈ tr → i < p.karea * BLK_SIZE_CN * BLK_SIZE) ∧
  (∀ k, TileAccess.ofstab k ∈ tr →
    k < p.kernel_.width * p.kernel_.height * min p.inpCn BLK_SIZE_CN)

/-- A convolution layer with a 1x1 kernel, stride 1, padding 1, dilation 1 and one
`[1,1,1,1]` weight blob. -/
def exUnitConvLayer : ConvolutionLayerImpl :=
  { blobs := [⟨1, 1, 1, 1, fun _ => 1⟩],
    kernel := ⟨1, 1⟩, pad := ⟨1, 1⟩, stride := ⟨1, 1⟩, dilation := ⟨1, 1⟩,
    padMode := "", weightsMat := none, activ := none }

/-! ## The forward kernel on `float` values with infinities and NaN

The definitions of the namespace `Nonfinite` are those of the forward convolution above,
line by line, with the element type `F32` in place of the rationals: a `float` is a
finite value, kept exact, or one of `+Inf`, `-Inf` and NaN, with the sums and products of
IEEE 754 for them. -/

/-- The values of a `float` of the source (IEEE 754 binary32) with the finite values kept
exact: `fin q` is the finite value `q`, and `pinf`, `ninf`, `nan` are `+Inf`, `-Inf` and
NaN. -/
inductive F32 where
  | fin (q : ℚ)
  | pinf
  | ninf
  | nan
  deriving DecidableEq

/-- The product `a * b` of two `float` values: NaN when a factor is NaN or when zero
meets an infinity, the infinity with the product of the signs when a factor is infinite,
and the exact product of two finite values. -/
def F32.mul : F32 → F32 → F32
  | F32.nan, _ => F32.nan
  | _, F32.nan => F32.nan
  | F32.fin a, F32.fin b => F32.fin (a * b)
  | F32.fin a, F32.pinf => if a = 0 then F32.nan else if 0 < a then F32.pinf else F32.ninf
  | F32.fin a, F32.ninf => if a = 0 then F32.nan else if 0 < a then F32.ninf else F32.pinf
  | F32.pinf, F32.fin b => if b = 0 then F32.nan else if 0 < b then F32.pinf else F32.ninf
  | F32.ninf, F32.fin b => if b = 0 then F32.nan else if 0 < b then F32.ninf else F32.pinf
  | F32.pinf, F32.pinf => F32.pinf
  | F32.pinf, F32.ninf => F32.ninf
  | F32.ninf, F32.pinf => F32.ninf
  | F32.ninf, F32.ninf => F32.pinf

/-- The sum `a + b` of two `float` values: NaN when a term is NaN or when the two
infinities meet, the infinity when one term is infinite, and the exact sum of two finite
values. -/
def F32.add : F32 → F32 → F32
  | F32.nan, _ => F32.nan
  | _, F32.nan => F32.nan
  | F32.fin a, F32.fin b => F32.fin (a + b)
  | F32.fin _, F32.pinf => F32.pinf
  | F32.fin _, F32.ninf => F32.ninf
  | F32.pinf, F32.fin _ => F32.pinf
  | F32.ninf, F32.fin _ => F32.ninf
  | F32.pinf, F32.pinf => F32.pinf
  | F32.ninf, F32.ninf => F32.ninf
  | F32.pinf, F32.ninf => F32.nan
  | F32.ninf, F32.pinf => F32.nan

/-- The `float` constant `0`. -/
instance : Zero F32 := ⟨F32.fin 0⟩

/-- The operator `+` of `float`. -/
instance : Add F32 := ⟨F32.add⟩

/-- The operator `*` of `float`. -/
instance : Mul F32 := ⟨F32.mul⟩

namespace Nonfinite

/-- A flat `float` memory addressed from its base pointer, with elements in `F32`. -/
abbrev Mem := Nat → F32

/-- The assignment `m[i] = v`. -/
def store (m : Mem) (i : Nat) (v : F32) : Mem := fun t => if t = i then v else m t

/-- The call `memset(m + base, 0, len * sizeof(float))`. -/
def memset0 (m : Mem) (base len : Nat) : Mem :=
  fun t => if base ≤ t ∧ t < base + len then 0 else m t

/-- A continuous 4-dimensional `CV_32F` `Mat`: `size0 .. size3` are `size[0] .. size[3]`
and `data` is the memory seen from `ptr<float>()`, so that element `(a,b,c,d)` is
`data (((a*size1 + b)*size2 + c)*size3 + d)`.  Offsets are integers because the
source forms pointers below the base before adding a non-negative offset. -/
structure Mat4 where
  size0 : Nat
  size1 : Nat
  size2 : Nat
  size3 : Nat
  data : Int → F32

/-- A 2-dimensional `CV_32F` `Mat` with `rows`, `cols` and row stride `step1()`;
element `(r,c)` is `data (r*step1 + c)`. -/
structure Mat2 where
  rows : Nat
  cols : Nat
  step1 : Nat
  data : Mem

/-- Modelled from the spec: `ActivationLayer::forwardSlice(src, dst, len, planeSize, cn0, cn1)`
of an element-wise activation `f`, applied in place: for every channel `cn0 ≤ cn < cn1`
the `len` elements at `base + (cn - cn0)*planeSize` are replaced by `f cn` of them. -/
def forwardSlice (f : Nat → F32 → F32) (out : Mem) (base len planeSize cn0 cn1 : Nat) : Mem :=
  forStep cn0 cn1 1 (fun cn o =>
    forStep 0 len 1 (fun i o =>
      store o (base + (cn - cn0) * planeSize + i) (f cn (o (base + (cn - cn0) * planeSize + i)))) o) out

/-- The members of `ConvolutionLayerImpl::ParallelConv`.  The output `Mat` is
represented by its four sizes; its memory is threaded through `operator()`.
`simd` records whether the `CV_SIMD128` blocks are compiled in. -/
structure ParallelConv where
  input_ : Mat4
  weights_ : Mat2
  outSize0 : Nat
  outSize1 : Nat
  outSize2 : Nat
  outSize3 : Nat
  kernel_ : Size
  pad_ : Size
  stride_ : Size
  dilation_ : Size
  ngroups_ : Nat
  nstripes_ : Nat
  ofstab_ : List Nat
  biasvec_ : List F32
  activ_ : Option (Nat → F32 → F32)
  is1x1_ : Bool
  simd : Bool

namespace ParallelConv

variable (p : ParallelConv)

/-- The local `batchSize = input_->size[0]*ngroups`. -/
def batchSize : Nat := p.input_.size0 * p.ngroups_
/-- The local `outW = output_->size[3]`. -/
def outW : Nat := p.outSize3
/-- The local `outH = output_->size[2]`. -/
def outH : Nat := p.outSize2
/-- The local `outCn = output_->size[1]/ngroups`. -/
def outCn : Nat := p.outSize1 / p.ngroups_
/-- The local `width = input_->size[3]`. -/
def width : Nat := p.input_.size3
/-- The local `height = input_->size[2]`. -/
def height : Nat := p.input_.size2
/-- The local `inpCn = input_->size[1]/ngroups`. -/
def inpCn : Nat := p.input_.size1 / p.ngroups_
/-- The local `karea = kernel_w*kernel_h`. -/
def karea : Nat := p.kernel_.width * p.kernel_.height
/-- The local `inpPlaneSize = width*height`. -/
def inpPlaneSize : Nat := p.width * p.height
/-- The local `outPlaneSize = outW*outH`. -/
def outPlaneSize : Nat := p.outW * p.outH

/-- Lines 349-367: the stripe geometry.  Returns `stripesPerSample`, `stripeSize`
and the factor by which `r.start`, `r.end` (and `nstripes`) are multiplied, which is
`samplesPerStripe` in the second regime and `1` in the first. -/
def stripeParams : Nat × Nat × Nat :=
  if p.nstripes_ ≥ p.batchSize * 2 then
    let stripesPerSample := p.nstripes_ / p.batchSize
    let stripeSize := alignSize ((p.outPlaneSize + stripesPerSample - 1) / stripesPerSample) VEC_ALIGN
    let stripeSize := min stripeSize p.outPlaneSize
    (stripesPerSample, stripeSize, 1)
  else
    let samplesPerStripe := max ((p.batchSize + p.nstripes_ - 1) / p.nstripes_) 1
    (1, p.outPlaneSize, samplesPerStripe)

/-- The local `stripesPerSample`. -/
def stripesPerSample : Nat := p.stripeParams.1
/-- The local `stripeSize`. -/
def stripeSize : Nat := p.stripeParams.2.1
/-- The factor applied to `r.start` and `r.end` (lines 363-364). -/
def rangeScale : Nat := p.stripeParams.2.2

/-- Lines 419-428: the `is1x1` gather of the row of output position `ofs`. -/
def gatherRow1x1 (data_inp0 : Int) (cn0 vsz vsz_a ofs0 ofs : Nat) (rb : Mem) : Mem :=
  let out_i := ofs / p.outW
  let out_j := ofs - out_i * p.outW
  let rowbuf := (ofs - ofs0) * vsz_a
  let in_i : Int := (out_i : Int) * p.stride_.height - p.pad_.height
  let in_j : Int := (out_j : Int) * p.stride_.width - p.pad_.width
  let imgptr : Int := data_inp0 + ((cn0 : Int) * p.height + in_i) * p.width + in_j
  forStep 0 vsz 1 (fun k rb =>
    store rb (rowbuf + k) (p.input_.data (imgptr + (k : Int) * p.inpPlaneSize))) rb

/-- Lines 417-429: the `is1x1` gather of the rows `ofs0 ≤ ofs < ofs1`. -/
def im2row1x1 (data_inp0 : Int) (cn0 vsz vsz_a ofs0 ofs1 : Nat) (rowbuf0 : Mem) : Mem :=
  forStep ofs0 ofs1 1 (fun ofs rb => p.gatherRow1x1 data_inp0 cn0 vsz vsz_a ofs0 ofs rb) rowbuf0

/-- Lines 435-474: the general gather of the row of output position `ofs`; the first
branch reads through the offset table, the second clears the row and copies the taps
that fall inside the image. -/
def gatherRow (data_inp0 : Int) (cn0 ncn vsz vsz_a ofs0 ofs : Nat) (rb : Mem) : Mem :=
  let out_i := ofs / p.outW
  let out_j := ofs - out_i * p.outW
  let rowbuf := (ofs - ofs0) * vsz_a
  let in_i : Int := (out_i : Int) * p.stride_.height - p.pad_.height
  let in_j : Int := (out_j : Int) * p.stride_.width - p.pad_.width
  let imgptr : Int := data_inp0 + ((cn0 : Int) * p.height + in_i) * p.width + in_j
  let kernel_h : Int := p.kernel_.height
  let kernel_w : Int := p.kernel_.width
  let dilation_h : Int := p.dilation_.height
  let dilation_w : Int := p.dilation_.width
  if 0 ≤ in_i ∧ in_i < (p.height : Int) - (kernel_h - 1) * dilation_h ∧
     0 ≤ in_j ∧ in_j < (p.width : Int) - (kernel_w - 1) * dilation_w then
    forStep 0 vsz 1 (fun k rb =>
      store rb (rowbuf + k) (p.input_.data (imgptr + (p.ofstab_.getD k 0 : Nat)))) rb
  else
    let i0 : Int := max 0 ((-in_i + dilation_h - 1).tdiv dilation_h)
    let i1 : Int := min kernel_h (((p.height : Int) - in_i + dilation_h - 1).tdiv dilation_h)
    let j0 : Int := max 0 ((-in_j + dilation_w - 1).tdiv dilation_w)
    let j1 : Int := min kernel_w (((p.width : Int) - in_j + dilation_w - 1).tdiv dilation_w)
    let rb := memset0 rb rowbuf vsz
    forStep 0 ncn 1 (fun k rb =>
      let imgptr : Int := imgptr + (k : Int) * ((p.width : Int) * p.height)
      forStep i0.toNat i1.toNat 1 (fun i rb =>
        forStep j0.toNat j1.toNat 1 (fun j rb =>
          let imgofs : Int := (i : Int) * (dilation_h * p.width) + (j : Int) * dilation_w
          store rb (rowbuf + ((k * p.kernel_.height + i) * p.kernel_.width + j))
            (p.input_.data (imgptr + imgofs))) rb) rb) rb

/-- Lines 433-475: the general gather of the rows `ofs0 ≤ ofs < ofs1`. -/
def im2rowGeneral (data_inp0 : Int) (cn0 ncn vsz vsz_a ofs0 ofs1 : Nat) (rowbuf0 : Mem) : Mem :=
  forStep ofs0 ofs1 1 (fun ofs rb => p.gatherRow data_inp0 cn0 ncn vsz vsz_a ofs0 ofs rb) rowbuf0

/-- Lines 546-571: the scalar loop over the positions `jstart ≤ j < bsz` of a tile,
for the pair of output channels whose weight rows start at `wptr0`, `wptr1` and whose
output rows start at `outptr0`, `outptr1`. -/
def dotScalar (wptr0 wptr1 outptr0 outptr1 : Nat) (bias0 bias1 : F32)
    (cn0 vsz vsz_a jstart bsz : Nat) (rowbuf0 : Mem) (out : Mem) : Mem :=
  forStep jstart bsz 1 (fun j out =>
    let rptr := j * vsz_a
    let s00 := if cn0 = 0 then bias0 else out (outptr0 + j)
    let s10 := if cn0 = 0 then bias1 else out (outptr1 + j)
    let s := forStep 0 vsz 1 (fun k (s : F32 × F32) =>
      let r0 := rowbuf0 (rptr + k)
      (s.1 + p.weights_.data (wptr0 + k) * r0, s.2 + p.weights_.data (wptr1 + k) * r0)) (s00, s10)
    store (store out (outptr0 + j) s.1) (outptr1 + j) s.2) out

end ParallelConv

/-- Modelled from the spec: the type `v_float32x4` of the universal intrinsics, four
`float` lanes. -/
abbrev v_float32x4 := Fin 4 → F32

/-- Modelled from the spec: the intrinsics `v_load` and `v_load_aligned`; lane `l` is
`m[ptr + l]`. -/
def v_load (m : Mem) (ptr : Nat) : v_float32x4 := fun l => m (ptr + l.val)

/-- Modelled from the spec: the intrinsic `v_setall_f32`. -/
def v_setall_f32 (x : F32) : v_float32x4 := fun _ => x

/-- Modelled from the spec: the intrinsic `v_setzero_f32`. -/
def v_setzero_f32 : v_float32x4 := fun _ => 0

/-- Modelled from the spec: the intrinsic `v_reduce_sum4(a, b, c, d)`; the lanes are the
sums of the lanes of `a`, `b`, `c` and `d`. -/
def v_reduce_sum4 (a b c d : v_float32x4) : v_float32x4 :=
  ![a 0 + a 1 + a 2 + a 3, b 0 + b 1 + b 2 + b 3, c 0 + c 1 + c 2 + c 3, d 0 + d 1 + d 2 + d 3]

/-- Modelled from the spec: the intrinsic `v_store(m + ptr, v)`. -/
def v_store (m : Mem) (ptr : Nat) (v : v_float32x4) : Mem :=
  store (store (store (store m ptr (v 0)) (ptr + 1) (v 1)) (ptr + 2) (v 2)) (ptr + 3) (v 3)

namespace ParallelConv

variable (p : ParallelConv)

/-- Lines 503-544 (`CV_SIMD128`): four positions at a time, `for( ; j <= bsz - 4; j += 4 )`.
The eight accumulators `vs00 .. vs03`, `vs10 .. vs13` are the two components of the
state of the `k` loop, indexed by the position `0 .. 3`. -/
def dotSimd (wptr0 wptr1 outptr0 outptr1 : Nat) (bias0 bias1 : F32)
    (cn0 vsz vsz_a bsz : Nat) (rowbuf0 : Mem) (out : Mem) : Mem :=
  forStep 0 (bsz - 3) 4 (fun j out =>
    let rptr := j * vsz_a
    let s0 := if cn0 = 0 then v_setall_f32 bias0 else v_load out (outptr0 + j)
    let s1 := if cn0 = 0 then v_setall_f32 bias1 else v_load out (outptr1 + j)
    let vs := forStep 0 vsz 4 (fun k (vs : (Fin 4 → v_float32x4) × (Fin 4 → v_float32x4)) =>
      let w0 := v_load p.weights_.data (wptr0 + k)
      let w1 := v_load p.weights_.data (wptr1 + k)
      let r : Fin 4 → v_float32x4 := fun q => v_load rowbuf0 (rptr + k + vsz_a * q.val)
      ((fun q => vs.1 q + w0 * r q), (fun q => vs.2 q + w1 * r q)))
      ((fun _ => v_setzero_f32), (fun _ => v_setzero_f32))
    let s0 := s0 + v_reduce_sum4 (vs.1 0) (vs.1 1) (vs.1 2) (vs.1 3)
    let s1 := s1 + v_reduce_sum4 (vs.2 0) (vs.2 1) (vs.2 2) (vs.2 3)
    v_store (v_store out (outptr0 + j) s0) (outptr1 + j) s1) out

/-- Lines 486-572: the product of the weights with the gathered tile, two output
channels at a time.  After the `CV_SIMD128` loop `j` is `bsz/4*4`. -/
def dotProduct (wptr biasptr data_out0 ofs0 cn0 vsz vsz_a bsz : Nat)
    (rowbuf0 : Mem) (out : Mem) : Mem :=
  forStep 0 p.outCn 2 (fun i out =>
    let wstep := p.weights_.step1
    let wptr0 := wptr + i * wstep
    let wptr1 := wptr0 + wstep
    let outptr0 := data_out0 + ofs0 + i * p.outPlaneSize
    let outptr1 := outptr0 + p.outPlaneSize
    let bias0 := p.biasvec_.getD (biasptr + i) 0
    let bias1 := p.biasvec_.getD (biasptr + (i + 1)) 0
    let wptr1 := if i + 1 ≥ p.outCn then wptr0 else wptr1
    let outptr1 := if i + 1 ≥ p.outCn then outptr0 else outptr1
    let bias1 := if i + 1 ≥ p.outCn then bias0 else bias1
    let out := if p.simd then
        p.dotSimd wptr0 wptr1 outptr0 outptr1 bias0 bias1 cn0 vsz vsz_a bsz rowbuf0 out
      else out
    let j := if p.simd then bsz / 4 * 4 else 0
    p.dotScalar wptr0 wptr1 outptr0 outptr1 bias0 bias1 cn0 vsz vsz_a j bsz rowbuf0 out) out

/-- Lines 412-572: one tile `ofs0 ≤ ofs < min(ofs0 + BLK_SIZE, stripeEnd)` of a channel
block, on the state (row buffer, output): the gather, then the product. -/
def tile (data_inp0 : Int) (data_out0 wptr biasptr cn0 ncn vsz vsz_a stripeEnd ofs0 : Nat)
    (st : Mem × Mem) : Mem × Mem :=
  let ofs1 := min (ofs0 + BLK_SIZE) stripeEnd
  let rowbuf :=
    if p.is1x1_ then p.im2row1x1 data_inp0 cn0 vsz vsz_a ofs0 ofs1 st.1
    else p.im2rowGeneral data_inp0 cn0 ncn vsz vsz_a ofs0 ofs1 st.1
  let bsz := ofs1 - ofs0
  (rowbuf, p.dotProduct wptr biasptr data_out0 ofs0 cn0 vsz vsz_a bsz rowbuf st.2)

/-- Lines 405-573: the block of input channels `cn0 ≤ c < min(cn0 + BLK_SIZE_CN, inpCn)`
over the output positions of the stripe. -/
def channelBlock (data_inp0 : Int) (data_out0 wptr_orig biasptr stripeStart stripeEnd cn0 : Nat)
    (st : Mem × Mem) : Mem × Mem :=
  let cn1 := min (cn0 + BLK_SIZE_CN) p.inpCn
  let ncn := cn1 - cn0
  let vsz := p.karea * ncn
  let vsz_a := alignSize vsz VEC_ALIGN
  let wptr := wptr_orig + cn0 * p.karea
  forStep stripeStart stripeEnd BLK_SIZE (fun ofs0 st =>
    p.tile data_inp0 data_out0 wptr biasptr cn0 ncn vsz vsz_a stripeEnd ofs0 st) st

/-- Lines 392-396: the piece of work of stripe number `stripe`: `none` is the `break`
of line 394, otherwise `(subsampleIdx, stripeStart, stripeEnd)`. -/
def stripeGeom (stripe : Nat) : Option (Nat × Nat × Nat) :=
  let subsampleIdx := stripe / p.stripesPerSample
  if subsampleIdx ≥ p.batchSize then none
  else
    let stripeStart := (stripe - subsampleIdx * p.stripesPerSample) * p.stripeSize
    let stripeEnd := min (stripeStart + p.stripeSize) p.outPlaneSize
    some (subsampleIdx, stripeStart, stripeEnd)

/-- Lines 397-579: the work on one stripe, on the state (row buffer, output). -/
def processStripe (subsampleIdx stripeStart stripeEnd : Nat) (st : Mem × Mem) : Mem × Mem :=
  let data_inp0 : Int := ((subsampleIdx * p.inpPlaneSize * p.inpCn : Nat) : Int)
  let data_out0 := subsampleIdx * p.outPlaneSize * p.outCn
  let startOutCn := (subsampleIdx % p.ngroups_) * p.outCn
  let wptr_orig := p.weights_.step1 * startOutCn
  let biasptr := startOutCn
  let st := forStep 0 p.inpCn BLK_SIZE_CN (fun cn0 st =>
    p.channelBlock data_inp0 data_out0 wptr_orig biasptr stripeStart stripeEnd cn0 st) st
  match p.activ_ with
  | some f =>
    (st.1, forwardSlice f st.2 (data_out0 + stripeStart) (stripeEnd - stripeStart)
      p.outPlaneSize startOutCn (startOutCn + p.outCn))
  | none => st

/-- Lines 390-580: the body of the loop over stripes; `none` is the `break`. -/
def stripeBody (stripe : Nat) (st : Mem × Mem) : Option (Mem × Mem) :=
  (p.stripeGeom stripe).map (fun g => p.processStripe g.1 g.2.1 g.2.2 st)

/-- Lines 332-581: `ParallelConv::operator()` on the range `r0`.  `scratch` is the
content of the freshly allocated row buffer, of which the first
`karea*BLK_SIZE_CN*BLK_SIZE` elements are cleared (line 388). -/
def call (scratch : Mem) (r0 : Range) (out : Mem) : Mem :=
  let r : Range := ⟨r0.start * p.rangeScale, r0.end_ * p.rangeScale⟩
  let rowbufsz := p.karea * BLK_SIZE_CN * BLK_SIZE
  let rowbuf0 := memset0 scratch 0 rowbufsz
  (forBreak r.start r.end_ p.stripeBody (rowbuf0, out)).2

/-- Lines 306-314: the offset table. -/
def makeOfstab (kernel dilation : Size) (ncn height width : Nat) : List Nat :=
  forStep 0 ncn 1 (fun k tab =>
    forStep 0 kernel.height 1 (fun k_r tab =>
      forStep 0 kernel.width 1 (fun k_c tab =>
        tab.set ((k * kernel.height + k_r) * kernel.width + k_c)
          ((k * height + k_r * dilation.height) * width + k_c * dilation.width)) tab) tab)
    (List.replicate (kernel.width * kernel.height * ncn) 0)

/-- Lines 316-328: the bias vector; `bias = []` is the empty `Mat`. -/
def makeBiasvec (bias : List F32) (outCn : Nat) : List F32 :=
  let biasvec : List F32 := List.replicate (outCn + 2) 0
  let biasvec :=
    if bias.isEmpty then forStep 0 outCn 1 (fun k b => b.set k 0) biasvec
    else forStep 0 outCn 1 (fun k b => b.set k (bias.getD k 0)) biasvec
  let v := biasvec.getD (outCn - 1) 0
  (biasvec.set (outCn + 1) v).set outCn v

/-- The members set by `ParallelConv::run` before the parallel loop (lines 289-328). -/
def setup (input : Mat4) (outSize0 outSize1 outSize2 outSize3 : Nat) (weights : Mat2)
    (bias : List F32) (kernel pad stride dilation : Size) (ngroups nstripes : Nat)
    (activ : Option (Nat → F32 → F32)) (simd : Bool) : ParallelConv :=
  let inpCn := input.size1 / ngroups
  let ncn := min inpCn BLK_SIZE_CN
  { input_ := input, weights_ := weights,
    outSize0 := outSize0, outSize1 := outSize1, outSize2 := outSize2, outSize3 := outSize3,
    kernel_ := kernel, pad_ := pad, stride_ := stride, dilation_ := dilation,
    ngroups_ := ngroups, nstripes_ := nstripes,
    ofstab_ := makeOfstab kernel dilation ncn input.size2 input.size3,
    biasvec_ := makeBiasvec bias outSize1,
    activ_ := activ,
    is1x1_ := decide (kernel = Size.mk 0 0 ∧ pad = Size.mk 0 0),
    simd := simd }

/-- Lines 273-330: `ParallelConv::run`.  The result is `none` when the `CV_Assert`
of lines 278-288 fails, and the final output memory otherwise. -/
def run (input : Mat4) (outSize0 outSize1 outSize2 outSize3 : Nat) (out0 : Mem)
    (weights : Mat2) (bias : List F32) (kernel pad stride dilation : Size)
    (ngroups nstripes : Nat) (activ : Option (Nat → F32 → F32)) (simd : Bool)
    (scratch : Mem) (sched : List Range) : Option Mem :=
  if input.size0 = outSize0 ∧ weights.rows = outSize1 ∧
      weights.cols = (input.size1 / ngroups) * kernel.width * kernel.height ∧
      (bias.isEmpty ∨ bias.length = outSize1) then
    let p := setup input outSize0 outSize1 outSize2 outSize3 weights bias kernel pad stride
      dilation ngroups nstripes activ simd
    some (sched.foldl (fun out r => p.call scratch r out) out0)
  else none

end ParallelConv

/-- A continuous `CV_32F` blob of the layer (`blobs[i]`) with its four sizes. -/
structure Blob where
  size0 : Nat
  size1 : Nat
  size2 : Nat
  size3 : Nat
  data : Mem

/-- Modelled from the spec: the method `Mat::total()` of the core library. -/
def Blob.total (b : Blob) : Nat := b.size0 * b.size1 * b.size2 * b.size3

/-- Modelled from the spec: the call `blob.reshape(1, rows)` of the core library on a
continuous blob: the same memory seen as a matrix of `rows` rows. -/
def Blob.reshape (b : Blob) (rows : Nat) : Mat2 :=
  { rows := rows, cols := b.total / rows, step1 := b.total / rows, data := b.data }

/-- The elements of a blob in memory order (the bias handed to `ParallelConv::run`). -/
def Blob.toList (b : Blob) : List F32 := (List.range b.total).map b.data

/-- The members of `ConvolutionLayerImpl` (with those of its base classes) that the
kernels use.  `weightsMat = none` is the empty `Mat` before the first `forward`. -/
structure ConvolutionLayerImpl where
  blobs : List Blob
  kernel : Size
  pad : Size
  stride : Size
  dilation : Size
  padMode : String
  weightsMat : Option Mat2
  activ : Option (Nat → F32 → F32)

namespace ConvolutionLayerImpl

/-- Lines 935-946: the weight matrix prepared on the first call: `wm` itself when its
row stride is a multiple of `VEC_ALIGN`, otherwise a copy into a buffer of
`alignSize(step1, VEC_ALIGN)` columns whose extra columns are set to zero. -/
def alignWeights (wm : Mat2) : Mat2 :=
  if wm.step1 % VEC_ALIGN ≠ 0 then
    let newcols := alignSize wm.step1 VEC_ALIGN
    { rows := wm.rows, cols := wm.cols, step1 := newcols,
      data := fun a =>
        if a % newcols < wm.cols then wm.data (a / newcols * wm.step1 + a % newcols) else 0 }
  else wm

/-- Line 948: `biasesMat`, the bias blob `blobs[1]` when there is one (`rest` are the
blobs after `blobs[0]`) and the empty `Mat` otherwise. -/
def biasList (rest : List Blob) : List F32 :=
  match rest with
  | [] => []
  | b1 :: _ => b1.toList

/-- Lines 921-963: `forward` for one input and one output.  `numThreads` is the value of
`getNumThreads()`.  The result is the layer with its cached weight matrix and the output
memory, or `none` when an assertion fails (or a modulus is taken by zero). -/
def forward (l : ConvolutionLayerImpl) (input : Mat4)
    (outSize0 outSize1 outSize2 outSize3 : Nat) (out0 : Mem) (numThreads : Nat)
    (simd : Bool) (scratch : Mem) (sched : List Range) :
    Option (ConvolutionLayerImpl × Mem) :=
  match l.blobs with
  | [] => none
  | b0 :: rest =>
    if b0.size1 ≠ 0 ∧ input.size1 % b0.size1 = 0 then
      let ngroups := input.size1 / b0.size1
      if ngroups ≠ 0 ∧ outSize1 % ngroups = 0 then
        let outCn := b0.size0
        let weightsMat := match l.weightsMat with
          | some w => w
          | none => alignWeights (b0.reshape outCn)
        let biasesMat : List F32 := biasList rest
        let nstripes := max numThreads 1
        (ParallelConv.run input outSize0 outSize1 outSize2 outSize3 out0 weightsMat biasesMat
          l.kernel l.pad l.stride l.dilation ngroups nstripes l.activ simd scratch sched).map
          (fun out => ({ l with weightsMat := some weightsMat }, out))
      else none
    else none

end ConvolutionLayerImpl

end Nonfinite

/-- The input `[1,1,2,2] = [+Inf, 1, 1, 1]`. -/
def exInfInput : Nonfinite.Mat4 :=
  ⟨1, 1, 2, 2, fun i => if i = 0 then F32.pinf else F32.fin 1⟩

/-- A convolution layer with a 1x1 kernel, unit stride and dilation and no padding, whose
`[1,1,1,1]` weight blob is all zeros and whose bias blob is `[5]`. -/
def exZeroWeightLayer : Nonfinite.ConvolutionLayerImpl :=
  { blobs := [⟨1, 1, 1, 1, fun _ => F32.fin 0⟩, ⟨1, 1, 1, 1, fun _ => F32.fin 5⟩],
    kernel := ⟨1, 1⟩, pad := ⟨0, 0⟩, stride := ⟨1, 1⟩, dilation := ⟨1, 1⟩,
    padMode := "", weightsMat := none, activ := none }

/-! ## Loop rules -/

/-- On a value that is representable as an `int`, the reduction `int32` does nothing. -/
theorem int32_eq (x : Int) (h : IsInt32 x) : int32 x = x := by
  obtain ⟨h1, h2⟩ := h
  unfold int32
  omega

theorem natFold_inv {σ : Type} (P : Nat → σ → Prop) (f : Nat → σ → σ) (n : Nat) (s : σ)
    (h0 : P 0 s) (hstep : ∀ t, t < n → ∀ acc, P t acc → P (t + 1) (f t acc)) :
    P n (Nat.fold f n s) := by
  induction n with
  | zero => simpa [Nat.fold] using h0
  | succ k ih =>
    simp only [Nat.fold]
    exact hstep k (Nat.lt_succ_self k) _ (ih (fun t ht acc hacc => hstep t (Nat.lt_succ_of_lt ht) acc hacc))

theorem forStep_inv {σ : Type} (P : Nat → σ → Prop) (start stop step : Nat)
    (body : Nat → σ → σ) (s : σ) (h0 : P 0 s)
    (hstep : ∀ t, t < iterCount start stop step → ∀ acc, P t acc →
      P (t + 1) (body (start + t * step) acc)) :
    P (iterCount start stop step) (forStep start stop step body s) :=
  natFold_inv P _ _ s h0 hstep

theorem iterCount_one (start stop : Nat) : iterCount start stop 1 = stop - start := by
  simp [iterCount]

/-- Invariant rule for a unit-step loop, indexed by the loop counter. -/
theorem forStep_one_inv {σ : Type} (P : Nat → σ → Prop) (start stop : Nat)
    (body : Nat → σ → σ) (s : σ) (hle : start ≤ stop) (h0 : P start s)
    (hstep : ∀ i, start ≤ i → i < stop → ∀ acc, P i acc → P (i + 1) (body i acc)) :
    P stop (forStep start stop 1 body s) := by
  have h := forStep_inv (fun t acc => P (start + t) acc) start stop 1 body s (by simpa using h0)
    (by
      intro t ht acc hacc
      rw [iterCount_one] at ht
      have := hstep (start + t) (by omega) (by omega) acc hacc
      simpa [Nat.add_assoc] using this)
  rw [iterCount_one] at h
  have e : start + (stop - start) = stop := by omega
  simpa [e] using h

theorem forStep_empty {σ : Type} (start stop step : Nat) (body : Nat → σ → σ) (s : σ)
    (h : stop ≤ start) (hs : 1 ≤ step) : forStep start stop step body s = s := by
  have : (stop - start + step - 1) / step = 0 := by
    have e : stop - start = 0 := by omega
    rw [e]
    apply Nat.div_eq_of_lt
    omega
  simp [forStep, this, Nat.fold]

theorem Upd.refl_empty (v : Nat → ℚ) (m : Mem) : Upd ∅ v m m := by
  intro a; simp

theorem Upd.trans {S T : Set Nat} {v : Nat → ℚ} {m m1 m2 : Mem}
    (h1 : Upd S v m m1) (h2 : Upd T v m1 m2) : Upd (S ∪ T) v m m2 := by
  intro a
  by_cases hT : a ∈ T
  · exact ⟨fun _ => (h2 a).1 hT, fun h => absurd (Or.inr hT) h⟩
  · by_cases hS : a ∈ S
    · exact ⟨fun _ => by rw [(h2 a).2 hT]; exact (h1 a).1 hS, fun h => absurd (Or.inl hS) h⟩
    · exact ⟨fun h => by rcases h with h | h <;> contradiction,
        fun _ => by rw [(h2 a).2 hT]; exact (h1 a).2 hS⟩

theorem Upd.congr_set {S T : Set Nat} {v : Nat → ℚ} {m m1 : Mem}
    (h : Upd S v m m1) (e : ∀ a, a ∈ S ↔ a ∈ T) : Upd T v m m1 := by
  intro a
  exact ⟨fun ha => (h a).1 ((e a).2 ha), fun ha => (h a).2 (fun hs => ha ((e a).1 hs))⟩

theorem upd_store {v : Nat → ℚ} (m : Mem) (i : Nat) (x : ℚ) (hx : x = v i) :
    Upd {i} v m (store m i x) := by
  intro a
  constructor
  · intro ha
    have : a = i := ha
    subst this
    simp [ConvLayer.store, hx]
  · intro ha
    have : a ≠ i := ha
    simp [ConvLayer.store, this]

/-- Rule for a loop whose `t`-th iteration overwrites the addresses `S t` with `v`. -/
theorem forStep_upd (start stop step : Nat) (body : Nat → Mem → Mem) (m0 : Mem)
    (S : Nat → Set Nat) (v : Nat → ℚ)
    (hbody : ∀ t, t < iterCount start stop step → ∀ m,
      Upd {a | ∃ u, u < t ∧ a ∈ S u} v m0 m → Upd (S t) v m (body (start + t * step) m)) :
    Upd {a | ∃ u, u < iterCount start stop step ∧ a ∈ S u} v m0
      (forStep start stop step body m0) := by
  refine forStep_inv (fun t m => Upd {a | ∃ u, u < t ∧ a ∈ S u} v m0 m) start stop step body m0
    ?_ ?_
  · intro a; simp
  · intro t ht m hm
    refine ((hm.trans (hbody t ht m hm)).congr_set ?_)
    intro a
    simp only [Set.mem_union, Set.mem_setOf_eq]
    constructor
    · rintro (⟨u, hu, hau⟩ | h)
      · exact ⟨u, by omega, hau⟩
      · exact ⟨t, by omega, h⟩
    · rintro ⟨u, hu, hau⟩
      by_cases e : u = t
      · subst e; exact Or.inr hau
      · exact Or.inl ⟨u, by omega, hau⟩

theorem dot_kloop (w0 w1 r : Nat → ℚ) (vsz : Nat) (a b : ℚ) :
    forStep 0 vsz 1 (fun k (s : ℚ × ℚ) => (s.1 + w0 k * r k, s.2 + w1 k * r k)) (a, b)
      = (a + ∑ k in Finset.range vsz, w0 k * r k, b + ∑ k in Finset.range vsz, w1 k * r k) := by
  have h := forStep_inv (fun t (s : ℚ × ℚ) =>
      s = (a + ∑ k in Finset.range t, w0 k * r k, b + ∑ k in Finset.range t, w1 k * r k))
    0 vsz 1 (fun k (s : ℚ × ℚ) => (s.1 + w0 k * r k, s.2 + w1 k * r k)) (a, b) (by simp)
    (by
      intro t _ acc hacc
      subst hacc
      simp [Finset.sum_range_succ, add_assoc])
  simpa [iterCount_one] using h

theorem upd_store2 {v : Nat → ℚ} (m : Mem) (a0 a1 : Nat) (x0 x1 : ℚ)
    (h0 : x0 = v a0) (h1 : x1 = v a1) :
    Upd {a | a = a0 ∨ a = a1} v m (store (store m a0 x0) a1 x1) := by
  intro a
  simp only [Set.mem_setOf_eq, ConvLayer.store]
  constructor
  · rintro (h | h)
    · subst h
      by_cases e : a = a1
      · simp [e, h1]
      · simp [e, h0]
    · simp [h, h1]
  · intro h
    have e0 : a ≠ a0 := fun e => h (Or.inl e)
    have e1 : a ≠ a1 := fun e => h (Or.inr e)
    simp [e0, e1]

theorem dotScalar_upd (p : ParallelConv) (wptr0 wptr1 outptr0 outptr1 : Nat) (bias0 bias1 : ℚ)
    (cn0 vsz vsz_a jstart bsz : Nat) (rowbuf0 out : Mem) (v : Nat → ℚ)
    (hsep : outptr1 = outptr0 ∨ outptr0 + bsz ≤ outptr1)
    (hv0 : ∀ j, jstart ≤ j → j < bsz → v (outptr0 + j) =
      (if cn0 = 0 then bias0 else out (outptr0 + j)) +
        ∑ k in Finset.range vsz, p.weights_.data (wptr0 + k) * rowbuf0 (j * vsz_a + k))
    (hv1 : ∀ j, jstart ≤ j → j < bsz → v (outptr1 + j) =
      (if cn0 = 0 then bias1 else out (outptr1 + j)) +
        ∑ k in Finset.range vsz, p.weights_.data (wptr1 + k) * rowbuf0 (j * vsz_a + k)) :
    Upd {a | ∃ j, jstart ≤ j ∧ j < bsz ∧ (a = outptr0 + j ∨ a = outptr1 + j)} v out
      (p.dotScalar wptr0 wptr1 outptr0 outptr1 bias0 bias1 cn0 vsz vsz_a jstart bsz rowbuf0 out) := by
  unfold ParallelConv.dotScalar
  refine (forStep_upd jstart bsz 1 _ out
    (fun t => {a | a = outptr0 + (jstart + t) ∨ a = outptr1 + (jstart + t)}) v ?_).congr_set ?_
  · intro t ht m hm
    rw [iterCount_one] at ht
    simp only [Nat.mul_one]
    have hj1 : jstart ≤ jstart + t := by omega
    have hj2 : jstart + t < bsz := by omega
    have hm0 : m (outptr0 + (jstart + t)) = out (outptr0 + (jstart + t)) := by
      apply (hm _).2
      simp only [Set.mem_setOf_eq, not_exists, not_and, not_or]
      intro u hu
      constructor <;> omega
    have hm1 : m (outptr1 + (jstart + t)) = out (outptr1 + (jstart + t)) := by
      apply (hm _).2
      simp only [Set.mem_setOf_eq, not_exists, not_and, not_or]
      intro u hu
      constructor <;> omega
    have hk := dot_kloop (fun k => p.weights_.data (wptr0 + k))
      (fun k => p.weights_.data (wptr1 + k)) (fun k => rowbuf0 ((jstart + t) * vsz_a + k)) vsz
      (if cn0 = 0 then bias0 else m (outptr0 + (jstart + t)))
      (if cn0 = 0 then bias1 else m (outptr1 + (jstart + t)))
    simp only at hk
    rw [hk]
    apply upd_store2
    · rw [hv0 _ hj1 hj2, hm0]
    · rw [hv1 _ hj1 hj2, hm1]
  · intro a
    simp only [Set.mem_setOf_eq, iterCount_one]
    constructor
    · rintro ⟨u, hu, h⟩
      exact ⟨jstart + u, by omega, by omega, h⟩
    · rintro ⟨j, h1, h2, h⟩
      refine ⟨j - jstart, by omega, ?_⟩
      have : jstart + (j - jstart) = j := by omega
      rw [this]; exact h

theorem v_store_apply (m : Mem) (ptr : Nat) (x : v_float32x4) (t : Nat) :
    v_store m ptr x t =
      if t = ptr then x 0 else if t = ptr + 1 then x 1 else if t = ptr + 2 then x 2
      else if t = ptr + 3 then x 3 else m t := by
  unfold v_store store
  by_cases h3 : t = ptr + 3
  · subst h3; simp
  · by_cases h2 : t = ptr + 2
    · subst h2; simp
    · by_cases h1 : t = ptr + 1
      · subst h1; simp
      · by_cases h0 : t = ptr
        · subst h0; simp
        · simp [h0, h1, h2, h3]

theorem upd_vstore2 {v : Nat → ℚ} (m : Mem) (a0 a1 : Nat) (x0 x1 : v_float32x4)
    (h0 : ∀ q : Fin 4, x0 q = v (a0 + q.val)) (h1 : ∀ q : Fin 4, x1 q = v (a1 + q.val)) :
    Upd {a | ∃ q, q < 4 ∧ (a = a0 + q ∨ a = a1 + q)} v m (v_store (v_store m a0 x0) a1 x1) := by
  intro a
  have e0 := h0 0; have e1 := h0 1; have e2 := h0 2; have e3 := h0 3
  have f0 := h1 0; have f1 := h1 1; have f2 := h1 2; have f3 := h1 3
  simp only [Fin.val_zero, Fin.val_one, Fin.val_two, add_zero] at e0 e1 e2 f0 f1 f2
  have e3' : x0 3 = v (a0 + 3) := e3
  have f3' : x1 3 = v (a1 + 3) := f3
  simp only [Set.mem_setOf_eq, v_store_apply]
  constructor
  · rintro ⟨q, hq, h⟩
    by_cases c0 : a = a1
    · subst c0; simp [f0]
    · by_cases c1 : a = a1 + 1
      · subst c1; simp [f1]
      · by_cases c2 : a = a1 + 2
        · subst c2; simp [f2]
        · by_cases c3 : a = a1 + 3
          · subst c3; simp [f3']
          · have hq0 : a = a0 + q := by
              rcases h with h | h
              · exact h
              · exfalso; omega
            simp only [c0, c1, c2, c3, if_false]
            by_cases d0 : a = a0
            · subst d0; simp [e0]
            · by_cases d1 : a = a0 + 1
              · subst d1; simp [e1]
              · by_cases d2 : a = a0 + 2
                · subst d2; simp [e2]
                · have d3 : a = a0 + 3 := by omega
                  subst d3; simp [e3']
  · intro h
    have hh : ∀ q, q < 4 → a ≠ a0 + q ∧ a ≠ a1 + q := by
      intro q hq
      constructor
      · intro e; exact h ⟨q, hq, Or.inl e⟩
      · intro e; exact h ⟨q, hq, Or.inr e⟩
    have g0 := hh 0 (by omega); have g1 := hh 1 (by omega)
    have g2 := hh 2 (by omega); have g3 := hh 3 (by omega)
    simp only [add_zero] at g0
    simp [g0.1, g0.2, g1.1, g1.2, g2.1, g2.2, g3.1, g3.2]

theorem sum_range_four_mul (f : Nat → ℚ) (n : Nat) :
    ∑ k in Finset.range (n * 4), f k =
      ∑ t in Finset.range n, (f (t * 4) + f (t * 4 + 1) + f (t * 4 + 2) + f (t * 4 + 3)) := by
  induction n with
  | zero => simp
  | succ n ih =>
    have : (n + 1) * 4 = n * 4 + 1 + 1 + 1 + 1 := by ring
    rw [this, Finset.sum_range_succ, Finset.sum_range_succ, Finset.sum_range_succ,
      Finset.sum_range_succ, ih, Finset.sum_range_succ]
    ring

theorem simd_kloop2 (W rb : Mem) (wptr0 wptr1 rptr vsz_a vsz : Nat) :
    forStep 0 vsz 4 (fun k (vs : (Fin 4 → v_float32x4) × (Fin 4 → v_float32x4)) =>
      let w0 := v_load W (wptr0 + k)
      let w1 := v_load W (wptr1 + k)
      let r : Fin 4 → v_float32x4 := fun q => v_load rb (rptr + k + vsz_a * q.val)
      ((fun q => vs.1 q + w0 * r q), (fun q => vs.2 q + w1 * r q)))
      ((fun _ => v_setzero_f32), (fun _ => v_setzero_f32))
      = ((fun q l => ∑ t in Finset.range ((vsz + 3) / 4),
            W (wptr0 + t * 4 + l.val) * rb (rptr + t * 4 + vsz_a * q.val + l.val)),
         (fun q l => ∑ t in Finset.range ((vsz + 3) / 4),
            W (wptr1 + t * 4 + l.val) * rb (rptr + t * 4 + vsz_a * q.val + l.val))) := by
  have h := forStep_inv (fun n (vs : (Fin 4 → v_float32x4) × (Fin 4 → v_float32x4)) =>
      vs = ((fun q l => ∑ t in Finset.range n,
            W (wptr0 + t * 4 + l.val) * rb (rptr + t * 4 + vsz_a * q.val + l.val)),
         (fun q l => ∑ t in Finset.range n,
            W (wptr1 + t * 4 + l.val) * rb (rptr + t * 4 + vsz_a * q.val + l.val))))
    0 vsz 4 (fun k (vs : (Fin 4 → v_float32x4) × (Fin 4 → v_float32x4)) =>
      let w0 := v_load W (wptr0 + k)
      let w1 := v_load W (wptr1 + k)
      let r : Fin 4 → v_float32x4 := fun q => v_load rb (rptr + k + vsz_a * q.val)
      ((fun q => vs.1 q + w0 * r q), (fun q => vs.2 q + w1 * r q)))
    ((fun _ => v_setzero_f32), (fun _ => v_setzero_f32))
    (by simp [v_setzero_f32]; constructor)
    (by
      intro t _ acc hacc
      subst hacc
      simp only [Nat.zero_add]
      refine Prod.ext ?_ ?_
      · funext q l
        simp [Finset.sum_range_succ, v_load]
      · funext q l
        simp [Finset.sum_range_succ, v_load])
  have e : iterCount 0 vsz 4 = (vsz + 3) / 4 := by simp [iterCount]
  rw [e] at h
  exact h

theorem lane_sum (w rb : Nat → ℚ) (n wp rp : Nat) :
    (∑ t in Finset.range n, w (wp + t * 4 + 0) * rb (rp + t * 4 + 0)) +
    (∑ t in Finset.range n, w (wp + t * 4 + 1) * rb (rp + t * 4 + 1)) +
    (∑ t in Finset.range n, w (wp + t * 4 + 2) * rb (rp + t * 4 + 2)) +
    (∑ t in Finset.range n, w (wp + t * 4 + 3) * rb (rp + t * 4 + 3))
    = ∑ k in Finset.range (n * 4), w (wp + k) * rb (rp + k) := by
  rw [sum_range_four_mul, ← Finset.sum_add_distrib, ← Finset.sum_add_distrib,
    ← Finset.sum_add_distrib]
  apply Finset.sum_congr rfl
  intro x _
  simp only [Nat.add_assoc, add_zero]

theorem reduce_sum4_rows (F : Fin 4 → v_float32x4) (q : Fin 4) :
    v_reduce_sum4 (F 0) (F 1) (F 2) (F 3) q = F q 0 + F q 1 + F q 2 + F q 3 := by
  fin_cases q <;> rfl

theorem dotSimd_upd (p : ParallelConv) (wptr0 wptr1 outptr0 outptr1 : Nat) (bias0 bias1 : ℚ)
    (cn0 vsz vsz_a bsz : Nat) (rowbuf0 out : Mem) (v : Nat → ℚ)
    (hsep : outptr1 = outptr0 ∨ outptr0 + bsz ≤ outptr1)
    (hv0 : ∀ j, j < bsz / 4 * 4 → v (outptr0 + j) =
      (if cn0 = 0 then bias0 else out (outptr0 + j)) +
        ∑ k in Finset.range ((vsz + 3) / 4 * 4),
          p.weights_.data (wptr0 + k) * rowbuf0 (j * vsz_a + k))
    (hv1 : ∀ j, j < bsz / 4 * 4 → v (outptr1 + j) =
      (if cn0 = 0 then bias1 else out (outptr1 + j)) +
        ∑ k in Finset.range ((vsz + 3) / 4 * 4),
          p.weights_.data (wptr1 + k) * rowbuf0 (j * vsz_a + k)) :
    Upd {a | ∃ j, j < bsz / 4 * 4 ∧ (a = outptr0 + j ∨ a = outptr1 + j)} v out
      (p.dotSimd wptr0 wptr1 outptr0 outptr1 bias0 bias1 cn0 vsz vsz_a bsz rowbuf0 out) := by
  unfold ParallelConv.dotSimd
  have hcnt : iterCount 0 (bsz - 3) 4 = bsz / 4 := by
    unfold iterCount; omega
  refine (forStep_upd 0 (bsz - 3) 4 _ out
    (fun t => {a | ∃ q, q < 4 ∧ (a = outptr0 + t * 4 + q ∨ a = outptr1 + t * 4 + q)}) v ?_).congr_set ?_
  · intro t ht m hm
    rw [hcnt] at ht
    simp only [Nat.zero_add]
    have hfr0 : ∀ q, q < 4 → m (outptr0 + t * 4 + q) = out (outptr0 + t * 4 + q) := by
      intro q hq
      apply (hm _).2
      simp only [Set.mem_setOf_eq, not_exists, not_and, not_or]
      intro u hu q' hq'
      constructor <;> omega
    have hfr1 : ∀ q, q < 4 → m (outptr1 + t * 4 + q) = out (outptr1 + t * 4 + q) := by
      intro q hq
      apply (hm _).2
      simp only [Set.mem_setOf_eq, not_exists, not_and, not_or]
      intro u hu q' hq'
      constructor <;> omega
    rw [simd_kloop2]
    have h3 : ((3 : Fin 4) : Nat) = 3 := rfl
    apply upd_vstore2
    · intro q
      have hq : q.val < 4 := q.isLt
      have hseed : (if cn0 = 0 then v_setall_f32 bias0 else v_load m (outptr0 + t * 4)) q =
          if cn0 = 0 then bias0 else out (outptr0 + (t * 4 + q.val)) := by
        split_ifs
        · rfl
        · simp only [v_load]; rw [hfr0 q.val hq, Nat.add_assoc]
      rw [Nat.add_assoc, hv0 (t * 4 + q.val) (by omega), Pi.add_apply, hseed, reduce_sum4_rows]
      congr 1
      have haddr : ∀ x l, t * 4 * vsz_a + x * 4 + vsz_a * q.val + l =
          ((t * 4 + q.val) * vsz_a) + x * 4 + l := by intros; ring
      simp only [haddr, Fin.val_zero, Fin.val_one, Fin.val_two, h3]
      exact lane_sum p.weights_.data rowbuf0 ((vsz + 3) / 4) wptr0 ((t * 4 + q.val) * vsz_a)
    · intro q
      have hq : q.val < 4 := q.isLt
      have hseed : (if cn0 = 0 then v_setall_f32 bias1 else v_load m (outptr1 + t * 4)) q =
          if cn0 = 0 then bias1 else out (outptr1 + (t * 4 + q.val)) := by
        split_ifs
        · rfl
        · simp only [v_load]; rw [hfr1 q.val hq, Nat.add_assoc]
      rw [Nat.add_assoc, hv1 (t * 4 + q.val) (by omega), Pi.add_apply, hseed, reduce_sum4_rows]
      congr 1
      have haddr : ∀ x l, t * 4 * vsz_a + x * 4 + vsz_a * q.val + l =
          ((t * 4 + q.val) * vsz_a) + x * 4 + l := by intros; ring
      simp only [haddr, Fin.val_zero, Fin.val_one, Fin.val_two, h3]
      exact lane_sum p.weights_.data rowbuf0 ((vsz + 3) / 4) wptr1 ((t * 4 + q.val) * vsz_a)
  · intro a
    simp only [Set.mem_setOf_eq, hcnt]
    constructor
    · rintro ⟨u, hu, q, hq, h⟩
      exact ⟨u * 4 + q, by omega, by omega⟩
    · rintro ⟨j, h1, h⟩
      exact ⟨j / 4, by omega, j % 4, by omega, by omega⟩

theorem idx_inj {P i i1 j j1 : Nat} (hj : j < P) (hj1 : j1 < P) (h : i * P + j = i1 * P + j1) :
    i = i1 ∧ j = j1 := by
  have hP : 0 < P := by omega
  have h1 : (i * P + j) / P = i := by
    rw [Nat.add_comm, Nat.add_mul_div_right _ _ hP, Nat.div_eq_of_lt hj, Nat.zero_add]
  have h2 : (i1 * P + j1) / P = i1 := by
    rw [Nat.add_comm, Nat.add_mul_div_right _ _ hP, Nat.div_eq_of_lt hj1, Nat.zero_add]
  have e : i = i1 := by rw [← h1, ← h2, h]
  subst e
  exact ⟨rfl, by omega⟩

theorem idx_ne {P i i1 j j1 : Nat} (hj : j < P) (hj1 : j1 < P) (hne : i ≠ i1) :
    i * P + j ≠ i1 * P + j1 := fun h => hne (idx_inj hj hj1 h).1

theorem sum_pad_eq (f : Nat → ℚ) (n n1 : Nat) (hle : n ≤ n1)
    (hz : ∀ k, n ≤ k → k < n1 → f k = 0) :
    ∑ k in Finset.range n1, f k = ∑ k in Finset.range n, f k := by
  obtain ⟨d, rfl⟩ := Nat.exists_eq_add_of_le hle
  rw [Finset.sum_range_add]
  have : ∑ x in Finset.range d, f (n + x) = 0 := by
    apply Finset.sum_eq_zero
    intro x hx
    exact hz _ (by omega) (by have := Finset.mem_range.1 hx; omega)
  rw [this, add_zero]

theorem dotPair_upd (p : ParallelConv) (wptr0 wptr1 outptr0 outptr1 : Nat) (bias0 bias1 : ℚ)
    (cn0 vsz vsz_a bsz : Nat) (rowbuf0 m : Mem) (v : Nat → ℚ)
    (hsep : outptr1 = outptr0 ∨ outptr0 + bsz ≤ outptr1)
    (hpad0 : p.simd = true → ∀ k, vsz ≤ k → k < (vsz + 3) / 4 * 4 →
      p.weights_.data (wptr0 + k) = 0)
    (hpad1 : p.simd = true → ∀ k, vsz ≤ k → k < (vsz + 3) / 4 * 4 →
      p.weights_.data (wptr1 + k) = 0)
    (hv0 : ∀ j, j < bsz → v (outptr0 + j) =
      (if cn0 = 0 then bias0 else m (outptr0 + j)) +
        ∑ k in Finset.range vsz, p.weights_.data (wptr0 + k) * rowbuf0 (j * vsz_a + k))
    (hv1 : ∀ j, j < bsz → v (outptr1 + j) =
      (if cn0 = 0 then bias1 else m (outptr1 + j)) +
        ∑ k in Finset.range vsz, p.weights_.data (wptr1 + k) * rowbuf0 (j * vsz_a + k)) :
    Upd {a | ∃ j, j < bsz ∧ (a = outptr0 + j ∨ a = outptr1 + j)} v m
      (p.dotScalar wptr0 wptr1 outptr0 outptr1 bias0 bias1 cn0 vsz vsz_a
        (if p.simd then bsz / 4 * 4 else 0) bsz rowbuf0
        (if p.simd then
          p.dotSimd wptr0 wptr1 outptr0 outptr1 bias0 bias1 cn0 vsz vsz_a bsz rowbuf0 m
        else m)) := by
  cases hs : p.simd
  · simp only [Bool.false_eq_true, if_false]
    refine (dotScalar_upd p wptr0 wptr1 outptr0 outptr1 bias0 bias1 cn0 vsz vsz_a 0 bsz rowbuf0
      m v hsep (fun j _ hj => hv0 j hj) (fun j _ hj => hv1 j hj)).congr_set ?_
    intro a
    simp only [Set.mem_setOf_eq]
    constructor
    · rintro ⟨j, _, h⟩; exact ⟨j, h⟩
    · rintro ⟨j, h⟩; exact ⟨j, Nat.zero_le _, h⟩
  · simp only [if_true]
    have hle : vsz ≤ (vsz + 3) / 4 * 4 := by omega
    have hsimd := dotSimd_upd p wptr0 wptr1 outptr0 outptr1 bias0 bias1 cn0 vsz vsz_a bsz
      rowbuf0 m v hsep
      (by
        intro j hj
        rw [hv0 j (by omega)]
        congr 1
        exact (sum_pad_eq _ _ _ hle (fun k h1 h2 => by rw [hpad0 hs k h1 h2, zero_mul])).symm)
      (by
        intro j hj
        rw [hv1 j (by omega)]
        congr 1
        exact (sum_pad_eq _ _ _ hle (fun k h1 h2 => by rw [hpad1 hs k h1 h2, zero_mul])).symm)
    have hscal := dotScalar_upd p wptr0 wptr1 outptr0 outptr1 bias0 bias1 cn0 vsz vsz_a
      (bsz / 4 * 4) bsz rowbuf0
      (p.dotSimd wptr0 wptr1 outptr0 outptr1 bias0 bias1 cn0 vsz vsz_a bsz rowbuf0 m) v hsep
      (by
        intro j h1 h2
        rw [hv0 j h2, (hsimd _).2]
        simp only [Set.mem_setOf_eq, not_exists, not_and, not_or]
        intro j1 hj1
        constructor <;> omega)
      (by
        intro j h1 h2
        rw [hv1 j h2, (hsimd _).2]
        simp only [Set.mem_setOf_eq, not_exists, not_and, not_or]
        intro j1 hj1
        constructor <;> omega)
    refine (hsimd.trans hscal).congr_set ?_
    intro a
    simp only [Set.mem_union, Set.mem_setOf_eq]
    constructor
    · rintro (⟨j, hj, h⟩ | ⟨j, _, hj, h⟩)
      · exact ⟨j, by omega, h⟩
      · exact ⟨j, hj, h⟩
    · rintro ⟨j, hj, h⟩
      by_cases c : j < bsz / 4 * 4
      · exact Or.inl ⟨j, c, h⟩
      · exact Or.inr ⟨j, by omega, hj, h⟩

theorem dotProduct_upd (p : ParallelConv) (wptr biasptr data_out0 ofs0 cn0 vsz vsz_a bsz : Nat)
    (rowbuf0 out : Mem) (v : Nat → ℚ)
    (hbsz : ofs0 + bsz ≤ p.outPlaneSize)
    (hpadW : p.simd = true → ∀ i, i < p.outCn → ∀ k, vsz ≤ k → k < (vsz + 3) / 4 * 4 →
      p.weights_.data (wptr + i * p.weights_.step1 + k) = 0)
    (hv : ∀ i j, i < p.outCn → j < bsz → v (data_out0 + ofs0 + i * p.outPlaneSize + j) =
      (if cn0 = 0 then p.biasvec_.getD (biasptr + i) 0
        else out (data_out0 + ofs0 + i * p.outPlaneSize + j)) +
        ∑ k in Finset.range vsz,
          p.weights_.data (wptr + i * p.weights_.step1 + k) * rowbuf0 (j * vsz_a + k)) :
    Upd {a | ∃ i j, i < p.outCn ∧ j < bsz ∧ a = data_out0 + ofs0 + i * p.outPlaneSize + j} v out
      (p.dotProduct wptr biasptr data_out0 ofs0 cn0 vsz vsz_a bsz rowbuf0 out) := by
  unfold ParallelConv.dotProduct
  have hcnt : iterCount 0 p.outCn 2 = (p.outCn + 1) / 2 := by
    unfold iterCount; omega
  refine (forStep_upd 0 p.outCn 2 _ out
    (fun t => {a | ∃ i j, (i = t * 2 ∨ i = t * 2 + 1) ∧ i < p.outCn ∧ j < bsz ∧
      a = data_out0 + ofs0 + i * p.outPlaneSize + j}) v ?_).congr_set ?_
  · intro t ht m hm
    rw [hcnt] at ht
    simp only [Nat.zero_add]
    have hi : t * 2 < p.outCn := by omega
    -- untouched addresses of this pair still hold the original values
    have hfr : ∀ i j, (i = t * 2 ∨ i = t * 2 + 1) → j < bsz →
        m (data_out0 + ofs0 + i * p.outPlaneSize + j) =
          out (data_out0 + ofs0 + i * p.outPlaneSize + j) := by
      intro i j hi2 hj
      apply (hm _).2
      simp only [Set.mem_setOf_eq, not_exists, not_and]
      intro u hu i1 j1 hi1 _ hj1 e
      have := @idx_ne p.outPlaneSize i i1 (ofs0 + j) (ofs0 + j1) (by omega) (by omega) (by omega)
      omega
    -- values of the pair in terms of the memory at the start of the pair
    have hvm : ∀ i j, (i = t * 2 ∨ i = t * 2 + 1) → i < p.outCn → j < bsz →
        v (data_out0 + ofs0 + i * p.outPlaneSize + j) =
        (if cn0 = 0 then p.biasvec_.getD (biasptr + i) 0
          else m (data_out0 + ofs0 + i * p.outPlaneSize + j)) +
        ∑ k in Finset.range vsz,
          p.weights_.data (wptr + i * p.weights_.step1 + k) * rowbuf0 (j * vsz_a + k) := by
      intro i j hi2 hic hj
      rw [hv i j hic hj, hfr i j hi2 hj]
    by_cases hlast : t * 2 + 1 ≥ p.outCn
    · simp only [hlast, if_true]
      refine (dotPair_upd p _ _ _ _ _ _ cn0 vsz vsz_a bsz rowbuf0 m v (Or.inl rfl)
        (fun hs k h1 h2 => hpadW hs _ hi k h1 h2) (fun hs k h1 h2 => hpadW hs _ hi k h1 h2)
        (fun j hj => hvm _ j (Or.inl rfl) hi hj)
        (fun j hj => hvm _ j (Or.inl rfl) hi hj)).congr_set ?_
      intro a
      simp only [Set.mem_setOf_eq]
      constructor
      · rintro ⟨j, hj, h⟩
        exact ⟨t * 2, j, Or.inl rfl, hi, hj, by omega⟩
      · rintro ⟨i, j, hi2, hic, hj, h⟩
        have : i = t * 2 := by omega
        subst this
        exact ⟨j, hj, Or.inl h⟩
    · simp only [hlast, if_false]
      have hi1 : t * 2 + 1 < p.outCn := by omega
      have hP : (t * 2 + 1) * p.outPlaneSize = t * 2 * p.outPlaneSize + p.outPlaneSize := by ring
      have hW : (t * 2 + 1) * p.weights_.step1 = t * 2 * p.weights_.step1 + p.weights_.step1 := by
        ring
      refine (dotPair_upd p _ _ _ _ _ _ cn0 vsz vsz_a bsz rowbuf0 m v (Or.inr (by omega))
        (fun hs k h1 h2 => hpadW hs _ hi k h1 h2)
        (fun hs k h1 h2 => by
          have := hpadW hs _ hi1 k h1 h2
          rw [hW, ← Nat.add_assoc] at this
          exact this)
        (fun j hj => hvm _ j (Or.inl rfl) hi hj)
        (fun j hj => by
          have := hvm _ j (Or.inr rfl) hi1 hj
          simp only [hW, hP, ← Nat.add_assoc] at this
          exact this)).congr_set ?_
      intro a
      simp only [Set.mem_setOf_eq]
      constructor
      · rintro ⟨j, hj, h | h⟩
        · exact ⟨t * 2, j, Or.inl rfl, hi, hj, h⟩
        · exact ⟨t * 2 + 1, j, Or.inr rfl, hi1, hj, by rw [hP]; omega⟩
      · rintro ⟨i, j, hi2 | hi2, hic, hj, h⟩
        · subst hi2; exact ⟨j, hj, Or.inl h⟩
        · subst hi2; exact ⟨j, hj, Or.inr (by rw [hP] at h; omega)⟩
  · intro a
    simp only [Set.mem_setOf_eq, hcnt]
    constructor
    · rintro ⟨u, hu, i, j, hi2, hic, hj, h⟩
      exact ⟨i, j, hic, hj, h⟩
    · rintro ⟨i, j, hic, hj, h⟩
      exact ⟨i / 2, by omega, i, j, by omega, hic, hj, h⟩

/-! ## Index arithmetic -/

theorem enc_mod {kw : Nat} (q j : Nat) (hj : j < kw) : (q * kw + j) % kw = j := by
  rw [Nat.add_comm, Nat.add_mul_mod_self_right, Nat.mod_eq_of_lt hj]

theorem enc_div {kw : Nat} (q j : Nat) (hj : j < kw) : (q * kw + j) / kw = q := by
  have hP : 0 < kw := by omega
  rw [Nat.add_comm, Nat.add_mul_div_right _ _ hP, Nat.div_eq_of_lt hj, Nat.zero_add]

theorem enc_lt {a b q j : Nat} (hq : q < a) (hj : j < b) : q * b + j < a * b := by
  have : (q + 1) * b ≤ a * b := Nat.mul_le_mul_right b hq
  have e : (q + 1) * b = q * b + b := by ring
  omega

theorem dec_enc {kh kw : Nat} (t : Nat) :
    (t / kw / kh * kh + t / kw % kh) * kw + t % kw = t := by
  rw [Nat.div_add_mod' (t / kw) kh, Nat.div_add_mod' t kw]

theorem dec_lt {n kh kw t : Nat} (ht : t < kw * kh * n) :
    t / kw / kh < n ∧ t / kw % kh < kh ∧ t % kw < kw := by
  have hkw : 0 < kw := by
    rcases Nat.eq_zero_or_pos kw with h | h
    · subst h; simp at ht
    · exact h
  have hkh : 0 < kh := by
    rcases Nat.eq_zero_or_pos kh with h | h
    · subst h; simp at ht
    · exact h
  refine ⟨?_, Nat.mod_lt _ hkh, Nat.mod_lt _ hkw⟩
  rw [Nat.div_div_eq_div_mul]
  apply Nat.div_lt_of_lt_mul
  calc t < kw * kh * n := ht
    _ = kw * kh * n := rfl

/-! ## Truncating division in the window clamps -/

theorem tdiv_ceil_le (n d : Int) (hd : 1 ≤ d) (i : Nat) :
    (max 0 ((n + d - 1).tdiv d)).toNat ≤ i ↔ n ≤ i * d := by
  by_cases hn : 0 ≤ n + d - 1
  · rw [Int.tdiv_eq_ediv hn (by omega)]
    have h1 : (n + d - 1) / d * d ≤ n + d - 1 := Int.ediv_mul_le _ (by omega)
    have h2 : n + d - 1 < ((n + d - 1) / d + 1) * d := Int.lt_ediv_add_one_mul_self _ (by omega)
    constructor
    · intro h
      have h3 : (n + d - 1) / d ≤ i := by omega
      have h4 : ((n + d - 1) / d + 1) * d ≤ (i + 1) * d :=
        Int.mul_le_mul_of_nonneg_right (by omega) (by omega)
      nlinarith
    · intro h
      have h3 : (n + d - 1) / d ≤ i := by
        by_contra hc
        have h5 : ((i : Int) + 1) * d ≤ (n + d - 1) / d * d :=
          Int.mul_le_mul_of_nonneg_right (by omega) (by omega)
        nlinarith
      omega
  · have h0 : (n + d - 1).tdiv d ≤ 0 := by
      have : (n + d - 1).tdiv d = -((-(n + d - 1)).tdiv d) := by
        rw [Int.neg_tdiv, Int.neg_neg]
      rw [this]
      have : 0 ≤ (-(n + d - 1)).tdiv d := Int.tdiv_nonneg (by omega) (by omega)
      omega
    have hi : (0 : Int) ≤ i * d := by positivity
    constructor
    · intro _; omega
    · intro _
      have : max 0 ((n + d - 1).tdiv d) = 0 := by omega
      rw [this]; simp

theorem tdiv_ceil_lt (n d : Int) (hd : 1 ≤ d) (c : Nat) (i : Nat) :
    i < (min (c : Int) ((n + d - 1).tdiv d)).toNat ↔ i < c ∧ (i : Int) * d < n := by
  by_cases hn : 0 ≤ n + d - 1
  · rw [Int.tdiv_eq_ediv hn (by omega)]
    have h1 : (n + d - 1) / d * d ≤ n + d - 1 := Int.ediv_mul_le _ (by omega)
    have h2 : n + d - 1 < ((n + d - 1) / d + 1) * d := Int.lt_ediv_add_one_mul_self _ (by omega)
    constructor
    · intro h
      have h3 : (i : Int) + 1 ≤ (n + d - 1) / d := by omega
      have h4 : ((i : Int) + 1) * d ≤ (n + d - 1) / d * d :=
        Int.mul_le_mul_of_nonneg_right h3 (by omega)
      refine ⟨by omega, by nlinarith⟩
    · rintro ⟨hc, h⟩
      have h3 : (i : Int) + 1 ≤ (n + d - 1) / d := by
        by_contra hc2
        have h5 : ((n + d - 1) / d + 1) * d ≤ ((i : Int) + 1) * d :=
          Int.mul_le_mul_of_nonneg_right (by omega) (by omega)
        nlinarith
      omega
  · have h0 : (n + d - 1).tdiv d ≤ 0 := by
      have : (n + d - 1).tdiv d = -((-(n + d - 1)).tdiv d) := by
        rw [Int.neg_tdiv, Int.neg_neg]
      rw [this]
      have : 0 ≤ (-(n + d - 1)).tdiv d := Int.tdiv_nonneg (by omega) (by omega)
      omega
    have hi : (0 : Int) ≤ i * d := by positivity
    constructor
    · intro h; omega
    · rintro ⟨_, h⟩; omega

theorem gatherRow_interior (p : ParallelConv) (vsz rowbuf : Nat)
    (imgptr : Int) (rb : Mem) :
    Upd {a | rowbuf ≤ a ∧ a < rowbuf + vsz}
      (fun a => p.input_.data (imgptr + (p.ofstab_.getD (a - rowbuf) 0 : Nat))) rb
      (forStep 0 vsz 1 (fun k rb =>
        store rb (rowbuf + k) (p.input_.data (imgptr + (p.ofstab_.getD k 0 : Nat)))) rb) := by
  refine (forStep_upd 0 vsz 1 _ rb (fun t => {a | a = rowbuf + t}) _ ?_).congr_set ?_
  · intro t _ m _
    simp only [Nat.zero_add, Nat.mul_one]
    refine (upd_store m (rowbuf + t) _ ?_).congr_set ?_
    · simp
    · intro a; simp
  · intro a
    simp only [Set.mem_setOf_eq, iterCount_one, Nat.sub_zero]
    constructor
    · rintro ⟨u, hu, h⟩; omega
    · rintro ⟨h1, h2⟩; exact ⟨a - rowbuf, by omega, by omega⟩

/-- Rule for a unit-step loop whose iteration `i` overwrites the addresses `S i` with `v`. -/
theorem forStep_one_upd (start stop : Nat) (body : Nat → Mem → Mem) (m0 : Mem)
    (S : Nat → Set Nat) (v : Nat → ℚ)
    (hbody : ∀ i, start ≤ i → i < stop → ∀ m, Upd (S i) v m (body i m)) :
    Upd {a | ∃ i, start ≤ i ∧ i < stop ∧ a ∈ S i} v m0 (forStep start stop 1 body m0) := by
  refine (forStep_upd start stop 1 body m0 (fun t => S (start + t)) v ?_).congr_set ?_
  · intro t ht m _
    rw [iterCount_one] at ht
    simp only [Nat.mul_one]
    exact hbody _ (by omega) (by omega) m
  · intro a
    simp only [Set.mem_setOf_eq, iterCount_one]
    constructor
    · rintro ⟨u, hu, h⟩; exact ⟨start + u, by omega, by omega, h⟩
    · rintro ⟨i, h1, h2, h⟩
      refine ⟨i - start, by omega, ?_⟩
      have : start + (i - start) = i := by omega
      rw [this]; exact h

theorem gatherRow_copy (X : Int → ℚ) (imgptr : Int) (dh dw W H : Int) (kh kw : Nat)
    (rowbuf ncn i0 i1 j0 j1 : Nat) (rb : Mem) (v : Nat → ℚ)
    (hv : ∀ k i j, k < ncn → i0 ≤ i → i < i1 → j0 ≤ j → j < j1 →
      v (rowbuf + ((k * kh + i) * kw + j)) =
        X (imgptr + (k : Int) * (W * H) + ((i : Int) * (dh * W) + (j : Int) * dw))) :
    Upd {a | ∃ k i j, k < ncn ∧ i0 ≤ i ∧ i < i1 ∧ j0 ≤ j ∧ j < j1 ∧
        a = rowbuf + ((k * kh + i) * kw + j)} v rb
      (forStep 0 ncn 1 (fun k rb =>
        let imgptr : Int := imgptr + (k : Int) * (W * H)
        forStep i0 i1 1 (fun i rb =>
          forStep j0 j1 1 (fun j rb =>
            let imgofs : Int := (i : Int) * (dh * W) + (j : Int) * dw
            store rb (rowbuf + ((k * kh + i) * kw + j)) (X (imgptr + imgofs))) rb) rb) rb) := by
  refine (forStep_one_upd 0 ncn _ rb
    (fun k => {a | ∃ i j, i0 ≤ i ∧ i < i1 ∧ j0 ≤ j ∧ j < j1 ∧
        a = rowbuf + ((k * kh + i) * kw + j)}) v ?_).congr_set ?_
  · intro k _ hk m
    refine (forStep_one_upd i0 i1 _ m
      (fun i => {a | ∃ j, j0 ≤ j ∧ j < j1 ∧ a = rowbuf + ((k * kh + i) * kw + j)}) v ?_).congr_set ?_
    · intro i hi0 hi1 m
      refine (forStep_one_upd j0 j1 _ m
        (fun j => {a | a = rowbuf + ((k * kh + i) * kw + j)}) v ?_).congr_set ?_
      · intro j hj0 hj1 m
        exact upd_store m _ _ (hv k i j hk hi0 hi1 hj0 hj1).symm
      · intro a; simp only [Set.mem_setOf_eq]
    · intro a
      simp only [Set.mem_setOf_eq]
      constructor
      · rintro ⟨i, h1, h2, j, h⟩; exact ⟨i, j, h1, h2, h⟩
      · rintro ⟨i, j, h1, h2, h⟩; exact ⟨i, h1, h2, j, h⟩
  · intro a
    simp only [Set.mem_setOf_eq]
    constructor
    · rintro ⟨k, _, hk, i, j, h⟩; exact ⟨k, i, j, hk, h⟩
    · rintro ⟨k, i, j, hk, h⟩; exact ⟨k, Nat.zero_le _, hk, i, j, h⟩

theorem gatherRow_spec (p : ParallelConv) (data_inp0 : Int) (cn0 ncn vsz vsz_a ofs0 ofs : Nat)
    (rb : Mem) (hdh : 1 ≤ p.dilation_.height) (hdw : 1 ≤ p.dilation_.width)
    (hvsz : vsz = p.karea * ncn) (hof : p.OfstabOK ncn) :
    (∀ k i j, k < ncn → i < p.kernel_.height → j < p.kernel_.width →
      p.gatherRow data_inp0 cn0 ncn vsz vsz_a ofs0 ofs rb
        ((ofs - ofs0) * vsz_a + ((k * p.kernel_.height + i) * p.kernel_.width + j)) =
      p.tapVal data_inp0 ofs (cn0 + k) i j) ∧
    (∀ a, (a < (ofs - ofs0) * vsz_a ∨ (ofs - ofs0) * vsz_a + vsz ≤ a) →
      p.gatherRow data_inp0 cn0 ncn vsz vsz_a ofs0 ofs rb a = rb a) := by
  have henc : ∀ k i j, k < ncn → i < p.kernel_.height → j < p.kernel_.width →
      (k * p.kernel_.height + i) * p.kernel_.width + j < vsz := by
    intro k i j hk hi hj
    have h1 := enc_lt hk hi
    have h2 := enc_lt h1 hj
    rw [hvsz, ParallelConv.karea]
    calc _ < ncn * p.kernel_.height * p.kernel_.width := h2
      _ = p.kernel_.width * p.kernel_.height * ncn := by ring
  have hdhZ : (1 : Int) ≤ (p.dilation_.height : Int) := by exact_mod_cast hdh
  have hdwZ : (1 : Int) ≤ (p.dilation_.width : Int) := by exact_mod_cast hdw
  unfold ParallelConv.gatherRow
  dsimp only
  split_ifs with hint
  · -- interior: every tap is inside the image
    have hU := gatherRow_interior p vsz ((ofs - ofs0) * vsz_a)
      (data_inp0 + ((cn0 : Int) * p.height + ((ofs / p.outW : Nat) * (p.stride_.height : Int) -
        p.pad_.height)) * p.width + (((ofs - ofs / p.outW * p.outW : Nat) : Int) *
        p.stride_.width - p.pad_.width)) rb
    constructor
    · intro k i j hk hi hj
      have hlt := henc k i j hk hi hj
      rw [(hU _).1 ⟨by omega, by omega⟩]
      simp only [Nat.add_sub_cancel_left, hof k i j hk hi hj]
      obtain ⟨h1, h2, h3, h4⟩ := hint
      have hi' : (i : Int) * p.dilation_.height ≤ ((p.kernel_.height : Int) - 1) * p.dilation_.height :=
        Int.mul_le_mul_of_nonneg_right (by omega) (by omega)
      have hj' : (j : Int) * p.dilation_.width ≤ ((p.kernel_.width : Int) - 1) * p.dilation_.width :=
        Int.mul_le_mul_of_nonneg_right (by omega) (by omega)
      have hi0 : (0 : Int) ≤ (i : Int) * p.dilation_.height := by positivity
      have hj0 : (0 : Int) ≤ (j : Int) * p.dilation_.width := by positivity
      unfold ParallelConv.tapVal
      dsimp only
      rw [if_pos ⟨by omega, by omega, by omega, by omega⟩]
      congr 1
      push_cast
      ring
    · intro a ha
      exact (hU a).2 (by simp only [Set.mem_setOf_eq]; omega)
  · -- boundary: clear the row, then copy the taps inside the image
    have hdecode : ∀ k i j, i < p.kernel_.height → j < p.kernel_.width →
        ((k * p.kernel_.height + i) * p.kernel_.width + j) / p.kernel_.width / p.kernel_.height = k ∧
        ((k * p.kernel_.height + i) * p.kernel_.width + j) / p.kernel_.width % p.kernel_.height = i ∧
        ((k * p.kernel_.height + i) * p.kernel_.width + j) % p.kernel_.width = j := by
      intro k i j hi hj
      rw [enc_div _ _ hj, enc_div _ _ hi, enc_mod _ _ hj, enc_mod _ _ hi]
      exact ⟨rfl, rfl, rfl⟩
    have hI0 := tdiv_ceil_le (-((ofs / p.outW : Nat) * (p.stride_.height : Int) - p.pad_.height))
      p.dilation_.height hdhZ
    have hI1 := tdiv_ceil_lt ((p.height : Int) -
      ((ofs / p.outW : Nat) * (p.stride_.height : Int) - p.pad_.height))
      p.dilation_.height hdhZ p.kernel_.height
    have hJ0 := tdiv_ceil_le (-(((ofs - ofs / p.outW * p.outW : Nat) : Int) *
      p.stride_.width - p.pad_.width)) p.dilation_.width hdwZ
    have hJ1 := tdiv_ceil_lt ((p.width : Int) - (((ofs - ofs / p.outW * p.outW : Nat) : Int) *
      p.stride_.width - p.pad_.width)) p.dilation_.width hdwZ p.kernel_.width
    have hU := gatherRow_copy p.input_.data
      (data_inp0 + ((cn0 : Int) * p.height + ((ofs / p.outW : Nat) * (p.stride_.height : Int) -
        p.pad_.height)) * p.width + (((ofs - ofs / p.outW * p.outW : Nat) : Int) *
        p.stride_.width - p.pad_.width))
      p.dilation_.height p.dilation_.width p.width p.height p.kernel_.height p.kernel_.width
      ((ofs - ofs0) * vsz_a) ncn _ _ _ _ (memset0 rb ((ofs - ofs0) * vsz_a) vsz)
      (fun a => p.tapVal data_inp0 ofs
        (cn0 + (a - (ofs - ofs0) * vsz_a) / p.kernel_.width / p.kernel_.height)
        ((a - (ofs - ofs0) * vsz_a) / p.kernel_.width % p.kernel_.height)
        ((a - (ofs - ofs0) * vsz_a) % p.kernel_.width))
      (by
        intro k i j hk hi0 hi1 hj0 hj1
        have hi1' := (hI1 i).1 hi1
        have hj1' := (hJ1 j).1 hj1
        have hi0' := (hI0 i).1 hi0
        have hj0' := (hJ0 j).1 hj0
        obtain ⟨e1, e2, e3⟩ := hdecode k i j hi1'.1 hj1'.1
        simp only [Nat.add_sub_cancel_left, e1, e2, e3]
        unfold ParallelConv.tapVal
        dsimp only
        rw [if_pos ⟨by omega, by omega, by omega, by omega⟩]
        congr 1
        push_cast
        ring)
    constructor
    · intro k i j hk hi hj
      have hlt := henc k i j hk hi hj
      obtain ⟨e1, e2, e3⟩ := hdecode k i j hi hj
      by_cases hin : (max 0 ((-((ofs / p.outW : Nat) * (p.stride_.height : Int) - p.pad_.height) +
            (p.dilation_.height : Int) - 1).tdiv p.dilation_.height)).toNat ≤ i ∧
          i < (min (p.kernel_.height : Int) (((p.height : Int) -
            ((ofs / p.outW : Nat) * (p.stride_.height : Int) - p.pad_.height) +
            (p.dilation_.height : Int) - 1).tdiv p.dilation_.height)).toNat ∧
          (max 0 ((-(((ofs - ofs / p.outW * p.outW : Nat) : Int) * p.stride_.width - p.pad_.width) +
            (p.dilation_.width : Int) - 1).tdiv p.dilation_.width)).toNat ≤ j ∧
          j < (min (p.kernel_.width : Int) (((p.width : Int) -
            (((ofs - ofs / p.outW * p.outW : Nat) : Int) * p.stride_.width - p.pad_.width) +
            (p.dilation_.width : Int) - 1).tdiv p.dilation_.width)).toNat
      · rw [(hU _).1 ⟨k, i, j, hk, hin.1, hin.2.1, hin.2.2.1, hin.2.2.2, rfl⟩]
        simp only [Nat.add_sub_cancel_left, e1, e2, e3]
      · rw [(hU _).2]
        · have hz : memset0 rb ((ofs - ofs0) * vsz_a) vsz
              ((ofs - ofs0) * vsz_a + ((k * p.kernel_.height + i) * p.kernel_.width + j)) = 0 := by
            unfold memset0
            rw [if_pos ⟨by omega, by omega⟩]
          rw [hz]
          unfold ParallelConv.tapVal
          dsimp only
          rw [if_neg]
          rintro ⟨c1, c2, c3, c4⟩
          apply hin
          exact ⟨(hI0 i).2 (by omega), (hI1 i).2 ⟨hi, by omega⟩, (hJ0 j).2 (by omega),
            (hJ1 j).2 ⟨hj, by omega⟩⟩
        · simp only [Set.mem_setOf_eq, not_exists, not_and]
          intro k1 i1 j1 hk1 hi10 hi11 hj10 hj11 e
          have hi1' := (hI1 i1).1 hi11
          have hj1' := (hJ1 j1).1 hj11
          have e' : (k * p.kernel_.height + i) * p.kernel_.width + j =
              (k1 * p.kernel_.height + i1) * p.kernel_.width + j1 := by omega
          obtain ⟨f1, f2, f3⟩ := hdecode k1 i1 j1 hi1'.1 hj1'.1
          rw [← e', e1] at f1
          rw [← e', e2] at f2
          rw [← e', e3] at f3
          subst f1 f2 f3
          exact hin ⟨hi10, hi11, hj10, hj11⟩
    · intro a ha
      rw [(hU a).2]
      · unfold memset0
        rw [if_neg (by omega)]
      · simp only [Set.mem_setOf_eq, not_exists, not_and]
        intro k1 i1 j1 hk1 _ hi11 _ hj11 e
        have hi1' := (hI1 i1).1 hi11
        have hj1' := (hJ1 j1).1 hj11
        have := henc k1 i1 j1 hk1 hi1'.1 hj1'.1
        omega

theorem alignSize_ge (sz n : Nat) (hn : 0 < n) : sz ≤ alignSize sz n := by
  unfold alignSize
  have h := Nat.lt_div_mul_add (a := sz + n - 1) hn
  omega

theorem im2rowGeneral_spec (p : ParallelConv) (data_inp0 : Int)
    (cn0 ncn vsz vsz_a ofs0 ofs1 : Nat) (rb : Mem)
    (hdh : 1 ≤ p.dilation_.height) (hdw : 1 ≤ p.dilation_.width)
    (hvsz : vsz = p.karea * ncn) (hva : vsz ≤ vsz_a) (hof : p.OfstabOK ncn)
    (hle : ofs0 ≤ ofs1) :
    ∀ ofs k i j, ofs0 ≤ ofs → ofs < ofs1 → k < ncn → i < p.kernel_.height →
      j < p.kernel_.width →
      p.im2rowGeneral data_inp0 cn0 ncn vsz vsz_a ofs0 ofs1 rb
        ((ofs - ofs0) * vsz_a + ((k * p.kernel_.height + i) * p.kernel_.width + j)) =
      p.tapVal data_inp0 ofs (cn0 + k) i j := by
  unfold ParallelConv.im2rowGeneral
  have henc : ∀ k i j, k < ncn → i < p.kernel_.height → j < p.kernel_.width →
      (k * p.kernel_.height + i) * p.kernel_.width + j < vsz := by
    intro k i j hk hi hj
    have h1 := enc_lt hk hi
    have h2 := enc_lt h1 hj
    rw [hvsz, ParallelConv.karea]
    calc _ < ncn * p.kernel_.height * p.kernel_.width := h2
      _ = p.kernel_.width * p.kernel_.height * ncn := by ring
  have h := forStep_one_inv (fun cur (m : Mem) => ∀ ofs k i j, ofs0 ≤ ofs → ofs < cur → k < ncn →
      i < p.kernel_.height → j < p.kernel_.width →
      m ((ofs - ofs0) * vsz_a + ((k * p.kernel_.height + i) * p.kernel_.width + j)) =
      p.tapVal data_inp0 ofs (cn0 + k) i j) ofs0 ofs1
    (fun ofs rb => p.gatherRow data_inp0 cn0 ncn vsz vsz_a ofs0 ofs rb) rb hle
    (by intro ofs k i j h1 h2; omega)
    (by
      intro cur hc1 hc2 acc hacc ofs k i j h1 h2 hk hi hj
      have hrow := gatherRow_spec p data_inp0 cn0 ncn vsz vsz_a ofs0 cur acc hdh hdw hvsz hof
      show p.gatherRow data_inp0 cn0 ncn vsz vsz_a ofs0 cur acc _ = _
      by_cases e : ofs = cur
      · subst e
        exact hrow.1 k i j hk hi hj
      · have hlt := henc k i j hk hi hj
        have hmul : (ofs - ofs0 + 1) * vsz_a ≤ (cur - ofs0) * vsz_a :=
          Nat.mul_le_mul_right _ (by omega)
        have e1 : (ofs - ofs0 + 1) * vsz_a = (ofs - ofs0) * vsz_a + vsz_a := by ring
        rw [hrow.2 _ (Or.inl (by omega))]
        exact hacc ofs k i j h1 (by omega) hk hi hj)
  exact h

theorem im2row1x1_zero (p : ParallelConv) (data_inp0 : Int) (cn0 vsz_a ofs0 ofs1 : Nat)
    (rb : Mem) : p.im2row1x1 data_inp0 cn0 0 vsz_a ofs0 ofs1 rb = rb := by
  unfold ParallelConv.im2row1x1
  have h := forStep_inv (fun _ (m : Mem) => m = rb) ofs0 ofs1 1
    (fun ofs rb => p.gatherRow1x1 data_inp0 cn0 0 vsz_a ofs0 ofs rb) rb rfl
    (by
      intro t _ acc hacc
      subst hacc
      unfold ParallelConv.gatherRow1x1
      dsimp only
      exact forStep_empty 0 0 1 _ _ (Nat.le_refl _) (Nat.le_refl _))
  exact h

theorem sum_range_mul_enc (f : Nat → ℚ) (a b : Nat) :
    ∑ t in Finset.range (a * b), f t =
      ∑ q in Finset.range a, ∑ r in Finset.range b, f (q * b + r) := by
  induction a with
  | zero => simp
  | succ a ih =>
    have : (a + 1) * b = a * b + b := by ring
    rw [this, Finset.sum_range_add, ih, Finset.sum_range_succ]

theorem sum_range_enc3 (f : Nat → ℚ) (n kh kw : Nat) :
    ∑ t in Finset.range (n * kh * kw), f t =
      ∑ k in Finset.range n, ∑ i in Finset.range kh, ∑ j in Finset.range kw,
        f ((k * kh + i) * kw + j) := by
  rw [sum_range_mul_enc f (n * kh) kw, sum_range_mul_enc _ n kh]

theorem tile_upd (p : ParallelConv) (data_inp0 : Int)
    (data_out0 wptr biasptr cn0 ncn vsz vsz_a stripeEnd ofs0 : Nat) (st : Mem × Mem)
    (v : Nat → ℚ)
    (hdh : 1 ≤ p.dilation_.height) (hdw : 1 ≤ p.dilation_.width)
    (hvsz : vsz = p.karea * ncn) (hva : vsz ≤ vsz_a) (hof : p.OfstabOK ncn)
    (his : p.is1x1_ = true → p.karea = 0)
    (hend : stripeEnd ≤ p.outPlaneSize) (hofs : ofs0 ≤ stripeEnd)
    (hpadW : p.simd = true → ∀ i, i < p.outCn → ∀ k, vsz ≤ k → k < (vsz + 3) / 4 * 4 →
      p.weights_.data (wptr + i * p.weights_.step1 + k) = 0)
    (hv : ∀ i ofs, i < p.outCn → ofs0 ≤ ofs → ofs < min (ofs0 + BLK_SIZE) stripeEnd →
      v (data_out0 + i * p.outPlaneSize + ofs) =
      (if cn0 = 0 then p.biasvec_.getD (biasptr + i) 0
        else st.2 (data_out0 + i * p.outPlaneSize + ofs)) +
        ∑ k in Finset.range ncn, ∑ i1 in Finset.range p.kernel_.height,
          ∑ j1 in Finset.range p.kernel_.width,
            p.weights_.data (wptr + i * p.weights_.step1 +
              ((k * p.kernel_.height + i1) * p.kernel_.width + j1)) *
            p.tapVal data_inp0 ofs (cn0 + k) i1 j1) :
    Upd {a | ∃ i ofs, i < p.outCn ∧ ofs0 ≤ ofs ∧ ofs < min (ofs0 + BLK_SIZE) stripeEnd ∧
        a = data_out0 + i * p.outPlaneSize + ofs} v st.2
      (p.tile data_inp0 data_out0 wptr biasptr cn0 ncn vsz vsz_a stripeEnd ofs0 st).2 := by
  unfold ParallelConv.tile
  dsimp only
  -- the gathered rows
  have hrows : ∀ j k i1 j1, j < min (ofs0 + BLK_SIZE) stripeEnd - ofs0 → k < ncn →
      i1 < p.kernel_.height → j1 < p.kernel_.width →
      (if p.is1x1_ = true then
          p.im2row1x1 data_inp0 cn0 vsz vsz_a ofs0 (min (ofs0 + BLK_SIZE) stripeEnd) st.1
        else p.im2rowGeneral data_inp0 cn0 ncn vsz vsz_a ofs0 (min (ofs0 + BLK_SIZE) stripeEnd) st.1)
        (j * vsz_a + ((k * p.kernel_.height + i1) * p.kernel_.width + j1)) =
      p.tapVal data_inp0 (ofs0 + j) (cn0 + k) i1 j1 := by
    intro j k i1 j1 hj hk hi1 hj1
    split_ifs with h1
    · exfalso
      have := his h1
      unfold ParallelConv.karea at this
      rcases Nat.mul_eq_zero.1 this with h | h <;> omega
    · have := im2rowGeneral_spec p data_inp0 cn0 ncn vsz vsz_a ofs0
        (min (ofs0 + BLK_SIZE) stripeEnd) st.1 hdh hdw hvsz hva hof (by omega)
        (ofs0 + j) k i1 j1 (by omega) (by omega) hk hi1 hj1
      rw [Nat.add_sub_cancel_left] at this
      exact this
  have hvs : vsz = ncn * p.kernel_.height * p.kernel_.width := by
    rw [hvsz, ParallelConv.karea]; ring
  refine (dotProduct_upd p wptr biasptr data_out0 ofs0 cn0 vsz vsz_a
    (min (ofs0 + BLK_SIZE) stripeEnd - ofs0) _ st.2 v (by omega) hpadW ?_).congr_set ?_
  · intro i j hi hj
    have e : data_out0 + ofs0 + i * p.outPlaneSize + j = data_out0 + i * p.outPlaneSize + (ofs0 + j) := by
      omega
    rw [e, hv i (ofs0 + j) hi (by omega) (by omega)]
    congr 1
    have hre := sum_range_enc3 (fun t => p.weights_.data (wptr + i * p.weights_.step1 + t) *
      (if p.is1x1_ = true then
          p.im2row1x1 data_inp0 cn0 vsz vsz_a ofs0 (min (ofs0 + BLK_SIZE) stripeEnd) st.1
        else p.im2rowGeneral data_inp0 cn0 ncn vsz vsz_a ofs0 (min (ofs0 + BLK_SIZE) stripeEnd) st.1)
        (j * vsz_a + t)) ncn p.kernel_.height p.kernel_.width
    rw [← hvs] at hre
    rw [hre]
    apply Finset.sum_congr rfl
    intro k hk
    apply Finset.sum_congr rfl
    intro i1 hi1
    apply Finset.sum_congr rfl
    intro j1 hj1
    rw [hrows j k i1 j1 hj (Finset.mem_range.1 hk) (Finset.mem_range.1 hi1) (Finset.mem_range.1 hj1)]
  · intro a
    simp only [Set.mem_setOf_eq]
    constructor
    · rintro ⟨i, j, hi, hj, h⟩
      exact ⟨i, ofs0 + j, hi, by omega, by omega, by omega⟩
    · rintro ⟨i, ofs, hi, h1, h2, h⟩
      exact ⟨i, ofs - ofs0, hi, by omega, by omega⟩

/-- Rule `forStep_upd` for a loop on the state (row buffer, output). -/
theorem forStep_upd_snd (start stop step : Nat) (body : Nat → Mem × Mem → Mem × Mem)
    (s0 : Mem × Mem) (S : Nat → Set Nat) (v : Nat → ℚ)
    (hbody : ∀ t, t < iterCount start stop step → ∀ s : Mem × Mem,
      Upd {a | ∃ u, u < t ∧ a ∈ S u} v s0.2 s.2 →
      Upd (S t) v s.2 (body (start + t * step) s).2) :
    Upd {a | ∃ u, u < iterCount start stop step ∧ a ∈ S u} v s0.2
      (forStep start stop step body s0).2 := by
  refine forStep_inv (fun t (s : Mem × Mem) => Upd {a | ∃ u, u < t ∧ a ∈ S u} v s0.2 s.2)
    start stop step body s0 ?_ ?_
  · intro a; simp
  · intro t ht s hs
    refine ((hs.trans (hbody t ht s hs)).congr_set ?_)
    intro a
    simp only [Set.mem_union, Set.mem_setOf_eq]
    constructor
    · rintro (⟨u, hu, hau⟩ | h)
      · exact ⟨u, by omega, hau⟩
      · exact ⟨t, by omega, h⟩
    · rintro ⟨u, hu, hau⟩
      by_cases e : u = t
      · subst e; exact Or.inr hau
      · exact Or.inl ⟨u, by omega, hau⟩

theorem channelBlock_upd (p : ParallelConv) (data_inp0 : Int)
    (data_out0 wptr_orig biasptr stripeStart stripeEnd cn0 : Nat) (st : Mem × Mem)
    (v : Nat → ℚ)
    (hdh : 1 ≤ p.dilation_.height) (hdw : 1 ≤ p.dilation_.width)
    (hof : p.OfstabOK (min (cn0 + BLK_SIZE_CN) p.inpCn - cn0))
    (his : p.is1x1_ = true → p.karea = 0)
    (hend : stripeEnd ≤ p.outPlaneSize)
    (hpadW : p.simd = true → ∀ i, i < p.outCn → ∀ k,
      p.karea * (min (cn0 + BLK_SIZE_CN) p.inpCn - cn0) ≤ k →
      k < (p.karea * (min (cn0 + BLK_SIZE_CN) p.inpCn - cn0) + 3) / 4 * 4 →
      p.weights_.data (wptr_orig + cn0 * p.karea + i * p.weights_.step1 + k) = 0)
    (hv : ∀ i ofs, i < p.outCn → stripeStart ≤ ofs → ofs < stripeEnd →
      v (data_out0 + i * p.outPlaneSize + ofs) =
      (if cn0 = 0 then p.biasvec_.getD (biasptr + i) 0
        else st.2 (data_out0 + i * p.outPlaneSize + ofs)) +
        ∑ k in Finset.range (min (cn0 + BLK_SIZE_CN) p.inpCn - cn0),
          ∑ i1 in Finset.range p.kernel_.height, ∑ j1 in Finset.range p.kernel_.width,
            p.weights_.data (wptr_orig + cn0 * p.karea + i * p.weights_.step1 +
              ((k * p.kernel_.height + i1) * p.kernel_.width + j1)) *
            p.tapVal data_inp0 ofs (cn0 + k) i1 j1) :
    Upd {a | ∃ i ofs, i < p.outCn ∧ stripeStart ≤ ofs ∧ ofs < stripeEnd ∧
        a = data_out0 + i * p.outPlaneSize + ofs} v st.2
      (p.channelBlock data_inp0 data_out0 wptr_orig biasptr stripeStart stripeEnd cn0 st).2 := by
  unfold ParallelConv.channelBlock
  dsimp only
  have hB : BLK_SIZE = 32 := rfl
  refine (forStep_upd_snd stripeStart stripeEnd BLK_SIZE _ st
    (fun t => {a | ∃ i ofs, i < p.outCn ∧ stripeStart + t * BLK_SIZE ≤ ofs ∧
      ofs < min (stripeStart + t * BLK_SIZE + BLK_SIZE) stripeEnd ∧
      a = data_out0 + i * p.outPlaneSize + ofs}) v ?_).congr_set ?_
  · intro t ht s hs
    have ht' : stripeStart + t * 32 < stripeEnd := by
      unfold iterCount at ht; rw [hB] at ht; omega
    apply tile_upd p data_inp0 data_out0 _ biasptr cn0 _ _ _ stripeEnd _ s v hdh hdw rfl
      (alignSize_ge _ _ (by decide)) hof his hend (by rw [hB]; omega) hpadW
    intro i ofs hi h1 h2
    rw [hv i ofs hi (by omega) (by omega)]
    congr 2
    symm
    apply (hs _).2
    simp only [Set.mem_setOf_eq, not_exists, not_and]
    intro u hu i1 ofs1 hi1 h3 h4 e
    rw [hB] at h1 h2 h3 h4
    have := @idx_inj p.outPlaneSize i i1 ofs ofs1 (by omega) (by omega) (by omega)
    omega
  · intro a
    simp only [Set.mem_setOf_eq]
    unfold iterCount
    rw [hB]
    constructor
    · rintro ⟨u, hu, i, ofs, hi, h1, h2, h⟩
      exact ⟨i, ofs, hi, by omega, by omega, h⟩
    · rintro ⟨i, ofs, hi, h1, h2, h⟩
      exact ⟨(ofs - stripeStart) / 32, by omega, i, ofs, hi, by omega, by omega, h⟩

theorem chanSum_add (p : ParallelConv) (data_inp0 : Int) (wptr_orig i ofs cn0 ncn : Nat) :
    p.chanSum data_inp0 (wptr_orig + i * p.weights_.step1) ofs (cn0 + ncn) =
      p.chanSum data_inp0 (wptr_orig + i * p.weights_.step1) ofs cn0 +
      ∑ k in Finset.range ncn, ∑ i1 in Finset.range p.kernel_.height,
        ∑ j1 in Finset.range p.kernel_.width,
          p.weights_.data (wptr_orig + cn0 * p.karea + i * p.weights_.step1 +
            ((k * p.kernel_.height + i1) * p.kernel_.width + j1)) *
          p.tapVal data_inp0 ofs (cn0 + k) i1 j1 := by
  unfold ParallelConv.chanSum
  rw [Finset.sum_range_add]
  congr 1
  apply Finset.sum_congr rfl
  intro k _
  apply Finset.sum_congr rfl
  intro i1 _
  apply Finset.sum_congr rfl
  intro j1 _
  congr 2
  unfold ParallelConv.karea
  ring

theorem stripe_loop (p : ParallelConv) (data_inp0 : Int)
    (data_out0 wptr_orig biasptr stripeStart stripeEnd : Nat) (st : Mem × Mem)
    (hdh : 1 ≤ p.dilation_.height) (hdw : 1 ≤ p.dilation_.width)
    (hof : p.OfstabOK (min p.inpCn BLK_SIZE_CN))
    (his : p.is1x1_ = true → p.karea = 0)
    (hend : stripeEnd ≤ p.outPlaneSize) (hcn : 1 ≤ p.inpCn)
    (hpadW : p.simd = true → ∀ i, i < p.outCn → ∀ k,
      p.inpCn * p.karea ≤ k → k < (p.inpCn * p.karea + 3) / 4 * 4 →
      p.weights_.data (wptr_orig + i * p.weights_.step1 + k) = 0) :
    (∀ i ofs, i < p.outCn → stripeStart ≤ ofs → ofs < stripeEnd →
      (forStep 0 p.inpCn BLK_SIZE_CN (fun cn0 st =>
        p.channelBlock data_inp0 data_out0 wptr_orig biasptr stripeStart stripeEnd cn0 st) st).2
        (data_out0 + i * p.outPlaneSize + ofs) =
      p.biasvec_.getD (biasptr + i) 0 +
        p.chanSum data_inp0 (wptr_orig + i * p.weights_.step1) ofs p.inpCn) ∧
    (∀ a, (∀ i ofs, i < p.outCn → stripeStart ≤ ofs → ofs < stripeEnd →
        a ≠ data_out0 + i * p.outPlaneSize + ofs) →
      (forStep 0 p.inpCn BLK_SIZE_CN (fun cn0 st =>
        p.channelBlock data_inp0 data_out0 wptr_orig biasptr stripeStart stripeEnd cn0 st) st).2 a
        = st.2 a) := by
  have hC : BLK_SIZE_CN = 64 := rfl
  have hcount : iterCount 0 p.inpCn BLK_SIZE_CN = (p.inpCn + 63) / 64 := by
    unfold iterCount; rw [hC]; omega
  have h := forStep_inv (fun t (s : Mem × Mem) =>
      (∀ a, (∀ i ofs, i < p.outCn → stripeStart ≤ ofs → ofs < stripeEnd →
        a ≠ data_out0 + i * p.outPlaneSize + ofs) → s.2 a = st.2 a) ∧
      (t = 0 → s.2 = st.2) ∧
      (1 ≤ t → ∀ i ofs, i < p.outCn → stripeStart ≤ ofs → ofs < stripeEnd →
        s.2 (data_out0 + i * p.outPlaneSize + ofs) =
          p.biasvec_.getD (biasptr + i) 0 +
            p.chanSum data_inp0 (wptr_orig + i * p.weights_.step1) ofs (min (t * 64) p.inpCn)))
    0 p.inpCn BLK_SIZE_CN (fun cn0 st =>
        p.channelBlock data_inp0 data_out0 wptr_orig biasptr stripeStart stripeEnd cn0 st) st
    ⟨fun _ _ => rfl, fun _ => rfl, fun h => absurd h (by omega)⟩
    (by
      intro t ht s ⟨hfr, hzero, hval⟩
      rw [hcount] at ht
      simp only [Nat.zero_add]
      rw [hC]
      have hcn0 : t * 64 < p.inpCn := by omega
      have hncn : t * 64 + (min (t * 64 + 64) p.inpCn - t * 64) = min ((t + 1) * 64) p.inpCn := by
        omega
      have hU := channelBlock_upd p data_inp0 data_out0 wptr_orig biasptr stripeStart stripeEnd
        (t * 64) s
        (fun a => (if t * 64 = 0 then p.biasvec_.getD (biasptr + (a - data_out0) / p.outPlaneSize) 0
            else s.2 a) +
          ∑ k in Finset.range (min (t * 64 + BLK_SIZE_CN) p.inpCn - t * 64),
            ∑ i1 in Finset.range p.kernel_.height, ∑ j1 in Finset.range p.kernel_.width,
              p.weights_.data (wptr_orig + t * 64 * p.karea +
                (a - data_out0) / p.outPlaneSize * p.weights_.step1 +
                ((k * p.kernel_.height + i1) * p.kernel_.width + j1)) *
              p.tapVal data_inp0 ((a - data_out0) % p.outPlaneSize) (t * 64 + k) i1 j1)
        hdh hdw
        (by
          intro k i j hk hi hj
          exact hof k i j (by rw [hC] at hk ⊢; omega) hi hj)
        his hend
        (by
          intro hs i hi k h1 h2
          rw [hC] at h1 h2
          by_cases hl : t * 64 + 64 ≤ p.inpCn
          · have e : min (t * 64 + 64) p.inpCn - t * 64 = 64 := by omega
            rw [e] at h1 h2
            omega
          · have e : t * 64 + (min (t * 64 + 64) p.inpCn - t * 64) = p.inpCn := by omega
            have e2 : p.inpCn * p.karea =
                t * 64 * p.karea + p.karea * (min (t * 64 + 64) p.inpCn - t * 64) := by
              conv_lhs => rw [← e]
              ring
            have e3 : t * 64 * p.karea = 4 * (t * 16 * p.karea) := by ring
            have := hpadW hs i hi (t * 64 * p.karea + k) (by omega) (by omega)
            rw [← this]
            congr 1
            omega)
        (by
          intro i ofs hi h1 h2
          have ea : data_out0 + i * p.outPlaneSize + ofs - data_out0 = i * p.outPlaneSize + ofs := by
            omega
          simp only [ea, enc_div i ofs (show ofs < p.outPlaneSize by omega),
            enc_mod i ofs (show ofs < p.outPlaneSize by omega)])
      refine ⟨?_, fun h => absurd h (by omega), ?_⟩
      · intro a ha
        rw [(hU a).2, hfr a ha]
        simp only [Set.mem_setOf_eq, not_exists, not_and]
        intro i ofs hi h1 h2
        exact ha i ofs hi h1 h2
      · intro _ i ofs hi h1 h2
        rw [(hU _).1 ⟨i, ofs, hi, h1, h2, rfl⟩]
        have ea : data_out0 + i * p.outPlaneSize + ofs - data_out0 = i * p.outPlaneSize + ofs := by
          omega
        simp only [ea, enc_div i ofs (show ofs < p.outPlaneSize by omega),
          enc_mod i ofs (show ofs < p.outPlaneSize by omega)]
        rw [← hncn, hC, chanSum_add]
        by_cases ht0 : t = 0
        · subst ht0
          simp [ParallelConv.chanSum]
        · have h64 : t * 64 ≠ 0 := by omega
          rw [if_neg h64, hval (by omega) i ofs hi h1 h2]
          have : min (t * 64) p.inpCn = t * 64 := by omega
          rw [this, add_assoc])
  rw [hcount] at h
  obtain ⟨hfr, _, hval⟩ := h
  refine ⟨?_, hfr⟩
  intro i ofs hi h1 h2
  have := hval (by omega) i ofs hi h1 h2
  have e : min ((p.inpCn + 63) / 64 * 64) p.inpCn = p.inpCn := by omega
  rw [e] at this
  exact this

theorem outVal_addr (p : ParallelConv) (b i ofs : Nat) (hi : i < p.outCn)
    (hofs : ofs < p.outPlaneSize) :
    p.outVal (b * p.outPlaneSize * p.outCn + i * p.outPlaneSize + ofs) = p.stripeVal b i ofs := by
  unfold ParallelConv.outVal
  have e : b * p.outPlaneSize * p.outCn + i * p.outPlaneSize + ofs =
      (b * p.outCn + i) * p.outPlaneSize + ofs := by ring
  rw [e, enc_div _ _ hofs, enc_mod _ _ hofs, enc_div _ _ hi, enc_mod _ _ hi]

theorem stripeBody_upd (p : ParallelConv) (stripe : Nat) (st : Mem × Mem)
    (hactiv : p.activ_ = none)
    (hdh : 1 ≤ p.dilation_.height) (hdw : 1 ≤ p.dilation_.width)
    (hof : p.OfstabOK (min p.inpCn BLK_SIZE_CN))
    (his : p.is1x1_ = true → p.karea = 0) (hcn : 1 ≤ p.inpCn) (hG : 1 ≤ p.ngroups_)
    (hpad : p.simd = true → p.WeightsPadded)
    (hb : stripe / p.stripesPerSample < p.batchSize) :
    ∃ st1, p.stripeBody stripe st = some st1 ∧ Upd (p.stripeSet stripe) p.outVal st.2 st1.2 := by
  unfold ParallelConv.stripeBody ParallelConv.stripeGeom
  dsimp only
  rw [if_neg (by omega)]
  refine ⟨_, rfl, ?_⟩
  unfold ParallelConv.processStripe
  dsimp only
  rw [hactiv]
  have hL := stripe_loop p ((stripe / p.stripesPerSample * p.inpPlaneSize * p.inpCn : Nat) : Int)
    (stripe / p.stripesPerSample * p.outPlaneSize * p.outCn)
    (p.weights_.step1 * (stripe / p.stripesPerSample % p.ngroups_ * p.outCn))
    (stripe / p.stripesPerSample % p.ngroups_ * p.outCn)
    ((stripe - stripe / p.stripesPerSample * p.stripesPerSample) * p.stripeSize)
    (min ((stripe - stripe / p.stripesPerSample * p.stripesPerSample) * p.stripeSize +
      p.stripeSize) p.outPlaneSize) st hdh hdw hof his (by omega) hcn
    (by
      intro hs i hi k h1 h2
      obtain ⟨w1, w2, w3⟩ := hpad hs
      have hlt : stripe / p.stripesPerSample % p.ngroups_ * p.outCn + i < p.ngroups_ * p.outCn :=
        enc_lt (Nat.mod_lt _ (by omega)) hi
      have := w3 _ k hlt h1 (by omega)
      rw [← this]
      congr 1
      ring)
  intro a
  constructor
  · rintro ⟨i, ofs, hi, h1, h2, rfl⟩
    rw [outVal_addr p _ i ofs hi (by omega)]
    exact hL.1 i ofs hi h1 h2
  · intro ha
    apply hL.2
    intro i ofs hi h1 h2 e
    exact ha ⟨i, ofs, hi, h1, h2, e⟩

theorem forBreakAux_upd (body : Nat → Mem × Mem → Option (Mem × Mem)) (brk : Nat → Prop)
    (S : Nat → Set Nat) (v : Nat → ℚ)
    (hbrk : ∀ i s, brk i → body i s = none)
    (hrun : ∀ i s, ¬ brk i → ∃ s1, body i s = some s1 ∧ Upd (S i) v s.2 s1.2)
    (hmono : ∀ i j, i ≤ j → brk i → brk j) :
    ∀ n i s, Upd {a | ∃ j, i ≤ j ∧ j < i + n ∧ ¬ brk j ∧ a ∈ S j} v s.2
      (forBreakAux body n i s).2 := by
  intro n
  induction n with
  | zero =>
    intro i s a
    simp only [forBreakAux, Set.mem_setOf_eq, Nat.add_zero]
    constructor
    · rintro ⟨j, h1, h2, _⟩; omega
    · intro _; trivial
  | succ n ih =>
    intro i s
    by_cases hb : brk i
    · simp only [forBreakAux, hbrk i s hb]
      intro a
      constructor
      · rintro ⟨j, h1, _, h3, _⟩
        exact absurd (hmono i j h1 hb) h3
      · intro _; rfl
    · obtain ⟨s1, e, hU⟩ := hrun i s hb
      simp only [forBreakAux, e]
      refine (hU.trans (ih (i + 1) s1)).congr_set ?_
      intro a
      simp only [Set.mem_union, Set.mem_setOf_eq]
      constructor
      · rintro (h | ⟨j, h1, h2, h3, h4⟩)
        · exact ⟨i, Nat.le_refl _, by omega, hb, h⟩
        · exact ⟨j, by omega, by omega, h3, h4⟩
      · rintro ⟨j, h1, h2, h3, h4⟩
        by_cases c : j = i
        · subst c; exact Or.inl h4
        · exact Or.inr ⟨j, by omega, by omega, h3, h4⟩

theorem getD_set {α : Type} (l : List α) (i a : Nat) (x d : α) :
    (l.set i x).getD a d = if a = i ∧ i < l.length then x else l.getD a d := by
  simp only [List.getD_eq_getElem?_getD, List.getElem?_set]
  by_cases h : i = a
  · subst h
    by_cases h2 : i < l.length
    · simp [h2]
    · simp [h2]
      rw [List.getElem?_eq_none (by omega)]
      rfl
  · have h' : ¬ a = i := fun e => h e.symm
    simp [h, h']

theorem tabGood_set (kernel dilation : Size) (ncn height width : Nat)
    (D : Nat → Nat → Nat → Prop) (l : List Nat) (K I J : Nat)
    (hK : K < ncn) (hI : I < kernel.height) (hJ : J < kernel.width)
    (h : TabGood kernel dilation ncn height width D l) :
    TabGood kernel dilation ncn height width (fun k i j => D k i j ∨ (k = K ∧ i = I ∧ j = J))
      (l.set ((K * kernel.height + I) * kernel.width + J)
        ((K * height + I * dilation.height) * width + J * dilation.width)) := by
  obtain ⟨hlen, hval⟩ := h
  refine ⟨by simp [hlen], ?_⟩
  intro k i j hD hk hi hj
  rw [getD_set]
  have hlt : (K * kernel.height + I) * kernel.width + J < l.length := by
    rw [hlen]
    calc _ < ncn * kernel.height * kernel.width := enc_lt (enc_lt hK hI) hJ
      _ = kernel.width * kernel.height * ncn := by ring
  by_cases e : (k * kernel.height + i) * kernel.width + j = (K * kernel.height + I) * kernel.width + J
  · rw [if_pos ⟨e, hlt⟩]
    have e1 := (idx_inj hj hJ e)
    have e2 := idx_inj hi hI e1.1
    rw [e2.1, e2.2, e1.2]
  · rw [if_neg (fun c => e c.1)]
    rcases hD with hD | ⟨rfl, rfl, rfl⟩
    · exact hval k i j hD hk hi hj
    · exact absurd rfl e

theorem makeOfstab_spec (kernel dilation : Size) (ncn height width : Nat) :
    ∀ k i j, k < ncn → i < kernel.height → j < kernel.width →
      (ParallelConv.makeOfstab kernel dilation ncn height width).getD
        ((k * kernel.height + i) * kernel.width + j) 0 =
      (k * height + i * dilation.height) * width + j * dilation.width := by
  unfold ParallelConv.makeOfstab
  have h := forStep_one_inv (fun K l => TabGood kernel dilation ncn height width
      (fun k _ _ => k < K) l) 0 ncn
    (fun k tab =>
      forStep 0 kernel.height 1 (fun k_r tab =>
        forStep 0 kernel.width 1 (fun k_c tab =>
          tab.set ((k * kernel.height + k_r) * kernel.width + k_c)
            ((k * height + k_r * dilation.height) * width + k_c * dilation.width)) tab) tab)
    (List.replicate (kernel.width * kernel.height * ncn) 0) (Nat.zero_le _)
    ⟨by simp, fun k i j hD => absurd hD (by omega)⟩
    (by
      intro K _ hK l hl
      have h2 := forStep_one_inv (fun I l => TabGood kernel dilation ncn height width
          (fun k i _ => k < K ∨ (k = K ∧ i < I)) l) 0 kernel.height
        (fun k_r tab =>
          forStep 0 kernel.width 1 (fun k_c tab =>
            tab.set ((K * kernel.height + k_r) * kernel.width + k_c)
              ((K * height + k_r * dilation.height) * width + k_c * dilation.width)) tab)
        l (Nat.zero_le _)
        ⟨hl.1, fun k i j hD => hl.2 k i j (by omega)⟩
        (by
          intro I _ hI l hl
          have h3 := forStep_one_inv (fun J l => TabGood kernel dilation ncn height width
              (fun k i j => k < K ∨ (k = K ∧ i < I) ∨ (k = K ∧ i = I ∧ j < J)) l) 0 kernel.width
            (fun k_c tab =>
              tab.set ((K * kernel.height + I) * kernel.width + k_c)
                ((K * height + I * dilation.height) * width + k_c * dilation.width))
            l (Nat.zero_le _)
            ⟨hl.1, fun k i j hD => hl.2 k i j (by omega)⟩
            (by
              intro J _ hJ l hl
              have := tabGood_set kernel dilation ncn height width _ l K I J hK hI hJ hl
              refine ⟨this.1, fun k i j hD => this.2 k i j ?_⟩
              omega)
          refine ⟨h3.1, fun k i j hD hk hi hj => h3.2 k i j ?_ hk hi hj⟩
          omega)
      refine ⟨h2.1, fun k i j hD hk hi hj => h2.2 k i j ?_ hk hi hj⟩
      omega)
  intro k i j hk hi hj
  exact h.2 k i j hk hk hi hj

theorem makeBiasvec_spec (bias : List ℚ) (outCn : Nat)
    (hb : bias.isEmpty ∨ bias.length = outCn) :
    ∀ o, o < outCn → (ParallelConv.makeBiasvec bias outCn).getD o 0 = biasAt bias o := by
  intro o ho
  unfold ParallelConv.makeBiasvec
  dsimp only
  rw [getD_set, getD_set, if_neg (by omega), if_neg (by omega)]
  have key : ∀ (f : Nat → ℚ), (forStep 0 outCn 1 (fun k b => b.set k (f k))
      (List.replicate (outCn + 2) 0)).getD o 0 = f o := by
    intro f
    have h := forStep_one_inv (fun K (l : List ℚ) => l.length = outCn + 2 ∧
        ∀ a, a < K → l.getD a 0 = f a) 0 outCn (fun k b => b.set k (f k))
      (List.replicate (outCn + 2) 0) (Nat.zero_le _) ⟨by simp, fun a ha => absurd ha (by omega)⟩
      (by
        intro K _ hK l ⟨hlen, hval⟩
        refine ⟨by simp [hlen], ?_⟩
        intro a ha
        rw [getD_set]
        by_cases e : a = K
        · subst e; rw [if_pos ⟨rfl, by omega⟩]
        · rw [if_neg (fun c => e c.1)]; exact hval a (by omega))
    exact h.2 o ho
  split_ifs with he
  · rw [key (fun _ => 0)]
    unfold biasAt
    have : bias = [] := List.isEmpty_iff.1 he
    subst this
    simp
  · rw [key (fun k => bias.getD k 0)]
    rfl

theorem call_upd (p : ParallelConv) (scratch : Mem) (r0 : Range) (out : Mem)
    (hactiv : p.activ_ = none)
    (hdh : 1 ≤ p.dilation_.height) (hdw : 1 ≤ p.dilation_.width)
    (hof : p.OfstabOK (min p.inpCn BLK_SIZE_CN))
    (his : p.is1x1_ = true → p.karea = 0) (hcn : 1 ≤ p.inpCn) (hG : 1 ≤ p.ngroups_)
    (hpad : p.simd = true → p.WeightsPadded) :
    Upd (p.callSet r0) p.outVal out (p.call scratch r0 out) := by
  unfold ParallelConv.call forBreak
  dsimp only
  have h := forBreakAux_upd p.stripeBody (fun i => i / p.stripesPerSample ≥ p.batchSize)
    p.stripeSet p.outVal
    (by
      intro i s hb
      unfold ParallelConv.stripeBody ParallelConv.stripeGeom
      dsimp only
      rw [if_pos hb]
      rfl)
    (by
      intro i s hb
      exact stripeBody_upd p i s hactiv hdh hdw hof his hcn hG hpad (by omega))
    (by
      intro i j hij hb
      have := Nat.div_le_div_right (c := p.stripesPerSample) hij
      omega)
    (r0.end_ * p.rangeScale - r0.start * p.rangeScale) (r0.start * p.rangeScale)
    (memset0 scratch 0 (p.karea * BLK_SIZE_CN * BLK_SIZE), out)
  refine h.congr_set ?_
  intro a
  unfold ParallelConv.callSet
  simp only [Set.mem_setOf_eq]
  constructor
  · rintro ⟨j, h1, h2, h3, h4⟩
    exact ⟨j, h1, by omega, by omega, h4⟩
  · rintro ⟨j, h1, h2, h3, h4⟩
    exact ⟨j, h1, by omega, by omega, h4⟩

theorem foldl_upd {α : Type} (f : Mem → α → Mem) (S : α → Set Nat) (v : Nat → ℚ)
    (h : ∀ x m, Upd (S x) v m (f m x)) :
    ∀ (l : List α) (m : Mem), Upd {a | ∃ x, x ∈ l ∧ a ∈ S x} v m (l.foldl f m) := by
  intro l
  induction l with
  | nil =>
    intro m a
    simp
  | cons x l ih =>
    intro m
    simp only [List.foldl_cons]
    refine ((h x m).trans (ih (f m x))).congr_set ?_
    intro a
    simp only [Set.mem_union, Set.mem_setOf_eq, List.mem_cons]
    constructor
    · rintro (h1 | ⟨y, hy, h1⟩)
      · exact ⟨x, Or.inl rfl, h1⟩
      · exact ⟨y, Or.inr hy, h1⟩
    · rintro ⟨y, hy | hy, h1⟩
      · subst hy; exact Or.inl h1
      · exact Or.inr ⟨y, hy, h1⟩

theorem isSplit_cover (sched : List Range) (nstripes : Nat)
    (h : ParallelConv.IsSplit sched nstripes) :
    ∀ s, s < nstripes → ∃ r, r ∈ sched ∧ r.start ≤ s ∧ s < r.end_ := by
  intro s hs
  have hm : s ∈ List.range nstripes := List.mem_range.2 hs
  have hm2 := (List.Perm.mem_iff h).2 hm
  rw [List.mem_flatMap] at hm2
  obtain ⟨r, hr, hsr⟩ := hm2
  rw [List.mem_range'_1] at hsr
  exact ⟨r, hr, hsr.1, by omega⟩

theorem div_mul_bounds (s c : Nat) (hc : 0 < c) : s / c * c ≤ s ∧ s < (s / c + 1) * c := by
  have h1 := Nat.div_add_mod s c
  have h2 := Nat.mod_lt s hc
  have e1 : s / c * c = c * (s / c) := Nat.mul_comm _ _
  have e2 : (s / c + 1) * c = c * (s / c) + c := by ring
  omega

/-- Every pair (sample-group, plane offset) lies in a stripe scheduled by `parallel_for_`. -/
theorem stripe_cover (p : ParallelConv) (b ofs : Nat) (hb : b < p.batchSize)
    (hofs : ofs < p.outPlaneSize) (hns : 1 ≤ p.nstripes_) :
    ∃ stripe, stripe / p.rangeScale < p.nstripes_ ∧ 1 ≤ p.rangeScale ∧
      stripe / p.stripesPerSample = b ∧
      (stripe - stripe / p.stripesPerSample * p.stripesPerSample) * p.stripeSize ≤ ofs ∧
      ofs < min ((stripe - stripe / p.stripesPerSample * p.stripesPerSample) * p.stripeSize +
        p.stripeSize) p.outPlaneSize := by
  unfold ParallelConv.rangeScale ParallelConv.stripesPerSample ParallelConv.stripeSize
    ParallelConv.stripeParams
  split_ifs with hreg
  · dsimp only
    have hsps : 2 ≤ p.nstripes_ / p.batchSize := by
      rw [Nat.le_div_iff_mul_le (by omega)]; omega
    have hV : VEC_ALIGN = 8 := rfl
    set sps := p.nstripes_ / p.batchSize with hspsdef
    set P := p.outPlaneSize with hP
    have hceil : P ≤ sps * ((P + sps - 1) / sps) := by
      have := Nat.lt_div_mul_add (a := P + sps - 1) (b := sps) (by omega)
      have e : (P + sps - 1) / sps * sps = sps * ((P + sps - 1) / sps) := Nat.mul_comm _ _
      omega
    have hal : (P + sps - 1) / sps ≤ alignSize ((P + sps - 1) / sps) VEC_ALIGN :=
      alignSize_ge _ _ (by decide)
    set ss := min (alignSize ((P + sps - 1) / sps) VEC_ALIGN) P with hss
    have hss1 : 1 ≤ ss := by
      have : 1 ≤ (P + sps - 1) / sps := by
        rw [Nat.le_div_iff_mul_le (by omega)]; omega
      omega
    have hcov : P ≤ sps * ss := by
      rcases Nat.le_total (alignSize ((P + sps - 1) / sps) VEC_ALIGN) P with h | h
      · have e : ss = alignSize ((P + sps - 1) / sps) VEC_ALIGN := by omega
        have := Nat.mul_le_mul_left sps hal
        rw [e]; omega
      · have e : ss = P := by omega
        rw [e]
        have := Nat.mul_le_mul_right P (show 1 ≤ sps by omega)
        omega
    have hq : ofs / ss < sps := by
      apply Nat.div_lt_of_lt_mul
      rw [Nat.mul_comm]; omega
    have hdm := div_mul_bounds ofs ss (by omega)
    refine ⟨b * sps + ofs / ss, ?_, Nat.le_refl _, ?_, ?_, ?_⟩
    · rw [Nat.div_one]
      have h1 : b * sps + ofs / ss < p.batchSize * sps := enc_lt hb hq
      have h2 : sps * p.batchSize ≤ p.nstripes_ := Nat.div_mul_le_self _ _
      have e : p.batchSize * sps = sps * p.batchSize := Nat.mul_comm _ _
      omega
    · exact enc_div _ _ hq
    · rw [enc_div _ _ hq, Nat.add_sub_cancel_left]
      exact hdm.1
    · rw [enc_div _ _ hq, Nat.add_sub_cancel_left]
      have e : (ofs / ss + 1) * ss = ofs / ss * ss + ss := by ring
      omega
  · dsimp only
    set sc := max ((p.batchSize + p.nstripes_ - 1) / p.nstripes_) 1 with hsc
    have hsc1 : 1 ≤ sc := by omega
    have hceil : p.batchSize ≤ p.nstripes_ * ((p.batchSize + p.nstripes_ - 1) / p.nstripes_) := by
      have := Nat.lt_div_mul_add (a := p.batchSize + p.nstripes_ - 1) (b := p.nstripes_) (by omega)
      have e : (p.batchSize + p.nstripes_ - 1) / p.nstripes_ * p.nstripes_ =
          p.nstripes_ * ((p.batchSize + p.nstripes_ - 1) / p.nstripes_) := Nat.mul_comm _ _
      omega
    have hcov : p.batchSize ≤ sc * p.nstripes_ := by
      have : p.nstripes_ * ((p.batchSize + p.nstripes_ - 1) / p.nstripes_) ≤ p.nstripes_ * sc :=
        Nat.mul_le_mul_left _ (by omega)
      rw [Nat.mul_comm sc]; omega
    refine ⟨b, ?_, hsc1, Nat.div_one _, ?_, ?_⟩
    · apply Nat.div_lt_of_lt_mul; omega
    · simp
    · simp [hofs]

theorem stripeVal_eq_convRef (input : Mat4) (outSize0 outSize1 outSize2 outSize3 : Nat)
    (weights : Mat2) (bias : List ℚ) (kernel pad stride dilation : Size)
    (ngroups nstripes : Nat) (simd : Bool)
    (hbias : bias.isEmpty ∨ bias.length = outSize1)
    (hC : input.size1 % ngroups = 0) (hO : outSize1 % ngroups = 0)
    (n g i y x : Nat) (hg : g < ngroups) (hi : i < outSize1 / ngroups) (hx : x < outSize3) :
    (ParallelConv.setup input outSize0 outSize1 outSize2 outSize3 weights bias kernel pad stride
      dilation ngroups nstripes none simd).stripeVal (n * ngroups + g) i (y * outSize3 + x) =
    convRef input weights bias kernel pad stride dilation ngroups outSize1 n
      (g * (outSize1 / ngroups) + i) y x := by
  have hC' : input.size1 = ngroups * (input.size1 / ngroups) := by
    have := Nat.div_add_mod input.size1 ngroups
    omega
  have hO' : outSize1 = ngroups * (outSize1 / ngroups) := by
    have := Nat.div_add_mod outSize1 ngroups
    omega
  have hbg : (n * ngroups + g) % ngroups = g := enc_mod _ _ hg
  have ho : g * (outSize1 / ngroups) + i < outSize1 := by
    have := enc_lt hg hi
    omega
  unfold ParallelConv.stripeVal convRef ParallelConv.chanSum
  simp only [ParallelConv.setup, ParallelConv.outCn, ParallelConv.inpCn, hbg,
    ParallelConv.inpPlaneSize, ParallelConv.width, ParallelConv.height]
  rw [makeBiasvec_spec bias outSize1 hbias _ ho, enc_div _ _ hi]
  congr 1
  apply Finset.sum_congr rfl
  intro c _
  apply Finset.sum_congr rfl
  intro i1 _
  apply Finset.sum_congr rfl
  intro j1 _
  congr 1
  · congr 1
    ring
  · unfold ParallelConv.tapVal Mat4.atPad
    simp only [ParallelConv.setup, ParallelConv.outW, ParallelConv.height, ParallelConv.width]
    have e1 : (y * outSize3 + x) / outSize3 = y := enc_div _ _ hx
    have e2 : y * outSize3 + x - y * outSize3 = x := by omega
    rw [e1, e2]
    split_ifs
    · congr 1
      have : ((input.size1 : Nat) : Int) = (ngroups : Int) * ((input.size1 / ngroups : Nat) : Int) := by
        exact_mod_cast hC'
      rw [this]
      push_cast
      ring
    · rfl

theorem addr_eq (n G c q r H W y x o C : Nat) (ho : o = q * c + r) (hC : C = G * c) :
    ((n * C + o) * H + y) * W + x = (n * G + q) * (W * H) * c + r * (W * H) + (y * W + x) := by
  subst ho hC
  ring

/-- Functional correctness of `ParallelConv::run` without activation: the call succeeds
and every output element holds the direct grouped convolution. -/
theorem run_spec (input : Mat4) (outSize0 outSize1 outSize2 outSize3 : Nat) (out0 : Mem)
    (weights : Mat2) (bias : List ℚ) (kernel pad stride dilation : Size)
    (ngroups nstripes : Nat) (simd : Bool) (scratch : Mem) (sched : List Range)
    (hN : input.size0 = outSize0) (hrows : weights.rows = outSize1)
    (hcols : weights.cols = input.size1 / ngroups * kernel.width * kernel.height)
    (hbias : bias.isEmpty ∨ bias.length = outSize1)
    (hG : 1 ≤ ngroups) (hC : input.size1 % ngroups = 0) (hO : outSize1 % ngroups = 0)
    (hCpos : 1 ≤ input.size1)
    (hdh : 1 ≤ dilation.height) (hdw : 1 ≤ dilation.width)
    (hns : 1 ≤ nstripes) (hsched : ParallelConv.IsSplit sched nstripes)
    (hpad : simd = true → weights.ZeroPadded) :
    ∃ out, ParallelConv.run input outSize0 outSize1 outSize2 outSize3 out0 weights bias kernel
        pad stride dilation ngroups nstripes none simd scratch sched = some out ∧
      ∀ n o y x, n < outSize0 → o < outSize1 → y < outSize2 → x < outSize3 →
        out (outIndex outSize1 outSize2 outSize3 n o y x) =
          convRef input weights bias kernel pad stride dilation ngroups outSize1 n o y x := by
  unfold ParallelConv.run
  rw [if_pos ⟨hN, hrows, hcols, hbias⟩]
  refine ⟨_, rfl, ?_⟩
  intro n o y x hn ho hy hx
  set p := ParallelConv.setup input outSize0 outSize1 outSize2 outSize3 weights bias kernel pad
    stride dilation ngroups nstripes none simd with hp
  have hC' : input.size1 = ngroups * (input.size1 / ngroups) := by
    have := Nat.div_add_mod input.size1 ngroups
    omega
  have hO' : outSize1 = ngroups * (outSize1 / ngroups) := by
    have := Nat.div_add_mod outSize1 ngroups
    omega
  have hinp : p.inpCn = input.size1 / ngroups := rfl
  have houtCn : p.outCn = outSize1 / ngroups := rfl
  have hcn : 1 ≤ p.inpCn := by
    rw [hinp]
    rcases Nat.eq_zero_or_pos (input.size1 / ngroups) with h | h
    · rw [h] at hC'; omega
    · exact h
  have hof : p.OfstabOK (min p.inpCn BLK_SIZE_CN) := by
    intro k i j hk hi hj
    exact makeOfstab_spec kernel dilation (min (input.size1 / ngroups) BLK_SIZE_CN)
      input.size2 input.size3 k i j hk hi hj
  have his : p.is1x1_ = true → p.karea = 0 := by
    intro h
    have h' : kernel = Size.mk 0 0 ∧ pad = Size.mk 0 0 := by
      simpa [hp, ParallelConv.setup] using h
    show kernel.width * kernel.height = 0
    rw [h'.1]
    rfl
  have hpadp : p.simd = true → p.WeightsPadded := by
    intro hs
    obtain ⟨w1, w2, w3⟩ := hpad hs
    have hk : p.inpCn * p.karea = weights.cols := by
      rw [hcols]
      show input.size1 / ngroups * (kernel.width * kernel.height) = _
      ring
    refine ⟨by rw [hk]; exact w1, w2, ?_⟩
    intro o1 k ho1 h1 h2
    rw [hk] at h1
    have hrw : p.ngroups_ * p.outCn = outSize1 := by
      show ngroups * (outSize1 / ngroups) = outSize1
      omega
    exact w3 o1 k (by rw [hrows]; omega) h1 h2
  have hU := foldl_upd (fun out r => p.call scratch r out) p.callSet p.outVal
    (fun r m => call_upd p scratch r m rfl hdh hdw hof his hcn hG hpadp) sched out0
  -- decompose the output channel and the address
  have hoC : 0 < outSize1 / ngroups := by
    rcases Nat.eq_zero_or_pos (outSize1 / ngroups) with h | h
    · rw [h] at hO'; omega
    · exact h
  have hg : o / (outSize1 / ngroups) < ngroups := by
    apply Nat.div_lt_of_lt_mul
    rw [Nat.mul_comm]; omega
  have hi : o % (outSize1 / ngroups) < outSize1 / ngroups := Nat.mod_lt _ hoC
  have hoe : o = o / (outSize1 / ngroups) * (outSize1 / ngroups) + o % (outSize1 / ngroups) := by
    have := Nat.div_add_mod o (outSize1 / ngroups)
    rw [Nat.mul_comm] at this
    omega
  have hofs : y * outSize3 + x < p.outPlaneSize := by
    show y * outSize3 + x < outSize3 * outSize2
    have := enc_lt hy hx
    rw [Nat.mul_comm outSize3]; exact this
  have hb : n * ngroups + o / (outSize1 / ngroups) < p.batchSize := by
    show _ < input.size0 * ngroups
    rw [hN]
    exact enc_lt hn hg
  have haddr : outIndex outSize1 outSize2 outSize3 n o y x =
      (n * ngroups + o / (outSize1 / ngroups)) * p.outPlaneSize * p.outCn +
        o % (outSize1 / ngroups) * p.outPlaneSize + (y * outSize3 + x) := by
    unfold outIndex
    rw [houtCn]
    show _ = (n * ngroups + o / (outSize1 / ngroups)) * (outSize3 * outSize2) *
      (outSize1 / ngroups) + o % (outSize1 / ngroups) * (outSize3 * outSize2) + (y * outSize3 + x)
    exact addr_eq n ngroups (outSize1 / ngroups) _ _ outSize2 outSize3 y x o outSize1 hoe hO'
  -- the address is written by a scheduled stripe
  obtain ⟨stripe, hs1, hs2, hs3, hs4, hs5⟩ := stripe_cover p _ _ hb hofs hns
  obtain ⟨r, hr, hr1, hr2⟩ := isSplit_cover sched nstripes hsched _ hs1
  have hdm := div_mul_bounds stripe p.rangeScale (by omega)
  have hmem : outIndex outSize1 outSize2 outSize3 n o y x ∈
      {a | ∃ x, x ∈ sched ∧ a ∈ p.callSet x} := by
    refine ⟨r, hr, stripe, ?_, ?_, by omega, ?_⟩
    · have := Nat.mul_le_mul_right p.rangeScale hr1
      omega
    · have := Nat.mul_le_mul_right p.rangeScale (show stripe / p.rangeScale + 1 ≤ r.end_ by omega)
      omega
    · refine ⟨o % (outSize1 / ngroups), y * outSize3 + x, hi, hs4, hs5, ?_⟩
      rw [hs3]; exact haddr
  rw [(hU _).1 hmem, haddr, outVal_addr p _ _ _ hi hofs]
  have := stripeVal_eq_convRef input outSize0 outSize1 outSize2 outSize3 weights bias kernel pad
    stride dilation ngroups nstripes simd hbias hC hO n (o / (outSize1 / ngroups))
    (o % (outSize1 / ngroups)) y x hg hi hx
  rw [← hoe] at this
  exact this

theorem mul_div_self_right (C s q : Nat) (h : C = s * q) (hq : 1 ≤ q) : C / q = s := by
  subst h
  exact Nat.mul_div_cancel _ hq

theorem mul_mod_self_right (C s q : Nat) (h : C = s * q) : C % q = 0 := by
  subst h
  exact Nat.mul_mod_left _ _

theorem alignSize_mod (sz n : Nat) : alignSize sz n % n = 0 := by
  unfold alignSize
  exact Nat.mul_mod_left _ _

theorem alignWeights_rows (wm : Mat2) : (ConvolutionLayerImpl.alignWeights wm).rows = wm.rows := by
  unfold ConvolutionLayerImpl.alignWeights
  split_ifs <;> rfl

theorem alignWeights_cols (wm : Mat2) : (ConvolutionLayerImpl.alignWeights wm).cols = wm.cols := by
  unfold ConvolutionLayerImpl.alignWeights
  split_ifs <;> rfl

theorem alignWeights_data (wm : Mat2) (hs : wm.cols ≤ wm.step1) (o t : Nat) (ht : t < wm.cols) :
    (ConvolutionLayerImpl.alignWeights wm).data
      (o * (ConvolutionLayerImpl.alignWeights wm).step1 + t) = wm.data (o * wm.step1 + t) := by
  unfold ConvolutionLayerImpl.alignWeights
  split_ifs with h
  · dsimp only
    have hge : wm.step1 ≤ alignSize wm.step1 VEC_ALIGN := alignSize_ge _ _ (by decide)
    have hlt : t < alignSize wm.step1 VEC_ALIGN := by omega
    rw [enc_mod _ _ hlt, enc_div _ _ hlt, if_pos ht]
  · rfl

theorem alignWeights_padded (wm : Mat2) (hs : wm.cols = wm.step1) :
    (ConvolutionLayerImpl.alignWeights wm).ZeroPadded := by
  unfold ConvolutionLayerImpl.alignWeights
  have hV : VEC_ALIGN = 8 := rfl
  split_ifs with h
  · have hge : wm.step1 ≤ alignSize wm.step1 VEC_ALIGN := alignSize_ge _ _ (by decide)
    have hm := alignSize_mod wm.step1 VEC_ALIGN
    refine ⟨by dsimp only; omega, by dsimp only; rw [hV] at hm ⊢; omega, ?_⟩
    intro o k _ h1 h2
    dsimp only at h1 h2 ⊢
    rw [enc_mod _ _ h2, if_neg (by omega)]
  · refine ⟨by omega, by rw [hV] at h; omega, ?_⟩
    intro o k _ h1 h2
    omega

theorem convRef_congr (X : Mat4) (W W1 : Mat2) (bias : List ℚ) (kernel pad stride dilation : Size)
    (ngroups outC n o y x : Nat)
    (h : ∀ t, t < X.size1 / ngroups * kernel.height * kernel.width →
      W.data (o * W.step1 + t) = W1.data (o * W1.step1 + t)) :
    convRef X W bias kernel pad stride dilation ngroups outC n o y x =
      convRef X W1 bias kernel pad stride dilation ngroups outC n o y x := by
  unfold convRef
  dsimp only
  congr 1
  apply Finset.sum_congr rfl
  intro c hc
  apply Finset.sum_congr rfl
  intro i hi
  apply Finset.sum_congr rfl
  intro j hj
  rw [h _ (enc_lt (enc_lt (Finset.mem_range.1 hc) (Finset.mem_range.1 hi)) (Finset.mem_range.1 hj))]

/-- Functional correctness of the first `ConvolutionLayerImpl::forward` call. -/
theorem forward_spec (l : ConvolutionLayerImpl) (b0 : Blob) (rest : List Blob) (input : Mat4)
    (outSize0 outSize1 outSize2 outSize3 : Nat) (out0 : Mem) (numThreads : Nat)
    (simd : Bool) (scratch : Mem) (sched : List Range)
    (hblobs : l.blobs = b0 :: rest) (hcache : l.weightsMat = none) (hactiv : l.activ = none)
    (hkh : b0.size2 = l.kernel.height) (hkw : b0.size3 = l.kernel.width)
    (hb0 : 1 ≤ b0.size1) (hdiv : input.size1 % b0.size1 = 0) (hCpos : 1 ≤ input.size1)
    (hO : outSize1 % (input.size1 / b0.size1) = 0)
    (hN : input.size0 = outSize0) (hrows : b0.size0 = outSize1) (hrowspos : 1 ≤ outSize1)
    (hbias : rest = [] ∨ ∃ b1 tl, rest = b1 :: tl ∧ b1.total = outSize1)
    (hdh : 1 ≤ l.dilation.height) (hdw : 1 ≤ l.dilation.width)
    (hsched : ParallelConv.IsSplit sched (max numThreads 1)) :
    ∃ l1 out, l.forward input outSize0 outSize1 outSize2 outSize3 out0 numThreads simd scratch
        sched = some (l1, out) ∧
      ∀ n o y x, n < outSize0 → o < outSize1 → y < outSize2 → x < outSize3 →
        out (outIndex outSize1 outSize2 outSize3 n o y x) =
          convRef input (b0.reshape b0.size0) (ConvolutionLayerImpl.biasList rest) l.kernel l.pad l.stride l.dilation
            (input.size1 / b0.size1) outSize1 n o y x := by
  have hq : input.size1 = b0.size1 * (input.size1 / b0.size1) := by
    have := Nat.div_add_mod input.size1 b0.size1
    omega
  have hqpos : 1 ≤ input.size1 / b0.size1 := by
    rcases Nat.eq_zero_or_pos (input.size1 / b0.size1) with h | h
    · rw [h] at hq; omega
    · exact h
  have hinpCn : input.size1 / (input.size1 / b0.size1) = b0.size1 := by
    exact mul_div_self_right _ _ _ hq hqpos
  have hcols : (b0.reshape b0.size0).cols = b0.size1 * l.kernel.height * l.kernel.width := by
    unfold Blob.reshape Blob.total
    dsimp only
    rw [← hkh, ← hkw]
    have : b0.size0 * b0.size1 * b0.size2 * b0.size3 = b0.size0 * (b0.size1 * b0.size2 * b0.size3) := by
      ring
    rw [this, Nat.mul_div_cancel_left _ (by omega)]
  have hbl : (ConvolutionLayerImpl.biasList rest).isEmpty ∨ (ConvolutionLayerImpl.biasList rest).length = outSize1 := by
    rcases hbias with h | ⟨b1, tl, h, ht⟩
    · left; subst h; rfl
    · right; subst h; simp [ConvolutionLayerImpl.biasList, Blob.toList, ht]
  obtain ⟨out, hrun, hval⟩ := run_spec input outSize0 outSize1 outSize2 outSize3 out0
    (ConvolutionLayerImpl.alignWeights (b0.reshape b0.size0)) (ConvolutionLayerImpl.biasList rest)
    l.kernel l.pad l.stride l.dilation (input.size1 / b0.size1) (max numThreads 1) simd scratch
    sched hN (by rw [alignWeights_rows]; exact hrows)
    (by rw [alignWeights_cols, hcols, hinpCn]; ring)
    hbl hqpos (mul_mod_self_right _ _ _ hq) hO hCpos hdh hdw
    (by omega) hsched (fun _ => alignWeights_padded _ rfl)
  refine ⟨{ l with weightsMat := some (ConvolutionLayerImpl.alignWeights (b0.reshape b0.size0)) },
    out, ?_, ?_⟩
  · unfold ConvolutionLayerImpl.forward
    rw [hblobs]
    dsimp only
    rw [if_pos ⟨by omega, hdiv⟩, if_pos ⟨by omega, hO⟩, hcache, hactiv]
    rw [hrun]
    rfl
  · intro n o y x hn ho hy hx
    rw [hval n o y x hn ho hy hx]
    apply convRef_congr
    intro t ht
    rw [hinpCn] at ht
    exact alignWeights_data _ (Nat.le_refl _) o t (by rw [hcols]; exact ht)

theorem convRef_one_group (X : Mat4) (W : Mat2) (bias : List ℚ) (kernel pad stride dilation : Size)
    (outC n o y x : Nat) (ho : o < outC) :
    convRef X W bias kernel pad stride dilation 1 outC n o y x =
      convDirect X W bias kernel pad stride dilation n o y x := by
  unfold convRef convDirect
  simp only [Nat.div_one, Nat.div_eq_of_lt ho, Nat.zero_mul, Nat.zero_add]

/-- C1: over exact arithmetic `ParallelConv::run` (no activation) succeeds and leaves in
`output[n][o][y][x]` the direct grouped convolution `convRef`, for every stripe count
`nstripes ≥ 1` and every way `parallel_for_` splits and orders the stripes; with one group
this is the direct ungrouped convolution `convDirect`.  The input has at least one channel,
and when the `CV_SIMD128` loop is compiled in the weight rows are zero-padded as the data
model requires. -/
theorem run_computes_convRef (input : Mat4) (outSize0 outSize1 outSize2 outSize3 : Nat)
    (out0 : Mem) (weights : Mat2) (bias : List ℚ) (kernel pad stride dilation : Size)
    (ngroups nstripes : Nat) (simd : Bool) (scratch : Mem) (sched : List Range)
    (hN : input.size0 = outSize0) (hrows : weights.rows = outSize1)
    (hcols : weights.cols = input.size1 / ngroups * kernel.width * kernel.height)
    (hbias : bias.isEmpty ∨ bias.length = outSize1)
    (hG : 1 ≤ ngroups) (hC : input.size1 % ngroups = 0) (hO : outSize1 % ngroups = 0)
    (hCpos : 1 ≤ input.size1)
    (hdh : 1 ≤ dilation.height) (hdw : 1 ≤ dilation.width)
    (hns : 1 ≤ nstripes) (hsched : ParallelConv.IsSplit sched nstripes)
    (hpad : simd = true → weights.ZeroPadded) :
    ∃ out, ParallelConv.run input outSize0 outSize1 outSize2 outSize3 out0 weights bias kernel
        pad stride dilation ngroups nstripes none simd scratch sched = some out ∧
      (∀ n o y x, n < outSize0 → o < outSize1 → y < outSize2 → x < outSize3 →
        out (outIndex outSize1 outSize2 outSize3 n o y x) =
          convRef input weights bias kernel pad stride dilation ngroups outSize1 n o y x) ∧
      (ngroups = 1 → ∀ n o y x, n < outSize0 → o < outSize1 → y < outSize2 → x < outSize3 →
        out (outIndex outSize1 outSize2 outSize3 n o y x) =
          convDirect input weights bias kernel pad stride dilation n o y x) := by
  obtain ⟨out, h1, h2⟩ := run_spec input outSize0 outSize1 outSize2 outSize3 out0 weights bias
    kernel pad stride dilation ngroups nstripes simd scratch sched hN hrows hcols hbias hG hC hO
    hCpos hdh hdw hns hsched hpad
  refine ⟨out, h1, h2, ?_⟩
  intro hg n o y x hn ho hy hx
  rw [h2 n o y x hn ho hy hx, hg]
  exact convRef_one_group _ _ _ _ _ _ _ _ _ _ _ _ ho

/-- C8: over exact arithmetic the output of `ParallelConv::run` with any stripe count
`nstripes ≥ 1` (and any schedule of the stripes) equals, element for element, the output
computed with stripe count 1, whatever the two output buffers held before. -/
theorem run_stripe_count_independent (input : Mat4) (outSize0 outSize1 outSize2 outSize3 : Nat)
    (out0 out0' : Mem) (weights : Mat2) (bias : List ℚ) (kernel pad stride dilation : Size)
    (ngroups nstripes : Nat) (simd : Bool) (scratch scratch' : Mem) (sched sched1 : List Range)
    (hN : input.size0 = outSize0) (hrows : weights.rows = outSize1)
    (hcols : weights.cols = input.size1 / ngroups * kernel.width * kernel.height)
    (hbias : bias.isEmpty ∨ bias.length = outSize1)
    (hG : 1 ≤ ngroups) (hC : input.size1 % ngroups = 0) (hO : outSize1 % ngroups = 0)
    (hCpos : 1 ≤ input.size1)
    (hdh : 1 ≤ dilation.height) (hdw : 1 ≤ dilation.width)
    (hns : 1 ≤ nstripes) (hsched : ParallelConv.IsSplit sched nstripes)
    (hsched1 : ParallelConv.IsSplit sched1 1)
    (hpad : simd = true → weights.ZeroPadded) :
    ∃ outN out1,
      ParallelConv.run input outSize0 outSize1 outSize2 outSize3 out0 weights bias kernel
        pad stride dilation ngroups nstripes none simd scratch sched = some outN ∧
      ParallelConv.run input outSize0 outSize1 outSize2 outSize3 out0' weights bias kernel
        pad stride dilation ngroups 1 none simd scratch' sched1 = some out1 ∧
      ∀ n o y x, n < outSize0 → o < outSize1 → y < outSize2 → x < outSize3 →
        outN (outIndex outSize1 outSize2 outSize3 n o y x) =
          out1 (outIndex outSize1 outSize2 outSize3 n o y x) := by
  obtain ⟨outN, h1, h2⟩ := run_spec input outSize0 outSize1 outSize2 outSize3 out0 weights bias
    kernel pad stride dilation ngroups nstripes simd scratch sched hN hrows hcols hbias hG hC hO
    hCpos hdh hdw hns hsched hpad
  obtain ⟨out1, h3, h4⟩ := run_spec input outSize0 outSize1 outSize2 outSize3 out0' weights bias
    kernel pad stride dilation ngroups 1 simd scratch' sched1 hN hrows hcols hbias hG hC hO
    hCpos hdh hdw (Nat.le_refl 1) hsched1 hpad
  refine ⟨outN, out1, h1, h3, ?_⟩
  intro n o y x hn ho hy hx
  rw [h2 n o y x hn ho hy hx, h4 n o y x hn ho hy hx]

/-- C4 (amended): if every weight is zero, the first forward convolution call leaves
`bias[o]` at every batch index, output channel `o` and position (and `0` when there is no
bias), for every input of finite values (the elements of the tensors are rationals),
every configuration and every thread count.  On this path no rounding occurs: every
product has the factor zero and every sum adds zero to the bias. -/
theorem forward_zero_weights (l : ConvolutionLayerImpl) (b0 : Blob) (rest : List Blob)
    (input : Mat4) (outSize0 outSize1 outSize2 outSize3 : Nat) (out0 : Mem) (numThreads : Nat)
    (simd : Bool) (scratch : Mem) (sched : List Range)
    (hblobs : l.blobs = b0 :: rest) (hcache : l.weightsMat = none) (hactiv : l.activ = none)
    (hkh : b0.size2 = l.kernel.height) (hkw : b0.size3 = l.kernel.width)
    (hb0 : 1 ≤ b0.size1) (hdiv : input.size1 % b0.size1 = 0) (hCpos : 1 ≤ input.size1)
    (hO : outSize1 % (input.size1 / b0.size1) = 0)
    (hN : input.size0 = outSize0) (hrows : b0.size0 = outSize1) (hrowspos : 1 ≤ outSize1)
    (hbias : rest = [] ∨ ∃ b1 tl, rest = b1 :: tl ∧ b1.total = outSize1)
    (hdh : 1 ≤ l.dilation.height) (hdw : 1 ≤ l.dilation.width)
    (hsched : ParallelConv.IsSplit sched (max numThreads 1))
    (hzero : ∀ a, a < b0.total → b0.data a = 0) :
    ∃ l1 out, l.forward input outSize0 outSize1 outSize2 outSize3 out0 numThreads simd scratch
        sched = some (l1, out) ∧
      ∀ n o y x, n < outSize0 → o < outSize1 → y < outSize2 → x < outSize3 →
        out (outIndex outSize1 outSize2 outSize3 n o y x) =
          biasAt (ConvolutionLayerImpl.biasList rest) o ∧
        (rest = [] → out (outIndex outSize1 outSize2 outSize3 n o y x) = 0) := by
  obtain ⟨l1, out, h1, h2⟩ := forward_spec l b0 rest input outSize0 outSize1 outSize2 outSize3
    out0 numThreads simd scratch sched hblobs hcache hactiv hkh hkw hb0 hdiv hCpos hO hN hrows
    hrowspos hbias hdh hdw hsched
  refine ⟨l1, out, h1, ?_⟩
  intro n o y x hn ho hy hx
  have hq : input.size1 = b0.size1 * (input.size1 / b0.size1) := by
    have := Nat.div_add_mod input.size1 b0.size1
    omega
  have hqpos : 1 ≤ input.size1 / b0.size1 := by
    rcases Nat.eq_zero_or_pos (input.size1 / b0.size1) with h | h
    · rw [h] at hq; omega
    · exact h
  have hinpCn : input.size1 / (input.size1 / b0.size1) = b0.size1 :=
    mul_div_self_right _ _ _ hq hqpos
  have hcols : b0.total / b0.size0 = b0.size1 * l.kernel.height * l.kernel.width := by
    unfold Blob.total
    rw [← hkh, ← hkw]
    have : b0.size0 * b0.size1 * b0.size2 * b0.size3 = b0.size0 * (b0.size1 * b0.size2 * b0.size3) := by
      ring
    rw [this, Nat.mul_div_cancel_left _ (by omega)]
  have htot : b0.total = b0.size0 * (b0.size1 * l.kernel.height * l.kernel.width) := by
    unfold Blob.total
    rw [← hkh, ← hkw]; ring
  have hval : out (outIndex outSize1 outSize2 outSize3 n o y x) =
      biasAt (ConvolutionLayerImpl.biasList rest) o := by
    rw [h2 n o y x hn ho hy hx]
    unfold convRef
    dsimp only
    rw [add_right_eq_self]
    apply Finset.sum_eq_zero
    intro c hc
    apply Finset.sum_eq_zero
    intro i hi
    apply Finset.sum_eq_zero
    intro j hj
    rw [hinpCn] at hc
    have hlt := enc_lt (enc_lt (Finset.mem_range.1 hc) (Finset.mem_range.1 hi))
      (Finset.mem_range.1 hj)
    have hlt2 : o * (b0.size1 * l.kernel.height * l.kernel.width) +
        ((c * l.kernel.height + i) * l.kernel.width + j) < b0.total := by
      rw [htot]
      exact enc_lt (by omega) hlt
    have : (b0.reshape b0.size0).data (o * (b0.reshape b0.size0).step1 +
        ((c * l.kernel.height + i) * l.kernel.width + j)) = 0 := by
      unfold Blob.reshape
      dsimp only
      rw [hcols]
      exact hzero _ hlt2
    rw [this, zero_mul]
  refine ⟨hval, ?_⟩
  intro hr
  rw [hval, hr]
  rfl

/-- C2: the forward convolution of an all-ones `[1,1,3,3]` input with an all-ones
`[1,1,3,3]` weight, stride 1, pad 1, dilation 1, one group and bias 0 (absent, or a zero
bias blob) yields `[[4,6,4],[6,9,6],[4,6,4]]`, for every thread count and schedule and
whatever lies in memory outside the tensors. -/
theorem forward_scenario_A (d : Int → ℚ) (w : Mem) (rest : List Blob) (out0 : Mem)
    (numThreads : Nat) (simd : Bool) (scratch : Mem) (sched : List Range)
    (hd : ∀ i, 0 ≤ i → i < 9 → d i = 1) (hw : ∀ a, a < 9 → w a = 1)
    (hrest : rest = [] ∨ ∃ z, rest = [{ size0 := 1, size1 := 1, size2 := 1, size3 := 1, data := z }]
      ∧ z 0 = 0)
    (hsched : ParallelConv.IsSplit sched (max numThreads 1)) :
    ∃ l1 out, (scenarioALayer w rest).forward ⟨1, 1, 3, 3, d⟩ 1 1 3 3 out0 numThreads simd
        scratch sched = some (l1, out) ∧
      (List.range 9).map out = [4, 6, 4, 6, 9, 6, 4, 6, 4] := by
  have hb : rest = [] ∨ ∃ b1 tl, rest = b1 :: tl ∧ b1.total = 1 := by
    rcases hrest with h | ⟨z, h, _⟩
    · exact Or.inl h
    · exact Or.inr ⟨_, _, h, rfl⟩
  obtain ⟨l1, out, h1, h2⟩ := forward_spec (scenarioALayer w rest) _ rest ⟨1, 1, 3, 3, d⟩ 1 1 3 3
    out0 numThreads simd scratch sched rfl rfl rfl rfl rfl (Nat.le_refl _) (by norm_num)
    (Nat.le_refl _) (by norm_num) rfl rfl (Nat.le_refl _) hb (Nat.le_refl _) (Nat.le_refl _) hsched
  refine ⟨l1, out, h1, ?_⟩
  have hbias : biasAt (ConvolutionLayerImpl.biasList rest) 0 = 0 := by
    rcases hrest with h | ⟨z, h, hz⟩
    · subst h; rfl
    · subst h; simp [ConvolutionLayerImpl.biasList, Blob.toList, Blob.total, biasAt, hz]
  have hv : ∀ y x, y < 3 → x < 3 → out (y * 3 + x) =
      convRef ⟨1, 1, 3, 3, d⟩ (Blob.reshape ⟨1, 1, 3, 3, w⟩ 1) (ConvolutionLayerImpl.biasList rest)
        ⟨3, 3⟩ ⟨1, 1⟩ ⟨1, 1⟩ ⟨1, 1⟩ 1 1 0 0 y x := by
    intro y x hy hx
    have := h2 0 0 y x (by decide) (by decide) hy hx
    simpa [outIndex] using this
  have e0 := hv 0 0 (by decide) (by decide)
  have e1 := hv 0 1 (by decide) (by decide)
  have e2 := hv 0 2 (by decide) (by decide)
  have e3 := hv 1 0 (by decide) (by decide)
  have e4 := hv 1 1 (by decide) (by decide)
  have e5 := hv 1 2 (by decide) (by decide)
  have e6 := hv 2 0 (by decide) (by decide)
  have e7 := hv 2 1 (by decide) (by decide)
  have e8 := hv 2 2 (by decide) (by decide)
  simp [convRef, Finset.sum_range_succ, Mat4.atPad, Blob.reshape, Blob.total, hbias, hd, hw]
    at e0 e1 e2 e3 e4 e5 e6 e7 e8
  simp [List.range, List.range.loop, e0, e1, e2, e3, e4, e5, e6, e7, e8]
  norm_num

/-- C3: grouped forward convolution of a `[1,4,2,2]` input whose channel `c` is the
constant `c+1`, with two groups, a 1x1 kernel, all-ones weights `[outC,2,1,1]` and no bias:
every output channel of group 0 holds 3 and every output channel of group 1 holds 7, at
all four positions. -/
theorem forward_scenario_C (outC : Nat) (d : Int → ℚ) (w : Mem) (out0 : Mem)
    (numThreads : Nat) (simd : Bool) (scratch : Mem) (sched : List Range)
    (houtC : 1 ≤ outC) (heven : outC % 2 = 0)
    (hd : ∀ c i : Nat, c < 4 → i < 4 → d ((c * 4 + i : Nat) : Int) = (c : ℚ) + 1)
    (hw : ∀ a, a < outC * 2 → w a = 1)
    (hsched : ParallelConv.IsSplit sched (max numThreads 1)) :
    ∃ l1 out, (scenarioCLayer outC w).forward ⟨1, 4, 2, 2, d⟩ 1 outC 2 2 out0 numThreads simd
        scratch sched = some (l1, out) ∧
      ∀ o y x, o < outC → y < 2 → x < 2 →
        out (outIndex outC 2 2 0 o y x) = if o < outC / 2 then 3 else 7 := by
  obtain ⟨l1, out, h1, h2⟩ := forward_spec (scenarioCLayer outC w) _ [] ⟨1, 4, 2, 2, d⟩ 1 outC 2 2
    out0 numThreads simd scratch sched rfl rfl rfl rfl rfl (by norm_num) (by norm_num)
    (by norm_num) (by simpa using heven) rfl rfl houtC (Or.inl rfl) (Nat.le_refl _)
    (Nat.le_refl _) hsched
  refine ⟨l1, out, h1, ?_⟩
  intro o y x ho hy hx
  rw [h2 0 o y x (by decide) ho hy hx]
  have hw0 : w (o * 2) = 1 := hw _ (by omega)
  have hw1 : w (o * 2 + 1) = 1 := hw _ (by omega)
  have hd' : ∀ c y x : Nat, c < 4 → y < 2 → x < 2 →
      d ((c * 2 + y) * 2 + x : Int) = (c : ℚ) + 1 := by
    intro c y x hc hy hx
    have := hd c (y * 2 + x) hc (by omega)
    rw [← this]
    congr 1
    push_cast
    ring
  have hy' : (y : Int) < 2 := by exact_mod_cast hy
  have hx' : (x : Int) < 2 := by exact_mod_cast hx
  have htot : outC * 2 / outC = 2 := by
    rw [Nat.mul_comm]
    exact Nat.mul_div_cancel _ (by omega)
  by_cases h : o < outC / 2
  · have hg : o / (outC / 2) = 0 := Nat.div_eq_of_lt h
    have e0 := hd' 0 y x (by decide) hy hx
    have e1 := hd' 1 y x (by decide) hy hx
    simp at e0 e1
    simp [convRef, Finset.sum_range_succ, Mat4.atPad, Blob.reshape, Blob.total, biasAt,
      ConvolutionLayerImpl.biasList, scenarioCLayer, hg, htot, hw0, hw1, hy', hx', h, e0, e1]
    norm_num
  · have hg : o / (outC / 2) = 1 := by
      apply Nat.div_eq_of_lt_le <;> omega
    have e0 := hd' 2 y x (by decide) hy hx
    have e1 := hd' 3 y x (by decide) hy hx
    simp at e0 e1
    simp [convRef, Finset.sum_range_succ, Mat4.atPad, Blob.reshape, Blob.total, biasAt,
      ConvolutionLayerImpl.biasList, scenarioCLayer, hg, htot, hw0, hw1, hy', hx', h, e0, e1]
    norm_num

theorem exWeights_padded : exWeights.ZeroPadded := by
  refine ⟨by decide, by decide, ?_⟩
  intro o k _ h1 h2
  have h1' : 9 ≤ k := h1
  have h2' : k < 16 := h2
  show (if (o * 16 + k) % 16 < 9 then (1 : ℚ) else 0) = 0
  rw [if_neg (by omega)]

theorem isSplit_example : ParallelConv.IsSplit [⟨2, 4⟩, ⟨0, 2⟩] 4 := by
  unfold ParallelConv.IsSplit
  decide

theorem isSplit_one : ParallelConv.IsSplit [⟨0, 1⟩] 1 := by
  unfold ParallelConv.IsSplit
  decide

theorem run_computes_convRef_witness :
    ∃ out, ParallelConv.run exInput 1 1 3 3 (fun _ => 555) exWeights [] ⟨3, 3⟩ ⟨1, 1⟩ ⟨1, 1⟩
        ⟨1, 1⟩ 1 4 none true (fun _ => 999) [⟨2, 4⟩, ⟨0, 2⟩] = some out ∧
      (∀ n o y x, n < 1 → o < 1 → y < 3 → x < 3 →
        out (outIndex 1 3 3 n o y x) =
          convRef exInput exWeights [] ⟨3, 3⟩ ⟨1, 1⟩ ⟨1, 1⟩ ⟨1, 1⟩ 1 1 n o y x) ∧
      ((1 : Nat) = 1 → ∀ n o y x, n < 1 → o < 1 → y < 3 → x < 3 →
        out (outIndex 1 3 3 n o y x) =
          convDirect exInput exWeights [] ⟨3, 3⟩ ⟨1, 1⟩ ⟨1, 1⟩ ⟨1, 1⟩ n o y x) :=
  run_computes_convRef exInput 1 1 3 3 (fun _ => 555) exWeights [] ⟨3, 3⟩ ⟨1, 1⟩ ⟨1, 1⟩ ⟨1, 1⟩
    1 4 true (fun _ => 999) [⟨2, 4⟩, ⟨0, 2⟩] rfl rfl (by decide) (Or.inl rfl) (by decide)
    (by decide) (by decide) (by decide) (by decide) (by decide) (by decide) isSplit_example
    (fun _ => exWeights_padded)

theorem run_stripe_count_independent_witness :
    ∃ outN out1,
      ParallelConv.run exInput 1 1 3 3 (fun _ => 555) exWeights [] ⟨3, 3⟩ ⟨1, 1⟩ ⟨1, 1⟩
        ⟨1, 1⟩ 1 4 none true (fun _ => 999) [⟨2, 4⟩, ⟨0, 2⟩] = some outN ∧
      ParallelConv.run exInput 1 1 3 3 (fun _ => 0) exWeights [] ⟨3, 3⟩ ⟨1, 1⟩ ⟨1, 1⟩
        ⟨1, 1⟩ 1 1 none true (fun _ => 0) [⟨0, 1⟩] = some out1 ∧
      ∀ n o y x, n < 1 → o < 1 → y < 3 → x < 3 →
        outN (outIndex 1 3 3 n o y x) = out1 (outIndex 1 3 3 n o y x) :=
  run_stripe_count_independent exInput 1 1 3 3 (fun _ => 555) (fun _ => 0) exWeights []
    ⟨3, 3⟩ ⟨1, 1⟩ ⟨1, 1⟩ ⟨1, 1⟩ 1 4 true (fun _ => 999) (fun _ => 0) [⟨2, 4⟩, ⟨0, 2⟩] [⟨0, 1⟩]
    rfl rfl (by decide) (Or.inl rfl) (by decide) (by decide) (by decide) (by decide)
    (by decide) (by decide) (by decide) isSplit_example isSplit_one (fun _ => exWeights_padded)

theorem forward_scenario_A_witness :
    ∃ l1 out, (scenarioALayer (fun a => if a < 9 then 1 else 5) []).forward exInput 1 1 3 3
        (fun _ => 555) 4 true (fun _ => 999) [⟨2, 4⟩, ⟨0, 2⟩] = some (l1, out) ∧
      (List.range 9).map out = [4, 6, 4, 6, 9, 6, 4, 6, 4] :=
  forward_scenario_A (fun i => if 0 ≤ i ∧ i < 9 then 1 else 777) (fun a => if a < 9 then 1 else 5)
    [] (fun _ => 555) 4 true (fun _ => 999) [⟨2, 4⟩, ⟨0, 2⟩]
    (fun i h1 h2 => by simp [h1, h2]) (fun a h => by simp [h]) (Or.inl rfl) isSplit_example

theorem forward_scenario_C_witness :
    ∃ l1 out, (scenarioCLayer 6 (fun _ => 1)).forward
        ⟨1, 4, 2, 2, fun i => ((i / 4).toNat : ℚ) + 1⟩ 1 6 2 2
        (fun _ => 555) 4 false (fun _ => 999) [⟨2, 4⟩, ⟨0, 2⟩] = some (l1, out) ∧
      ∀ o y x, o < 6 → y < 2 → x < 2 →
        out (outIndex 6 2 2 0 o y x) = if o < 6 / 2 then 3 else 7 :=
  forward_scenario_C 6 (fun i => ((i / 4).toNat : ℚ) + 1) (fun _ => 1) (fun _ => 555) 4 false
    (fun _ => 999) [⟨2, 4⟩, ⟨0, 2⟩] (by decide) (by decide)
    (fun c i _ hi => by
      have : (((c * 4 + i : Nat) : Int) / 4).toNat = c := by omega
      simp only [this])
    (fun _ _ => rfl) isSplit_example

theorem forward_zero_weights_witness :
    ∃ l1 out, exZeroLayer.forward exInput 1 2 3 3 (fun _ => 555) 4 true (fun _ => 999)
        [⟨2, 4⟩, ⟨0, 2⟩] = some (l1, out) ∧
      ∀ n o y x, n < 1 → o < 2 → y < 3 → x < 3 →
        out (outIndex 2 3 3 n o y x) =
          biasAt (ConvolutionLayerImpl.biasList [⟨2, 1, 1, 1, fun a => if a = 0 then 5 else 7⟩]) o ∧
        (([⟨2, 1, 1, 1, fun a => if a = 0 then 5 else 7⟩] : List Blob) = [] →
          out (outIndex 2 3 3 n o y x) = 0) :=
  forward_zero_weights exZeroLayer ⟨2, 1, 1, 1, fun _ => 0⟩
    [⟨2, 1, 1, 1, fun a => if a = 0 then 5 else 7⟩] exInput 1 2 3 3 (fun _ => 555) 4 true
    (fun _ => 999) [⟨2, 4⟩, ⟨0, 2⟩] rfl rfl rfl rfl rfl (by decide) (by decide) (by decide)
    (by decide) rfl rfl (by decide) (Or.inr ⟨_, _, rfl, rfl⟩) (by decide) (by decide)
    isSplit_example (fun _ _ => rfl)

theorem stripeGeom_eq (p : ParallelConv) (stripe : Nat) :
    p.stripeGeom stripe = if p.live stripe then some (p.piece stripe) else none := by
  unfold ParallelConv.stripeGeom ParallelConv.live ParallelConv.piece
  dsimp only
  by_cases h : stripe / p.stripesPerSample ≥ p.batchSize
  · rw [if_pos h, if_neg]
    simp only [decide_eq_true_eq]; omega
  · rw [if_neg h, if_pos]
    simp only [decide_eq_true_eq]; omega

theorem live_mono (p : ParallelConv) (i j : Nat) (hij : i ≤ j) (h : p.live i = false) :
    p.live j = false := by
  unfold ParallelConv.live at *
  simp only [decide_eq_false_iff_not] at *
  have := Nat.div_le_div_right (c := p.stripesPerSample) hij
  omega

theorem forBreakAux_trace (p : ParallelConv) :
    ∀ n i (acc : List (Nat × Nat × Nat)),
      forBreakAux (fun stripe acc => (p.stripeGeom stripe).map (fun g => acc ++ [g])) n i acc =
        acc ++ ((List.range' i n).filter p.live).map p.piece := by
  intro n
  induction n with
  | zero => intro i acc; simp [forBreakAux]
  | succ n ih =>
    intro i acc
    rw [List.range'_succ]
    cases hl : p.live i
    · have hnil : (List.range' (i + 1) n).filter p.live = [] := by
        rw [List.filter_eq_nil_iff]
        intro s hs
        rw [List.mem_range'_1] at hs
        rw [live_mono p i s (by omega) hl]
        simp
      simp only [forBreakAux]
      rw [stripeGeom_eq p i, hl]
      simp [List.filter_cons, hl, hnil]
    · simp only [forBreakAux]
      rw [stripeGeom_eq p i, hl]
      simp only [if_true, Option.map_some']
      rw [ih]
      simp [List.filter_cons, hl]

theorem callPieces_eq (p : ParallelConv) (r0 : Range) :
    p.callPieces r0 =
      ((List.range' (r0.start * p.rangeScale) ((r0.end_ - r0.start) * p.rangeScale)).filter
        p.live).map p.piece := by
  unfold ParallelConv.callPieces forBreak
  dsimp only
  rw [forBreakAux_trace, List.nil_append, Nat.sub_mul]

theorem range'_mul (sc : Nat) : ∀ n a,
    List.range' (a * sc) (n * sc) = (List.range' a n).flatMap (fun q => List.range' (q * sc) sc) := by
  intro n
  induction n with
  | zero => intro a; simp
  | succ n ih =>
    intro a
    rw [List.range'_succ, List.flatMap_cons, ← ih (a + 1)]
    have : (n + 1) * sc = n * sc + sc := by ring
    rw [this, ← List.range'_append (a * sc) sc (n * sc) 1]
    congr 2
    ring

/-- The pieces processed by all the calls of a schedule are, up to their order, the
pieces of the live stripes below `nstripes * rangeScale`. -/
theorem pieces_perm (p : ParallelConv) (sched : List Range)
    (hs : ParallelConv.IsSplit sched p.nstripes_) :
    (sched.flatMap p.callPieces).Perm
      (((List.range (p.nstripes_ * p.rangeScale)).filter p.live).map p.piece) := by
  have h1 : sched.flatMap p.callPieces =
      (sched.flatMap (fun r => List.range' r.start (r.end_ - r.start))).flatMap
        (fun q => ((List.range' (q * p.rangeScale) p.rangeScale).filter p.live).map p.piece) := by
    rw [List.flatMap_assoc]
    congr 1
    funext r
    rw [callPieces_eq, range'_mul, List.filter_flatMap, List.map_flatMap]
  have h2 : ((List.range (p.nstripes_ * p.rangeScale)).filter p.live).map p.piece =
      (List.range p.nstripes_).flatMap
        (fun q => ((List.range' (q * p.rangeScale) p.rangeScale).filter p.live).map p.piece) := by
    rw [List.range_eq_range', List.range_eq_range']
    have := range'_mul p.rangeScale p.nstripes_ 0
    rw [Nat.zero_mul] at this
    rw [this, List.filter_flatMap, List.map_flatMap]
  rw [h1, h2]
  exact List.Perm.flatMap_right _ hs

theorem countP_eq_one_of {α : Type} (q : α → Bool) :
    ∀ (l : List α), (∃ x, x ∈ l ∧ q x = true) →
      l.Pairwise (fun a b => ¬ (q a = true ∧ q b = true)) → l.countP q = 1 := by
  intro l
  induction l with
  | nil => rintro ⟨x, hx, _⟩; simp at hx
  | cons a l ih =>
    intro hex hpw
    rw [List.pairwise_cons] at hpw
    rw [List.countP_cons]
    by_cases ha : q a = true
    · have hz : l.countP q = 0 := by
        rw [List.countP_eq_zero]
        intro b hb hqb
        exact hpw.1 b hb ⟨ha, hqb⟩
      rw [hz, if_pos ha]
    · obtain ⟨x, hx, hqx⟩ := hex
      rcases List.mem_cons.1 hx with h | h
      · subst h; exact absurd hqx ha
      · rw [ih ⟨x, h, hqx⟩ hpw.2, if_neg ha]

/-- Pieces of different stripes do not overlap. -/
theorem piece_ofs_disjoint (p : ParallelConv) (s t : Nat) (hst : s < t)
    (hb : (p.piece s).1 = (p.piece t).1) (ofs1 ofs2 : Nat)
    (h1 : ofs1 < (p.piece s).2.2) (h2 : (p.piece t).2.1 ≤ ofs2) : ofs1 < ofs2 := by
  unfold ParallelConv.piece at *
  dsimp only at *
  have hs := Nat.div_add_mod s p.stripesPerSample
  have ht := Nat.div_add_mod t p.stripesPerSample
  have e1 : s / p.stripesPerSample * p.stripesPerSample = p.stripesPerSample * (s / p.stripesPerSample) :=
    Nat.mul_comm _ _
  have e2 : t / p.stripesPerSample * p.stripesPerSample = p.stripesPerSample * (t / p.stripesPerSample) :=
    Nat.mul_comm _ _
  rw [← hb] at e2 ht
  have hlt : s - s / p.stripesPerSample * p.stripesPerSample + 1 ≤
      t - s / p.stripesPerSample * p.stripesPerSample := by omega
  have hm := Nat.mul_le_mul_right p.stripeSize hlt
  have e3 : (s - s / p.stripesPerSample * p.stripesPerSample + 1) * p.stripeSize =
      (s - s / p.stripesPerSample * p.stripesPerSample) * p.stripeSize + p.stripeSize := by ring
  rw [← hb] at h2
  omega

theorem piece_piecesDisjoint (p : ParallelConv) (s t : Nat) (hst : s < t) :
    PiecesDisjoint (p.piece s) (p.piece t) := by
  intro b ofs ⟨h1, h2⟩
  unfold pieceHas at h1 h2
  simp only [decide_eq_true_eq] at h1 h2
  have := piece_ofs_disjoint p s t hst (by rw [h1.1, h2.1]) ofs ofs h1.2.2 h2.2.1
  omega

theorem piece_writesDisjoint (p : ParallelConv) (s t : Nat) (hst : s < t) :
    p.WritesDisjoint (p.piece s) (p.piece t) := by
  intro i1 i2 ofs1 ofs2 hi1 hi2 h1 h2 h3 h4 e
  have hP1 : ofs1 < p.outPlaneSize := by
    have : (p.piece s).2.2 ≤ p.outPlaneSize := Nat.min_le_right _ _
    omega
  have hP2 : ofs2 < p.outPlaneSize := by
    have : (p.piece t).2.2 ≤ p.outPlaneSize := Nat.min_le_right _ _
    omega
  have e' : ((p.piece s).1 * p.outCn + i1) * p.outPlaneSize + ofs1 =
      ((p.piece t).1 * p.outCn + i2) * p.outPlaneSize + ofs2 := by
    have a1 : ((p.piece s).1 * p.outCn + i1) * p.outPlaneSize =
        (p.piece s).1 * p.outPlaneSize * p.outCn + i1 * p.outPlaneSize := by ring
    have a2 : ((p.piece t).1 * p.outCn + i2) * p.outPlaneSize =
        (p.piece t).1 * p.outPlaneSize * p.outCn + i2 * p.outPlaneSize := by ring
    omega
  obtain ⟨f1, f2⟩ := idx_inj hP1 hP2 e'
  obtain ⟨g1, _⟩ := idx_inj hi1 hi2 f1
  have := piece_ofs_disjoint p s t hst g1 ofs1 ofs2 h2 h3
  omega

theorem canonical_pairwise (p : ParallelConv) (M : Nat) (R : Nat × Nat × Nat → Nat × Nat × Nat → Prop)
    (h : ∀ s t, s < t → R (p.piece s) (p.piece t)) :
    List.Pairwise R (((List.range M).filter p.live).map p.piece) := by
  rw [List.pairwise_map]
  apply List.Pairwise.filter
  exact List.Pairwise.imp (fun {a b} hab => h a b hab) (List.pairwise_lt_range M)

/-- C9: for every stripe count `nstripes ≥ 1` and every way the range `[0,nstripes)` is
split into the sub-ranges handed to `ParallelConv::operator()`, each pair (sample-group
index below `batchSize`, plane offset below `outPlaneSize`) lies in exactly one of the
pieces `(subsampleIdx, [stripeStart, stripeEnd))` processed, every piece stays inside that
index space, the pieces are pairwise disjoint, and no two of them write the same output
element. -/
theorem stripes_partition (p : ParallelConv) (sched : List Range)
    (hn : 1 ≤ p.nstripes_) (hs : ParallelConv.IsSplit sched p.nstripes_) :
    (∀ b ofs, b < p.batchSize → ofs < p.outPlaneSize →
      (sched.flatMap p.callPieces).countP (pieceHas b ofs) = 1) ∧
    (∀ pc, pc ∈ sched.flatMap p.callPieces → pc.1 < p.batchSize ∧ pc.2.2 ≤ p.outPlaneSize) ∧
    (sched.flatMap p.callPieces).Pairwise PiecesDisjoint ∧
    (sched.flatMap p.callPieces).Pairwise p.WritesDisjoint := by
  have hperm := pieces_perm p sched hs
  have hpd : List.Pairwise PiecesDisjoint (((List.range (p.nstripes_ * p.rangeScale)).filter
      p.live).map p.piece) := canonical_pairwise p _ _ (piece_piecesDisjoint p)
  have hwd : List.Pairwise p.WritesDisjoint (((List.range (p.nstripes_ * p.rangeScale)).filter
      p.live).map p.piece) := canonical_pairwise p _ _ (piece_writesDisjoint p)
  have hsymP : ∀ {x y : Nat × Nat × Nat}, PiecesDisjoint x y → PiecesDisjoint y x := by
    intro x y h b ofs hh
    exact h b ofs ⟨hh.2, hh.1⟩
  have hsymW : ∀ {x y : Nat × Nat × Nat}, p.WritesDisjoint x y → p.WritesDisjoint y x := by
    intro x y h i1 i2 ofs1 ofs2 a1 a2 a3 a4 a5 a6 e
    exact h i2 i1 ofs2 ofs1 a2 a1 a5 a6 a3 a4 e.symm
  refine ⟨?_, ?_, (List.Perm.pairwise_iff hsymP hperm).2 hpd,
    (List.Perm.pairwise_iff hsymW hperm).2 hwd⟩
  · intro b ofs hb hofs
    rw [List.Perm.countP_eq _ hperm]
    apply countP_eq_one_of
    · obtain ⟨stripe, h1, h2, h3, h4, h5⟩ := stripe_cover p b ofs hb hofs hn
      refine ⟨p.piece stripe, ?_, ?_⟩
      · rw [List.mem_map]
        refine ⟨stripe, ?_, rfl⟩
        rw [List.mem_filter, List.mem_range]
        refine ⟨?_, ?_⟩
        · have := div_mul_bounds stripe p.rangeScale (by omega)
          have hm := Nat.mul_le_mul_right p.rangeScale (show stripe / p.rangeScale + 1 ≤ p.nstripes_ by omega)
          omega
        · unfold ParallelConv.live
          simp only [decide_eq_true_eq]
          omega
      · unfold pieceHas ParallelConv.piece
        simp only [decide_eq_true_eq]
        exact ⟨h3, h4, h5⟩
    · exact List.Pairwise.imp (fun {a c} h => h b ofs) hpd
  · intro pc hpc
    have := (List.Perm.mem_iff hperm).1 hpc
    rw [List.mem_map] at this
    obtain ⟨s, hs1, rfl⟩ := this
    rw [List.mem_filter] at hs1
    have hl := hs1.2
    unfold ParallelConv.live at hl
    simp only [decide_eq_true_eq] at hl
    exact ⟨hl, Nat.min_le_right _ _⟩

theorem specCeil_eq (a b : Nat) : specCeil a b = (a + b - 1) / b := by
  unfold specCeil
  rcases Nat.eq_zero_or_pos b with hb | hb
  · subst hb; simp
  · have hbq : (0 : ℚ) < (b : ℚ) := by exact_mod_cast hb
    apply le_antisymm
    · rw [Nat.ceil_le, div_le_iff₀ hbq]
      have h := div_mul_bounds (a + b - 1) b hb
      have : a ≤ (a + b - 1) / b * b := by
        have e : ((a + b - 1) / b + 1) * b = (a + b - 1) / b * b + b := by ring
        omega
      exact_mod_cast this
    · by_contra hlt
      push_neg at hlt
      have h2 : ((⌈((a : ℚ) / (b : ℚ))⌉₊ : Nat) : ℚ) * b < a := by
        have hc : ⌈((a : ℚ) / (b : ℚ))⌉₊ + 1 ≤ (a + b - 1) / b := hlt
        have h := div_mul_bounds (a + b - 1) b hb
        have hm := Nat.mul_le_mul_right b hc
        have e : (⌈((a : ℚ) / (b : ℚ))⌉₊ + 1) * b = ⌈((a : ℚ) / (b : ℚ))⌉₊ * b + b := by ring
        have : ⌈((a : ℚ) / (b : ℚ))⌉₊ * b < a := by omega
        exact_mod_cast this
      have h3 : (a : ℚ) / b ≤ ⌈((a : ℚ) / (b : ℚ))⌉₊ := Nat.le_ceil _
      rw [div_le_iff₀ hbq] at h3
      linarith

theorem specRoundUp_eq (x n : Nat) : specRoundUp x n = alignSize x n := by
  unfold specRoundUp alignSize
  rw [specCeil_eq, Nat.mul_comm]

theorem filter_lt_range' (B : Nat) : ∀ n a,
    (List.range' a n).filter (fun s => decide (s < B)) = List.range' a (min (a + n) B - a) := by
  intro n
  induction n with
  | zero => intro a; simp
  | succ n ih =>
    intro a
    rw [List.range'_succ, List.filter_cons]
    by_cases h : a < B
    · rw [if_pos (by simpa using h), ih]
      have e : min (a + (n + 1)) B - a = (min (a + 1 + n) B - (a + 1)) + 1 := by omega
      rw [e, List.range'_succ]
    · rw [if_neg (by simpa using h), ih]
      have e1 : min (a + (n + 1)) B - a = 0 := by omega
      have e2 : min (a + 1 + n) B - (a + 1) = 0 := by omega
      rw [e1, e2]; rfl

/-- C10: in `ParallelConv::operator()`, when `nstripes ≥ 2*batchSize` each sample-group is
split into `stripesPerSample = nstripes / batchSize` stripes of the size
`min(roundUp(ceil(outPlaneSize / stripesPerSample), 8), outPlaneSize)`, range indices are
stripe numbers, and the stripe number `s` of a sample-group below `batchSize` is the part
of the plane of sample-group `s / stripesPerSample` that starts at
`(s mod stripesPerSample) * stripeSize` and has that size, cut at the end of the plane;
otherwise every stripe is the whole output plane of one sample-group and the scheduled
range index `r` processes the `samplesPerStripe = max(ceil(batchSize / nstripes), 1)`
consecutive sample-groups from `r * samplesPerStripe` on, as far as they lie below
`batchSize`. -/
theorem stripe_regimes (p : ParallelConv) :
    if p.nstripes_ ≥ 2 * p.batchSize then
      p.stripesPerSample = p.nstripes_ / p.batchSize ∧
      p.stripeSize =
        min (specRoundUp (specCeil p.outPlaneSize p.stripesPerSample) 8) p.outPlaneSize ∧
      p.rangeScale = 1 ∧
      ∀ s, s / p.stripesPerSample < p.batchSize →
        p.stripeGeom s = some (s / p.stripesPerSample, (s % p.stripesPerSample) * p.stripeSize,
          min ((s % p.stripesPerSample) * p.stripeSize + p.stripeSize) p.outPlaneSize)
    else
      p.stripesPerSample = 1 ∧ p.stripeSize = p.outPlaneSize ∧
      p.rangeScale = max (specCeil p.batchSize p.nstripes_) 1 ∧
      (∀ s, s < p.batchSize → p.stripeGeom s = some (s, 0, p.outPlaneSize)) ∧
      ∀ r, p.callPieces ⟨r, r + 1⟩ =
        (List.range' (r * p.rangeScale)
          (min ((r + 1) * p.rangeScale) p.batchSize - r * p.rangeScale)).map
          (fun b => (b, 0, p.outPlaneSize)) := by
  have hsps : p.stripesPerSample = p.stripeParams.1 := rfl
  have hsz : p.stripeSize = p.stripeParams.2.1 := rfl
  have hsc : p.rangeScale = p.stripeParams.2.2 := rfl
  by_cases h : p.nstripes_ ≥ 2 * p.batchSize
  · rw [if_pos h]
    have h' : p.nstripes_ ≥ p.batchSize * 2 := by omega
    have hpar : p.stripeParams = (p.nstripes_ / p.batchSize,
        min (alignSize ((p.outPlaneSize + p.nstripes_ / p.batchSize - 1) /
          (p.nstripes_ / p.batchSize)) VEC_ALIGN) p.outPlaneSize, 1) := by
      unfold ParallelConv.stripeParams
      rw [if_pos h']
    have e1 : p.stripesPerSample = p.nstripes_ / p.batchSize := by rw [hsps, hpar]
    refine ⟨e1, ?_, by rw [hsc, hpar], ?_⟩
    · rw [specRoundUp_eq, specCeil_eq, e1, hsz, hpar]; rfl
    · intro s hs
      rw [stripeGeom_eq]
      have hl : p.live s = true := by
        unfold ParallelConv.live
        simpa using hs
      rw [hl, if_pos rfl]
      unfold ParallelConv.piece
      have hm : s - s / p.stripesPerSample * p.stripesPerSample = s % p.stripesPerSample := by
        have := Nat.div_add_mod s p.stripesPerSample
        have e : s / p.stripesPerSample * p.stripesPerSample =
          p.stripesPerSample * (s / p.stripesPerSample) := Nat.mul_comm _ _
        omega
      rw [hm]
  · rw [if_neg h]
    have h' : ¬ p.nstripes_ ≥ p.batchSize * 2 := by omega
    have hpar : p.stripeParams = (1, p.outPlaneSize,
        max ((p.batchSize + p.nstripes_ - 1) / p.nstripes_) 1) := by
      unfold ParallelConv.stripeParams
      rw [if_neg h']
    have e1 : p.stripesPerSample = 1 := by rw [hsps, hpar]
    have e2 : p.stripeSize = p.outPlaneSize := by rw [hsz, hpar]
    have hlive : p.live = fun s => decide (s < p.batchSize) := by
      funext s
      unfold ParallelConv.live
      rw [e1, Nat.div_one]
    have hpiece : p.piece = fun b => (b, 0, p.outPlaneSize) := by
      funext s
      unfold ParallelConv.piece
      rw [e1, e2, Nat.div_one, Nat.mul_one, Nat.sub_self, Nat.zero_mul, Nat.zero_add,
        Nat.min_self]
    refine ⟨e1, e2, by rw [hsc, hpar, specCeil_eq], ?_, ?_⟩
    · intro s hs
      rw [stripeGeom_eq, hlive, hpiece]
      simp [hs]
    · intro r
      rw [callPieces_eq, hlive, hpiece, filter_lt_range']
      have e : (r + 1 - r) * p.rangeScale = p.rangeScale := by
        rw [Nat.add_sub_cancel_left, Nat.one_mul]
      have e3 : (r + 1) * p.rangeScale = r * p.rangeScale + p.rangeScale := by ring
      show List.map _ (List.range' _ (min (r * p.rangeScale + (r + 1 - r) * p.rangeScale) _ - _)) = _
      rw [e, e3]

theorem stripes_partition_witness :
    1 ≤ exConv.nstripes_ ∧ ParallelConv.IsSplit [⟨2, 4⟩, ⟨0, 2⟩] exConv.nstripes_ ∧
    (∀ b ofs, b < exConv.batchSize → ofs < exConv.outPlaneSize →
      (([⟨2, 4⟩, ⟨0, 2⟩] : List Range).flatMap exConv.callPieces).countP (pieceHas b ofs) = 1) ∧
    (∀ pc, pc ∈ ([⟨2, 4⟩, ⟨0, 2⟩] : List Range).flatMap exConv.callPieces →
      pc.1 < exConv.batchSize ∧ pc.2.2 ≤ exConv.outPlaneSize) ∧
    (([⟨2, 4⟩, ⟨0, 2⟩] : List Range).flatMap exConv.callPieces).Pairwise PiecesDisjoint ∧
    (([⟨2, 4⟩, ⟨0, 2⟩] : List Range).flatMap exConv.callPieces).Pairwise exConv.WritesDisjoint :=
  ⟨by decide, isSplit_example,
    stripes_partition exConv [⟨2, 4⟩, ⟨0, 2⟩] (by decide) isSplit_example⟩

theorem stripe_regimes_witness :
    exConv.stripesPerSample = 4 ∧ exConv.stripeSize = 8 ∧ exConv.rangeScale = 1 ∧
      exConv.stripeGeom 1 = some (0, 8, 9) ∧
      specRoundUp (specCeil exConv.outPlaneSize exConv.stripesPerSample) 8 = 8 := by
  have h := stripe_regimes exConv
  rw [if_pos (by decide)] at h
  have h1 : exConv.stripesPerSample = 4 := h.1
  have h2 := h.2.2.2 1 (by decide)
  have h3 : exConv.stripeSize = 8 := by decide
  refine ⟨h1, h3, h.2.2.1, h2, ?_⟩
  have h4 := h.2.1
  rw [h3] at h4
  have : exConv.outPlaneSize = 9 := by decide
  rw [this] at h4 ⊢
  omega

theorem pairAdd_refl (dst0 dst1 : Nat) (d0 d1 : Nat → ℚ) (lo : Nat) (c : Mem) :
    PairAdd dst0 dst1 d0 d1 lo lo c c :=
  ⟨fun n h1 h2 => by omega, fun n h1 h2 => by omega, fun _ _ => rfl⟩

theorem pairAdd_trans {dst0 dst1 : Nat} {d0 d1 : Nat → ℚ} {lo mid hi nmax : Nat} {c c1 c2 : Mem}
    (hok : RowsOK dst0 dst1 d0 d1 nmax) (h1 : lo ≤ mid) (h2 : mid ≤ hi) (h3 : hi ≤ nmax)
    (p1 : PairAdd dst0 dst1 d0 d1 lo mid c c1) (p2 : PairAdd dst0 dst1 d0 d1 mid hi c1 c2) :
    PairAdd dst0 dst1 d0 d1 lo hi c c2 := by
  obtain ⟨a1, b1, f1⟩ := p1
  obtain ⟨a2, b2, f2⟩ := p2
  refine ⟨?_, ?_, ?_⟩
  · intro n hlo hhi
    by_cases hn : n < mid
    · rw [f2, a1 n hlo hn]
      intro n1 hm hh
      refine ⟨by omega, ?_⟩
      intro e
      have := (hok n n1 (by omega) (by omega) e).1
      omega
    · rw [a2 n (by omega) hhi, f1]
      intro n1 hl hm
      refine ⟨by omega, ?_⟩
      intro e
      have := (hok n n1 (by omega) (by omega) e).1
      omega
  · intro n hlo hhi
    by_cases hn : n < mid
    · rw [f2, b1 n hlo hn]
      intro n1 hm hh
      refine ⟨?_, by omega⟩
      intro e
      have := (hok n1 n (by omega) (by omega) e.symm).1
      omega
    · rw [b2 n (by omega) hhi, f1]
      intro n1 hl hm
      refine ⟨?_, by omega⟩
      intro e
      have := (hok n1 n (by omega) (by omega) e.symm).1
      omega
  · intro x hx
    rw [f2 x (fun n hm hh => hx n (by omega) hh), f1 x (fun n hl hm => hx n hl (by omega))]

/-- One scalar store pair is a `PairAdd` on one element. -/
theorem pairAdd_store {dst0 dst1 : Nat} {d0 d1 : Nat → ℚ} {nmax : Nat}
    (hok : RowsOK dst0 dst1 d0 d1 nmax) (n : Nat) (hn : n < nmax) (c : Mem) (x0 x1 : ℚ)
    (h0 : x0 = c (dst0 + n) + d0 n) (h1 : x1 = c (dst1 + n) + d1 n) :
    PairAdd dst0 dst1 d0 d1 n (n + 1) c (store (store c (dst0 + n) x0) (dst1 + n) x1) := by
  refine ⟨?_, ?_, ?_⟩
  · intro n1 hl hh
    have e : n1 = n := by omega
    subst e
    unfold store
    by_cases he : dst0 + n1 = dst1 + n1
    · rw [if_pos he, h1, ← he, (hok n1 n1 hn hn he).2]
    · rw [if_neg he, if_pos rfl, h0]
  · intro n1 hl hh
    have e : n1 = n := by omega
    subst e
    unfold store
    rw [if_pos rfl, h1]
  · intro x hx
    have := hx n (Nat.le_refl _) (Nat.lt_succ_self _)
    unfold store
    rw [if_neg this.2, if_neg this.1]

theorem v_store_at (m : Mem) (p : Nat) (x : v_float32x4) (l : Fin 4) :
    v_store m p x (p + l.val) = x l := by
  rw [v_store_apply]
  fin_cases l
  · simp
  · simp
  · simp
  · simp

theorem v_store_other (m : Mem) (p : Nat) (x : v_float32x4) (a : Nat)
    (h : ∀ l : Fin 4, a ≠ p + l.val) : v_store m p x a = m a := by
  rw [v_store_apply]
  have h0 := h 0
  have h1 := h 1
  have h2 := h 2
  have h3 := h 3
  simp only [Fin.val_zero, Fin.val_one, Fin.val_two, Nat.add_zero] at h0 h1 h2
  have h3' : a ≠ p + 3 := h3
  rw [if_neg h0, if_neg h1, if_neg h2, if_neg h3']

/-- One pair of vector stores is a `PairAdd` on four elements. -/
theorem pairAdd_vstore {dst0 dst1 : Nat} {d0 d1 : Nat → ℚ} {nmax : Nat}
    (hok : RowsOK dst0 dst1 d0 d1 nmax) (n : Nat) (hn : n + 4 ≤ nmax) (c : Mem)
    (x0 x1 : v_float32x4)
    (h0 : ∀ l : Fin 4, x0 l = c (dst0 + n + l.val) + d0 (n + l.val))
    (h1 : ∀ l : Fin 4, x1 l = c (dst1 + n + l.val) + d1 (n + l.val)) :
    PairAdd dst0 dst1 d0 d1 n (n + 4) c (v_store (v_store c (dst0 + n) x0) (dst1 + n) x1) := by
  refine ⟨?_, ?_, ?_⟩
  · intro n1 hl hh
    by_cases hx : ∃ l : Fin 4, dst0 + n1 = dst1 + n + l.val
    · obtain ⟨l, hl1⟩ := hx
      have hl4 := l.isLt
      have := hok n1 (n + l.val) (by omega) (by omega) (by omega)
      rw [hl1, v_store_at, h1 l, ← hl1, this.2, this.1]
    · push_neg at hx
      rw [v_store_other _ _ _ _ hx]
      have e : dst0 + n1 = dst0 + n + ((⟨n1 - n, by omega⟩ : Fin 4)).val := by
        show dst0 + n1 = dst0 + n + (n1 - n)
        omega
      rw [e, v_store_at, h0]
      have e2 : n + ((⟨n1 - n, by omega⟩ : Fin 4)).val = n1 := by
        show n + (n1 - n) = n1
        omega
      rw [e2]
  · intro n1 hl hh
    have e : dst1 + n1 = dst1 + n + ((⟨n1 - n, by omega⟩ : Fin 4)).val := by
      show dst1 + n1 = dst1 + n + (n1 - n)
      omega
    rw [e, v_store_at, h1]
    have e2 : n + ((⟨n1 - n, by omega⟩ : Fin 4)).val = n1 := by
      show n + (n1 - n) = n1
      omega
    rw [e2]
  · intro x hx
    rw [v_store_other, v_store_other]
    · intro l
      have hl4 := l.isLt
      have := (hx (n + l.val) (by omega) (by omega)).1
      omega
    · intro l
      have hl4 := l.isLt
      have := (hx (n + l.val) (by omega) (by omega)).2
      omega

theorem kTerm_code (t : MatMulInvoker) (aptr bptr k n : Nat) (hk : k < t.a_.cols) :
    t.a_.data (aptr + k) * t.b_.data (bptr + k * t.b_.step1 + n) +
      (if k + 1 < t.a_.cols then t.a_.data (aptr + (k + 1)) else 0) *
        t.b_.data ((if k + 1 < t.a_.cols then bptr + k * t.b_.step1 + t.b_.step1
          else bptr + k * t.b_.step1) + n) +
      (if k + 1 < t.a_.cols ∧ k + 2 < t.a_.cols then t.a_.data (aptr + (k + 2)) else 0) *
        t.b_.data ((if k + 1 < t.a_.cols ∧ k + 2 < t.a_.cols then
          (if k + 1 < t.a_.cols then bptr + k * t.b_.step1 + t.b_.step1
            else bptr + k * t.b_.step1) + t.b_.step1
          else bptr + k * t.b_.step1) + n) +
      (if k + 1 < t.a_.cols ∧ k + 2 < t.a_.cols ∧ k + 3 < t.a_.cols then
          t.a_.data (aptr + (k + 3)) else 0) *
        t.b_.data ((if k + 1 < t.a_.cols ∧ k + 2 < t.a_.cols ∧ k + 3 < t.a_.cols then
          (if k + 1 < t.a_.cols ∧ k + 2 < t.a_.cols then
            (if k + 1 < t.a_.cols then bptr + k * t.b_.step1 + t.b_.step1
              else bptr + k * t.b_.step1) + t.b_.step1
            else bptr + k * t.b_.step1) + t.b_.step1
          else bptr + k * t.b_.step1) + n) =
    t.kTerm aptr bptr k n := by
  unfold MatMulInvoker.kTerm
  have e1 : bptr + k * t.b_.step1 + t.b_.step1 = bptr + (k + 1) * t.b_.step1 := by ring
  have e2 : bptr + (k + 1) * t.b_.step1 + t.b_.step1 = bptr + (k + 2) * t.b_.step1 := by ring
  have e3 : bptr + (k + 2) * t.b_.step1 + t.b_.step1 = bptr + (k + 3) * t.b_.step1 := by ring
  rw [if_pos hk]
  by_cases h1 : k + 1 < t.a_.cols
  · by_cases h2 : k + 2 < t.a_.cols
    · by_cases h3 : k + 3 < t.a_.cols
      · simp only [h1, h2, h3, and_self, if_true, e1, e2, e3]
      · simp only [h1, h2, h3, and_self, and_false, if_true, if_false, e1, e2, zero_mul]
    · have h3 : ¬ k + 3 < t.a_.cols := by omega
      simp only [h1, h2, h3, and_self, and_false, false_and, if_true, if_false, e1, zero_mul]
  · have h2 : ¬ k + 2 < t.a_.cols := by omega
    have h3 : ¬ k + 3 < t.a_.cols := by omega
    simp only [h1, h2, h3, and_self, and_false, false_and, if_true, if_false, zero_mul]

theorem iterCount_simd (nmax : Nat) : iterCount 0 (nmax - 3) 4 = nmax / 4 := by
  unfold iterCount
  omega

/-- One iteration of the `k` loop adds `kTerm` to the two result rows. -/
theorem kStep_spec (t : MatMulInvoker) (bptr dst0 dst1 aptr0 aptr1 nmax k : Nat) (c : Mem)
    (hk : k < t.a_.cols)
    (hok : RowsOK dst0 dst1 (t.kTerm aptr0 bptr k) (t.kTerm aptr1 bptr k) nmax) :
    PairAdd dst0 dst1 (t.kTerm aptr0 bptr k) (t.kTerm aptr1 bptr k) 0 nmax c
      (t.kStep bptr dst0 dst1 aptr0 aptr1 nmax k c) := by
  unfold MatMulInvoker.kStep
  dsimp only
  have hscalar : ∀ (n0 : Nat) (c0 : Mem), n0 ≤ nmax →
      PairAdd dst0 dst1 (t.kTerm aptr0 bptr k) (t.kTerm aptr1 bptr k) 0 n0 c c0 →
      PairAdd dst0 dst1 (t.kTerm aptr0 bptr k) (t.kTerm aptr1 bptr k) 0 nmax c
        (forStep n0 nmax 1 (fun n c =>
          store (store c (dst0 + n)
            (c (dst0 + n) + t.a_.data (aptr0 + k) * t.b_.data (bptr + k * t.b_.step1 + n) +
              (if k + 1 < t.a_.cols then t.a_.data (aptr0 + (k + 1)) else 0) *
                t.b_.data ((if k + 1 < t.a_.cols then bptr + k * t.b_.step1 + t.b_.step1
                  else bptr + k * t.b_.step1) + n) +
              (if k + 1 < t.a_.cols ∧ k + 2 < t.a_.cols then t.a_.data (aptr0 + (k + 2)) else 0) *
                t.b_.data ((if k + 1 < t.a_.cols ∧ k + 2 < t.a_.cols then
                  (if k + 1 < t.a_.cols then bptr + k * t.b_.step1 + t.b_.step1
                    else bptr + k * t.b_.step1) + t.b_.step1
                  else bptr + k * t.b_.step1) + n) +
              (if k + 1 < t.a_.cols ∧ k + 2 < t.a_.cols ∧ k + 3 < t.a_.cols then
                  t.a_.data (aptr0 + (k + 3)) else 0) *
                t.b_.data ((if k + 1 < t.a_.cols ∧ k + 2 < t.a_.cols ∧ k + 3 < t.a_.cols then
                  (if k + 1 < t.a_.cols ∧ k + 2 < t.a_.cols then
                    (if k + 1 < t.a_.cols then bptr + k * t.b_.step1 + t.b_.step1
                      else bptr + k * t.b_.step1) + t.b_.step1
                    else bptr + k * t.b_.step1) + t.b_.step1
                  else bptr + k * t.b_.step1) + n)))
            (dst1 + n)
            (c (dst1 + n) + t.a_.data (aptr1 + k) * t.b_.data (bptr + k * t.b_.step1 + n) +
              (if k + 1 < t.a_.cols then t.a_.data (aptr1 + (k + 1)) else 0) *
                t.b_.data ((if k + 1 < t.a_.cols then bptr + k * t.b_.step1 + t.b_.step1
                  else bptr + k * t.b_.step1) + n) +
              (if k + 1 < t.a_.cols ∧ k + 2 < t.a_.cols then t.a_.data (aptr1 + (k + 2)) else 0) *
                t.b_.data ((if k + 1 < t.a_.cols ∧ k + 2 < t.a_.cols then
                  (if k + 1 < t.a_.cols then bptr + k * t.b_.step1 + t.b_.step1
                    else bptr + k * t.b_.step1) + t.b_.step1
                  else bptr + k * t.b_.step1) + n) +
              (if k + 1 < t.a_.cols ∧ k + 2 < t.a_.cols ∧ k + 3 < t.a_.cols then
                  t.a_.data (aptr1 + (k + 3)) else 0) *
                t.b_.data ((if k + 1 < t.a_.cols ∧ k + 2 < t.a_.cols ∧ k + 3 < t.a_.cols then
                  (if k + 1 < t.a_.cols ∧ k + 2 < t.a_.cols then
                    (if k + 1 < t.a_.cols then bptr + k * t.b_.step1 + t.b_.step1
                      else bptr + k * t.b_.step1) + t.b_.step1
                    else bptr + k * t.b_.step1) + t.b_.step1
                  else bptr + k * t.b_.step1) + n))) c0) := by
    intro n0 c0 hn0 h0
    refine forStep_one_inv
      (fun i c1 => PairAdd dst0 dst1 (t.kTerm aptr0 bptr k) (t.kTerm aptr1 bptr k) 0 i c c1)
      n0 nmax _ c0 hn0 h0 ?_
    intro i hi1 hi2 acc hacc
    refine pairAdd_trans hok (Nat.zero_le _) (Nat.le_succ _) hi2 hacc ?_
    apply pairAdd_store hok i hi2
    · rw [← kTerm_code t aptr0 bptr k i hk]; ring
    · rw [← kTerm_code t aptr1 bptr k i hk]; ring
  cases hsimd : t.simd
  · simp only [Bool.false_eq_true, if_false]
    exact hscalar 0 c (Nat.zero_le _) (pairAdd_refl _ _ _ _ _ _)
  · simp only [if_true]
    apply hscalar _ _ (Nat.div_mul_le_self _ _)
    have hinv := forStep_inv
      (fun i c1 => PairAdd dst0 dst1 (t.kTerm aptr0 bptr k) (t.kTerm aptr1 bptr k) 0 (i * 4) c c1)
      0 (nmax - 3) 4
    rw [iterCount_simd] at hinv
    refine hinv _ c ?_ ?_
    · rw [Nat.zero_mul]; exact pairAdd_refl _ _ _ _ _ _
    · intro i hi acc hacc
      have hb : i * 4 + 4 ≤ nmax := by
        have := Nat.div_mul_le_self nmax 4
        have := Nat.mul_le_mul_right 4 (show i + 1 ≤ nmax / 4 by omega)
        omega
      have e4 : (i + 1) * 4 = i * 4 + 4 := by ring
      rw [e4]
      refine pairAdd_trans hok (Nat.zero_le _) (by omega) hb hacc ?_
      rw [Nat.zero_add]
      apply pairAdd_vstore hok (i * 4) hb
      · intro l
        rw [← kTerm_code t aptr0 bptr k (i * 4 + l.val) hk]
        simp only [Pi.add_apply, Pi.mul_apply, v_load, v_setall_f32]
        ring_nf
      · intro l
        rw [← kTerm_code t aptr1 bptr k (i * 4 + l.val) hk]
        simp only [Pi.add_apply, Pi.mul_apply, v_load, v_setall_f32]
        ring_nf

theorem psum_step (t : MatMulInvoker) (aptr bptr n k : Nat) (hk : k < t.a_.cols) :
    t.psum aptr bptr n (min (k + 4) t.a_.cols) =
      t.psum aptr bptr n k + t.kTerm aptr bptr k n := by
  unfold MatMulInvoker.psum MatMulInvoker.kTerm
  rw [if_pos hk]
  by_cases h1 : k + 1 < t.a_.cols
  · by_cases h2 : k + 2 < t.a_.cols
    · by_cases h3 : k + 3 < t.a_.cols
      · rw [if_pos h1, if_pos h2, if_pos h3, Nat.min_eq_left (by omega)]
        simp only [Finset.sum_range_succ]
        ring
      · rw [if_pos h1, if_pos h2, if_neg h3, show min (k + 4) t.a_.cols = k + 3 by omega]
        simp only [Finset.sum_range_succ]
        ring
    · rw [if_pos h1, if_neg h2, if_neg (by omega), show min (k + 4) t.a_.cols = k + 2 by omega]
      simp only [Finset.sum_range_succ]
      ring
  · rw [if_neg h1, if_neg (by omega), if_neg (by omega),
      show min (k + 4) t.a_.cols = k + 1 by omega]
    simp only [Finset.sum_range_succ]
    ring

theorem iterCount_zero (stop step : Nat) : iterCount 0 stop step = (stop + step - 1) / step := by
  unfold iterCount
  rw [Nat.sub_zero]

/-- The body of the `m` loop leaves the full sums in its two result rows. -/
theorem rowPair_rows (t : MatMulInvoker) (rstart nmax m : Nat) (c : Mem)
    (hrows : ∀ n n1, n < nmax → n1 < nmax →
      t.cptr_ + rstart + t.cstep_ * m + n =
        t.cptr_ + rstart + t.cstep_ * min (m + 1) (t.a_.rows - 1) + n1 →
      n = n1 ∧ t.a_.step1 * m = t.a_.step1 * min (m + 1) (t.a_.rows - 1)) :
    (∀ n, n < nmax → t.rowPair rstart nmax m c (t.cptr_ + rstart + t.cstep_ * m + n) =
      t.psum (t.a_.step1 * m) rstart n t.a_.cols) ∧
    (∀ n, n < nmax →
      t.rowPair rstart nmax m c
          (t.cptr_ + rstart + t.cstep_ * min (m + 1) (t.a_.rows - 1) + n) =
        t.psum (t.a_.step1 * min (m + 1) (t.a_.rows - 1)) rstart n t.a_.cols) ∧
    (∀ x, (∀ n, n < nmax → x ≠ t.cptr_ + rstart + t.cstep_ * m + n ∧
        x ≠ t.cptr_ + rstart + t.cstep_ * min (m + 1) (t.a_.rows - 1) + n) →
      t.rowPair rstart nmax m c x = c x) := by
  unfold MatMulInvoker.rowPair
  generalize hd0 : t.cptr_ + rstart + t.cstep_ * m = dst0 at *
  generalize hd1 : t.cptr_ + rstart + t.cstep_ * min (m + 1) (t.a_.rows - 1) = dst1 at *
  generalize ha0 : t.a_.step1 * m = aptr0 at *
  generalize ha1 : t.a_.step1 * min (m + 1) (t.a_.rows - 1) = aptr1 at *
  -- the zeroing loop
  have hz := forStep_one_upd 0 nmax (fun n c => store (store c (dst0 + n) 0) (dst1 + n) 0) c
    (fun i => {dst0 + i} ∪ {dst1 + i}) (fun _ => 0)
    (fun i _ _ m0 => Upd.trans (upd_store m0 (dst0 + i) 0 rfl) (upd_store _ (dst1 + i) 0 rfl))
  generalize forStep 0 nmax 1 (fun n c => store (store c (dst0 + n) 0) (dst1 + n) 0) c = cz at *
  have hinv := forStep_inv
    (fun i c1 =>
      (∀ n, n < nmax → c1 (dst0 + n) = t.psum aptr0 rstart n (min (i * 4) t.a_.cols)) ∧
      (∀ n, n < nmax → c1 (dst1 + n) = t.psum aptr1 rstart n (min (i * 4) t.a_.cols)) ∧
      (∀ x, (∀ n, n < nmax → x ≠ dst0 + n ∧ x ≠ dst1 + n) → c1 x = c x))
    0 t.a_.cols 4 (fun k c => t.kStep rstart dst0 dst1 aptr0 aptr1 nmax k c) cz ?_ ?_
  · have hcnt : min (iterCount 0 t.a_.cols 4 * 4) t.a_.cols = t.a_.cols := by
      rw [iterCount_zero]
      omega
    rw [hcnt] at hinv
    exact hinv
  · refine ⟨?_, ?_, ?_⟩
    · intro n hn
      rw [((hz (dst0 + n)).1 ⟨n, Nat.zero_le _, hn, Or.inl rfl⟩)]
      simp [MatMulInvoker.psum]
    · intro n hn
      rw [((hz (dst1 + n)).1 ⟨n, Nat.zero_le _, hn, Or.inr rfl⟩)]
      simp [MatMulInvoker.psum]
    · intro x hx
      apply (hz x).2
      rintro ⟨n, _, hn, h | h⟩
      · exact (hx n hn).1 h
      · exact (hx n hn).2 h
  · intro i hi acc ⟨h0, h1, hf⟩
    rw [iterCount_zero] at hi
    have hk : i * 4 < t.a_.cols := by omega
    have hok : RowsOK dst0 dst1 (t.kTerm aptr0 rstart (i * 4)) (t.kTerm aptr1 rstart (i * 4))
        nmax := by
      intro n n1 hn hn1 e
      obtain ⟨e1, e2⟩ := hrows n n1 hn hn1 e
      exact ⟨e1, by rw [e2]⟩
    obtain ⟨p0, p1, pf⟩ := kStep_spec t rstart dst0 dst1 aptr0 aptr1 nmax (i * 4) acc hk hok
    rw [Nat.zero_add]
    have e4 : (i + 1) * 4 = i * 4 + 4 := by ring
    rw [e4]
    refine ⟨?_, ?_, ?_⟩
    · intro n hn
      show t.kStep rstart dst0 dst1 aptr0 aptr1 nmax (i * 4) acc (dst0 + n) = _
      rw [p0 n (Nat.zero_le _) hn, h0 n hn, psum_step t aptr0 rstart n (i * 4) hk,
        Nat.min_eq_left (Nat.le_of_lt hk)]
    · intro n hn
      show t.kStep rstart dst0 dst1 aptr0 aptr1 nmax (i * 4) acc (dst1 + n) = _
      rw [p1 n (Nat.zero_le _) hn, h1 n hn, psum_step t aptr1 rstart n (i * 4) hk,
        Nat.min_eq_left (Nat.le_of_lt hk)]
    · intro x hx
      show t.kStep rstart dst0 dst1 aptr0 aptr1 nmax (i * 4) acc x = _
      rw [pf x (fun n _ hn => hx n hn), hf x hx]

theorem psum_shift (t : MatMulInvoker) (aptr rstart n K : Nat) :
    t.psum aptr rstart n K = t.psum aptr 0 (rstart + n) K := by
  unfold MatMulInvoker.psum
  apply Finset.sum_congr rfl
  intro k _
  have e : rstart + k * t.b_.step1 + n = 0 + k * t.b_.step1 + (rstart + n) := by omega
  rw [e]

theorem cval_at (t : MatMulInvoker) (m n : Nat) (hn : n < t.cstep_) :
    t.cval (t.cptr_ + t.cstep_ * m + n) = t.psum (t.a_.step1 * m) 0 n t.a_.cols := by
  unfold MatMulInvoker.cval
  have e : t.cptr_ + t.cstep_ * m + n - t.cptr_ = m * t.cstep_ + n := by
    rw [Nat.mul_comm]; omega
  rw [e, enc_div m n hn, enc_mod m n hn]

/-- The body of the `m` loop overwrites its two rows with the values of the product. -/
theorem rowPair_upd (t : MatMulInvoker) (rstart nmax m : Nat) (c : Mem)
    (hm : m < t.a_.rows) (hcols : 0 < nmax → rstart + nmax ≤ t.cstep_) :
    Upd {x | ∃ row n, (row = m ∨ row = min (m + 1) (t.a_.rows - 1)) ∧ n < nmax ∧
        x = t.cptr_ + t.cstep_ * row + (rstart + n)} t.cval c (t.rowPair rstart nmax m c) := by
  have hrows : ∀ n n1, n < nmax → n1 < nmax →
      t.cptr_ + rstart + t.cstep_ * m + n =
        t.cptr_ + rstart + t.cstep_ * min (m + 1) (t.a_.rows - 1) + n1 →
      n = n1 ∧ t.a_.step1 * m = t.a_.step1 * min (m + 1) (t.a_.rows - 1) := by
    intro n n1 hn hn1 e
    by_cases hmin : min (m + 1) (t.a_.rows - 1) = m
    · rw [hmin] at e ⊢
      exact ⟨by omega, rfl⟩
    · have hmin1 : min (m + 1) (t.a_.rows - 1) = m + 1 := by omega
      rw [hmin1] at e
      have : t.cstep_ * (m + 1) = t.cstep_ * m + t.cstep_ := by ring
      have := hcols (by omega)
      omega
  obtain ⟨r0, r1, rf⟩ := rowPair_rows t rstart nmax m c hrows
  intro x
  constructor
  · rintro ⟨row, n, hrow, hn, rfl⟩
    have := hcols (by omega)
    rw [cval_at t row (rstart + n) (by omega), ← psum_shift]
    rcases hrow with h | h
    · subst h
      rw [← r0 n hn]
      congr 1
      omega
    · subst h
      rw [← r1 n hn]
      congr 1
      omega
  · intro hx
    apply rf
    intro n hn
    constructor
    · intro e
      exact hx ⟨m, n, Or.inl rfl, hn, by omega⟩
    · intro e
      exact hx ⟨_, n, Or.inr rfl, hn, by omega⟩

/-- The call `operator()(r)` overwrites the columns of its range in every row of the
result with the values of the product. -/
theorem matMul_call_upd (t : MatMulInvoker) (r : Range) (c : Mem)
    (hcols : t.b_.cols ≤ t.cstep_) :
    Upd (t.cset (r.start * alignSize ((t.b_.cols + t.nstripes_ - 1) / t.nstripes_) 16)
      (min (r.end_ * alignSize ((t.b_.cols + t.nstripes_ - 1) / t.nstripes_) 16) t.b_.cols))
      t.cval c (t.call r c) := by
  unfold MatMulInvoker.call
  dsimp only
  generalize alignSize ((t.b_.cols + t.nstripes_ - 1) / t.nstripes_) 16 = ss
  have h := forStep_upd 0 t.a_.rows 2
    (fun m c => t.rowPair (r.start * ss) (min (r.end_ * ss) t.b_.cols - r.start * ss) m c) c
    (fun u => {x | ∃ row n, (row = 0 + u * 2 ∨ row = min (0 + u * 2 + 1) (t.a_.rows - 1)) ∧
      n < min (r.end_ * ss) t.b_.cols - r.start * ss ∧
      x = t.cptr_ + t.cstep_ * row + (r.start * ss + n)}) t.cval
    (by
      intro u hu m _
      rw [iterCount_zero] at hu
      exact rowPair_upd t _ _ (0 + u * 2) m (by omega) (by omega))
  refine Upd.congr_set h ?_
  intro a
  rw [iterCount_zero]
  constructor
  · rintro ⟨u, hu, row, n, hrow, hn, rfl⟩
    refine ⟨row, r.start * ss + n, ?_, by omega, by omega, rfl⟩
    rcases hrow with h | h <;> omega
  · rintro ⟨m, n, hm, hlo, hhi, rfl⟩
    refine ⟨m / 2, by omega, m, n - r.start * ss, ?_, by omega, by congr 1; omega⟩
    omega

theorem matMul_cover (cols nst n : Nat) (hn : n < cols) (hnst : 1 ≤ nst) :
    1 ≤ alignSize ((cols + nst - 1) / nst) 16 ∧
      n / alignSize ((cols + nst - 1) / nst) 16 < nst := by
  have h1 := alignSize_ge ((cols + nst - 1) / nst) 16 (by decide)
  have h2 := div_mul_bounds (cols + nst - 1) nst hnst
  have h3 : ((cols + nst - 1) / nst + 1) * nst = (cols + nst - 1) / nst * nst + nst := by ring
  have h4 : 1 ≤ (cols + nst - 1) / nst := by
    rw [Nat.one_le_div_iff hnst]; omega
  refine ⟨by omega, ?_⟩
  rw [Nat.div_lt_iff_lt_mul (by omega)]
  have h5 := Nat.mul_le_mul_right nst h1
  rw [Nat.mul_comm nst]
  omega

/-- The parallel loop over `MatMulInvoker` leaves `a_ * b_` in the rows of the result and
touches nothing else. -/
theorem matMul_spec (t : MatMulInvoker) (sched : List Range) (c : Mem)
    (hs : ParallelConv.IsSplit sched t.nstripes_) (hnst : 1 ≤ t.nstripes_)
    (hcols : t.b_.cols ≤ t.cstep_) :
    (∀ m n, m < t.a_.rows → n < t.b_.cols →
      sched.foldl (fun c r => t.call r c) c (t.cptr_ + t.cstep_ * m + n) =
        t.psum (t.a_.step1 * m) 0 n t.a_.cols) ∧
    (∀ x, (∀ m n, m < t.a_.rows → n < t.b_.cols → x ≠ t.cptr_ + t.cstep_ * m + n) →
      sched.foldl (fun c r => t.call r c) c x = c x) := by
  have h := foldl_upd (fun c r => t.call r c)
    (fun r => t.cset (r.start * alignSize ((t.b_.cols + t.nstripes_ - 1) / t.nstripes_) 16)
      (min (r.end_ * alignSize ((t.b_.cols + t.nstripes_ - 1) / t.nstripes_) 16) t.b_.cols))
    t.cval (fun r m => matMul_call_upd t r m hcols) sched c
  constructor
  · intro m n hm hn
    obtain ⟨hss, hlt⟩ := matMul_cover t.b_.cols t.nstripes_ n hn hnst
    obtain ⟨r, hr, hr1, hr2⟩ := isSplit_cover sched _ hs _ hlt
    have hb := div_mul_bounds n _ hss
    rw [← cval_at t m n (by omega)]
    apply (h _).1
    refine ⟨r, hr, m, n, hm, ?_, ?_, rfl⟩
    · have := Nat.mul_le_mul_right (alignSize ((t.b_.cols + t.nstripes_ - 1) / t.nstripes_) 16) hr1
      omega
    · have := Nat.mul_le_mul_right (alignSize ((t.b_.cols + t.nstripes_ - 1) / t.nstripes_) 16)
        (show n / alignSize ((t.b_.cols + t.nstripes_ - 1) / t.nstripes_) 16 + 1 ≤ r.end_ by omega)
      omega
  · intro x hx
    apply (h x).2
    rintro ⟨r, _, m, n, hm, _, hn, rfl⟩
    exact hx m n hm (by omega) rfl

theorem locals_succ (t : Col2ImInvoker) (index : Nat)
    (h : ¬ (index % t.width + t.pad_w + 1 ≥ t.width + t.pad_w)) :
    t.locals (index + 1) =
      { t.locals index with
        w := (t.locals index).w + 1,
        offset := (t.locals index).offset + t.height_col * t.width_col } := by
  have hw : index % t.width + 1 < t.width := by omega
  have hd := Nat.div_add_mod index t.width
  have e : index + 1 = index / t.width * t.width + (index % t.width + 1) := by
    rw [Nat.mul_comm]; omega
  have e1 : (index + 1) % t.width = index % t.width + 1 := by
    rw [e, enc_mod _ _ hw]
  have e2 : (index + 1) / t.width = index / t.width := by
    rw [e, enc_div _ _ hw]
  have e3 : (index + 1) / (t.width * t.height) = index / (t.width * t.height) := by
    rw [← Nat.div_div_eq_div_mul, ← Nat.div_div_eq_div_mul, e2]
  unfold Col2ImInvoker.locals
  simp only [e1, e2, e3]
  congr 1
  · ring
  · push_cast
    ring

theorem step_eq (t : Col2ImInvoker) (index : Nat) (im : Mem) (h1 : t.is1x1 = false) :
    t.step index (t.locals index, im) =
      (t.locals (index + 1), store im (t.data_im + index) (t.imVal (t.data_im + index))) := by
  unfold Col2ImInvoker.step Col2ImInvoker.imVal Col2ImInvoker.val
  simp only [h1, Bool.false_eq_true, if_false, Nat.add_sub_cancel_left]
  by_cases h : (t.locals index).w + 1 ≥ t.width + t.pad_w
  · rw [if_pos h]
  · rw [if_neg h, locals_succ t index h]

/-- The call `operator()(r)` of the general path overwrites the image elements of its
index range. -/
theorem col2im_call_upd (t : Col2ImInvoker) (r : Range) (im : Mem) (h1 : t.is1x1 = false) :
    Upd {a | ∃ idx, r.start * ((t.channels * t.height * t.width + t.nstripes - 1) / t.nstripes) ≤ idx ∧
        idx < min (r.end_ * ((t.channels * t.height * t.width + t.nstripes - 1) / t.nstripes))
          (t.channels * t.height * t.width) ∧ a = t.data_im + idx}
      t.imVal im (t.call r im) := by
  unfold Col2ImInvoker.call
  dsimp only
  generalize (t.channels * t.height * t.width + t.nstripes - 1) / t.nstripes = ss
  generalize r.start * ss = s0
  generalize min (r.end_ * ss) (t.channels * t.height * t.width) = s1
  by_cases hle : s0 ≤ s1
  · have h := forStep_one_inv
      (fun i (st : Col2ImLocals × Mem) => st.1 = t.locals i ∧
        Upd {a | ∃ idx, s0 ≤ idx ∧ idx < i ∧ a = t.data_im + idx} t.imVal im st.2)
      s0 s1 t.step (t.locals s0, im) hle
      ⟨rfl, Upd.congr_set (Upd.refl_empty _ _) (by
        intro a
        constructor
        · intro h; exact absurd h (Set.not_mem_empty a)
        · rintro ⟨idx, h1, h2, _⟩; omega)⟩
      (by
        rintro i hi1 hi2 ⟨l, m⟩ ⟨hl, hu⟩
        have hl' : l = t.locals i := hl
        subst hl'
        rw [step_eq t i m h1]
        refine ⟨rfl, ?_⟩
        refine Upd.congr_set (Upd.trans hu (upd_store m (t.data_im + i) _ rfl)) ?_
        intro a
        constructor
        · rintro (⟨idx, h1, h2, rfl⟩ | h)
          · exact ⟨idx, h1, by omega, rfl⟩
          · exact ⟨i, hi1, by omega, h⟩
        · rintro ⟨idx, h1, h2, rfl⟩
          by_cases e : idx = i
          · right; rw [e]; rfl
          · left; exact ⟨idx, h1, by omega, rfl⟩)
    exact h.2
  · rw [forStep_empty _ _ _ _ _ (by omega) (Nat.le_refl 1)]
    refine Upd.congr_set (Upd.refl_empty _ _) ?_
    intro a
    constructor
    · intro h; exact absurd h (Set.not_mem_empty a)
    · rintro ⟨idx, h1, h2, _⟩; omega

/-- The parallel loop over `Col2ImInvoker` on the general path overwrites every element
of the image and touches nothing else. -/
theorem col2im_spec (t : Col2ImInvoker) (sched : List Range) (im : Mem)
    (h1 : t.is1x1 = false) (hs : ParallelConv.IsSplit sched t.nstripes) (hnst : 1 ≤ t.nstripes) :
    Upd {a | ∃ idx, idx < t.channels * t.height * t.width ∧ a = t.data_im + idx}
      t.imVal im (sched.foldl (fun im r => t.call r im) im) := by
  have h := foldl_upd (fun im r => t.call r im) _ t.imVal
    (fun r m => col2im_call_upd t r m h1) sched im
  refine Upd.congr_set h ?_
  intro a
  constructor
  · rintro ⟨r, _, idx, _, h2, rfl⟩
    exact ⟨idx, by omega, rfl⟩
  · rintro ⟨idx, hidx, rfl⟩
    generalize htot : t.channels * t.height * t.width = total at *
    have h2 := div_mul_bounds (total + t.nstripes - 1) t.nstripes hnst
    have h3 : ((total + t.nstripes - 1) / t.nstripes + 1) * t.nstripes =
        (total + t.nstripes - 1) / t.nstripes * t.nstripes + t.nstripes := by ring
    have h4 : 1 ≤ (total + t.nstripes - 1) / t.nstripes := by
      rw [Nat.one_le_div_iff hnst]; omega
    have hlt : idx / ((total + t.nstripes - 1) / t.nstripes) < t.nstripes := by
      rw [Nat.div_lt_iff_lt_mul (by omega), Nat.mul_comm]
      omega
    obtain ⟨r, hr, hr1, hr2⟩ := isSplit_cover sched _ hs _ hlt
    have hb := div_mul_bounds idx _ h4
    refine ⟨r, hr, idx, ?_, ?_, rfl⟩
    · have := Nat.mul_le_mul_right ((total + t.nstripes - 1) / t.nstripes) hr1
      omega
    · have := Nat.mul_le_mul_right ((total + t.nstripes - 1) / t.nstripes)
        (show idx / ((total + t.nstripes - 1) / t.nstripes) + 1 ≤ r.end_ by omega)
      omega

theorem forInt_sum (lo hi : Int) (f : Int → ℚ) (a : ℚ) :
    forInt lo hi (fun i acc => acc + f i) a =
      a + ∑ k in Finset.range (hi - lo).toNat, f (lo + (k : Int)) := by
  unfold forInt
  induction (hi - lo).toNat with
  | zero => simp [Nat.fold]
  | succ n ih =>
    rw [Nat.fold, ih, Finset.sum_range_succ]
    ring

theorem forInt_congr {σ : Type} (lo hi : Int) (f g : Int → σ → σ) (s : σ)
    (h : ∀ i s, f i s = g i s) : forInt lo hi f s = forInt lo hi g s := by
  have : f = g := by funext i s; exact h i s
  rw [this]

theorem forInt_sum2 (lo hi lo1 hi1 : Int) (g : Int → Int → ℚ) :
    forInt lo hi (fun i val => forInt lo1 hi1 (fun j val => val + g i j) val) 0 =
      ∑ k in Finset.range (hi - lo).toNat, ∑ k1 in Finset.range (hi1 - lo1).toNat,
        g (lo + (k : Int)) (lo1 + (k1 : Int)) := by
  rw [forInt_congr lo hi _ (fun i acc => acc + ∑ k1 in Finset.range (hi1 - lo1).toNat,
    g i (lo1 + (k1 : Int))) 0 (fun i s => forInt_sum lo1 hi1 (g i) s)]
  rw [forInt_sum, zero_add]

theorem sum_window (lo hi N : Nat) (hhi : hi ≤ N) (G : Nat → ℚ) :
    ∑ k in Finset.range (hi - lo), G (lo + k) =
      ∑ y in Finset.range N, if lo ≤ y ∧ y < hi then G y else 0 := by
  rw [← Finset.sum_Ico_eq_sum_range, ← Finset.sum_filter]
  apply Finset.sum_congr _ (fun _ _ => rfl)
  ext y
  simp only [Finset.mem_Ico, Finset.mem_filter, Finset.mem_range]
  omega

theorem sum_tap (kh a h1 : Nat) (f : Nat → ℚ) :
    ∑ i in Finset.range kh, (if a + i = h1 then f i else 0) =
      if a ≤ h1 ∧ h1 - a < kh then f (h1 - a) else 0 := by
  by_cases hc : a ≤ h1 ∧ h1 - a < kh
  · rw [if_pos hc, Finset.sum_eq_single (h1 - a)]
    · rw [if_pos (by omega)]
    · intro b _ hb
      rw [if_neg (by omega)]
    · intro hn
      exact absurd (Finset.mem_range.2 hc.2) hn
  · rw [if_neg hc]
    apply Finset.sum_eq_zero
    intro i hi
    rw [Finset.mem_range] at hi
    rw [if_neg (by omega)]

theorem sum_tap2 (kh kw a b h1 w1 : Nat) (F : Nat → Nat → ℚ) :
    ∑ i in Finset.range kh, ∑ j in Finset.range kw,
        (if a + i = h1 ∧ b + j = w1 then F i j else 0) =
      if (a ≤ h1 ∧ h1 - a < kh) ∧ (b ≤ w1 ∧ w1 - b < kw) then F (h1 - a) (w1 - b) else 0 := by
  have e : ∀ i, ∑ j in Finset.range kw, (if a + i = h1 ∧ b + j = w1 then F i j else 0) =
      if a + i = h1 then (if b ≤ w1 ∧ w1 - b < kw then F i (w1 - b) else 0) else 0 := by
    intro i
    by_cases hi : a + i = h1
    · simp only [hi, true_and, if_true]
      exact sum_tap kw b w1 (F i)
    · simp only [hi, false_and, if_false]
      exact Finset.sum_const_zero
  simp only [e]
  rw [sum_tap kh a h1 (fun i => if b ≤ w1 ∧ w1 - b < kw then F i (w1 - b) else 0)]
  by_cases h1c : a ≤ h1 ∧ h1 - a < kh
  · by_cases h2c : b ≤ w1 ∧ w1 - b < kw
    · rw [if_pos h1c, if_pos h2c, if_pos ⟨h1c, h2c⟩]
    · rw [if_pos h1c, if_neg h2c, if_neg (fun h => h2c h.2)]
  · rw [if_neg h1c, if_neg (fun h => h1c h.1)]

theorem window_iff (h1 kh sh Hc y : Nat) (hsh : 1 ≤ sh) (hy : y < Hc) :
    ((if h1 < kh then 0 else (h1 - kh) / sh + 1) ≤ y ∧ y < min (h1 / sh + 1) Hc) ↔
      (y * sh ≤ h1 ∧ h1 - y * sh < kh) := by
  have e1 : y < h1 / sh + 1 ↔ y * sh ≤ h1 := by
    rw [Nat.lt_succ_iff, Nat.le_div_iff_mul_le (by omega)]
  by_cases hk : h1 < kh
  · rw [if_pos hk]
    constructor
    · rintro ⟨_, h2⟩
      have := e1.1 (by omega)
      omega
    · rintro ⟨h2, _⟩
      have := e1.2 h2
      omega
  · rw [if_neg hk]
    have e2 : (h1 - kh) / sh + 1 ≤ y ↔ h1 - kh < y * sh := by
      rw [Nat.succ_le_iff, Nat.div_lt_iff_lt_mul (by omega)]
    constructor
    · rintro ⟨h2, h3⟩
      have := e1.1 (by omega)
      have := e2.1 h2
      omega
    · rintro ⟨h2, h3⟩
      have := e1.2 h2
      have := e2.2 (by omega)
      omega

theorem col2im_addr (c kh kw h1 w1 sh sw Hc Wc y x : Nat) (hy : y * sh ≤ h1) (hx : x * sw ≤ w1) :
    (((c * kh * kw + h1 * kw + w1 : Nat) : Int) * ((Hc : Int) * (Wc : Int)) +
        (y : Int) * ((1 - (sh : Int) * kw * Hc) * Wc) +
        (x : Int) * (1 - (sw : Int) * Hc * Wc)).toNat =
      ((c * kh + (h1 - y * sh)) * kw + (w1 - x * sw)) * (Hc * Wc) + (y * Wc + x) := by
  have e : ((c * kh * kw + h1 * kw + w1 : Nat) : Int) * ((Hc : Int) * (Wc : Int)) +
        (y : Int) * ((1 - (sh : Int) * kw * Hc) * Wc) +
        (x : Int) * (1 - (sw : Int) * Hc * Wc) =
      ((((c * kh + (h1 - y * sh)) * kw + (w1 - x * sw)) * (Hc * Wc) + (y * Wc + x) : Nat) : Int) := by
    push_cast [Nat.cast_sub hy, Nat.cast_sub hx]
    ring
  rw [e, Int.toNat_natCast]

/-- The sum formed on the general path is the sum of the elements of the column matrix
at the rows `(c*kh + i)*kw + j` and the columns `y*Wc + x` with `y*stride_h + i = h` and
`x*stride_w + j = w`, where `(w, h, c)` are the locals of the index. -/
theorem col2im_val (t : Col2ImInvoker) (index Hc Wc : Nat)
    (hHc : t.height_col = (Hc : Int)) (hWc : t.width_col = (Wc : Int))
    (hsh : 1 ≤ t.stride_h) (hsw : 1 ≤ t.stride_w) :
    t.val index =
      ∑ y in Finset.range Hc, ∑ x in Finset.range Wc,
        ∑ i in Finset.range t.kernel_h, ∑ j in Finset.range t.kernel_w,
          if y * t.stride_h + i = (t.locals index).h ∧ x * t.stride_w + j = (t.locals index).w
          then t.data_col ((((t.locals index).c * t.kernel_h + i) * t.kernel_w + j) * (Hc * Wc) +
            (y * Wc + x))
          else 0 := by
  unfold Col2ImInvoker.val
  dsimp only
  generalize hh1 : (t.locals index).h = h1
  generalize hw1 : (t.locals index).w = w1
  generalize hc : (t.locals index).c = c
  have e_hs : (t.locals index).h_col_start =
      (((if h1 < t.kernel_h then 0 else (h1 - t.kernel_h) / t.stride_h + 1 : Nat)) : Int) := by
    rw [← hh1]
    unfold Col2ImInvoker.locals
    dsimp only
    split_ifs <;> rfl
  have e_he : (t.locals index).h_col_end = ((min (h1 / t.stride_h + 1) Hc : Nat) : Int) := by
    rw [← hh1, Nat.cast_min, ← hHc]
    rfl
  have e_off : (t.locals index).offset =
      ((c * t.kernel_h * t.kernel_w + h1 * t.kernel_w + w1 : Nat) : Int) *
        ((Hc : Int) * (Wc : Int)) := by
    rw [← hh1, ← hw1, ← hc, ← hHc, ← hWc]
    rfl
  have e_ws : (if w1 < t.kernel_w then (0 : Int)
      else (((w1 - t.kernel_w) / t.stride_w + 1 : Nat) : Int)) =
      (((if w1 < t.kernel_w then 0 else (w1 - t.kernel_w) / t.stride_w + 1 : Nat)) : Int) := by
    split_ifs <;> rfl
  have e_we : min (((w1 / t.stride_w + 1 : Nat) : Int)) t.width_col =
      ((min (w1 / t.stride_w + 1) Wc : Nat) : Int) := by
    rw [Nat.cast_min, ← hWc]
  rw [e_hs, e_he, e_off, e_ws, e_we, hHc, hWc, forInt_sum2, Int.toNat_sub, Int.toNat_sub]
  generalize hhs : (if h1 < t.kernel_h then 0 else (h1 - t.kernel_h) / t.stride_h + 1) = hsN
  generalize hws : (if w1 < t.kernel_w then 0 else (w1 - t.kernel_w) / t.stride_w + 1) = wsN
  let g : Nat → Nat → ℚ := fun y x =>
    t.data_col (((c * t.kernel_h * t.kernel_w + h1 * t.kernel_w + w1 : Nat) : Int) *
          ((Hc : Int) * (Wc : Int)) +
        (y : Int) * ((1 - (t.stride_h : Int) * t.kernel_w * Hc) * Wc) +
        (x : Int) * (1 - (t.stride_w : Int) * Hc * Wc)).toNat
  have hg : ∀ y x, g y x = t.data_col (((c * t.kernel_h * t.kernel_w + h1 * t.kernel_w + w1 : Nat) : Int) *
          ((Hc : Int) * (Wc : Int)) +
        (y : Int) * ((1 - (t.stride_h : Int) * t.kernel_w * Hc) * Wc) +
        (x : Int) * (1 - (t.stride_w : Int) * Hc * Wc)).toNat := fun _ _ => rfl
  have hcast : ∀ k k1 : Nat,
      t.data_col (((c * t.kernel_h * t.kernel_w + h1 * t.kernel_w + w1 : Nat) : Int) *
          ((Hc : Int) * (Wc : Int)) +
        ((hsN : Int) + (k : Int)) * ((1 - (t.stride_h : Int) * t.kernel_w * Hc) * Wc) +
        ((wsN : Int) + (k1 : Int)) * (1 - (t.stride_w : Int) * Hc * Wc)).toNat =
      g (hsN + k) (wsN + k1) := by
    intro k k1
    rw [hg]
    congr 2
  refine Eq.trans
    (Finset.sum_congr rfl (fun k _ => Finset.sum_congr rfl (fun k1 _ => hcast k k1))) ?_
  clear_value g
  refine Eq.trans (Finset.sum_congr rfl (fun k _ =>
    sum_window wsN _ Wc (Nat.min_le_right _ _) (g (hsN + k)))) ?_
  refine Eq.trans (sum_window hsN _ Hc (Nat.min_le_right _ _) (fun y => ∑ x in Finset.range Wc,
    if wsN ≤ x ∧ x < min (w1 / t.stride_w + 1) Wc then g y x else 0)) ?_
  apply Finset.sum_congr rfl
  intro y hy
  rw [Finset.mem_range] at hy
  have hwy := window_iff h1 t.kernel_h t.stride_h Hc y hsh hy
  rw [hhs] at hwy
  by_cases hyc : y * t.stride_h ≤ h1 ∧ h1 - y * t.stride_h < t.kernel_h
  · rw [if_pos (hwy.2 hyc)]
    apply Finset.sum_congr rfl
    intro x hx
    rw [Finset.mem_range] at hx
    have hwx := window_iff w1 t.kernel_w t.stride_w Wc x hsw hx
    rw [hws] at hwx
    rw [sum_tap2]
    by_cases hxc : x * t.stride_w ≤ w1 ∧ w1 - x * t.stride_w < t.kernel_w
    · rw [if_pos (hwx.2 hxc), if_pos ⟨hyc, hxc⟩, hg]
      rw [col2im_addr c t.kernel_h t.kernel_w h1 w1 t.stride_h t.stride_w Hc Wc y x hyc.1 hxc.1]
    · rw [if_neg (fun h => hxc (hwx.1 h)), if_neg (fun h => hxc h.2)]
  · rw [if_neg (fun h => hyc (hwy.1 h))]
    symm
    apply Finset.sum_eq_zero
    intro x _
    rw [sum_tap2, if_neg (fun h => hyc h.1)]

theorem Upd.congr_val {S : Set Nat} {v v1 : Nat → ℚ} {m m1 : Mem}
    (h : Upd S v m m1) (e : ∀ a, a ∈ S → v a = v1 a) : Upd S v1 m m1 := by
  intro a
  exact ⟨fun ha => by rw [← e a ha]; exact (h a).1 ha, (h a).2⟩

theorem sum_comm5 (A B C D E : Nat) (f : Nat → Nat → Nat → Nat → Nat → ℚ) :
    ∑ y in Finset.range A, ∑ x in Finset.range B, ∑ i in Finset.range C,
        ∑ j in Finset.range D, ∑ k in Finset.range E, f k y x i j =
      ∑ k in Finset.range E, ∑ y in Finset.range A, ∑ x in Finset.range B,
        ∑ i in Finset.range C, ∑ j in Finset.range D, f k y x i j := by
  symm
  rw [Finset.sum_comm]
  apply Finset.sum_congr rfl
  intro y _
  rw [Finset.sum_comm]
  apply Finset.sum_congr rfl
  intro x _
  rw [Finset.sum_comm]
  apply Finset.sum_congr rfl
  intro i _
  rw [Finset.sum_comm]

/-- The matrix product of the iteration `(n, g)` leaves, at row `m` and column `q` of
the column matrix, the product of column `m` of the group's rows of `R` with the
elements at plane offset `q` of the group's input channels. -/
theorem matMul_group (X : Mat4) (R : Mat2) (ngroups inG nst n g : Nat) (simd : Bool)
    (sched : List Range) (col : Mem)
    (hn : n < X.size0) (hg : g < ngroups) (hinG : 1 ≤ inG)
    (hC : X.size1 = ngroups * inG) (hRrows : R.rows = X.size1)
    (hnst : 1 ≤ nst) (hs : ParallelConv.IsSplit sched nst) :
    ∀ m q, m < R.cols → q < X.size2 * X.size3 →
      sched.foldl (fun c r => MatMulInvoker.call
        { a_ := (transpose R).colRange (g * inG) inG,
          b_ := ((X.reshape (X.size0 * X.size1)).rowRange ((g + n * ngroups) * inG) inG),
          cptr_ := 0, cstep_ := X.size2 * X.size3, nstripes_ := nst, simd := simd } r c) col
        (m * (X.size2 * X.size3) + q) =
      ∑ k in Finset.range inG, R.data ((g * inG + k) * R.step1 + m) *
        X.data (((n * X.size1 + (g * inG + k)) * (X.size2 * X.size3) + q : Nat) : Int) := by
  intro m q hm hq
  have hNC : 0 < X.size0 * X.size1 := by
    rw [hC]
    exact Nat.mul_pos (by omega) (Nat.mul_pos (by omega) (by omega))
  have hstep : (X.reshape (X.size0 * X.size1)).step1 = X.size2 * X.size3 := by
    show X.total / (X.size0 * X.size1) = _
    have : X.total = (X.size0 * X.size1) * (X.size2 * X.size3) := by
      unfold Mat4.total; ring
    rw [this, Nat.mul_div_cancel_left _ hNC]
  have hcols : (X.reshape (X.size0 * X.size1)).cols = X.size2 * X.size3 := hstep
  have h := (matMul_spec
    { a_ := (transpose R).colRange (g * inG) inG,
      b_ := ((X.reshape (X.size0 * X.size1)).rowRange ((g + n * ngroups) * inG) inG),
      cptr_ := 0, cstep_ := X.size2 * X.size3, nstripes_ := nst, simd := simd }
    sched col hs hnst (by show (X.reshape (X.size0 * X.size1)).cols ≤ _; rw [hcols])).1
    m q hm (by show q < (X.reshape (X.size0 * X.size1)).cols; rw [hcols]; exact hq)
  have e0 : 0 + X.size2 * X.size3 * m + q = m * (X.size2 * X.size3) + q := by ring
  dsimp only at h
  rw [e0] at h
  rw [h]
  unfold MatMulInvoker.psum
  dsimp only [Mat2.colRange, Mat2.rowRange, transpose, Mat4.reshape]
  apply Finset.sum_congr rfl
  intro k hk
  rw [Finset.mem_range] at hk
  have hgk : g * inG + k < X.size1 := by
    rw [hC]
    exact enc_lt hg hk
  have ea : g * inG + (R.rows * m + k) = m * R.rows + (g * inG + k) := by ring
  rw [ea, hRrows, enc_mod m _ hgk, enc_div m _ hgk]
  congr 2
  show (((g + n * ngroups) * inG * (X.total / (X.size0 * X.size1)) +
    (0 + k * (X.total / (X.size0 * X.size1)) + q) : Nat) : Int) = _
  have hs2 : X.total / (X.size0 * X.size1) = X.size2 * X.size3 := hstep
  rw [hs2, hC]
  congr 1
  ring

/-- On a column matrix that holds the matrix product of the iteration `(n, g)`, the value
that the general path of `Col2ImInvoker` leaves at the flat index `idx` of the image of
the group is the transposed convolution. -/
theorem imVal_deconv (X : Mat4) (R : Mat2) (bias : Nat → ℚ) (kernel pad stride : Size)
    (inG outG outH outW n g dstPtr nst : Nat) (col bv : Mem) (hc hw : Int)
    (hcol : ∀ m q, m < outG * kernel.height * kernel.width → q < X.size2 * X.size3 →
      col (m * (X.size2 * X.size3) + q) =
        ∑ k in Finset.range inG, R.data ((g * inG + k) * R.step1 + m) *
          X.data (((n * X.size1 + (g * inG + k)) * (X.size2 * X.size3) + q : Nat) : Int))
    (hbv : ∀ c, bv c = bias (g * outG + c))
    (hHc : hc = (X.size2 : Int)) (hWc : hw = (X.size3 : Int))
    (hsh : 1 ≤ stride.height) (hsw : 1 ≤ stride.width)
    (idx : Nat) (hidx : idx < outG * outH * outW) :
    Col2ImInvoker.imVal
      { data_col := col, biasvec := bv, channels := outG, height := outH, width := outW,
        kernel_h := kernel.height, kernel_w := kernel.width, pad_h := pad.height,
        pad_w := pad.width, stride_h := stride.height, stride_w := stride.width,
        data_im := dstPtr, height_col := hc, width_col := hw, nstripes := nst, is1x1 := false }
      (dstPtr + idx) =
    deconvRef X R bias kernel pad stride inG outG n g (idx / (outW * outH)) (idx / outW % outH)
      (idx % outW) := by
  have hpos : 0 < outW * outH := by
    rcases Nat.eq_zero_or_pos (outW * outH) with h | h
    · have : outG * outH * outW = outG * (outW * outH) := by ring
      rw [this, h] at hidx
      omega
    · exact h
  have hcl : idx / (outW * outH) < outG := by
    rw [Nat.div_lt_iff_lt_mul hpos]
    have : outG * outH * outW = outG * (outW * outH) := by ring
    omega
  unfold Col2ImInvoker.imVal
  dsimp only
  rw [Nat.add_sub_cancel_left,
    col2im_val _ idx X.size2 X.size3 hHc hWc hsh hsw, hbv]
  unfold deconvRef
  rw [add_comm]
  congr 1
  refine Eq.trans ?_ (sum_comm5 X.size2 X.size3 kernel.height kernel.width inG
    (fun ic y x i j =>
      if y * stride.height + i = idx / outW % outH + pad.height ∧
          x * stride.width + j = idx % outW + pad.width then
        X.data ((((n * X.size1 + (g * inG + ic)) * X.size2 + y) * X.size3 + x : Nat) : Int) *
          R.data ((g * inG + ic) * R.step1 +
            ((idx / (outW * outH) * kernel.height + i) * kernel.width + j))
      else 0))
  apply Finset.sum_congr rfl
  intro y hy
  apply Finset.sum_congr rfl
  intro x hx
  apply Finset.sum_congr rfl
  intro i hi
  apply Finset.sum_congr rfl
  intro j hj
  rw [Finset.mem_range] at hy hx hi hj
  show (if y * stride.height + i = idx / outW % outH + pad.height ∧
      x * stride.width + j = idx % outW + pad.width then
    col (((idx / (outW * outH) * kernel.height + i) * kernel.width + j) * (X.size2 * X.size3) +
      (y * X.size3 + x)) else 0) = _
  by_cases hcond : y * stride.height + i = idx / outW % outH + pad.height ∧
      x * stride.width + j = idx % outW + pad.width
  · rw [if_pos hcond, hcol _ _ (enc_lt (enc_lt hcl hi) hj) (enc_lt hy hx)]
    apply Finset.sum_congr rfl
    intro k _
    dsimp only
    rw [if_pos hcond, mul_comm]
    congr 3
    ring
  · rw [if_neg hcond]
    symm
    apply Finset.sum_eq_zero
    intro k _
    dsimp only
    rw [if_neg hcond]

theorem deconvVal_at (X : Mat4) (R : Mat2) (bias : Nat → ℚ) (kernel pad stride : Size)
    (inG outG ngroups outH outW n g idx : Nat) (hg : g < ngroups)
    (hidx : idx < outG * outH * outW) :
    deconvVal X R bias kernel pad stride inG outG ngroups outH outW
        ((g + n * ngroups) * outG * (outH * outW) + idx) =
      deconvRef X R bias kernel pad stride inG outG n g (idx / (outW * outH))
        (idx / outW % outH) (idx % outW) := by
  unfold deconvVal
  have e : (g + n * ngroups) * outG * (outH * outW) + idx =
      (n * ngroups + g) * (outG * outH * outW) + idx := by ring
  rw [e, enc_div _ _ hidx, enc_mod _ _ hidx, enc_div _ _ hg, enc_mod _ _ hg]

/-- One iteration `(n, g)` of `forward` on the general path overwrites the output planes
of the group with the transposed convolution. -/
theorem groupStep_upd (l : DeConvolutionLayerImpl) (X : Mat4) (R biasesMat : Mat2)
    (bias : Nat → ℚ) (ngroups inG outG outH outW nst : Nat) (simd : Bool)
    (schedMM schedCol : Nat → Nat → List Range) (n g : Nat) (st : Mem × Mem)
    (hn : n < X.size0) (hg : g < ngroups) (hinG : 1 ≤ inG)
    (hC : X.size1 = ngroups * inG) (hRrows : R.rows = X.size1)
    (hRcols : R.cols = outG * l.kernel.height * l.kernel.width)
    (hbias : ∀ c, biasesMat.data (g * outG * biasesMat.step1 + c) = bias (g * outG + c))
    (hHc : ((outH : Int) + 2 * l.pad.height - l.kernel.height).tdiv l.stride.height + 1 =
      (X.size2 : Int))
    (hWc : ((outW : Int) + 2 * l.pad.width - l.kernel.width).tdiv l.stride.width + 1 =
      (X.size3 : Int))
    (hsh : 1 ≤ l.stride.height) (hsw : 1 ≤ l.stride.width) (hnst : 1 ≤ nst)
    (hsMM : ParallelConv.IsSplit (schedMM n g) nst)
    (hsCol : ParallelConv.IsSplit (schedCol n g) nst) :
    Upd {a | ∃ idx, idx < outG * outH * outW ∧ a = (g + n * ngroups) * outG * (outH * outW) + idx}
      (deconvVal X R bias l.kernel l.pad l.stride inG outG ngroups outH outW) st.2
      (l.groupStep (transpose R) biasesMat (X.reshape (X.size0 * X.size1)) (outH * outW)
        (X.size2 * X.size3) ngroups inG outG outH outW nst false simd schedMM schedCol n g st).2 := by
  unfold DeConvolutionLayerImpl.groupStep Col2ImInvoker.run
  simp only [Bool.false_eq_true, if_false]
  refine Upd.congr_val (Upd.congr_set (col2im_spec _ (schedCol n g) st.2 rfl hsCol hnst) ?_) ?_
  · intro a
    exact Iff.rfl
  · rintro a ⟨idx, hidx, rfl⟩
    rw [deconvVal_at X R bias l.kernel l.pad l.stride inG outG ngroups outH outW n g idx hg hidx]
    exact imVal_deconv X R bias l.kernel l.pad l.stride inG outG outH outW n g _ nst _ _ _ _
      (fun m q hm hq => matMul_group X R ngroups inG nst n g simd (schedMM n g) st.1 hn hg hinG
        hC hRrows hnst hsMM m q (by rw [hRcols]; exact hm) hq)
      hbias hHc hWc hsh hsw idx hidx

theorem outIndex_group (ngroups outG outH outW n g oc h w : Nat) :
    outIndex (ngroups * outG) outH outW n (g * outG + oc) h w =
      (g + n * ngroups) * outG * (outH * outW) + ((oc * outH + h) * outW + w) := by
  unfold outIndex
  ring

theorem decode_idx (outH outW oc h w : Nat) (hh : h < outH) (hw : w < outW) :
    ((oc * outH + h) * outW + w) / (outW * outH) = oc ∧
    ((oc * outH + h) * outW + w) / outW % outH = h ∧
    ((oc * outH + h) * outW + w) % outW = w := by
  refine ⟨?_, ?_, enc_mod _ _ hw⟩
  · rw [← Nat.div_div_eq_div_mul, enc_div _ _ hw, enc_div _ _ hh]
  · rw [enc_div _ _ hw, enc_mod _ _ hh]

/-- The loops over `n` and `g` of `forward` on the general path leave the transposed
convolution in every output element. -/
theorem deconv_loops (l : DeConvolutionLayerImpl) (X : Mat4) (R biasesMat : Mat2)
    (bias : Nat → ℚ) (ngroups inG outG outH outW nst : Nat) (simd : Bool)
    (schedMM schedCol : Nat → Nat → List Range) (st0 : Mem × Mem)
    (hinG : 1 ≤ inG)
    (hC : X.size1 = ngroups * inG) (hRrows : R.rows = X.size1)
    (hRcols : R.cols = outG * l.kernel.height * l.kernel.width)
    (hbias : ∀ o, biasesMat.data (o * biasesMat.step1) = bias o)
    (hb1 : biasesMat.step1 = 1)
    (hHc : ((outH : Int) + 2 * l.pad.height - l.kernel.height).tdiv l.stride.height + 1 =
      (X.size2 : Int))
    (hWc : ((outW : Int) + 2 * l.pad.width - l.kernel.width).tdiv l.stride.width + 1 =
      (X.size3 : Int))
    (hsh : 1 ≤ l.stride.height) (hsw : 1 ≤ l.stride.width) (hnst : 1 ≤ nst)
    (hsMM : ∀ n g, ParallelConv.IsSplit (schedMM n g) nst)
    (hsCol : ∀ n g, ParallelConv.IsSplit (schedCol n g) nst) :
    ∀ n g oc h w, n < X.size0 → g < ngroups → oc < outG → h < outH → w < outW →
      (forStep 0 X.size0 1 (fun n st =>
        forStep 0 ngroups 1 (fun g st =>
          l.groupStep (transpose R) biasesMat (X.reshape (X.size0 * X.size1)) (outH * outW)
            (X.size2 * X.size3) ngroups inG outG outH outW nst false simd schedMM schedCol n g st)
          st) st0).2 (outIndex (ngroups * outG) outH outW n (g * outG + oc) h w) =
      deconvRef X R bias l.kernel l.pad l.stride inG outG n g oc h w := by
  intro n g oc h w hn hg hoc hh hw
  have hU := forStep_upd_snd 0 X.size0 1 (fun n st =>
        forStep 0 ngroups 1 (fun g st =>
          l.groupStep (transpose R) biasesMat (X.reshape (X.size0 * X.size1)) (outH * outW)
            (X.size2 * X.size3) ngroups inG outG outH outW nst false simd schedMM schedCol n g st)
          st) st0
    (fun n => {a | ∃ u, u < iterCount 0 ngroups 1 ∧
      a ∈ {a | ∃ idx, idx < outG * outH * outW ∧
        a = ((0 + u * 1) + (0 + n * 1) * ngroups) * outG * (outH * outW) + idx}})
    (deconvVal X R bias l.kernel l.pad l.stride inG outG ngroups outH outW)
    (by
      intro t ht s _
      exact forStep_upd_snd 0 ngroups 1 _ s
        (fun u => {a | ∃ idx, idx < outG * outH * outW ∧
          a = ((0 + u * 1) + (0 + t * 1) * ngroups) * outG * (outH * outW) + idx})
        (deconvVal X R bias l.kernel l.pad l.stride inG outG ngroups outH outW)
        (by
          intro u hu s1 _
          rw [iterCount_one] at hu ht
          exact groupStep_upd l X R biasesMat bias ngroups inG outG outH outW nst simd
            schedMM schedCol (0 + t * 1) (0 + u * 1) s1 (by omega) (by omega) hinG hC hRrows
            hRcols (fun c => by
              have := hbias ((0 + u * 1) * outG + c)
              rw [hb1] at this ⊢
              rw [← this]
              congr 1
              ring) hHc hWc hsh hsw hnst (hsMM _ _) (hsCol _ _)))
  rw [outIndex_group]
  obtain ⟨d1, d2, d3⟩ := decode_idx outH outW oc h w hh hw
  have hidx : (oc * outH + h) * outW + w < outG * outH * outW := enc_lt (enc_lt hoc hh) hw
  rw [(hU _).1 ⟨n, by rw [iterCount_one]; omega, g, by rw [iterCount_one]; omega,
    (oc * outH + h) * outW + w, hidx, by simp⟩]
  rw [deconvVal_at X R bias l.kernel l.pad l.stride inG outG ngroups outH outW n g _ hg hidx,
    d1, d2, d3]

theorem makeBiases_spec (rest : List Blob) (outCn : Nat) (hpos : 1 ≤ outCn)
    (hbias : rest = [] ∨ ∃ b1 tl, rest = b1 :: tl ∧ b1.total = outCn) :
    (DeConvolutionLayerImpl.makeBiases rest outCn).step1 = 1 ∧
      ∀ o, (DeConvolutionLayerImpl.makeBiases rest outCn).data
        (o * (DeConvolutionLayerImpl.makeBiases rest outCn).step1) = deconvBias rest o := by
  rcases hbias with h | ⟨b1, tl, h, ht⟩
  · subst h
    exact ⟨rfl, fun _ => rfl⟩
  · subst h
    have e : (DeConvolutionLayerImpl.makeBiases (b1 :: tl) outCn).step1 = 1 := by
      show b1.total / outCn = 1
      rw [ht]
      exact Nat.div_self hpos
    refine ⟨e, ?_⟩
    intro o
    rw [e, Nat.mul_one]
    rfl

/-- The general path of `DeConvolutionLayerImpl::forward` returns and leaves the
transposed convolution in every output element. -/
theorem deconv_forward_spec (l : DeConvolutionLayerImpl) (b0 : Blob) (rest : List Blob)
    (X : Mat4) (outH outW : Nat) (out0 : Mem) (internals0 : Mat2) (internals1 : Mem)
    (nst : Nat) (simd : Bool) (schedMM schedCol : Nat → Nat → List Range)
    (hblobs : l.blobs = b0 :: rest) (hwm : l.weightsMat = none) (h1x1 : l.is1x1 = false)
    (hk2 : b0.size2 = l.kernel.height) (hk3 : b0.size3 = l.kernel.width)
    (hinG : b0.size1 ≠ 0) (hG : X.size1 / b0.size1 ≠ 0)
    (hC : X.size1 = X.size1 / b0.size1 * b0.size1)
    (hO : b0.size0 = X.size1 / b0.size1 * (b0.size0 / (X.size1 / b0.size1)))
    (hbias : rest = [] ∨ ∃ b1 tl, rest = b1 :: tl ∧ b1.total = b0.size0)
    (hHc : ((outH : Int) + 2 * l.pad.height - l.kernel.height).tdiv l.stride.height + 1 =
      (X.size2 : Int))
    (hWc : ((outW : Int) + 2 * l.pad.width - l.kernel.width).tdiv l.stride.width + 1 =
      (X.size3 : Int))
    (hsh : 1 ≤ l.stride.height) (hsw : 1 ≤ l.stride.width)
    (hstep : internals0.step1 = X.size2 * X.size3) (hnst : 1 ≤ nst)
    (hsMM : ∀ n g, ParallelConv.IsSplit (schedMM n g) nst)
    (hsCol : ∀ n g, ParallelConv.IsSplit (schedCol n g) nst) :
    ∃ l1 col i1 out,
      l.forward X X.size0 b0.size0 outH outW out0 internals0 internals1 nst simd schedMM schedCol =
        some (l1, col, i1, out) ∧
      ∀ n g oc h w, n < X.size0 → g < X.size1 / b0.size1 →
        oc < b0.size0 / (X.size1 / b0.size1) → h < outH → w < outW →
        out (outIndex b0.size0 outH outW n (g * (b0.size0 / (X.size1 / b0.size1)) + oc) h w) =
          deconvRef X (b0.reshape X.size1) (deconvBias rest) l.kernel l.pad l.stride b0.size1
            (b0.size0 / (X.size1 / b0.size1)) n g oc h w := by
  unfold DeConvolutionLayerImpl.forward
  rw [hblobs]
  simp only [hwm, if_neg hinG, if_neg hG, h1x1]
  refine ⟨_, _, _, _, rfl, ?_⟩
  intro n g oc h w hn hg hoc hh hw
  generalize hng : X.size1 / b0.size1 = ngroups at *
  generalize hoG : b0.size0 / ngroups = outG at *
  have hOpos : 1 ≤ b0.size0 := by
    rw [hO]
    exact Nat.mul_pos (by omega) (by omega)
  have hdecn : X.size0 * b0.size0 * outH * outW / (X.size0 * b0.size0) = outH * outW := by
    have : X.size0 * b0.size0 * outH * outW = (X.size0 * b0.size0) * (outH * outW) := by ring
    rw [this, Nat.mul_div_cancel_left _ (Nat.mul_pos (by omega) hOpos)]
  have hCpos : 0 < X.size1 := by
    rw [hC]
    exact Nat.mul_pos (by omega) (by omega)
  have hRcols : (b0.reshape X.size1).cols = outG * l.kernel.height * l.kernel.width := by
    show b0.total / X.size1 = _
    have : b0.total = X.size1 * (outG * l.kernel.height * l.kernel.width) := by
      unfold Blob.total
      rw [hk2, hk3]
      conv_lhs => rw [hO]
      conv_rhs => rw [hC]
      ring
    rw [this, Nat.mul_div_cancel_left _ hCpos]
  obtain ⟨hb1, hbv⟩ := makeBiases_spec rest b0.size0 hOpos hbias
  rw [hdecn, hstep]
  have := deconv_loops l X (b0.reshape X.size1) (DeConvolutionLayerImpl.makeBiases rest b0.size0)
    (deconvBias rest) ngroups b0.size1 outG outH outW nst simd schedMM schedCol
    (internals0.data, out0) (by omega) hC rfl hRcols hbv hb1 hHc hWc hsh hsw hnst hsMM hsCol
    n g oc h w hn hg hoc hh hw
  rw [← hO] at this
  exact this

/-- C6: the deconvolution of the input `[1,1,1,1] = [5]` with an all-ones `[1,1,2,2]`
weight, stride 2, pad 0, output adjustment 0 and no bias has the output shape
`[1,1,2,2]` and produces `[[5,5],[5,5]]`, for every thread count `≥ 1`, every schedule of
the two parallel loops and whatever lies in memory outside the tensors. -/
theorem deconv_scenario_B (d : Int → ℚ) (w : Mem) (out0 : Mem) (internals0 : Mat2)
    (internals1 : Mem) (nst : Nat) (simd : Bool) (schedMM schedCol : Nat → Nat → List Range)
    (hd : d 0 = 5) (hw : ∀ a, a < 4 → w a = 1)
    (hint : internals0.step1 = 1) (hnst : 1 ≤ nst)
    (hsMM : ∀ n g, ParallelConv.IsSplit (schedMM n g) nst)
    (hsCol : ∀ n g, ParallelConv.IsSplit (schedCol n g) nst) :
    (scenarioBLayer w).getMemoryShapes [[1, 1, 1, 1]] = some ([[1, 1, 2, 2]], [[4, 1]]) ∧
    ∃ l1 col i1 out,
      (scenarioBLayer w).forward ⟨1, 1, 1, 1, d⟩ 1 1 2 2 out0 internals0 internals1 nst simd
        schedMM schedCol = some (l1, col, i1, out) ∧
      (List.range 4).map out = [5, 5, 5, 5] := by
  refine ⟨?_, ?_⟩
  · simp [DeConvolutionLayerImpl.getMemoryShapes, scenarioBLayer, DeConvolutionLayerImpl.is1x1,
      DeConvolutionLayerImpl.hasBias, DeConvolutionLayerImpl.computeColRowShape, int32]
  obtain ⟨l1, col, i1, out, h1, h2⟩ := deconv_forward_spec (scenarioBLayer w)
    ⟨1, 1, 2, 2, w⟩ [] ⟨1, 1, 1, 1, d⟩ 2 2 out0 internals0 internals1 nst simd schedMM schedCol
    rfl rfl rfl rfl rfl (by simp) (by simp) (by simp) (by simp) (Or.inl rfl)
    (by simp [scenarioBLayer]) (by simp [scenarioBLayer])
    (by simp [scenarioBLayer]) (by simp [scenarioBLayer]) hint hnst hsMM hsCol
  refine ⟨l1, col, i1, out, h1, ?_⟩
  have hv : ∀ y x, y < 2 → x < 2 → out (y * 2 + x) =
      deconvRef ⟨1, 1, 1, 1, d⟩ (Blob.reshape ⟨1, 1, 2, 2, w⟩ 1) (deconvBias []) ⟨2, 2⟩ ⟨0, 0⟩
        ⟨2, 2⟩ 1 1 0 0 0 y x := by
    intro y x hy hx
    have := h2 0 0 0 y x (by simp) (by simp) (by simp) hy hx
    simpa [outIndex] using this
  have e0 := hv 0 0 (by decide) (by decide)
  have e1 := hv 0 1 (by decide) (by decide)
  have e2 := hv 1 0 (by decide) (by decide)
  have e3 := hv 1 1 (by decide) (by decide)
  simp [deconvRef, deconvBias, Finset.sum_range_succ, Blob.reshape, Blob.total, hd, hw]
    at e0 e1 e2 e3
  simp [List.range, List.range.loop, e0, e1, e2, e3]

theorem isSplit_two : ParallelConv.IsSplit [⟨1, 2⟩, ⟨0, 1⟩] 2 := by
  unfold ParallelConv.IsSplit
  decide

theorem deconv_scenario_B_witness :
    (scenarioBLayer (fun _ => 1)).getMemoryShapes [[1, 1, 1, 1]] =
      some ([[1, 1, 2, 2]], [[4, 1]]) ∧
    ∃ l1 col i1 out,
      (scenarioBLayer (fun _ => 1)).forward ⟨1, 1, 1, 1, fun _ => 5⟩ 1 1 2 2 (fun _ => 0)
        exInternals0 (fun _ => 0) 2 true exSchedule exSchedule = some (l1, col, i1, out) ∧
      (List.range 4).map out = [5, 5, 5, 5] :=
  deconv_scenario_B (fun _ => 5) (fun _ => 1) (fun _ => 0) exInternals0 (fun _ => 0) 2 true
    exSchedule exSchedule rfl (fun _ _ => rfl) rfl (by decide) (fun _ _ => isSplit_two)
    (fun _ _ => isSplit_two)

/-- The bias vector of `ParallelConv::run`: its length, its first `outCn` entries and the
two entries after them. -/
theorem makeBiasvec_layout (bias : List ℚ) (outCn : Nat) :
    (ParallelConv.makeBiasvec bias outCn).length = outCn + 2 ∧
    (∀ o, o < outCn → (ParallelConv.makeBiasvec bias outCn).getD o 0 =
      if bias.isEmpty then 0 else bias.getD o 0) ∧
    (1 ≤ outCn →
      (ParallelConv.makeBiasvec bias outCn).getD outCn 0 =
        (ParallelConv.makeBiasvec bias outCn).getD (outCn - 1) 0 ∧
      (ParallelConv.makeBiasvec bias outCn).getD (outCn + 1) 0 =
        (ParallelConv.makeBiasvec bias outCn).getD (outCn - 1) 0) := by
  have key : ∀ (f : Nat → ℚ), (forStep 0 outCn 1 (fun k b => b.set k (f k))
      (List.replicate (outCn + 2) 0)).length = outCn + 2 ∧
      ∀ o, o < outCn → (forStep 0 outCn 1 (fun k b => b.set k (f k))
      (List.replicate (outCn + 2) 0)).getD o 0 = f o := by
    intro f
    have h := forStep_one_inv (fun K (l : List ℚ) => l.length = outCn + 2 ∧
        ∀ a, a < K → l.getD a 0 = f a) 0 outCn (fun k b => b.set k (f k))
      (List.replicate (outCn + 2) 0) (Nat.zero_le _) ⟨by simp, fun a ha => absurd ha (by omega)⟩
      (by
        intro K _ hK l ⟨hlen, hval⟩
        refine ⟨by simp [hlen], ?_⟩
        intro a ha
        rw [getD_set]
        by_cases e : a = K
        · subst e; rw [if_pos ⟨rfl, by omega⟩]
        · rw [if_neg (fun c => e c.1)]; exact hval a (by omega))
    exact h
  have main : ∀ (f : Nat → ℚ),
      let bv := forStep 0 outCn 1 (fun k b => b.set k (f k)) (List.replicate (outCn + 2) 0)
      let r := (bv.set (outCn + 1) (bv.getD (outCn - 1) 0)).set outCn (bv.getD (outCn - 1) 0)
      r.length = outCn + 2 ∧ (∀ o, o < outCn → r.getD o 0 = f o) ∧
      (1 ≤ outCn → r.getD outCn 0 = r.getD (outCn - 1) 0 ∧
        r.getD (outCn + 1) 0 = r.getD (outCn - 1) 0) := by
    intro f
    obtain ⟨hlen, hval⟩ := key f
    dsimp only
    refine ⟨by simp [hlen], ?_, ?_⟩
    · intro o ho
      rw [getD_set, getD_set, if_neg (by omega), if_neg (by omega)]
      exact hval o ho
    · intro h1
      rw [getD_set, getD_set, getD_set, getD_set, getD_set, getD_set]
      rw [if_pos ⟨rfl, by simp [hlen]⟩, if_neg (by omega), if_neg (by omega), if_neg (by omega),
        if_pos ⟨rfl, by simp [hlen]⟩]
      exact ⟨rfl, rfl⟩
  unfold ParallelConv.makeBiasvec
  dsimp only
  split_ifs with he
  · exact main (fun _ => 0)
  · exact main (fun k => bias.getD k 0)

/-- C11: for every output channel count `outCn ≥ 1` and every bias that passes the
assertion of `ParallelConv::run` (empty, or of `outCn` elements), the bias vector built by
`run` has length `outCn + 2`, its first `outCn` entries are `0` when no bias is supplied and
the supplied bias values otherwise, and its last two entries equal the entry `outCn - 1`. -/
theorem biasvec_layout (input : Mat4) (outSize0 outSize1 outSize2 outSize3 : Nat)
    (weights : Mat2) (bias : List ℚ) (kernel pad stride dilation : Size)
    (ngroups nstripes : Nat) (activ : Option (Nat → ℚ → ℚ)) (simd : Bool)
    (hO : 1 ≤ outSize1) (hb : bias.isEmpty ∨ bias.length = outSize1) :
    ((ParallelConv.setup input outSize0 outSize1 outSize2 outSize3 weights bias kernel pad
      stride dilation ngroups nstripes activ simd).biasvec_).length = outSize1 + 2 ∧
    (∀ k, k < outSize1 →
      (bias.isEmpty → ((ParallelConv.setup input outSize0 outSize1 outSize2 outSize3 weights
        bias kernel pad stride dilation ngroups nstripes activ simd).biasvec_).getD k 0 = 0) ∧
      (¬ bias.isEmpty → bias[k]? = some (((ParallelConv.setup input outSize0 outSize1 outSize2
        outSize3 weights bias kernel pad stride dilation ngroups nstripes activ
        simd).biasvec_).getD k 0))) ∧
    ((ParallelConv.setup input outSize0 outSize1 outSize2 outSize3 weights bias kernel pad
      stride dilation ngroups nstripes activ simd).biasvec_).getD outSize1 0 =
      ((ParallelConv.setup input outSize0 outSize1 outSize2 outSize3 weights bias kernel pad
        stride dilation ngroups nstripes activ simd).biasvec_).getD (outSize1 - 1) 0 ∧
    ((ParallelConv.setup input outSize0 outSize1 outSize2 outSize3 weights bias kernel pad
      stride dilation ngroups nstripes activ simd).biasvec_).getD (outSize1 + 1) 0 =
      ((ParallelConv.setup input outSize0 outSize1 outSize2 outSize3 weights bias kernel pad
        stride dilation ngroups nstripes activ simd).biasvec_).getD (outSize1 - 1) 0 := by
  show (ParallelConv.makeBiasvec bias outSize1).length = outSize1 + 2 ∧
    (∀ k, k < outSize1 →
      (bias.isEmpty → (ParallelConv.makeBiasvec bias outSize1).getD k 0 = 0) ∧
      (¬ bias.isEmpty → bias[k]? = some ((ParallelConv.makeBiasvec bias outSize1).getD k 0))) ∧
    (ParallelConv.makeBiasvec bias outSize1).getD outSize1 0 =
      (ParallelConv.makeBiasvec bias outSize1).getD (outSize1 - 1) 0 ∧
    (ParallelConv.makeBiasvec bias outSize1).getD (outSize1 + 1) 0 =
      (ParallelConv.makeBiasvec bias outSize1).getD (outSize1 - 1) 0
  obtain ⟨hlen, hval, htail⟩ := makeBiasvec_layout bias outSize1
  refine ⟨hlen, ?_, (htail hO).1, (htail hO).2⟩
  intro k hk
  rw [hval k hk]
  constructor
  · intro he
    rw [if_pos he]
  · intro he
    rw [if_neg he]
    have hlt : k < bias.length := by
      rcases hb with h | h
      · exact absurd h he
      · omega
    rw [List.getD_eq_getElem _ _ hlt, List.getElem?_eq_getElem hlt]

theorem biasvec_layout_witness :
    ((ParallelConv.setup exInput 1 2 3 3 exWeights [5, 7] ⟨3, 3⟩ ⟨1, 1⟩ ⟨1, 1⟩ ⟨1, 1⟩ 1 4 none
      true).biasvec_).length = 2 + 2 ∧
    (∀ k, k < 2 →
      (([5, 7] : List ℚ).isEmpty → ((ParallelConv.setup exInput 1 2 3 3 exWeights [5, 7] ⟨3, 3⟩
        ⟨1, 1⟩ ⟨1, 1⟩ ⟨1, 1⟩ 1 4 none true).biasvec_).getD k 0 = 0) ∧
      (¬ ([5, 7] : List ℚ).isEmpty → ([5, 7] : List ℚ)[k]? = some (((ParallelConv.setup exInput 1
        2 3 3 exWeights [5, 7] ⟨3, 3⟩ ⟨1, 1⟩ ⟨1, 1⟩ ⟨1, 1⟩ 1 4 none true).biasvec_).getD k 0))) ∧
    ((ParallelConv.setup exInput 1 2 3 3 exWeights [5, 7] ⟨3, 3⟩ ⟨1, 1⟩ ⟨1, 1⟩ ⟨1, 1⟩ 1 4 none
      true).biasvec_).getD 2 0 =
      ((ParallelConv.setup exInput 1 2 3 3 exWeights [5, 7] ⟨3, 3⟩ ⟨1, 1⟩ ⟨1, 1⟩ ⟨1, 1⟩ 1 4
        none true).biasvec_).getD (2 - 1) 0 ∧
    ((ParallelConv.setup exInput 1 2 3 3 exWeights [5, 7] ⟨3, 3⟩ ⟨1, 1⟩ ⟨1, 1⟩ ⟨1, 1⟩ 1 4 none
      true).biasvec_).getD (2 + 1) 0 =
      ((ParallelConv.setup exInput 1 2 3 3 exWeights [5, 7] ⟨3, 3⟩ ⟨1, 1⟩ ⟨1, 1⟩ ⟨1, 1⟩ 1 4
        none true).biasvec_).getD (2 - 1) 0 :=
  biasvec_layout exInput 1 2 3 3 exWeights [5, 7] ⟨3, 3⟩ ⟨1, 1⟩ ⟨1, 1⟩ ⟨1, 1⟩ 1 4 none true
    (by decide) (Or.inr rfl)

/-- C12: for every sample-group (hence every group `g = subsampleIdx % ngroups`) and every
channel index `i` below the per-group output channel count, in particular every even one
that the two-channel kernel visits, the two indices `biasptr + i` and `biasptr + i + 1` at
which it reads the bias vector lie below its length `outCnTotal + 2`, and the values read
are the biases of real output channels: the first one that of channel `g*outCn + i`, the
second one that of channel `g*outCn + i + 1` when `i + 1` is below the per-group count, and
that of some output channel otherwise (odd per-group or total count). -/
theorem bias_reads_valid (input : Mat4) (outSize0 outSize1 outSize2 outSize3 : Nat)
    (weights : Mat2) (bias : List ℚ) (kernel pad stride dilation : Size)
    (ngroups nstripes : Nat) (activ : Option (Nat → ℚ → ℚ)) (simd : Bool)
    (subsampleIdx i : Nat)
    (hi : i < (ParallelConv.setup input outSize0 outSize1 outSize2 outSize3 weights bias
      kernel pad stride dilation ngroups nstripes activ simd).outCn) :
    ((ParallelConv.setup input outSize0 outSize1 outSize2 outSize3 weights bias kernel pad
      stride dilation ngroups nstripes activ simd).biasvec_).length = outSize1 + 2 ∧
    ((ParallelConv.setup input outSize0 outSize1 outSize2 outSize3 weights bias kernel pad
      stride dilation ngroups nstripes activ simd).biasReads subsampleIdx i).1 < outSize1 + 2 ∧
    ((ParallelConv.setup input outSize0 outSize1 outSize2 outSize3 weights bias kernel pad
      stride dilation ngroups nstripes activ simd).biasReads subsampleIdx i).2 < outSize1 + 2 ∧
    ∃ c0 c1, c0 < outSize1 ∧ c1 < outSize1 ∧
      c0 = (subsampleIdx % ngroups) * (outSize1 / ngroups) + i ∧
      (i + 1 < outSize1 / ngroups → c1 = c0 + 1) ∧
      ((ParallelConv.setup input outSize0 outSize1 outSize2 outSize3 weights bias kernel pad
        stride dilation ngroups nstripes activ simd).biasvec_).getD
        ((ParallelConv.setup input outSize0 outSize1 outSize2 outSize3 weights bias kernel pad
          stride dilation ngroups nstripes activ simd).biasReads subsampleIdx i).1 0 =
        (if bias.isEmpty then 0 else bias.getD c0 0) ∧
      ((ParallelConv.setup input outSize0 outSize1 outSize2 outSize3 weights bias kernel pad
        stride dilation ngroups nstripes activ simd).biasvec_).getD
        ((ParallelConv.setup input outSize0 outSize1 outSize2 outSize3 weights bias kernel pad
          stride dilation ngroups nstripes activ simd).biasReads subsampleIdx i).2 0 =
        (if bias.isEmpty then 0 else bias.getD c1 0) := by
  have hi' : i < outSize1 / ngroups := hi
  show (ParallelConv.makeBiasvec bias outSize1).length = outSize1 + 2 ∧
    (subsampleIdx % ngroups) * (outSize1 / ngroups) + i < outSize1 + 2 ∧
    (subsampleIdx % ngroups) * (outSize1 / ngroups) + (i + 1) < outSize1 + 2 ∧
    ∃ c0 c1, c0 < outSize1 ∧ c1 < outSize1 ∧
      c0 = (subsampleIdx % ngroups) * (outSize1 / ngroups) + i ∧
      (i + 1 < outSize1 / ngroups → c1 = c0 + 1) ∧
      (ParallelConv.makeBiasvec bias outSize1).getD
        ((subsampleIdx % ngroups) * (outSize1 / ngroups) + i) 0 =
        (if bias.isEmpty then 0 else bias.getD c0 0) ∧
      (ParallelConv.makeBiasvec bias outSize1).getD
        ((subsampleIdx % ngroups) * (outSize1 / ngroups) + (i + 1)) 0 =
        (if bias.isEmpty then 0 else bias.getD c1 0)
  obtain ⟨hlen, hval, htail⟩ := makeBiasvec_layout bias outSize1
  have hG : 0 < ngroups := by
    rcases Nat.eq_zero_or_pos ngroups with h | h
    · rw [h, Nat.div_zero] at hi'; omega
    · exact h
  have hg := Nat.mod_lt subsampleIdx hG
  generalize subsampleIdx % ngroups = g at *
  have hmul : ngroups * (outSize1 / ngroups) ≤ outSize1 := Nat.mul_div_le _ _
  have hgm : (g + 1) * (outSize1 / ngroups) ≤ ngroups * (outSize1 / ngroups) :=
    Nat.mul_le_mul_right _ hg
  have hexp : (g + 1) * (outSize1 / ngroups) = g * (outSize1 / ngroups) + outSize1 / ngroups := by
    ring
  generalize outSize1 / ngroups = oc at *
  have h0 : g * oc + i < outSize1 := by omega
  refine ⟨hlen, by omega, by omega, g * oc + i, ?_⟩
  by_cases h1 : g * oc + (i + 1) < outSize1
  · refine ⟨g * oc + (i + 1), h0, h1, rfl, fun _ => by omega, hval _ h0, hval _ h1⟩
  · have e : g * oc + (i + 1) = outSize1 := by omega
    refine ⟨outSize1 - 1, h0, by omega, rfl, fun hh => by omega, hval _ h0, ?_⟩
    rw [e, (htail (by omega)).1]
    exact hval _ (by omega)

theorem bias_reads_valid_witness :
    ((ParallelConv.setup exInput 1 3 3 3 exWeights [5, 7, 9] ⟨3, 3⟩ ⟨1, 1⟩ ⟨1, 1⟩ ⟨1, 1⟩ 1 4
      none true).biasvec_).length = 3 + 2 ∧
    ((ParallelConv.setup exInput 1 3 3 3 exWeights [5, 7, 9] ⟨3, 3⟩ ⟨1, 1⟩ ⟨1, 1⟩ ⟨1, 1⟩ 1 4
      none true).biasReads 0 2).1 < 3 + 2 ∧
    ((ParallelConv.setup exInput 1 3 3 3 exWeights [5, 7, 9] ⟨3, 3⟩ ⟨1, 1⟩ ⟨1, 1⟩ ⟨1, 1⟩ 1 4
      none true).biasReads 0 2).2 < 3 + 2 ∧
    ∃ c0 c1, c0 < 3 ∧ c1 < 3 ∧ c0 = (0 % 1) * (3 / 1) + 2 ∧ (2 + 1 < 3 / 1 → c1 = c0 + 1) ∧
      ((ParallelConv.setup exInput 1 3 3 3 exWeights [5, 7, 9] ⟨3, 3⟩ ⟨1, 1⟩ ⟨1, 1⟩ ⟨1, 1⟩ 1 4
        none true).biasvec_).getD
        ((ParallelConv.setup exInput 1 3 3 3 exWeights [5, 7, 9] ⟨3, 3⟩ ⟨1, 1⟩ ⟨1, 1⟩ ⟨1, 1⟩ 1
          4 none true).biasReads 0 2).1 0 =
        (if ([5, 7, 9] : List ℚ).isEmpty then 0 else ([5, 7, 9] : List ℚ).getD c0 0) ∧
      ((ParallelConv.setup exInput 1 3 3 3 exWeights [5, 7, 9] ⟨3, 3⟩ ⟨1, 1⟩ ⟨1, 1⟩ ⟨1, 1⟩ 1 4
        none true).biasvec_).getD
        ((ParallelConv.setup exInput 1 3 3 3 exWeights [5, 7, 9] ⟨3, 3⟩ ⟨1, 1⟩ ⟨1, 1⟩ ⟨1, 1⟩ 1
          4 none true).biasReads 0 2).2 0 =
        (if ([5, 7, 9] : List ℚ).isEmpty then 0 else ([5, 7, 9] : List ℚ).getD c1 0) :=
  bias_reads_valid exInput 1 3 3 3 exWeights [5, 7, 9] ⟨3, 3⟩ ⟨1, 1⟩ ⟨1, 1⟩ ⟨1, 1⟩ 1 4 none true
    0 2 (by decide)

/-- C13: a supplied bias whose element count differs from the number of output channels
is rejected: `ConvolutionLayerImpl::getMemoryShapes` and
`DeConvolutionLayerImpl::getMemoryShapes` fail when `blobs[1].total() ≠ blobs[0].size[0]`,
and `ParallelConv::run` fails on a non-empty bias with `bias.total() ≠ output.size[1]`.  A
bias of exactly that length is accepted: the two `getMemoryShapes` succeed exactly when
they do for the layer without the bias blob (the convolution one with the same result),
and `run` succeeds exactly when it does without a bias. -/
theorem bias_length_checked :
    (∀ (l : ConvolutionLayerImpl) (b0 b1 : Blob) (tl : List Blob)
        (f : Int → Int → Size → Size → String → Int × Int) (inputs : List MatShape),
      l.blobs = b0 :: b1 :: tl →
      (b1.total ≠ b0.size0 → l.getMemoryShapes f inputs = none) ∧
      (b1.total = b0.size0 →
        l.getMemoryShapes f inputs = { l with blobs := [b0] }.getMemoryShapes f inputs)) ∧
    (∀ (l : DeConvolutionLayerImpl) (b0 b1 : Blob) (tl : List Blob) (inputs : List MatShape),
      l.blobs = b0 :: b1 :: tl →
      (b1.total ≠ b0.size0 → l.getMemoryShapes inputs = none) ∧
      (b1.total = b0.size0 →
        (l.getMemoryShapes inputs).isSome =
          ({ l with blobs := [b0] }.getMemoryShapes inputs).isSome)) ∧
    (∀ (input : Mat4) (outSize0 outSize1 outSize2 outSize3 : Nat) (out0 : Mem)
        (weights : Mat2) (bias : List ℚ) (kernel pad stride dilation : Size)
        (ngroups nstripes : Nat) (activ : Option (Nat → ℚ → ℚ)) (simd : Bool)
        (scratch : Mem) (sched : List Range),
      (bias ≠ [] → bias.length ≠ outSize1 →
        ParallelConv.run input outSize0 outSize1 outSize2 outSize3 out0 weights bias kernel
          pad stride dilation ngroups nstripes activ simd scratch sched = none) ∧
      (bias.length = outSize1 →
        (ParallelConv.run input outSize0 outSize1 outSize2 outSize3 out0 weights bias kernel
          pad stride dilation ngroups nstripes activ simd scratch sched).isSome =
        (ParallelConv.run input outSize0 outSize1 outSize2 outSize3 out0 weights [] kernel
          pad stride dilation ngroups nstripes activ simd scratch sched).isSome)) := by
  refine ⟨?_, ?_, ?_⟩
  · intro l b0 b1 tl f inputs hblobs
    unfold ConvolutionLayerImpl.getMemoryShapes
    rw [hblobs]
    constructor
    · intro hne
      simp [hne]
    · intro he
      simp [he]
  · intro l b0 b1 tl inputs hblobs
    unfold DeConvolutionLayerImpl.getMemoryShapes
    rw [hblobs]
    constructor
    · intro hne
      simp [hne]
    · intro he
      simp only [he, decide_True, if_true]
      cases inputs with
      | nil => rfl
      | cons inp rest =>
        simp only []
        split_ifs <;> rfl
  · intro input outSize0 outSize1 outSize2 outSize3 out0 weights bias kernel pad stride dilation
      ngroups nstripes activ simd scratch sched
    unfold ParallelConv.run
    constructor
    · intro hne hlen
      have h1 : ¬ bias.isEmpty = true := by
        intro h
        exact hne (List.isEmpty_iff.1 h)
      rw [if_neg]
      rintro ⟨_, _, _, h | h⟩
      · exact h1 h
      · exact hlen h
    · intro hlen
      by_cases hc : input.size0 = outSize0 ∧ weights.rows = outSize1 ∧
          weights.cols = (input.size1 / ngroups) * kernel.width * kernel.height
      · have h1 : input.size0 = outSize0 ∧ weights.rows = outSize1 ∧
            weights.cols = (input.size1 / ngroups) * kernel.width * kernel.height ∧
            (bias.isEmpty ∨ bias.length = outSize1) := ⟨hc.1, hc.2.1, hc.2.2, Or.inr hlen⟩
        have h2 : input.size0 = outSize0 ∧ weights.rows = outSize1 ∧
            weights.cols = (input.size1 / ngroups) * kernel.width * kernel.height ∧
            (([] : List ℚ).isEmpty ∨ ([] : List ℚ).length = outSize1) :=
          ⟨hc.1, hc.2.1, hc.2.2, Or.inl rfl⟩
        rw [if_pos h1, if_pos h2]
        simp only [Option.isSome_some]
      · have h1 : ¬ (input.size0 = outSize0 ∧ weights.rows = outSize1 ∧
            weights.cols = (input.size1 / ngroups) * kernel.width * kernel.height ∧
            (bias.isEmpty ∨ bias.length = outSize1)) := fun h => hc ⟨h.1, h.2.1, h.2.2.1⟩
        have h2 : ¬ (input.size0 = outSize0 ∧ weights.rows = outSize1 ∧
            weights.cols = (input.size1 / ngroups) * kernel.width * kernel.height ∧
            (([] : List ℚ).isEmpty ∨ ([] : List ℚ).length = outSize1)) :=
          fun h => hc ⟨h.1, h.2.1, h.2.2.1⟩
        rw [if_neg h1, if_neg h2]

theorem bias_length_checked_witness :
    exBadBiasLayer.getMemoryShapes noPadMode [[1, 1, 2, 2]] = none :=
  (bias_length_checked.1 exBadBiasLayer ⟨2, 1, 1, 1, fun _ => 1⟩ ⟨3, 1, 1, 1, fun _ => 1⟩ []
    noPadMode [[1, 1, 2, 2]] rfl).1 (by decide)

/-- C14: the first `ConvolutionLayerImpl::forward` call (on which its assertions and
those of `ParallelConv::run` hold) returns and caches a weight matrix that has, with the
raw weights seen as `[outCn, K]`, `K = inpGroupCn*kh*kw`: `outCn` rows, `K` logical
columns, the entry `[o][k]` equal to the raw weight for every `k < K`; when `K` is not a
multiple of 8 a row stride `roundUp(K, 8)` with every entry `[o][k]`, `K ≤ k < roundUp(K, 8)`,
equal to `0`; and the row stride `K` when `K` is a multiple of 8. -/
theorem weights_prepared (l : ConvolutionLayerImpl) (b0 : Blob) (rest : List Blob) (input : Mat4)
    (outSize0 outSize1 outSize2 outSize3 : Nat) (out0 : Mem) (numThreads : Nat)
    (simd : Bool) (scratch : Mem) (sched : List Range)
    (hblobs : l.blobs = b0 :: rest) (hcache : l.weightsMat = none)
    (hkh : b0.size2 = l.kernel.height) (hkw : b0.size3 = l.kernel.width)
    (hb0 : 1 ≤ b0.size1) (hdiv : input.size1 % b0.size1 = 0) (hCpos : 1 ≤ input.size1)
    (hO : outSize1 % (input.size1 / b0.size1) = 0)
    (hN : input.size0 = outSize0) (hrows : b0.size0 = outSize1) (hrowspos : 1 ≤ outSize1)
    (hbias : rest = [] ∨ ∃ b1 tl, rest = b1 :: tl ∧ b1.total = outSize1) :
    ∃ l1 out W, l.forward input outSize0 outSize1 outSize2 outSize3 out0 numThreads simd scratch
        sched = some (l1, out) ∧ l1.weightsMat = some W ∧
      W.rows = b0.size0 ∧ W.cols = b0.size1 * b0.size2 * b0.size3 ∧
      (∀ o k, o < b0.size0 → k < b0.size1 * b0.size2 * b0.size3 →
        W.data (o * W.step1 + k) = b0.data (o * (b0.size1 * b0.size2 * b0.size3) + k)) ∧
      ((b0.size1 * b0.size2 * b0.size3) % 8 ≠ 0 →
        W.step1 = specRoundUp (b0.size1 * b0.size2 * b0.size3) 8 ∧
        ∀ o k, o < b0.size0 → b0.size1 * b0.size2 * b0.size3 ≤ k → k < W.step1 →
          W.data (o * W.step1 + k) = 0) ∧
      ((b0.size1 * b0.size2 * b0.size3) % 8 = 0 → W.step1 = b0.size1 * b0.size2 * b0.size3) := by
  have hq : input.size1 = b0.size1 * (input.size1 / b0.size1) := by
    have := Nat.div_add_mod input.size1 b0.size1
    omega
  have hqpos : 1 ≤ input.size1 / b0.size1 := by
    rcases Nat.eq_zero_or_pos (input.size1 / b0.size1) with h | h
    · rw [h] at hq; omega
    · exact h
  have hinpCn : input.size1 / (input.size1 / b0.size1) = b0.size1 :=
    mul_div_self_right _ _ _ hq hqpos
  have hK : b0.total / b0.size0 = b0.size1 * b0.size2 * b0.size3 := by
    unfold Blob.total
    have : b0.size0 * b0.size1 * b0.size2 * b0.size3 =
        b0.size0 * (b0.size1 * b0.size2 * b0.size3) := by ring
    rw [this, Nat.mul_div_cancel_left _ (by omega)]
  have hcols : (b0.reshape b0.size0).cols = b0.size1 * b0.size2 * b0.size3 := hK
  have hstep : (b0.reshape b0.size0).step1 = b0.size1 * b0.size2 * b0.size3 := hK
  have hbl : (ConvolutionLayerImpl.biasList rest).isEmpty ∨
      (ConvolutionLayerImpl.biasList rest).length = outSize1 := by
    rcases hbias with h | ⟨b1, tl, h, ht⟩
    · left; subst h; rfl
    · right; subst h; simp [ConvolutionLayerImpl.biasList, Blob.toList, ht]
  have hcond : input.size0 = outSize0 ∧
      (ConvolutionLayerImpl.alignWeights (b0.reshape b0.size0)).rows = outSize1 ∧
      (ConvolutionLayerImpl.alignWeights (b0.reshape b0.size0)).cols =
        (input.size1 / (input.size1 / b0.size1)) * l.kernel.width * l.kernel.height ∧
      ((ConvolutionLayerImpl.biasList rest).isEmpty ∨
        (ConvolutionLayerImpl.biasList rest).length = outSize1) := by
    refine ⟨hN, by rw [alignWeights_rows]; exact hrows, ?_, hbl⟩
    rw [alignWeights_cols, hcols, hinpCn, ← hkh, ← hkw]
    ring
  obtain ⟨out, hrun⟩ : ∃ out, ParallelConv.run input outSize0 outSize1 outSize2 outSize3 out0
      (ConvolutionLayerImpl.alignWeights (b0.reshape b0.size0))
      (ConvolutionLayerImpl.biasList rest) l.kernel l.pad l.stride l.dilation
      (input.size1 / b0.size1) (max numThreads 1) l.activ simd scratch sched = some out := by
    unfold ParallelConv.run
    rw [if_pos hcond]
    exact ⟨_, rfl⟩
  refine ⟨{ l with weightsMat := some (ConvolutionLayerImpl.alignWeights (b0.reshape b0.size0)) },
    out, ConvolutionLayerImpl.alignWeights (b0.reshape b0.size0), ?_, rfl,
    by rw [alignWeights_rows]; rfl, by rw [alignWeights_cols, hcols], ?_, ?_, ?_⟩
  · unfold ConvolutionLayerImpl.forward
    rw [hblobs]
    dsimp only
    rw [if_pos ⟨by omega, hdiv⟩, if_pos ⟨by omega, hO⟩, hcache]
    rw [hrun]
    rfl
  · intro o k _ hk
    rw [alignWeights_data _ (by rw [hcols, hstep]) o k (by rw [hcols]; exact hk), hstep]
    rfl
  · intro hne
    have hs : (ConvolutionLayerImpl.alignWeights (b0.reshape b0.size0)).step1 =
        alignSize (b0.size1 * b0.size2 * b0.size3) 8 := by
      unfold ConvolutionLayerImpl.alignWeights
      rw [if_pos (by rw [hstep]; exact hne), hstep]
      rfl
    refine ⟨by rw [hs, specRoundUp_eq], ?_⟩
    intro o k ho h1 h2
    exact (alignWeights_padded (b0.reshape b0.size0) rfl).2.2 o k
      (by rw [alignWeights_rows]; exact ho) (by rw [alignWeights_cols, hcols]; exact h1) h2
  · intro he
    unfold ConvolutionLayerImpl.alignWeights
    rw [if_neg (by rw [hstep]; intro h; exact h he)]
    exact hstep

theorem weights_prepared_witness :
    ∃ l1 out W, exZeroLayer.forward exInput 1 2 3 3 (fun _ => 555) 4 true (fun _ => 999)
        [⟨2, 4⟩, ⟨0, 2⟩] = some (l1, out) ∧ l1.weightsMat = some W ∧
      W.rows = exZeroBlob.size0 ∧ W.cols = exZeroBlob.size1 * exZeroBlob.size2 * exZeroBlob.size3 ∧
      (∀ o k, o < exZeroBlob.size0 → k < exZeroBlob.size1 * exZeroBlob.size2 * exZeroBlob.size3 →
        W.data (o * W.step1 + k) =
          exZeroBlob.data (o * (exZeroBlob.size1 * exZeroBlob.size2 * exZeroBlob.size3) + k)) ∧
      ((exZeroBlob.size1 * exZeroBlob.size2 * exZeroBlob.size3) % 8 ≠ 0 →
        W.step1 = specRoundUp (exZeroBlob.size1 * exZeroBlob.size2 * exZeroBlob.size3) 8 ∧
        ∀ o k, o < exZeroBlob.size0 →
          exZeroBlob.size1 * exZeroBlob.size2 * exZeroBlob.size3 ≤ k → k < W.step1 →
          W.data (o * W.step1 + k) = 0) ∧
      ((exZeroBlob.size1 * exZeroBlob.size2 * exZeroBlob.size3) % 8 = 0 →
        W.step1 = exZeroBlob.size1 * exZeroBlob.size2 * exZeroBlob.size3) :=
  weights_prepared exZeroLayer exZeroBlob [⟨2, 1, 1, 1, fun a => if a = 0 then 5 else 7⟩] exInput
    1 2 3 3 (fun _ => 555) 4 true (fun _ => 999) [⟨2, 4⟩, ⟨0, 2⟩] rfl rfl rfl rfl (by decide)
    (by decide) (by decide) (by decide) rfl rfl (by decide) (Or.inr ⟨_, _, rfl, rfl⟩)

/-- The offset table that `ParallelConv::run` builds is right on every channel block. -/
theorem ofstabOK_of_run (p : ParallelConv) (ncn : Nat)
    (htab : p.ofstab_ = ParallelConv.makeOfstab p.kernel_ p.dilation_ (min p.inpCn BLK_SIZE_CN)
      p.height p.width)
    (hncn : ncn ≤ min p.inpCn BLK_SIZE_CN) : p.OfstabOK ncn := by
  intro k i j hk hi hj
  rw [htab]
  exact makeOfstab_spec p.kernel_ p.dilation_ _ p.height p.width k i j (by omega) hi hj

/-- C17: for every output position `(y,x)` and every channel block of `ncn` channels from
`cn0` on (with the offset table built by `ParallelConv::run` and dilation `≥ 1`), the
general gather leaves in `rowbuf[(k*kh+i)*kw+j]`, for all `k < ncn`, `i < kh`, `j < kw`, the
input element `X[cn0+k][y*stride_h-pad_h+i*dilation_h][x*stride_w-pad_w+j*dilation_w]` of
the sample-group when that coordinate lies in `[0,H) x [0,W)` and `0` otherwise, whichever
of the two branches (offset table, or zero-fill and copy) the position takes. -/
theorem gather_fills_row (p : ParallelConv) (data_inp0 : Int)
    (cn0 ncn vsz vsz_a ofs0 y x : Nat) (rb : Mem)
    (hx : x < p.outW)
    (hdh : 1 ≤ p.dilation_.height) (hdw : 1 ≤ p.dilation_.width)
    (hvsz : vsz = p.karea * ncn)
    (htab : p.ofstab_ = ParallelConv.makeOfstab p.kernel_ p.dilation_ (min p.inpCn BLK_SIZE_CN)
      p.height p.width)
    (hncn : ncn ≤ min p.inpCn BLK_SIZE_CN) :
    ∀ k i j, k < ncn → i < p.kernel_.height → j < p.kernel_.width →
      p.gatherRow data_inp0 cn0 ncn vsz vsz_a ofs0 (y * p.outW + x) rb
        ((y * p.outW + x - ofs0) * vsz_a + ((k * p.kernel_.height + i) * p.kernel_.width + j)) =
      if 0 ≤ (y : Int) * p.stride_.height - p.pad_.height + (i : Int) * p.dilation_.height ∧
          (y : Int) * p.stride_.height - p.pad_.height + (i : Int) * p.dilation_.height <
            p.height ∧
          0 ≤ (x : Int) * p.stride_.width - p.pad_.width + (j : Int) * p.dilation_.width ∧
          (x : Int) * p.stride_.width - p.pad_.width + (j : Int) * p.dilation_.width < p.width
      then
        p.input_.data (data_inp0 +
          (((cn0 + k : Nat) : Int) * p.height +
            ((y : Int) * p.stride_.height - p.pad_.height + (i : Int) * p.dilation_.height)) *
            p.width +
          ((x : Int) * p.stride_.width - p.pad_.width + (j : Int) * p.dilation_.width))
      else 0 := by
  intro k i j hk hi hj
  rw [(gatherRow_spec p data_inp0 cn0 ncn vsz vsz_a ofs0 (y * p.outW + x) rb hdh hdw hvsz
    (ofstabOK_of_run p ncn htab hncn)).1 k i j hk hi hj]
  unfold ParallelConv.tapVal
  have e1 : (y * p.outW + x) / p.outW = y := enc_div y x hx
  have e2 : y * p.outW + x - y * p.outW = x := by omega
  simp only [e1, e2]

theorem forStep_congr {σ : Type} (start stop step : Nat) (f g : Nat → σ → σ) (s : σ)
    (h : ∀ t, t < iterCount start stop step → ∀ s, f (start + t * step) s = g (start + t * step) s) :
    forStep start stop step f s = forStep start stop step g s := by
  have key : ∀ n, n ≤ iterCount start stop step →
      Nat.fold (fun t acc => f (start + t * step) acc) n s =
        Nat.fold (fun t acc => g (start + t * step) acc) n s := by
    intro n
    induction n with
    | zero => intro _; rfl
    | succ n ih =>
      intro hn
      rw [Nat.fold, Nat.fold, ih (by omega)]
      exact h n (by omega) _
  exact key _ (Nat.le_refl _)

theorem forStep_one_congr {σ : Type} (start stop : Nat) (f g : Nat → σ → σ) (s : σ)
    (h : ∀ i, start ≤ i → i < stop → ∀ s, f i s = g i s) :
    forStep start stop 1 f s = forStep start stop 1 g s := by
  apply forStep_congr
  intro t ht s
  rw [iterCount_one] at ht
  simp only [Nat.mul_one]
  exact h _ (by omega) (by omega) s

theorem iterCount_lt (start stop step t : Nat) (hs : 1 ≤ step)
    (ht : t < iterCount start stop step) : start + t * step < stop := by
  unfold iterCount at ht
  have h1 : (t + 1) * step ≤ stop - start + step - 1 :=
    (Nat.le_div_iff_mul_le (by omega)).1 ht
  have h2 : (t + 1) * step = t * step + step := by ring
  omega

/-- With a 1x1 kernel, unit stride and dilation and no padding, the fast gather of a row
whose position lies inside the input plane equals the general gather of that row. -/
theorem gatherRow1x1_eq (p : ParallelConv) (data_inp0 : Int)
    (cn0 ncn vsz vsz_a ofs0 ofs : Nat) (rb : Mem)
    (hk : p.kernel_ = ⟨1, 1⟩) (hs : p.stride_ = ⟨1, 1⟩) (hp : p.pad_ = ⟨0, 0⟩)
    (hd : p.dilation_ = ⟨1, 1⟩)
    (htab : p.ofstab_ = ParallelConv.makeOfstab p.kernel_ p.dilation_ (min p.inpCn BLK_SIZE_CN)
      p.height p.width)
    (hncn : ncn ≤ min p.inpCn BLK_SIZE_CN) (hvsz : vsz = p.karea * ncn)
    (hi : ofs / p.outW < p.height) (hj : ofs - ofs / p.outW * p.outW < p.width) :
    p.gatherRow1x1 data_inp0 cn0 vsz vsz_a ofs0 ofs rb =
      p.gatherRow data_inp0 cn0 ncn vsz vsz_a ofs0 ofs rb := by
  have hok := ofstabOK_of_run p ncn htab hncn
  have hka : p.karea = 1 := by simp [ParallelConv.karea, hk]
  unfold ParallelConv.gatherRow1x1 ParallelConv.gatherRow
  simp only [hk, hs, hp, hd]
  have hc : (0 : Int) ≤ ((ofs / p.outW : Nat) : Int) * ((1 : Nat) : Int) - ((0 : Nat) : Int) ∧
      ((ofs / p.outW : Nat) : Int) * ((1 : Nat) : Int) - ((0 : Nat) : Int) <
        (p.height : Int) - (((1 : Nat) : Int) - 1) * ((1 : Nat) : Int) ∧
      (0 : Int) ≤ ((ofs - ofs / p.outW * p.outW : Nat) : Int) * ((1 : Nat) : Int) -
        ((0 : Nat) : Int) ∧
      ((ofs - ofs / p.outW * p.outW : Nat) : Int) * ((1 : Nat) : Int) - ((0 : Nat) : Int) <
        (p.width : Int) - (((1 : Nat) : Int) - 1) * ((1 : Nat) : Int) := by
    have hi1 : ((ofs / p.outW : Nat) : Int) < p.height := by exact_mod_cast hi
    have hj1 : ((ofs - ofs / p.outW * p.outW : Nat) : Int) < p.width := by exact_mod_cast hj
    have hi0 : (0 : Int) ≤ ((ofs / p.outW : Nat) : Int) := Int.natCast_nonneg _
    have hj0 : (0 : Int) ≤ ((ofs - ofs / p.outW * p.outW : Nat) : Int) := Int.natCast_nonneg _
    simp only [Nat.cast_one, Nat.cast_zero, mul_one, sub_zero, sub_self, zero_mul]
    exact ⟨hi0, hi1, hj0, hj1⟩
  rw [if_pos hc]
  apply forStep_one_congr
  intro k _ hkv rb
  have h1 := hok k 0 0 (by rw [hvsz, hka] at hkv; omega) (by rw [hk]; decide) (by rw [hk]; decide)
  simp only [hk, hd, Nat.mul_one, Nat.add_zero, Nat.zero_mul] at h1
  rw [h1]
  have e : ((k * p.height * p.width : Nat) : Int) = (k : Int) * (p.inpPlaneSize : Nat) := by
    simp only [ParallelConv.inpPlaneSize]
    push_cast
    ring
  rw [e]

/-- With a 1x1 kernel, unit stride and dilation and no padding, a tile that ends inside
the output plane is processed alike with the flag `is1x1_` set and cleared. -/
theorem tile_flag (p : ParallelConv) (data_inp0 : Int)
    (data_out0 wptr biasptr cn0 ncn vsz vsz_a stripeEnd ofs0 : Nat) (st : Mem × Mem)
    (hk : p.kernel_ = ⟨1, 1⟩) (hs : p.stride_ = ⟨1, 1⟩) (hp : p.pad_ = ⟨0, 0⟩)
    (hd : p.dilation_ = ⟨1, 1⟩) (hH : p.outH ≤ p.height) (hW : p.outW ≤ p.width)
    (htab : p.ofstab_ = ParallelConv.makeOfstab p.kernel_ p.dilation_ (min p.inpCn BLK_SIZE_CN)
      p.height p.width)
    (hncn : ncn ≤ min p.inpCn BLK_SIZE_CN) (hvsz : vsz = p.karea * ncn)
    (hend : stripeEnd ≤ p.outPlaneSize) :
    ({ p with is1x1_ := true }).tile data_inp0 data_out0 wptr biasptr cn0 ncn vsz vsz_a
        stripeEnd ofs0 st =
      ({ p with is1x1_ := false }).tile data_inp0 data_out0 wptr biasptr cn0 ncn vsz vsz_a
        stripeEnd ofs0 st := by
  have hg : ({ p with is1x1_ := true }).im2row1x1 data_inp0 cn0 vsz vsz_a ofs0
        (min (ofs0 + BLK_SIZE) stripeEnd) st.1 =
      ({ p with is1x1_ := false }).im2rowGeneral data_inp0 cn0 ncn vsz vsz_a ofs0
        (min (ofs0 + BLK_SIZE) stripeEnd) st.1 := by
    unfold ParallelConv.im2row1x1 ParallelConv.im2rowGeneral
    apply forStep_one_congr
    intro ofs _ hofs rb
    have hlt : ofs < p.outW * p.outH := by
      have : ofs < stripeEnd := lt_of_lt_of_le hofs (Nat.min_le_right _ _)
      exact lt_of_lt_of_le this hend
    have hWpos : 0 < p.outW := by
      rcases Nat.eq_zero_or_pos p.outW with h0 | h0
      · rw [h0, Nat.zero_mul] at hlt; omega
      · exact h0
    have hi : ofs / p.outW < p.height :=
      lt_of_lt_of_le ((Nat.div_lt_iff_lt_mul hWpos).2 (by rw [Nat.mul_comm]; exact hlt)) hH
    have hj : ofs - ofs / p.outW * p.outW < p.width := by
      have h1 := Nat.mod_lt ofs hWpos
      have h2 := Nat.div_add_mod ofs p.outW
      have h3 : p.outW * (ofs / p.outW) = ofs / p.outW * p.outW := Nat.mul_comm _ _
      omega
    exact (gatherRow1x1_eq { p with is1x1_ := true } data_inp0 cn0 ncn vsz vsz_a ofs0 ofs rb
      hk hs hp hd htab hncn hvsz hi hj).trans rfl
  unfold ParallelConv.tile
  simp only [if_true, Bool.false_eq_true, if_false]
  rw [hg]
  rfl

/-- The work on a stripe that ends inside the output plane does not depend on the flag
`is1x1_` when the kernel is 1x1, stride and dilation are 1 and there is no padding. -/
theorem processStripe_flag (p : ParallelConv) (subsampleIdx stripeStart stripeEnd : Nat)
    (st : Mem × Mem)
    (hk : p.kernel_ = ⟨1, 1⟩) (hs : p.stride_ = ⟨1, 1⟩) (hp : p.pad_ = ⟨0, 0⟩)
    (hd : p.dilation_ = ⟨1, 1⟩) (hH : p.outH ≤ p.height) (hW : p.outW ≤ p.width)
    (htab : p.ofstab_ = ParallelConv.makeOfstab p.kernel_ p.dilation_ (min p.inpCn BLK_SIZE_CN)
      p.height p.width)
    (hend : stripeEnd ≤ p.outPlaneSize) :
    ({ p with is1x1_ := true }).processStripe subsampleIdx stripeStart stripeEnd st =
      ({ p with is1x1_ := false }).processStripe subsampleIdx stripeStart stripeEnd st := by
  have hcb : forStep 0 p.inpCn BLK_SIZE_CN (fun cn0 st =>
        ({ p with is1x1_ := true }).channelBlock
          ((subsampleIdx * p.inpPlaneSize * p.inpCn : Nat) : Int)
          (subsampleIdx * p.outPlaneSize * p.outCn)
          (p.weights_.step1 * ((subsampleIdx % p.ngroups_) * p.outCn))
          ((subsampleIdx % p.ngroups_) * p.outCn) stripeStart stripeEnd cn0 st) st =
      forStep 0 p.inpCn BLK_SIZE_CN (fun cn0 st =>
        ({ p with is1x1_ := false }).channelBlock
          ((subsampleIdx * p.inpPlaneSize * p.inpCn : Nat) : Int)
          (subsampleIdx * p.outPlaneSize * p.outCn)
          (p.weights_.step1 * ((subsampleIdx % p.ngroups_) * p.outCn))
          ((subsampleIdx % p.ngroups_) * p.outCn) stripeStart stripeEnd cn0 st) st := by
    apply forStep_congr
    intro t ht st
    have hlt := iterCount_lt 0 p.inpCn BLK_SIZE_CN t (by decide) ht
    unfold ParallelConv.channelBlock
    apply forStep_congr
    intro u _ st
    refine tile_flag p _ _ _ _ _ _ _ _ _ _ st hk hs hp hd hH hW htab ?_ rfl hend
    show min (0 + t * BLK_SIZE_CN + BLK_SIZE_CN) p.inpCn - (0 + t * BLK_SIZE_CN) ≤
      min p.inpCn BLK_SIZE_CN
    omega
  exact congrArg (fun a : Mem × Mem =>
    match p.activ_ with
    | some f =>
      (a.1, forwardSlice f a.2 (subsampleIdx * p.outPlaneSize * p.outCn + stripeStart)
        (stripeEnd - stripeStart) p.outPlaneSize ((subsampleIdx % p.ngroups_) * p.outCn)
        ((subsampleIdx % p.ngroups_) * p.outCn + p.outCn))
    | none => a) hcb

/-- Refinement of the general gather by the fast path, for a whole call of
`ParallelConv::operator()`. -/
theorem call_flag (p : ParallelConv) (scratch : Mem) (r0 : Range) (out : Mem)
    (hk : p.kernel_ = ⟨1, 1⟩) (hs : p.stride_ = ⟨1, 1⟩) (hp : p.pad_ = ⟨0, 0⟩)
    (hd : p.dilation_ = ⟨1, 1⟩) (hH : p.outH ≤ p.height) (hW : p.outW ≤ p.width)
    (htab : p.ofstab_ = ParallelConv.makeOfstab p.kernel_ p.dilation_ (min p.inpCn BLK_SIZE_CN)
      p.height p.width) :
    ({ p with is1x1_ := true }).call scratch r0 out =
      ({ p with is1x1_ := false }).call scratch r0 out := by
  have hbody : ({ p with is1x1_ := true }).stripeBody =
      ({ p with is1x1_ := false }).stripeBody := by
    funext stripe st
    unfold ParallelConv.stripeBody
    have hg : ({ p with is1x1_ := true }).stripeGeom stripe =
        ({ p with is1x1_ := false }).stripeGeom stripe := rfl
    rw [hg]
    cases hgeom : ({ p with is1x1_ := false }).stripeGeom stripe with
    | none => rfl
    | some g =>
      simp only [Option.map_some']
      congr 1
      refine processStripe_flag p g.1 g.2.1 g.2.2 st hk hs hp hd hH hW htab ?_
      have hge : p.stripeGeom stripe = some g := hgeom
      unfold ParallelConv.stripeGeom at hge
      by_cases hb : stripe / p.stripesPerSample ≥ p.batchSize
      · rw [if_pos hb] at hge; exact absurd hge (by simp)
      · rw [if_neg hb] at hge
        have := Option.some.inj hge
        rw [← this]
        exact Nat.min_le_right _ _
  unfold ParallelConv.call
  rw [hbody]
  rfl

theorem gather_fills_row_witness :
    exConv.gatherRow 0 0 1 9 16 0 (0 * exConv.outW + 0) (fun _ => 7)
      ((0 * exConv.outW + 0 - 0) * 16 +
        ((0 * exConv.kernel_.height + 0) * exConv.kernel_.width + 0)) = 0 :=
  (gather_fills_row exConv 0 0 1 9 16 0 0 0 (fun _ => 7) (by decide) (by decide) (by decide)
    rfl rfl (by decide) 0 0 0 (by decide) (by decide) (by decide)).trans (if_neg (by decide))

/-- C15 (code evaluated at the failing input): for a 1x1 kernel with unit stride, unit
dilation and zero padding, `ParallelConv::run` leaves `is1x1_` false (line 303 compares
the kernel with `Size(0,0)`), so every tile is gathered by the general path. -/
theorem run_flag_1x1 (input : Mat4) (outSize0 outSize1 outSize2 outSize3 : Nat)
    (weights : Mat2) (bias : List ℚ) (ngroups nstripes : Nat)
    (activ : Option (Nat → ℚ → ℚ)) (simd : Bool)
    (data_inp0 : Int) (data_out0 wptr biasptr cn0 ncn vsz vsz_a stripeEnd ofs0 : Nat)
    (st : Mem × Mem) :
    (ParallelConv.setup input outSize0 outSize1 outSize2 outSize3 weights bias
        ⟨1, 1⟩ ⟨0, 0⟩ ⟨1, 1⟩ ⟨1, 1⟩ ngroups nstripes activ simd).is1x1_ = false ∧
    ((ParallelConv.setup input outSize0 outSize1 outSize2 outSize3 weights bias
        ⟨1, 1⟩ ⟨0, 0⟩ ⟨1, 1⟩ ⟨1, 1⟩ ngroups nstripes activ simd).tile data_inp0 data_out0 wptr
        biasptr cn0 ncn vsz vsz_a stripeEnd ofs0 st).1 =
      (ParallelConv.setup input outSize0 outSize1 outSize2 outSize3 weights bias
        ⟨1, 1⟩ ⟨0, 0⟩ ⟨1, 1⟩ ⟨1, 1⟩ ngroups nstripes activ simd).im2rowGeneral data_inp0 cn0 ncn
        vsz vsz_a ofs0 (min (ofs0 + BLK_SIZE) stripeEnd) st.1 ∧
    (ParallelConv.setup input outSize0 outSize1 outSize2 outSize3 weights bias
        ⟨0, 0⟩ ⟨0, 0⟩ ⟨1, 1⟩ ⟨1, 1⟩ ngroups nstripes activ simd).is1x1_ = true := by
  have h : (ParallelConv.setup input outSize0 outSize1 outSize2 outSize3 weights bias
        ⟨1, 1⟩ ⟨0, 0⟩ ⟨1, 1⟩ ⟨1, 1⟩ ngroups nstripes activ simd).is1x1_ = false := by
    simp [ParallelConv.setup]
  refine ⟨h, ?_, by simp [ParallelConv.setup]⟩
  unfold ParallelConv.tile
  rw [h]
  rfl

/-- C16: for every input, weights and bias, with a 1x1 kernel, stride 1, no padding and
dilation 1 (members as `ParallelConv::run` sets them up, the output plane no larger than
the input plane, as it is for the output shape of this configuration),
`ParallelConv::operator()` run with `is1x1_` true leaves exactly the output that it
leaves with `is1x1_` false, for every range, scratch content and output memory. -/
theorem fast_path_equals_general (input : Mat4) (outSize0 outSize1 outSize2 outSize3 : Nat)
    (weights : Mat2) (bias : List ℚ) (ngroups nstripes : Nat)
    (activ : Option (Nat → ℚ → ℚ)) (simd : Bool) (scratch : Mem) (r0 : Range) (out : Mem)
    (hH : outSize2 ≤ input.size2) (hW : outSize3 ≤ input.size3) :
    ({ ParallelConv.setup input outSize0 outSize1 outSize2 outSize3 weights bias
        ⟨1, 1⟩ ⟨0, 0⟩ ⟨1, 1⟩ ⟨1, 1⟩ ngroups nstripes activ simd with
        is1x1_ := true }).call scratch r0 out =
    ({ ParallelConv.setup input outSize0 outSize1 outSize2 outSize3 weights bias
        ⟨1, 1⟩ ⟨0, 0⟩ ⟨1, 1⟩ ⟨1, 1⟩ ngroups nstripes activ simd with
        is1x1_ := false }).call scratch r0 out :=
  call_flag _ scratch r0 out rfl rfl rfl rfl hH hW rfl

theorem fast_path_equals_general_witness :
    ({ ParallelConv.setup exInput 1 1 3 3 exWeights [5] ⟨1, 1⟩ ⟨0, 0⟩ ⟨1, 1⟩ ⟨1, 1⟩ 1 4 none
        true with is1x1_ := true }).call (fun _ => 7) ⟨0, 4⟩ (fun _ => 0) =
    ({ ParallelConv.setup exInput 1 1 3 3 exWeights [5] ⟨1, 1⟩ ⟨0, 0⟩ ⟨1, 1⟩ ⟨1, 1⟩ 1 4 none
        true with is1x1_ := false }).call (fun _ => 7) ⟨0, 4⟩ (fun _ => 0) :=
  fast_path_equals_general exInput 1 1 3 3 exWeights [5] 1 4 none true (fun _ => 7) ⟨0, 4⟩
    (fun _ => 0) (by decide) (by decide)

theorem forStep_fst {σ τ : Type} (start stop step : Nat) (f : Nat → σ × τ → σ × τ)
    (g : Nat → σ → σ) (st : σ × τ) (h : ∀ i st, (f i st).1 = g i st.1) :
    (forStep start stop step f st).1 = forStep start stop step g st.1 := by
  unfold forStep
  have key : ∀ n, (Nat.fold (fun t acc => f (start + t * step) acc) n st).1 =
      Nat.fold (fun t acc => g (start + t * step) acc) n st.1 := by
    intro n
    induction n with
    | zero => rfl
    | succ n ih => rw [Nat.fold, Nat.fold, h, ih]
  exact key _

theorem forStep_one_pres {σ : Type} (Q : σ → Prop) (start stop : Nat)
    (body : Nat → σ → σ) (s : σ) (h0 : Q s)
    (hstep : ∀ i, start ≤ i → i < stop → ∀ acc, Q acc → Q (body i acc)) :
    Q (forStep start stop 1 body s) := by
  refine forStep_inv (fun _ acc => Q acc) start stop 1 body s h0 ?_
  intro t ht acc hacc
  rw [iterCount_one] at ht
  simp only [Nat.mul_one]
  exact hstep _ (by omega) (by omega) acc hacc

/-- The instrumentation does not change the row buffer. -/
theorem gatherRowReads_fst (p : ParallelConv) (data_inp0 : Int)
    (cn0 ncn vsz vsz_a ofs0 ofs : Nat) (st : Mem × List Int) :
    (p.gatherRowReads data_inp0 cn0 ncn vsz vsz_a ofs0 ofs st).1 =
      p.gatherRow data_inp0 cn0 ncn vsz vsz_a ofs0 ofs st.1 := by
  unfold ParallelConv.gatherRowReads ParallelConv.gatherRow
  dsimp only
  split_ifs with hint
  · exact forStep_fst _ _ _ _ _ _ (fun _ _ => rfl)
  · refine forStep_fst _ _ _ _ _ _ (fun k st => ?_)
    refine forStep_fst _ _ _ _ _ _ (fun i st => ?_)
    exact forStep_fst _ _ _ _ _ _ (fun j st => rfl)

/-- Every position recorded by the general gather is either an earlier one or the
position of a tap that lies inside the image. -/
theorem gatherRowReads_taps (p : ParallelConv) (data_inp0 : Int)
    (cn0 ncn vsz vsz_a ofs0 ofs : Nat) (st : Mem × List Int)
    (hdh : 1 ≤ p.dilation_.height) (hdw : 1 ≤ p.dilation_.width)
    (hvsz : vsz = p.karea * ncn) (hof : p.OfstabOK ncn) :
    ∀ a ∈ (p.gatherRowReads data_inp0 cn0 ncn vsz vsz_a ofs0 ofs st).2,
      a ∈ st.2 ∨ ∃ k i j, k < ncn ∧ i < p.kernel_.height ∧ j < p.kernel_.width ∧
        p.tapInside ofs i j ∧ a = p.tapAddr data_inp0 ofs (cn0 + k) i j := by
  have hdhZ : (1 : Int) ≤ (p.dilation_.height : Int) := by exact_mod_cast hdh
  have hdwZ : (1 : Int) ≤ (p.dilation_.width : Int) := by exact_mod_cast hdw
  unfold ParallelConv.gatherRowReads
  dsimp only
  split_ifs with hint
  · refine forStep_one_pres (fun s : Mem × List Int => ∀ a ∈ s.2,
      a ∈ st.2 ∨ ∃ k i j, k < ncn ∧ i < p.kernel_.height ∧ j < p.kernel_.width ∧
        p.tapInside ofs i j ∧ a = p.tapAddr data_inp0 ofs (cn0 + k) i j) 0 vsz _ st
      (fun a ha => Or.inl ha) ?_
    intro t _ ht acc hacc a ha
    simp only [List.mem_append, List.mem_singleton] at ha
    rcases ha with ha | ha
    · exact hacc a ha
    · right
      have ht1 : t < p.kernel_.width * p.kernel_.height * ncn := by
        rw [hvsz, ParallelConv.karea] at ht; exact ht
      obtain ⟨d1, d2, d3⟩ := dec_lt ht1
      have htab := hof _ _ _ d1 d2 d3
      rw [dec_enc t] at htab
      obtain ⟨h1, h2, h3, h4⟩ := hint
      have hi' : ((t / p.kernel_.width % p.kernel_.height : Nat) : Int) * p.dilation_.height ≤
          ((p.kernel_.height : Int) - 1) * p.dilation_.height :=
        Int.mul_le_mul_of_nonneg_right (by omega) (by omega)
      have hj' : ((t % p.kernel_.width : Nat) : Int) * p.dilation_.width ≤
          ((p.kernel_.width : Int) - 1) * p.dilation_.width :=
        Int.mul_le_mul_of_nonneg_right (by omega) (by omega)
      have hi0 : (0 : Int) ≤ ((t / p.kernel_.width % p.kernel_.height : Nat) : Int) *
          p.dilation_.height := by positivity
      have hj0 : (0 : Int) ≤ ((t % p.kernel_.width : Nat) : Int) * p.dilation_.width := by
        positivity
      refine ⟨_, _, _, d1, d2, d3, ⟨by omega, by omega, by omega, by omega⟩, ?_⟩
      rw [ha, htab]
      unfold ParallelConv.tapAddr
      push_cast
      ring
  · have hI0 := tdiv_ceil_le (-((ofs / p.outW : Nat) * (p.stride_.height : Int) - p.pad_.height))
      p.dilation_.height hdhZ
    have hI1 := tdiv_ceil_lt ((p.height : Int) -
      ((ofs / p.outW : Nat) * (p.stride_.height : Int) - p.pad_.height))
      p.dilation_.height hdhZ p.kernel_.height
    have hJ0 := tdiv_ceil_le (-(((ofs - ofs / p.outW * p.outW : Nat) : Int) *
      p.stride_.width - p.pad_.width)) p.dilation_.width hdwZ
    have hJ1 := tdiv_ceil_lt ((p.width : Int) - (((ofs - ofs / p.outW * p.outW : Nat) : Int) *
      p.stride_.width - p.pad_.width)) p.dilation_.width hdwZ p.kernel_.width
    refine forStep_one_pres (fun s : Mem × List Int => ∀ a ∈ s.2,
      a ∈ st.2 ∨ ∃ k i j, k < ncn ∧ i < p.kernel_.height ∧ j < p.kernel_.width ∧
        p.tapInside ofs i j ∧ a = p.tapAddr data_inp0 ofs (cn0 + k) i j) 0 ncn _ _
      (fun a ha => Or.inl ha) ?_
    intro k _ hk acc hacc
    refine forStep_one_pres (fun s : Mem × List Int => ∀ a ∈ s.2,
      a ∈ st.2 ∨ ∃ k i j, k < ncn ∧ i < p.kernel_.height ∧ j < p.kernel_.width ∧
        p.tapInside ofs i j ∧ a = p.tapAddr data_inp0 ofs (cn0 + k) i j) _ _ _ _ hacc ?_
    intro i hi0 hi1 acc hacc
    refine forStep_one_pres (fun s : Mem × List Int => ∀ a ∈ s.2,
      a ∈ st.2 ∨ ∃ k i j, k < ncn ∧ i < p.kernel_.height ∧ j < p.kernel_.width ∧
        p.tapInside ofs i j ∧ a = p.tapAddr data_inp0 ofs (cn0 + k) i j) _ _ _ _ hacc ?_
    intro j hj0 hj1 acc hacc a ha
    simp only [List.mem_append, List.mem_singleton] at ha
    rcases ha with ha | ha
    · exact hacc a ha
    · right
      have hi1' := (hI1 i).1 hi1
      have hj1' := (hJ1 j).1 hj1
      have hi0' := (hI0 i).1 hi0
      have hj0' := (hJ0 j).1 hj0
      refine ⟨k, i, j, hk, hi1'.1, hj1'.1, ⟨by omega, by omega, by omega, by omega⟩, ?_⟩
      rw [ha]
      unfold ParallelConv.tapAddr
      push_cast
      ring

/-- C18: for every configuration with dilation `≥ 1` (any stride, any padding) and every
output position `ofs`, on a channel block inside the group (`cn0 + ncn ≤ inpCn`, offset
table as built by `ParallelConv::run`): the instrumented gather computes the row of the
general gather; every position of `input_` that it reads is `data_inp0 + (c*H + y)*W + x`
with `c < inpCn`, `y < H`, `x < W`, hence inside the extent `[0, inpCn*H*W)` of the
sample-group at `data_inp0`; and when no tap of the position lies inside the image the
gather reads nothing and leaves the `vsz` entries of the row zero. -/
theorem gather_reads_in_bounds (p : ParallelConv) (data_inp0 : Int)
    (cn0 ncn vsz vsz_a ofs0 ofs : Nat) (rb : Mem)
    (hdh : 1 ≤ p.dilation_.height) (hdw : 1 ≤ p.dilation_.width)
    (hvsz : vsz = p.karea * ncn)
    (htab : p.ofstab_ = ParallelConv.makeOfstab p.kernel_ p.dilation_ (min p.inpCn BLK_SIZE_CN)
      p.height p.width)
    (hncn : ncn ≤ min p.inpCn BLK_SIZE_CN) (hcn : cn0 + ncn ≤ p.inpCn) :
    (p.gatherRowReads data_inp0 cn0 ncn vsz vsz_a ofs0 ofs (rb, [])).1 =
      p.gatherRow data_inp0 cn0 ncn vsz vsz_a ofs0 ofs rb ∧
    (∀ a ∈ (p.gatherRowReads data_inp0 cn0 ncn vsz vsz_a ofs0 ofs (rb, [])).2,
      ∃ c y x : Nat, c < p.inpCn ∧ y < p.height ∧ x < p.width ∧
        a = data_inp0 + (((c * p.height + y) * p.width + x : Nat) : Int) ∧
        data_inp0 ≤ a ∧ a < data_inp0 + ((p.inpCn * p.height * p.width : Nat) : Int)) ∧
    ((∀ i j, i < p.kernel_.height → j < p.kernel_.width → ¬ p.tapInside ofs i j) →
      (p.gatherRowReads data_inp0 cn0 ncn vsz vsz_a ofs0 ofs (rb, [])).2 = [] ∧
      ∀ t, t < vsz →
        p.gatherRow data_inp0 cn0 ncn vsz vsz_a ofs0 ofs rb ((ofs - ofs0) * vsz_a + t) = 0) := by
  have hof := ofstabOK_of_run p ncn htab hncn
  have htaps := gatherRowReads_taps p data_inp0 cn0 ncn vsz vsz_a ofs0 ofs (rb, []) hdh hdw
    hvsz hof
  refine ⟨gatherRowReads_fst p data_inp0 cn0 ncn vsz vsz_a ofs0 ofs (rb, []), ?_, ?_⟩
  · intro a ha
    rcases htaps a ha with h | ⟨k, i, j, hk, _, _, ⟨h1, h2, h3, h4⟩, e⟩
    · exact absurd h (List.not_mem_nil a)
    · obtain ⟨y, hy⟩ := Int.eq_ofNat_of_zero_le h1
      obtain ⟨x, hx⟩ := Int.eq_ofNat_of_zero_le h3
      rw [hy] at h2
      rw [hx] at h4
      have hy2 : y < p.height := by exact_mod_cast h2
      have hx2 : x < p.width := by exact_mod_cast h4
      have hc : cn0 + k < p.inpCn := by omega
      have ea : a = data_inp0 + ((((cn0 + k) * p.height + y) * p.width + x : Nat) : Int) := by
        rw [e]
        unfold ParallelConv.tapAddr
        rw [hy, hx]
        push_cast
        ring
      have hlt : ((cn0 + k) * p.height + y) * p.width + x < p.inpCn * p.height * p.width :=
        enc_lt (enc_lt hc hy2) hx2
      have hlt2 : ((((cn0 + k) * p.height + y) * p.width + x : Nat) : Int) <
          ((p.inpCn * p.height * p.width : Nat) : Int) := by exact_mod_cast hlt
      have hge : (0 : Int) ≤ ((((cn0 + k) * p.height + y) * p.width + x : Nat) : Int) :=
        Int.natCast_nonneg _
      exact ⟨cn0 + k, y, x, hc, hy2, hx2, ea, by omega, by omega⟩
  · intro hpad
    constructor
    · apply List.eq_nil_iff_forall_not_mem.2
      intro a ha
      rcases htaps a ha with h | ⟨k, i, j, _, hi, hj, hin, _⟩
      · exact absurd h (List.not_mem_nil a)
      · exact hpad i j hi hj hin
    · intro t ht
      have ht1 : t < p.kernel_.width * p.kernel_.height * ncn := by
        rw [hvsz, ParallelConv.karea] at ht; exact ht
      obtain ⟨d1, d2, d3⟩ := dec_lt ht1
      have h := (gatherRow_spec p data_inp0 cn0 ncn vsz vsz_a ofs0 ofs rb hdh hdw hvsz hof).1
        _ _ _ d1 d2 d3
      rw [dec_enc t] at h
      rw [h]
      unfold ParallelConv.tapVal
      dsimp only
      rw [if_neg]
      exact hpad _ _ d2 d3

theorem gather_reads_in_bounds_witness :
    (exBorderConv.gatherRowReads 0 0 1 1 16 0 0 (fun _ => 7, [])).2 = [] ∧
    ∀ t, t < 1 → exBorderConv.gatherRow 0 0 1 1 16 0 0 (fun _ => 7) ((0 - 0) * 16 + t) = 0 :=
  (gather_reads_in_bounds exBorderConv 0 0 1 1 16 0 0 (fun _ => 7) (by decide) (by decide)
    rfl rfl (by decide) (by decide)).2.2 (by
      intro i j hi hj h
      have h1 := h.1
      have hi0 : i = 0 := Nat.lt_one_iff.1 hi
      subst hi0
      revert h1
      decide)

set_option maxRecDepth 100000 in
/-- C19 (code evaluated at the failing input): with a 1x1 kernel, unit stride and dilation
and padding 1 along the width, `is1x1()` holds although the padding is not zero; for the
input `[1,1,1,3] = [1, 2, 3]` and an all-ones weight the output shape is `[1,1,1,1]`, the
matrix product is written straight into the output memory, three elements `1, 2, 3` from the
start of the one-element output, and the output element is `1`, while the transposed
convolution has `2` there. -/
theorem deconv_fast_path_ignores_pad :
    exPad1x1Layer.is1x1 = true ∧ exPad1x1Layer.pad ≠ ⟨0, 0⟩ ∧
    exPad1x1Layer.getMemoryShapes [[1, 1, 1, 3]] = some ([[1, 1, 1, 1]], [[]]) ∧
    (exPad1x1Layer.forward exRowInput 1 1 1 1 (fun _ => 0) ⟨0, 0, 0, fun _ => 0⟩
      (fun _ => 0) 1 false exOneStripe exOneStripe).map (fun r => (List.range 3).map r.2.2.2) =
      some [1, 2, 3] ∧
    deconvRef exRowInput (Blob.reshape ⟨1, 1, 1, 1, fun _ => 1⟩ 1) (deconvBias []) ⟨1, 1⟩
      ⟨1, 0⟩ ⟨1, 1⟩ 1 1 0 0 0 0 0 = 2 := by
  refine ⟨by decide, by decide, by decide, by decide!, ?_⟩
  simp [deconvRef, deconvBias, exRowInput, Finset.sum_range_succ, Blob.reshape]

set_option maxRecDepth 100000 in
/-- C20 (code evaluated at the failing input): when `getNumThreads()` returns 0 the
deconvolution `forward` uses the stripe count 0 (as does `Col2ImInvoker::run`), both
parallel loops get the empty range, and the output memory is left as it was: for
scenario B the four output elements keep their former content `0` where the layer should
write `5`.  The convolution `forward` uses `max(getNumThreads(), 1)`. -/
theorem deconv_zero_threads :
    ((scenarioBLayer (fun _ => 1)).forward exDeconvInput 1 1 2 2 (fun _ => 0)
      exInternals0 (fun _ => 0) 0 true (fun _ _ => []) (fun _ _ => [])).map
        (fun r => (List.range 4).map r.2.2.2) = some [0, 0, 0, 0] ∧
    ((scenarioBLayer (fun _ => 1)).forward exDeconvInput 1 1 2 2 (fun _ => 0)
      exInternals0 (fun _ => 0) 1 true exOneStripe exOneStripe).map
        (fun r => (List.range 4).map r.2.2.2) = some [5, 5, 5, 5] ∧
    (∀ (data_col : Mem) (data_im : Nat) (biasvec : Mem) (is1x1 : Bool) (im : Mem),
      Col2ImInvoker.run data_col 1 2 2 2 2 0 0 2 2 data_im biasvec is1x1 0 [] im = im) ∧
    (∀ (l : ConvolutionLayerImpl) (input : Mat4) (outSize0 outSize1 outSize2 outSize3 : Nat)
      (out0 : Mem) (simd : Bool) (scratch : Mem) (sched : List Range),
      l.forward input outSize0 outSize1 outSize2 outSize3 out0 0 simd scratch sched =
        l.forward input outSize0 outSize1 outSize2 outSize3 out0 1 simd scratch sched) := by
  refine ⟨by decide!, by decide!, ?_, ?_⟩
  · intro data_col data_im biasvec is1x1 im
    rfl
  · intro l input outSize0 outSize1 outSize2 outSize3 out0 simd scratch sched
    rfl

/-- C21: for a group count other than zero (the modulus of line 1387 is undefined for
zero), layer creation fails if and only if `num_output` is not divisible by `group`, or
the number of blobs is not the one that `bias_term` calls for (2 with bias, 1 without), or
the output adjustment is not strictly less than the stride on some axis. -/
theorem init_fails_iff (blobs : List Blob) (kernel pad stride dilation : Size)
    (padMode : String) (bias : Bool) (numOutput ngroups adj_h adj_w : Int)
    (hg : ngroups ≠ 0) :
    initConvDeconvLayerFromCaffe blobs kernel pad stride dilation padMode bias numOutput
        ngroups adj_h adj_w = none ↔
      (¬ ngroups ∣ numOutput ∨ blobs.length ≠ (if bias then 2 else 1) ∨
        ((stride.width : Int) ≤ adj_w ∨ (stride.height : Int) ≤ adj_h)) := by
  unfold initConvDeconvLayerFromCaffe
  rw [if_neg hg, Int.dvd_iff_tmod_eq_zero]
  by_cases h1 : numOutput.tmod ngroups = 0
  · rw [if_pos h1]
    by_cases h2 : (bias = true ∧ blobs.length = 2) ∨ (bias = false ∧ blobs.length = 1)
    · rw [if_pos h2]
      have h2' : blobs.length = (if bias then 2 else 1) := by
        rcases h2 with ⟨hb, hl⟩ | ⟨hb, hl⟩ <;> simp [hb, hl]
      by_cases h3 : adj_w < stride.width ∧ adj_h < stride.height
      · rw [if_pos h3]
        constructor
        · intro h; exact absurd h (by simp)
        · rintro (h | h | h | h)
          · exact absurd h1 h
          · exact absurd h2' h
          · omega
          · omega
      · rw [if_neg h3]
        refine ⟨fun _ => Or.inr (Or.inr ?_), fun _ => rfl⟩
        by_contra hc
        exact h3 ⟨by omega, by omega⟩
    · rw [if_neg h2]
      refine ⟨fun _ => Or.inr (Or.inl ?_), fun _ => rfl⟩
      intro hl
      apply h2
      cases bias
      · right; exact ⟨rfl, by simpa using hl⟩
      · left; exact ⟨rfl, by simpa using hl⟩
  · rw [if_neg h1]
    exact ⟨fun _ => Or.inl h1, fun _ => rfl⟩

theorem init_fails_iff_witness :
    initConvDeconvLayerFromCaffe [exDeconvBlob] ⟨2, 2⟩ ⟨0, 0⟩ ⟨2, 2⟩ ⟨1, 1⟩ "" false 1 1 0 2 =
        none ↔
      (¬ (1 : Int) ∣ 1 ∨ [exDeconvBlob].length ≠ (if false then 2 else 1) ∨
        ((((⟨2, 2⟩ : Size).width : Nat) : Int) ≤ 2 ∨ (((⟨2, 2⟩ : Size).height : Nat) : Int) ≤ 0)) :=
  init_fails_iff [exDeconvBlob] ⟨2, 2⟩ ⟨0, 0⟩ ⟨2, 2⟩ ⟨1, 1⟩ "" false 1 1 0 2 (by decide)

/-- The convolution `forward` in terms of the weight matrix that it uses. -/
theorem forward_eq (l : ConvolutionLayerImpl) (b0 : Blob) (rest : List Blob)
    (input : Mat4) (outSize0 outSize1 outSize2 outSize3 : Nat) (out0 : Mem) (numThreads : Nat)
    (simd : Bool) (scratch : Mem) (sched : List Range)
    (hblobs : l.blobs = b0 :: rest) :
    l.forward input outSize0 outSize1 outSize2 outSize3 out0 numThreads simd scratch sched =
      if b0.size1 ≠ 0 ∧ input.size1 % b0.size1 = 0 then
        if input.size1 / b0.size1 ≠ 0 ∧ outSize1 % (input.size1 / b0.size1) = 0 then
          (ParallelConv.run input outSize0 outSize1 outSize2 outSize3 out0 (l.usedWeights b0)
            (ConvolutionLayerImpl.biasList rest) l.kernel l.pad l.stride l.dilation
            (input.size1 / b0.size1) (max numThreads 1) l.activ simd scratch sched).map
            (fun out => ({ l with weightsMat := some (l.usedWeights b0) }, out))
        else none
      else none := by
  unfold ConvolutionLayerImpl.forward
  rw [hblobs]
  rfl

/-- C23: with `ngroups = inputChannels / weightChannelsPerGroup` (the `int` quotient),
`ConvolutionLayerImpl::getMemoryShapes` and `DeConvolutionLayerImpl::getMemoryShapes`
succeed only if `inputChannels % ngroups == 0` and `outputChannels % ngroups == 0`, and
fail when one of the two remainders is not zero. -/
theorem getMemoryShapes_needs_divisible :
    (∀ (l : ConvolutionLayerImpl) (b0 : Blob) (rest : List Blob)
        (f : Int → Int → Size → Size → String → Int × Int) (inp : MatShape)
        (tl : List MatShape),
      l.blobs = b0 :: rest →
      ((l.getMemoryShapes f (inp :: tl)).isSome →
        (inp.getD 1 0).tmod ((inp.getD 1 0).tdiv b0.size1) = 0 ∧
        (b0.size0 : Int).tmod ((inp.getD 1 0).tdiv b0.size1) = 0) ∧
      (¬ ((inp.getD 1 0).tmod ((inp.getD 1 0).tdiv b0.size1) = 0 ∧
          (b0.size0 : Int).tmod ((inp.getD 1 0).tdiv b0.size1) = 0) →
        l.getMemoryShapes f (inp :: tl) = none)) ∧
    (∀ (l : DeConvolutionLayerImpl) (b0 : Blob) (rest : List Blob) (inp : MatShape)
        (tl : List MatShape),
      l.blobs = b0 :: rest →
      ((l.getMemoryShapes (inp :: tl)).isSome →
        (inp.getD 1 0).tmod ((inp.getD 1 0).tdiv b0.size1) = 0 ∧
        (b0.size0 : Int).tmod ((inp.getD 1 0).tdiv b0.size1) = 0) ∧
      (¬ ((inp.getD 1 0).tmod ((inp.getD 1 0).tdiv b0.size1) = 0 ∧
          (b0.size0 : Int).tmod ((inp.getD 1 0).tdiv b0.size1) = 0) →
        l.getMemoryShapes (inp :: tl) = none)) := by
  constructor
  · intro l b0 rest f inp tl hblobs
    have key : ¬ ((inp.getD 1 0).tmod ((inp.getD 1 0).tdiv b0.size1) = 0 ∧
          (b0.size0 : Int).tmod ((inp.getD 1 0).tdiv b0.size1) = 0) →
        l.getMemoryShapes f (inp :: tl) = none := by
      intro hc
      unfold ConvolutionLayerImpl.getMemoryShapes
      rw [hblobs]
      dsimp only
      split_ifs <;> first | rfl | (cases tl <;> simp_all)
    refine ⟨?_, key⟩
    intro hs
    by_contra hc
    rw [key hc] at hs
    exact absurd hs (by simp)
  · intro l b0 rest inp tl hblobs
    have key : ¬ ((inp.getD 1 0).tmod ((inp.getD 1 0).tdiv b0.size1) = 0 ∧
          (b0.size0 : Int).tmod ((inp.getD 1 0).tdiv b0.size1) = 0) →
        l.getMemoryShapes (inp :: tl) = none := by
      intro hc
      unfold DeConvolutionLayerImpl.getMemoryShapes
      rw [hblobs]
      dsimp only
      split_ifs <;> rfl
    refine ⟨?_, key⟩
    intro hs
    by_contra hc
    rw [key hc] at hs
    exact absurd hs (by simp)

theorem getMemoryShapes_needs_divisible_witness :
    exPadLayer.getMemoryShapes noPadMode [[1, 5, 5, 5]] = none :=
  (getMemoryShapes_needs_divisible.1 exPadLayer ⟨4, 2, 3, 3, fun _ => 1⟩ [] noPadMode
    [1, 5, 5, 5] [] rfl).2 (by decide)

/-- The activation applied in place replaces every element of the `len ≤ planeSize` first
positions of the planes of the channels `cn0 ≤ cn < cn1` by `f cn` of it, once. -/
theorem forwardSlice_upd (f : Nat → ℚ → ℚ) (out : Mem) (base len planeSize cn0 cn1 : Nat)
    (hlen : len ≤ planeSize) :
    Upd {a | ∃ c i, c < cn1 - cn0 ∧ i < len ∧ a = base + c * planeSize + i}
      (fun a => f (cn0 + (a - base) / planeSize) (out a)) out
      (forwardSlice f out base len planeSize cn0 cn1) := by
  unfold forwardSlice
  refine (forStep_upd cn0 cn1 1 _ out
    (fun t => {a | ∃ i, i < len ∧ a = base + t * planeSize + i}) _ ?_).congr_set ?_
  · intro t _ m hm
    simp only [Nat.mul_one, Nat.add_sub_cancel_left]
    refine (forStep_upd 0 len 1 _ m (fun u => {a | a = base + t * planeSize + u}) _ ?_).congr_set
      ?_
    · intro u hu o ho
      rw [iterCount_one] at hu
      simp only [Nat.zero_add, Nat.mul_one]
      refine upd_store o _ _ ?_
      have h1 : o (base + t * planeSize + u) = m (base + t * planeSize + u) := by
        apply (ho _).2
        simp only [Set.mem_setOf_eq, not_exists, not_and]
        intro u1 hu1 e
        omega
      have h2 : m (base + t * planeSize + u) = out (base + t * planeSize + u) := by
        apply (hm _).2
        simp only [Set.mem_setOf_eq, not_exists, not_and]
        intro t1 ht1 i hi e
        have e1 : t * planeSize + u = t1 * planeSize + i := by omega
        have := (idx_inj (by omega) (by omega) e1).1
        omega
      rw [h1, h2]
      have e3 : (base + t * planeSize + u - base) / planeSize = t := by
        have : base + t * planeSize + u - base = t * planeSize + u := by omega
        rw [this, enc_div _ _ (by omega)]
      simp only [e3]
    · intro a
      simp only [Set.mem_setOf_eq, iterCount_one, Nat.sub_zero]
  · intro a
    simp only [Set.mem_setOf_eq, iterCount_one]
    constructor
    · rintro ⟨t, ht, i, hi, e⟩; exact ⟨t, i, ht, hi, e⟩
    · rintro ⟨t, i, ht, hi, e⟩; exact ⟨t, ht, i, hi, e⟩

/-- The work on a stripe leaves `finalVal` on the addresses of the stripe and touches no
other address, with or without activation. -/
theorem stripeBody_final (p : ParallelConv) (stripe : Nat) (st : Mem × Mem)
    (hdh : 1 ≤ p.dilation_.height) (hdw : 1 ≤ p.dilation_.width)
    (hof : p.OfstabOK (min p.inpCn BLK_SIZE_CN))
    (his : p.is1x1_ = true → p.karea = 0) (hcn : 1 ≤ p.inpCn) (hG : 1 ≤ p.ngroups_)
    (hpad : p.simd = true → p.WeightsPadded)
    (hb : stripe / p.stripesPerSample < p.batchSize) :
    ∃ st1, p.stripeBody stripe st = some st1 ∧
      Upd (p.stripeSet stripe) p.finalVal st.2 st1.2 := by
  cases hact : p.activ_ with
  | none =>
    obtain ⟨st1, h1, h2⟩ := stripeBody_upd p stripe st hact hdh hdw hof his hcn hG hpad hb
    refine ⟨st1, h1, h2.congr_val ?_⟩
    intro a _
    unfold ParallelConv.finalVal applyActiv
    rw [hact]
  | some f =>
    obtain ⟨st1, h1, h2⟩ := stripeBody_upd { p with activ_ := none } stripe st rfl hdh hdw hof
      his hcn hG hpad hb
    have hU : Upd (p.stripeSet stripe) p.outVal st.2 st1.2 := h2
    have hgeom : p.stripeGeom stripe = some (stripe / p.stripesPerSample,
        (stripe - stripe / p.stripesPerSample * p.stripesPerSample) * p.stripeSize,
        min ((stripe - stripe / p.stripesPerSample * p.stripesPerSample) * p.stripeSize +
          p.stripeSize) p.outPlaneSize) := by
      unfold ParallelConv.stripeGeom
      dsimp only
      rw [if_neg (by omega)]
    have hq : st1 = ({ p with activ_ := none } : ParallelConv).processStripe
        (stripe / p.stripesPerSample)
        ((stripe - stripe / p.stripesPerSample * p.stripesPerSample) * p.stripeSize)
        (min ((stripe - stripe / p.stripesPerSample * p.stripesPerSample) * p.stripeSize +
          p.stripeSize) p.outPlaneSize) st := by
      have h3 : ({ p with activ_ := none } : ParallelConv).stripeBody stripe st =
          some (({ p with activ_ := none } : ParallelConv).processStripe
            (stripe / p.stripesPerSample)
            ((stripe - stripe / p.stripesPerSample * p.stripesPerSample) * p.stripeSize)
            (min ((stripe - stripe / p.stripesPerSample * p.stripesPerSample) * p.stripeSize +
              p.stripeSize) p.outPlaneSize) st) := by
        unfold ParallelConv.stripeBody
        rw [show ({ p with activ_ := none } : ParallelConv).stripeGeom stripe = _ from hgeom]
        rfl
      rw [h3] at h1
      exact (Option.some.inj h1).symm
    have hp : p.stripeBody stripe st = some (st1.1,
        forwardSlice f st1.2
          (stripe / p.stripesPerSample * p.outPlaneSize * p.outCn +
            (stripe - stripe / p.stripesPerSample * p.stripesPerSample) * p.stripeSize)
          (min ((stripe - stripe / p.stripesPerSample * p.stripesPerSample) * p.stripeSize +
              p.stripeSize) p.outPlaneSize -
            (stripe - stripe / p.stripesPerSample * p.stripesPerSample) * p.stripeSize)
          p.outPlaneSize (stripe / p.stripesPerSample % p.ngroups_ * p.outCn)
          (stripe / p.stripesPerSample % p.ngroups_ * p.outCn + p.outCn)) := by
      unfold ParallelConv.stripeBody
      rw [hgeom, hq]
      simp only [Option.map_some']
      unfold ParallelConv.processStripe
      dsimp only
      rw [hact]
      rfl
    refine ⟨_, hp, ?_⟩
    dsimp only
    set b := stripe / p.stripesPerSample with hbv
    set s := (stripe - b * p.stripesPerSample) * p.stripeSize with hs
    have hS : ∀ a, a ∈ p.stripeSet stripe ↔ ∃ i ofs, i < p.outCn ∧ s ≤ ofs ∧
        ofs < min (s + p.stripeSize) p.outPlaneSize ∧
        a = b * p.outPlaneSize * p.outCn + i * p.outPlaneSize + ofs := by
      intro a
      unfold ParallelConv.stripeSet
      rfl
    have hF := forwardSlice_upd f st1.2 (b * p.outPlaneSize * p.outCn + s)
      (min (s + p.stripeSize) p.outPlaneSize - s) p.outPlaneSize (b % p.ngroups_ * p.outCn)
      (b % p.ngroups_ * p.outCn + p.outCn) (by omega)
    intro a
    constructor
    · intro ha
      obtain ⟨i, ofs, hi, h1, h2, e⟩ := (hS a).1 ha
      have hofs : ofs < p.outPlaneSize := lt_of_lt_of_le h2 (Nat.min_le_right _ _)
      rw [(hF a).1 ⟨i, ofs - s, by omega, by omega, by omega⟩]
      dsimp only
      rw [(hU a).1 ha]
      unfold ParallelConv.finalVal applyActiv
      rw [hact]
      dsimp only
      have e1 : a - (b * p.outPlaneSize * p.outCn + s) = i * p.outPlaneSize + (ofs - s) := by
        omega
      have e2 : a = (b * p.outCn + i) * p.outPlaneSize + ofs := by
        rw [e]; ring
      rw [e1, enc_div _ _ (by omega)]
      congr 1
      rw [e2, enc_div _ _ hofs, enc_div _ _ hi, enc_mod _ _ hi]
    · intro ha
      rw [(hF a).2, (hU a).2 ha]
      simp only [Set.mem_setOf_eq, not_exists, not_and]
      intro c i hc hi e
      apply ha
      exact (hS a).2 ⟨c, s + i, by omega, by omega, by omega, by omega⟩

theorem call_final (p : ParallelConv) (scratch : Mem) (r0 : Range) (out : Mem)
    (hdh : 1 ≤ p.dilation_.height) (hdw : 1 ≤ p.dilation_.width)
    (hof : p.OfstabOK (min p.inpCn BLK_SIZE_CN))
    (his : p.is1x1_ = true → p.karea = 0) (hcn : 1 ≤ p.inpCn) (hG : 1 ≤ p.ngroups_)
    (hpad : p.simd = true → p.WeightsPadded) :
    Upd (p.callSet r0) p.finalVal out (p.call scratch r0 out) := by
  unfold ParallelConv.call forBreak
  dsimp only
  have h := forBreakAux_upd p.stripeBody (fun i => i / p.stripesPerSample ≥ p.batchSize)
    p.stripeSet p.finalVal
    (by
      intro i s hb
      unfold ParallelConv.stripeBody ParallelConv.stripeGeom
      dsimp only
      rw [if_pos hb]
      rfl)
    (by
      intro i s hb
      exact stripeBody_final p i s hdh hdw hof his hcn hG hpad (by omega))
    (by
      intro i j hij hb
      have := Nat.div_le_div_right (c := p.stripesPerSample) hij
      omega)
    (r0.end_ * p.rangeScale - r0.start * p.rangeScale) (r0.start * p.rangeScale)
    (memset0 scratch 0 (p.karea * BLK_SIZE_CN * BLK_SIZE), out)
  refine h.congr_set ?_
  intro a
  unfold ParallelConv.callSet
  simp only [Set.mem_setOf_eq]
  constructor
  · rintro ⟨j, h1, h2, h3, h4⟩
    exact ⟨j, h1, by omega, by omega, h4⟩
  · rintro ⟨j, h1, h2, h3, h4⟩
    exact ⟨j, h1, by omega, by omega, h4⟩

/-- Functional correctness of `ParallelConv::run` with or without activation. -/
theorem run_final (input : Mat4) (outSize0 outSize1 outSize2 outSize3 : Nat) (out0 : Mem)
    (weights : Mat2) (bias : List ℚ) (kernel pad stride dilation : Size)
    (ngroups nstripes : Nat) (activ : Option (Nat → ℚ → ℚ)) (simd : Bool) (scratch : Mem)
    (sched : List Range)
    (hN : input.size0 = outSize0) (hrows : weights.rows = outSize1)
    (hcols : weights.cols = input.size1 / ngroups * kernel.width * kernel.height)
    (hbias : bias.isEmpty ∨ bias.length = outSize1)
    (hG : 1 ≤ ngroups) (hC : input.size1 % ngroups = 0) (hO : outSize1 % ngroups = 0)
    (hCpos : 1 ≤ input.size1)
    (hdh : 1 ≤ dilation.height) (hdw : 1 ≤ dilation.width)
    (hns : 1 ≤ nstripes) (hsched : ParallelConv.IsSplit sched nstripes)
    (hpad : simd = true → weights.ZeroPadded) :
    ∃ out, ParallelConv.run input outSize0 outSize1 outSize2 outSize3 out0 weights bias kernel
        pad stride dilation ngroups nstripes activ simd scratch sched = some out ∧
      ∀ n o y x, n < outSize0 → o < outSize1 → y < outSize2 → x < outSize3 →
        out (outIndex outSize1 outSize2 outSize3 n o y x) =
          applyActiv activ o
            (convRef input weights bias kernel pad stride dilation ngroups outSize1 n o y x) := by
  unfold ParallelConv.run
  rw [if_pos ⟨hN, hrows, hcols, hbias⟩]
  refine ⟨_, rfl, ?_⟩
  intro n o y x hn ho hy hx
  set p := ParallelConv.setup input outSize0 outSize1 outSize2 outSize3 weights bias kernel pad
    stride dilation ngroups nstripes activ simd with hp
  have hC' : input.size1 = ngroups * (input.size1 / ngroups) := by
    have := Nat.div_add_mod input.size1 ngroups
    omega
  have hO' : outSize1 = ngroups * (outSize1 / ngroups) := by
    have := Nat.div_add_mod outSize1 ngroups
    omega
  have hinp : p.inpCn = input.size1 / ngroups := rfl
  have houtCn : p.outCn = outSize1 / ngroups := rfl
  have hcn : 1 ≤ p.inpCn := by
    rw [hinp]
    rcases Nat.eq_zero_or_pos (input.size1 / ngroups) with h | h
    · rw [h] at hC'; omega
    · exact h
  have hof : p.OfstabOK (min p.inpCn BLK_SIZE_CN) := by
    intro k i j hk hi hj
    exact makeOfstab_spec kernel dilation (min (input.size1 / ngroups) BLK_SIZE_CN)
      input.size2 input.size3 k i j hk hi hj
  have his : p.is1x1_ = true → p.karea = 0 := by
    intro h
    have h' : kernel = Size.mk 0 0 ∧ pad = Size.mk 0 0 := by
      simpa [hp, ParallelConv.setup] using h
    show kernel.width * kernel.height = 0
    rw [h'.1]
    rfl
  have hpadp : p.simd = true → p.WeightsPadded := by
    intro hs
    obtain ⟨w1, w2, w3⟩ := hpad hs
    have hk : p.inpCn * p.karea = weights.cols := by
      rw [hcols]
      show input.size1 / ngroups * (kernel.width * kernel.height) = _
      ring
    refine ⟨by rw [hk]; exact w1, w2, ?_⟩
    intro o1 k ho1 h1 h2
    rw [hk] at h1
    have hrw : p.ngroups_ * p.outCn = outSize1 := by
      show ngroups * (outSize1 / ngroups) = outSize1
      omega
    exact w3 o1 k (by rw [hrows]; omega) h1 h2
  have hU := foldl_upd (fun out r => p.call scratch r out) p.callSet p.finalVal
    (fun r m => call_final p scratch r m hdh hdw hof his hcn hG hpadp) sched out0
  -- decompose the output channel and the address
  have hoC : 0 < outSize1 / ngroups := by
    rcases Nat.eq_zero_or_pos (outSize1 / ngroups) with h | h
    · rw [h] at hO'; omega
    · exact h
  have hg : o / (outSize1 / ngroups) < ngroups := by
    apply Nat.div_lt_of_lt_mul
    rw [Nat.mul_comm]; omega
  have hi : o % (outSize1 / ngroups) < outSize1 / ngroups := Nat.mod_lt _ hoC
  have hoe : o = o / (outSize1 / ngroups) * (outSize1 / ngroups) + o % (outSize1 / ngroups) := by
    have := Nat.div_add_mod o (outSize1 / ngroups)
    rw [Nat.mul_comm] at this
    omega
  have hofs : y * outSize3 + x < p.outPlaneSize := by
    show y * outSize3 + x < outSize3 * outSize2
    have := enc_lt hy hx
    rw [Nat.mul_comm outSize3]; exact this
  have hb : n * ngroups + o / (outSize1 / ngroups) < p.batchSize := by
    show _ < input.size0 * ngroups
    rw [hN]
    exact enc_lt hn hg
  have haddr : outIndex outSize1 outSize2 outSize3 n o y x =
      (n * ngroups + o / (outSize1 / ngroups)) * p.outPlaneSize * p.outCn +
        o % (outSize1 / ngroups) * p.outPlaneSize + (y * outSize3 + x) := by
    unfold outIndex
    rw [houtCn]
    show _ = (n * ngroups + o / (outSize1 / ngroups)) * (outSize3 * outSize2) *
      (outSize1 / ngroups) + o % (outSize1 / ngroups) * (outSize3 * outSize2) + (y * outSize3 + x)
    exact addr_eq n ngroups (outSize1 / ngroups) _ _ outSize2 outSize3 y x o outSize1 hoe hO'
  -- the address is written by a scheduled stripe
  obtain ⟨stripe, hs1, hs2, hs3, hs4, hs5⟩ := stripe_cover p _ _ hb hofs hns
  obtain ⟨r, hr, hr1, hr2⟩ := isSplit_cover sched nstripes hsched _ hs1
  have hdm := div_mul_bounds stripe p.rangeScale (by omega)
  have hmem : outIndex outSize1 outSize2 outSize3 n o y x ∈
      {a | ∃ x, x ∈ sched ∧ a ∈ p.callSet x} := by
    refine ⟨r, hr, stripe, ?_, ?_, by omega, ?_⟩
    · have := Nat.mul_le_mul_right p.rangeScale hr1
      omega
    · have := Nat.mul_le_mul_right p.rangeScale (show stripe / p.rangeScale + 1 ≤ r.end_ by omega)
      omega
    · refine ⟨o % (outSize1 / ngroups), y * outSize3 + x, hi, hs4, hs5, ?_⟩
      rw [hs3]; exact haddr
  rw [(hU _).1 hmem, haddr]
  unfold ParallelConv.finalVal
  rw [outVal_addr p _ _ _ hi hofs]
  have hch : ((n * ngroups + o / (outSize1 / ngroups)) * p.outPlaneSize * p.outCn +
      o % (outSize1 / ngroups) * p.outPlaneSize + (y * outSize3 + x)) / p.outPlaneSize / p.outCn %
        p.ngroups_ * p.outCn +
      ((n * ngroups + o / (outSize1 / ngroups)) * p.outPlaneSize * p.outCn +
        o % (outSize1 / ngroups) * p.outPlaneSize + (y * outSize3 + x)) / p.outPlaneSize %
        p.outCn = o := by
    have e : (n * ngroups + o / (outSize1 / ngroups)) * p.outPlaneSize * p.outCn +
        o % (outSize1 / ngroups) * p.outPlaneSize + (y * outSize3 + x) =
        ((n * ngroups + o / (outSize1 / ngroups)) * p.outCn + o % (outSize1 / ngroups)) *
          p.outPlaneSize + (y * outSize3 + x) := by ring
    rw [e, enc_div _ _ hofs, enc_div _ _ (show o % (outSize1 / ngroups) < p.outCn from hi),
      enc_mod _ _ (show o % (outSize1 / ngroups) < p.outCn from hi)]
    show (n * ngroups + o / (outSize1 / ngroups)) % ngroups * (outSize1 / ngroups) +
      o % (outSize1 / ngroups) = o
    rw [enc_mod _ _ hg]
    exact hoe.symm
  rw [hch]
  have := stripeVal_eq_convRef input outSize0 outSize1 outSize2 outSize3 weights bias kernel pad
    stride dilation ngroups nstripes simd hbias hC hO n (o / (outSize1 / ngroups))
    (o % (outSize1 / ngroups)) y x hg hi hx
  rw [← hoe] at this
  rw [← this]
  rfl

/-- The members that `ParallelConv::run` sets up meet the conditions under which the work
on a stripe is analysed. -/
theorem setup_ok (input : Mat4) (outSize0 outSize1 outSize2 outSize3 : Nat)
    (weights : Mat2) (bias : List ℚ) (kernel pad stride dilation : Size)
    (ngroups nstripes : Nat) (activ : Option (Nat → ℚ → ℚ)) (simd : Bool)
    (hrows : weights.rows = outSize1)
    (hcols : weights.cols = input.size1 / ngroups * kernel.width * kernel.height)
    (hC : input.size1 % ngroups = 0) (hO : outSize1 % ngroups = 0)
    (hCpos : 1 ≤ input.size1) (hpad : simd = true → weights.ZeroPadded) :
    (ParallelConv.setup input outSize0 outSize1 outSize2 outSize3 weights bias kernel pad stride
      dilation ngroups nstripes activ simd).OfstabOK
        (min (ParallelConv.setup input outSize0 outSize1 outSize2 outSize3 weights bias kernel pad
          stride dilation ngroups nstripes activ simd).inpCn BLK_SIZE_CN) ∧
    ((ParallelConv.setup input outSize0 outSize1 outSize2 outSize3 weights bias kernel pad stride
      dilation ngroups nstripes activ simd).is1x1_ = true →
      (ParallelConv.setup input outSize0 outSize1 outSize2 outSize3 weights bias kernel pad stride
        dilation ngroups nstripes activ simd).karea = 0) ∧
    1 ≤ (ParallelConv.setup input outSize0 outSize1 outSize2 outSize3 weights bias kernel pad
      stride dilation ngroups nstripes activ simd).inpCn ∧
    ((ParallelConv.setup input outSize0 outSize1 outSize2 outSize3 weights bias kernel pad stride
      dilation ngroups nstripes activ simd).simd = true →
      (ParallelConv.setup input outSize0 outSize1 outSize2 outSize3 weights bias kernel pad stride
        dilation ngroups nstripes activ simd).WeightsPadded) := by
  set p := ParallelConv.setup input outSize0 outSize1 outSize2 outSize3 weights bias kernel pad
    stride dilation ngroups nstripes activ simd with hp
  have hC' : input.size1 = ngroups * (input.size1 / ngroups) := by
    have := Nat.div_add_mod input.size1 ngroups
    omega
  have hO' : outSize1 = ngroups * (outSize1 / ngroups) := by
    have := Nat.div_add_mod outSize1 ngroups
    omega
  have hinp : p.inpCn = input.size1 / ngroups := rfl
  have houtCn : p.outCn = outSize1 / ngroups := rfl
  have hcn : 1 ≤ p.inpCn := by
    rw [hinp]
    rcases Nat.eq_zero_or_pos (input.size1 / ngroups) with h | h
    · rw [h] at hC'; omega
    · exact h
  have hof : p.OfstabOK (min p.inpCn BLK_SIZE_CN) := by
    intro k i j hk hi hj
    exact makeOfstab_spec kernel dilation (min (input.size1 / ngroups) BLK_SIZE_CN)
      input.size2 input.size3 k i j hk hi hj
  have his : p.is1x1_ = true → p.karea = 0 := by
    intro h
    have h' : kernel = Size.mk 0 0 ∧ pad = Size.mk 0 0 := by
      simpa [hp, ParallelConv.setup] using h
    show kernel.width * kernel.height = 0
    rw [h'.1]
    rfl
  have hpadp : p.simd = true → p.WeightsPadded := by
    intro hs
    obtain ⟨w1, w2, w3⟩ := hpad hs
    have hk : p.inpCn * p.karea = weights.cols := by
      rw [hcols]
      show input.size1 / ngroups * (kernel.width * kernel.height) = _
      ring
    refine ⟨by rw [hk]; exact w1, w2, ?_⟩
    intro o1 k ho1 h1 h2
    rw [hk] at h1
    have hrw : p.ngroups_ * p.outCn = outSize1 := by
      show ngroups * (outSize1 / ngroups) = outSize1
      omega
    exact w3 o1 k (by rw [hrows]; omega) h1 h2
  exact ⟨hof, his, hcn, hpadp⟩

/-- C24: when an activation `f` is passed to `ParallelConv::run` (on which its assertion
and the preconditions of `forward` hold), then for every stripe count `nstripes ≥ 1` and
every split and order of the stripes the final value of every output element
`output[n][o][y][x]` is `f` applied, with the output channel `o`, once to the fully
accumulated convolution result `convRef` of that element; and the work on one stripe
leaves `f` of the accumulated value on the addresses of that stripe and changes no other
address of the output. -/
theorem run_applies_activation (input : Mat4) (outSize0 outSize1 outSize2 outSize3 : Nat)
    (out0 : Mem) (weights : Mat2) (bias : List ℚ) (kernel pad stride dilation : Size)
    (ngroups nstripes : Nat) (f : Nat → ℚ → ℚ) (simd : Bool) (scratch : Mem)
    (sched : List Range)
    (hN : input.size0 = outSize0) (hrows : weights.rows = outSize1)
    (hcols : weights.cols = input.size1 / ngroups * kernel.width * kernel.height)
    (hbias : bias.isEmpty ∨ bias.length = outSize1)
    (hG : 1 ≤ ngroups) (hC : input.size1 % ngroups = 0) (hO : outSize1 % ngroups = 0)
    (hCpos : 1 ≤ input.size1)
    (hdh : 1 ≤ dilation.height) (hdw : 1 ≤ dilation.width)
    (hns : 1 ≤ nstripes) (hsched : ParallelConv.IsSplit sched nstripes)
    (hpad : simd = true → weights.ZeroPadded) :
    (∃ out, ParallelConv.run input outSize0 outSize1 outSize2 outSize3 out0 weights bias kernel
        pad stride dilation ngroups nstripes (some f) simd scratch sched = some out ∧
      ∀ n o y x, n < outSize0 → o < outSize1 → y < outSize2 → x < outSize3 →
        out (outIndex outSize1 outSize2 outSize3 n o y x) =
          f o (convRef input weights bias kernel pad stride dilation ngroups outSize1 n o y x)) ∧
    (∀ stripe st,
      stripe / (ParallelConv.setup input outSize0 outSize1 outSize2 outSize3 weights bias kernel
          pad stride dilation ngroups nstripes (some f) simd).stripesPerSample <
        (ParallelConv.setup input outSize0 outSize1 outSize2 outSize3 weights bias kernel
          pad stride dilation ngroups nstripes (some f) simd).batchSize →
      ∃ st1, (ParallelConv.setup input outSize0 outSize1 outSize2 outSize3 weights bias kernel
          pad stride dilation ngroups nstripes (some f) simd).stripeBody stripe st = some st1 ∧
        ∀ a,
          (a ∈ (ParallelConv.setup input outSize0 outSize1 outSize2 outSize3 weights bias kernel
              pad stride dilation ngroups nstripes (some f) simd).stripeSet stripe →
            st1.2 a = (ParallelConv.setup input outSize0 outSize1 outSize2 outSize3 weights bias
              kernel pad stride dilation ngroups nstripes (some f) simd).finalVal a) ∧
          (a ∉ (ParallelConv.setup input outSize0 outSize1 outSize2 outSize3 weights bias kernel
              pad stride dilation ngroups nstripes (some f) simd).stripeSet stripe →
            st1.2 a = st.2 a)) := by
  constructor
  · exact run_final input outSize0 outSize1 outSize2 outSize3 out0 weights bias kernel pad
      stride dilation ngroups nstripes (some f) simd scratch sched hN hrows hcols hbias hG hC hO
      hCpos hdh hdw hns hsched hpad
  · intro stripe st hb
    obtain ⟨h1, h2, h3, h4⟩ := setup_ok input outSize0 outSize1 outSize2 outSize3 weights bias
      kernel pad stride dilation ngroups nstripes (some f) simd hrows hcols hC hO hCpos hpad
    obtain ⟨st1, e, hU⟩ := stripeBody_final _ stripe st hdh hdw h1 h2 h3 hG h4 hb
    exact ⟨st1, e, hU⟩

theorem run_applies_activation_witness :
    ∃ out, ParallelConv.run exInput 1 1 3 3 (fun _ => 555) exWeights [] ⟨3, 3⟩ ⟨1, 1⟩ ⟨1, 1⟩
        ⟨1, 1⟩ 1 4 (some (fun _ v => max v 0)) true (fun _ => 999) [⟨2, 4⟩, ⟨0, 2⟩] = some out ∧
      ∀ n o y x, n < 1 → o < 1 → y < 3 → x < 3 →
        out (outIndex 1 3 3 n o y x) =
          (fun (_ : Nat) (v : ℚ) => max v 0) o
            (convRef exInput exWeights [] ⟨3, 3⟩ ⟨1, 1⟩ ⟨1, 1⟩ ⟨1, 1⟩ 1 1 n o y x) :=
  (run_applies_activation exInput 1 1 3 3 (fun _ => 555) exWeights [] ⟨3, 3⟩ ⟨1, 1⟩ ⟨1, 1⟩
    ⟨1, 1⟩ 1 4 (fun _ v => max v 0) true (fun _ => 999) [⟨2, 4⟩, ⟨0, 2⟩] rfl rfl rfl
    (Or.inl rfl) (by decide) (by decide) (by decide) (by decide) (by decide) (by decide)
    (by decide) isSplit_example (fun _ => exWeights_padded)).1

/-- C30: for every input tensor, weights, bias, activation and stripe count `≥ 1` (on
which the assertion of `ParallelConv::run` and the preconditions of `forward` hold), the
elements of the output tensor after `ParallelConv::run` do not depend on what the output
memory (or the row buffer) held before the call, whatever the number of input channels
per group, also beyond `BLK_SIZE_CN = 64`, and whatever the split and order of the
stripes. -/
theorem run_ignores_prior_output (input : Mat4) (outSize0 outSize1 outSize2 outSize3 : Nat)
    (out0 out1 : Mem) (weights : Mat2) (bias : List ℚ) (kernel pad stride dilation : Size)
    (ngroups nstripes : Nat) (activ : Option (Nat → ℚ → ℚ)) (simd : Bool)
    (scratch0 scratch1 : Mem) (sched0 sched1 : List Range)
    (hN : input.size0 = outSize0) (hrows : weights.rows = outSize1)
    (hcols : weights.cols = input.size1 / ngroups * kernel.width * kernel.height)
    (hbias : bias.isEmpty ∨ bias.length = outSize1)
    (hG : 1 ≤ ngroups) (hC : input.size1 % ngroups = 0) (hO : outSize1 % ngroups = 0)
    (hCpos : 1 ≤ input.size1)
    (hdh : 1 ≤ dilation.height) (hdw : 1 ≤ dilation.width)
    (hns : 1 ≤ nstripes) (hsched0 : ParallelConv.IsSplit sched0 nstripes)
    (hsched1 : ParallelConv.IsSplit sched1 nstripes)
    (hpad : simd = true → weights.ZeroPadded) :
    ∃ r0 r1,
      ParallelConv.run input outSize0 outSize1 outSize2 outSize3 out0 weights bias kernel
        pad stride dilation ngroups nstripes activ simd scratch0 sched0 = some r0 ∧
      ParallelConv.run input outSize0 outSize1 outSize2 outSize3 out1 weights bias kernel
        pad stride dilation ngroups nstripes activ simd scratch1 sched1 = some r1 ∧
      ∀ n o y x, n < outSize0 → o < outSize1 → y < outSize2 → x < outSize3 →
        r0 (outIndex outSize1 outSize2 outSize3 n o y x) =
          r1 (outIndex outSize1 outSize2 outSize3 n o y x) := by
  obtain ⟨r0, e0, h0⟩ := run_final input outSize0 outSize1 outSize2 outSize3 out0 weights bias
    kernel pad stride dilation ngroups nstripes activ simd scratch0 sched0 hN hrows hcols hbias
    hG hC hO hCpos hdh hdw hns hsched0 hpad
  obtain ⟨r1, e1, h1⟩ := run_final input outSize0 outSize1 outSize2 outSize3 out1 weights bias
    kernel pad stride dilation ngroups nstripes activ simd scratch1 sched1 hN hrows hcols hbias
    hG hC hO hCpos hdh hdw hns hsched1 hpad
  refine ⟨r0, r1, e0, e1, ?_⟩
  intro n o y x hn ho hy hx
  rw [h0 n o y x hn ho hy hx, h1 n o y x hn ho hy hx]

theorem run_ignores_prior_output_witness :
    ∃ r0 r1,
      ParallelConv.run exDeepInput 1 1 1 1 (fun _ => 555) exDeepWeights [] ⟨1, 1⟩ ⟨0, 0⟩ ⟨1, 1⟩
        ⟨1, 1⟩ 1 4 none false (fun _ => 999) [⟨2, 4⟩, ⟨0, 2⟩] = some r0 ∧
      ParallelConv.run exDeepInput 1 1 1 1 (fun _ => 0) exDeepWeights [] ⟨1, 1⟩ ⟨0, 0⟩ ⟨1, 1⟩
        ⟨1, 1⟩ 1 4 none false (fun _ => 0) [⟨2, 4⟩, ⟨0, 2⟩] = some r1 ∧
      ∀ n o y x, n < 1 → o < 1 → y < 1 → x < 1 →
        r0 (outIndex 1 1 1 n o y x) = r1 (outIndex 1 1 1 n o y x) :=
  run_ignores_prior_output exDeepInput 1 1 1 1 (fun _ => 555) (fun _ => 0) exDeepWeights []
    ⟨1, 1⟩ ⟨0, 0⟩ ⟨1, 1⟩ ⟨1, 1⟩ 1 4 none false (fun _ => 999) (fun _ => 0) [⟨2, 4⟩, ⟨0, 2⟩]
    [⟨2, 4⟩, ⟨0, 2⟩] rfl rfl (by decide) (Or.inl rfl) (by decide) (by decide) (by decide)
    (by decide) (by decide) (by decide) (by decide) isSplit_example isSplit_example
    (fun h => absurd h (by decide))

set_option maxRecDepth 100000 in
/-- C25 fails as stated for the bias of the convolution layer: after a first `forward`
of a layer with zero weights and the bias `[5, 7]`, which gives the output `[5, 7]`, a second
`forward` on the returned layer whose bias blob has been replaced by `[1, 1]` gives
`[1, 1]`, the replaced bias, not the bias of the first call. -/
theorem conv_bias_counterexample :
    (exZeroLayer.forward exUnitInput 1 2 1 1 (fun _ => 0) 1 false (fun _ => 0) [⟨0, 1⟩]).map
        (fun r => (List.range 2).map r.2) = some [5, 7] ∧
    ((exZeroLayer.forward exUnitInput 1 2 1 1 (fun _ => 0) 1 false (fun _ => 0) [⟨0, 1⟩]).bind
        (fun r => ({ r.1 with blobs := [⟨2, 1, 1, 1, fun _ => 0⟩, exOnesBlob] } :
          ConvolutionLayerImpl).forward exUnitInput 1 2 1 1 (fun _ => 0) 1 false (fun _ => 0)
            [⟨0, 1⟩])).map (fun r => (List.range 2).map r.2) = some [1, 1] := by
  constructor <;> decide!

/-- C25 (amended): the prepared weight matrix of both layers is derived on the first
`forward` call only.  A `forward` call returns the layer with the cached weight matrix that
it used; a later call on that layer, also with the raw blobs replaced, leaves the cached
matrix in place and uses it.  The convolution layer takes the bias of that later call from
the bias blob the layer has then; the deconvolution layer also caches the bias matrix of
the first call, and with blobs of the same shape its later call gives what it gives
without the replacement. -/
theorem weights_cached :
    (∀ (l : ConvolutionLayerImpl) (b0 : Blob) (rest : List Blob) (input : Mat4)
        (outSize0 outSize1 outSize2 outSize3 : Nat) (out0 : Mem) (numThreads : Nat)
        (simd : Bool) (scratch : Mem) (sched : List Range) (l1 : ConvolutionLayerImpl)
        (out1 : Mem),
      l.blobs = b0 :: rest →
      l.forward input outSize0 outSize1 outSize2 outSize3 out0 numThreads simd scratch sched =
        some (l1, out1) →
      l1.weightsMat = some (l.usedWeights b0) ∧
      ∀ (c0 : Blob) (rest1 : List Blob) (input2 : Mat4) (p0 p1 p2 p3 : Nat) (out2 : Mem)
          (numThreads2 : Nat) (simd2 : Bool) (scratch2 : Mem) (sched2 : List Range),
        ({ l1 with blobs := c0 :: rest1 } : ConvolutionLayerImpl).forward input2 p0 p1 p2 p3
            out2 numThreads2 simd2 scratch2 sched2 =
          if c0.size1 ≠ 0 ∧ input2.size1 % c0.size1 = 0 then
            if input2.size1 / c0.size1 ≠ 0 ∧ p1 % (input2.size1 / c0.size1) = 0 then
              (ParallelConv.run input2 p0 p1 p2 p3 out2 (l.usedWeights b0)
                (ConvolutionLayerImpl.biasList rest1) l.kernel l.pad l.stride l.dilation
                (input2.size1 / c0.size1) (max numThreads2 1) l.activ simd2 scratch2
                sched2).map
                (fun out => (({ l1 with blobs := c0 :: rest1 } : ConvolutionLayerImpl), out))
            else none
          else none) ∧
    (∀ (l : DeConvolutionLayerImpl) (b0 : Blob) (rest : List Blob) (input : Mat4)
        (outSize0 outSize1 outSize2 outSize3 : Nat) (out0 : Mem) (internals0 : Mat2)
        (internals1 : Mem) (numThreads : Nat) (simd : Bool)
        (schedMM schedCol : Nat → Nat → List Range) (l1 : DeConvolutionLayerImpl)
        (col i1 out1 : Mem),
      l.blobs = b0 :: rest →
      l.forward input outSize0 outSize1 outSize2 outSize3 out0 internals0 internals1 numThreads
        simd schedMM schedCol = some (l1, col, i1, out1) →
      l1.weightsMat = some (l.usedMats b0 rest input.size1).1 ∧
      l1.biasesMat = (l.usedMats b0 rest input.size1).2 ∧
      ∀ (c0 : Blob) (rest1 : List Blob) (input2 : Mat4) (p0 p1 p2 p3 : Nat) (out2 : Mem)
          (internals2 : Mat2) (internals3 : Mem) (numThreads2 : Nat) (simd2 : Bool)
          (schedMM2 schedCol2 : Nat → Nat → List Range),
        c0.size0 = b0.size0 → c0.size1 = b0.size1 → (rest1 = [] ↔ rest = []) →
        ({ l1 with blobs := c0 :: rest1 } : DeConvolutionLayerImpl).forward input2 p0 p1 p2 p3
            out2 internals2 internals3 numThreads2 simd2 schedMM2 schedCol2 =
          (l1.forward input2 p0 p1 p2 p3 out2 internals2 internals3 numThreads2 simd2 schedMM2
            schedCol2).map (fun r => ({ r.1 with blobs := c0 :: rest1 }, r.2))) := by
  constructor
  · intro l b0 rest input outSize0 outSize1 outSize2 outSize3 out0 numThreads simd scratch sched
      l1 out1 hblobs h
    rw [forward_eq l b0 rest input outSize0 outSize1 outSize2 outSize3 out0 numThreads simd
      scratch sched hblobs] at h
    have hl1 : l1 = { l with weightsMat := some (l.usedWeights b0) } := by
      split_ifs at h
      rw [Option.map_eq_some'] at h
      obtain ⟨out, _, e⟩ := h
      exact (congrArg Prod.fst e).symm
    subst hl1
    refine ⟨rfl, ?_⟩
    intro c0 rest1 input2 p0 p1 p2 p3 out2 numThreads2 simd2 scratch2 sched2
    exact forward_eq _ c0 rest1 input2 p0 p1 p2 p3 out2 numThreads2 simd2 scratch2 sched2 rfl
  · intro l b0 rest input outSize0 outSize1 outSize2 outSize3 out0 internals0 internals1
      numThreads simd schedMM schedCol l1 col i1 out1 hblobs h
    obtain ⟨blobs, kernel, pad, stride, dilation, adjustPad, weightsMat, biasesMat⟩ := l
    dsimp only at hblobs
    subst hblobs
    have hl1 : l1 =
        { (⟨b0 :: rest, kernel, pad, stride, dilation, adjustPad, weightsMat, biasesMat⟩ :
            DeConvolutionLayerImpl) with
          weightsMat := some (DeConvolutionLayerImpl.usedMats
            ⟨b0 :: rest, kernel, pad, stride, dilation, adjustPad, weightsMat, biasesMat⟩ b0 rest
            input.size1).1
          biasesMat := (DeConvolutionLayerImpl.usedMats
            ⟨b0 :: rest, kernel, pad, stride, dilation, adjustPad, weightsMat, biasesMat⟩ b0 rest
            input.size1).2 } := by
      unfold DeConvolutionLayerImpl.forward at h
      dsimp only at h
      split_ifs at h <;>
        (have e := congrArg Prod.fst (Option.some.inj h)
         refine e.symm.trans ?_
         unfold DeConvolutionLayerImpl.usedMats
         cases weightsMat <;> rfl)
    subst hl1
    refine ⟨rfl, rfl, ?_⟩
    intro c0 rest1 input2 p0 p1 p2 p3 out2 internals2 internals3 numThreads2 simd2 schedMM2
      schedCol2 h0 h1 hr
    have hlen : decide ((c0 :: rest1).length ≥ 2) = decide ((b0 :: rest).length ≥ 2) := by
      cases rest1 with
      | nil => simp [hr.1 rfl]
      | cons a t =>
        cases rest with
        | nil => exact absurd (hr.2 rfl) (by simp)
        | cons a1 t1 => simp
    unfold DeConvolutionLayerImpl.forward
    simp only [DeConvolutionLayerImpl.hasBias, hlen, h0, h1]
    split_ifs <;> rfl

theorem weights_cached_witness :
    ∃ l1 out1, exZeroLayer.forward exUnitInput 1 2 1 1 (fun _ => 0) 1 false (fun _ => 0)
        [⟨0, 1⟩] = some (l1, out1) ∧
      l1.weightsMat = some (exZeroLayer.usedWeights ⟨2, 1, 1, 1, fun _ => 0⟩) := by
  have h : (exZeroLayer.forward exUnitInput 1 2 1 1 (fun _ => 0) 1 false (fun _ => 0)
      [⟨0, 1⟩]).isSome = true := by decide!
  obtain ⟨⟨l1, out1⟩, h⟩ := Option.isSome_iff_exists.1 h
  exact ⟨l1, out1, h, (weights_cached.1 exZeroLayer ⟨2, 1, 1, 1, fun _ => 0⟩
    [⟨2, 1, 1, 1, fun a => if a = 0 then 5 else 7⟩] exUnitInput 1 2 1 1 (fun _ => 0) 1 false
    (fun _ => 0) [⟨0, 1⟩] l1 out1 rfl h).1⟩

/-- The body of `Col2ImInvoker` on the range `r` writes the image only at the flat
indices of the range, on both paths. -/
theorem col2im_call_frame (t : Col2ImInvoker) (r : Range) (im : Mem) (a : Nat)
    (ha : ∀ idx, r.start * t.stripeSize ≤ idx →
      idx < min (r.end_ * t.stripeSize) (t.channels * t.height * t.width) →
      a ≠ t.data_im + idx) :
    t.call r im a = im a := by
  unfold Col2ImInvoker.call
  refine forStep_one_pres (fun st : Col2ImLocals × Mem => st.2 a = im a) _ _ t.step
    (t.locals _, im) rfl ?_
  intro idx h1 h2 acc hacc
  have hne := ha idx h1 h2
  have hstep : (t.step idx acc).2 = store acc.2 (t.data_im + idx)
      ((if t.is1x1 then acc.2 (t.data_im + idx)
        else
          forInt acc.1.h_col_start acc.1.h_col_end (fun h_col val =>
            forInt (if acc.1.w < t.kernel_w then 0
                else (((acc.1.w - t.kernel_w) / t.stride_w + 1 : Nat) : Int))
              (min (((acc.1.w / t.stride_w + 1 : Nat) : Int)) t.width_col) (fun w_col val =>
              val + t.data_col (acc.1.offset +
                h_col * ((1 - (t.stride_h : Int) * t.kernel_w * t.height_col) * t.width_col) +
                w_col * (1 - (t.stride_w : Int) * t.height_col * t.width_col)).toNat) val) 0) +
        t.biasvec acc.1.c) := by
    unfold Col2ImInvoker.step
    dsimp only
    split_ifs <;> rfl
  show (t.step idx acc).2 a = im a
  rw [hstep]
  unfold store
  rw [if_neg hne]
  exact hacc

/-- C26: for every stripe count `nstripes ≥ 1` and `total = channels*height*width`, the
stripes `[r*stripeSize, min((r+1)*stripeSize, total))` of `Col2ImInvoker`, with
`stripeSize = ceil(total/nstripes)`, are such that every flat index below `total` lies in
the range of exactly one stripe `r < nstripes` (the ranges are pairwise disjoint and
cover `[0, total)` once), and the body run on stripe `r` changes `data_im` at no index
outside the range of `r`, on the general and on the 1x1 path. -/
theorem col2im_stripes (t : Col2ImInvoker) (hnst : 1 ≤ t.nstripes) :
    t.stripeSize = specCeil (t.channels * t.height * t.width) t.nstripes ∧
    (∀ idx, idx < t.channels * t.height * t.width → ∃ r, r < t.nstripes ∧ t.inStripe r idx ∧
      ∀ r1, t.inStripe r1 idx → r1 = r) ∧
    (∀ r1 r2 idx, t.inStripe r1 idx → t.inStripe r2 idx → r1 = r2) ∧
    (∀ r im a, (∀ idx, t.inStripe r idx → a ≠ t.data_im + idx) →
      t.call ⟨r, r + 1⟩ im a = im a) := by
  have huniq : ∀ r n, t.inStripe r n → r = n / t.stripeSize := by
    intro r n ⟨h1, h2⟩
    have h3 : n < (r + 1) * t.stripeSize := lt_of_lt_of_le h2 (Nat.min_le_left _ _)
    have e : n = r * t.stripeSize + (n - r * t.stripeSize) := by omega
    have hlt : n - r * t.stripeSize < t.stripeSize := by
      have : (r + 1) * t.stripeSize = r * t.stripeSize + t.stripeSize := by ring
      omega
    rw [e, enc_div _ _ hlt]
  refine ⟨?_, ?_, ?_, ?_⟩
  · unfold Col2ImInvoker.stripeSize
    rw [specCeil_eq]
  · intro idx hidx
    have h2 := div_mul_bounds (t.channels * t.height * t.width + t.nstripes - 1) t.nstripes hnst
    have h3 : (t.stripeSize + 1) * t.nstripes = t.stripeSize * t.nstripes + t.nstripes := by ring
    have hpos : 1 ≤ t.stripeSize := by
      unfold Col2ImInvoker.stripeSize
      rw [Nat.one_le_div_iff hnst]; omega
    have hcov : t.channels * t.height * t.width ≤ t.nstripes * t.stripeSize := by
      have h2' : t.channels * t.height * t.width + t.nstripes - 1 <
          (t.stripeSize + 1) * t.nstripes := h2.2
      rw [Nat.mul_comm t.nstripes]
      omega
    have hb := div_mul_bounds idx t.stripeSize hpos
    refine ⟨idx / t.stripeSize, ?_, ⟨hb.1, lt_min hb.2 hidx⟩, fun r1 h => huniq r1 idx h⟩
    rw [Nat.div_lt_iff_lt_mul (by omega)]
    omega
  · intro r1 r2 n h1 h2
    rw [huniq r1 n h1, huniq r2 n h2]
  · intro r im a ha
    apply col2im_call_frame
    intro idx h1 h2
    exact ha idx ⟨h1, h2⟩

theorem col2im_stripes_witness :
    exCol2Im.stripeSize = specCeil (exCol2Im.channels * exCol2Im.height * exCol2Im.width)
      exCol2Im.nstripes ∧
    (∀ idx, idx < exCol2Im.channels * exCol2Im.height * exCol2Im.width →
      ∃ r, r < exCol2Im.nstripes ∧ exCol2Im.inStripe r idx ∧
        ∀ r1, exCol2Im.inStripe r1 idx → r1 = r) ∧
    (∀ r1 r2 idx, exCol2Im.inStripe r1 idx → exCol2Im.inStripe r2 idx → r1 = r2) ∧
    (∀ r im a, (∀ idx, exCol2Im.inStripe r idx → a ≠ exCol2Im.data_im + idx) →
      exCol2Im.call ⟨r, r + 1⟩ im a = im a) :=
  col2im_stripes exCol2Im (by decide)

/-- With a negative `height_col` or `width_col` the general path runs no iteration of
its two loops. -/
theorem col2im_val_neg (t : Col2ImInvoker) (index : Nat)
    (h : t.height_col < 0 ∨ t.width_col < 0) : t.val index = 0 := by
  unfold Col2ImInvoker.val
  dsimp only
  rw [forInt_sum2]
  rcases h with h | h
  · have h0 : (0 : Int) ≤ (t.locals index).h_col_start := by
      unfold Col2ImInvoker.locals
      dsimp only
      split_ifs
      · exact le_refl _
      · exact Int.natCast_nonneg _
    have h1 : (t.locals index).h_col_end ≤ t.height_col := by
      unfold Col2ImInvoker.locals
      dsimp only
      exact min_le_right _ _
    have e : ((t.locals index).h_col_end - (t.locals index).h_col_start).toNat = 0 := by
      apply Int.toNat_eq_zero.2
      omega
    rw [e, Finset.sum_range_zero]
  · have h0 : (0 : Int) ≤ (if (t.locals index).w < t.kernel_w then (0 : Int)
        else ((((t.locals index).w - t.kernel_w) / t.stride_w + 1 : Nat) : Int)) := by
      split_ifs
      · exact le_refl _
      · exact Int.natCast_nonneg _
    have h1 : min ((((t.locals index).w / t.stride_w + 1 : Nat) : Int)) t.width_col ≤
        t.width_col := min_le_right _ _
    have e : (min ((((t.locals index).w / t.stride_w + 1 : Nat) : Int)) t.width_col -
        (if (t.locals index).w < t.kernel_w then (0 : Int)
          else ((((t.locals index).w - t.kernel_w) / t.stride_w + 1 : Nat) : Int))).toNat = 0 := by
      apply Int.toNat_eq_zero.2
      omega
    rw [e]
    simp

/-- The sum of the general path at the flat index of `(c, h, w)`, as the sum over the
windows `(h_col, w_col)` that overlap the destination. -/
theorem col2im_val_windows (t : Col2ImInvoker) (c h w : Nat)
    (hh : h < t.height) (hw : w < t.width)
    (hsh : 1 ≤ t.stride_h) (hsw : 1 ≤ t.stride_w) :
    t.val ((c * t.height + h) * t.width + w) =
      ∑ h_col in Finset.range t.height_col.toNat, ∑ w_col in Finset.range t.width_col.toNat,
        if (h_col * t.stride_h ≤ h + t.pad_h ∧ h + t.pad_h - h_col * t.stride_h < t.kernel_h) ∧
            (w_col * t.stride_w ≤ w + t.pad_w ∧ w + t.pad_w - w_col * t.stride_w < t.kernel_w)
        then t.data_col (((c * t.kernel_h + (h + t.pad_h - h_col * t.stride_h)) * t.kernel_w +
            (w + t.pad_w - w_col * t.stride_w)) * (t.height_col.toNat * t.width_col.toNat) +
          (h_col * t.width_col.toNat + w_col))
        else 0 := by
  by_cases hneg : t.height_col < 0 ∨ t.width_col < 0
  · rw [col2im_val_neg t _ hneg]
    rcases hneg with h1 | h1
    · rw [Int.toNat_eq_zero.2 (le_of_lt h1), Finset.sum_range_zero]
    · rw [Int.toNat_eq_zero.2 (le_of_lt h1)]
      simp
  · have hH : t.height_col = ((t.height_col.toNat : Nat) : Int) :=
      (Int.toNat_of_nonneg (by omega)).symm
    have hW : t.width_col = ((t.width_col.toNat : Nat) : Int) :=
      (Int.toNat_of_nonneg (by omega)).symm
    obtain ⟨d1, d2, d3⟩ := decode_idx t.height t.width c h w hh hw
    have el : (t.locals ((c * t.height + h) * t.width + w)).h = h + t.pad_h ∧
        (t.locals ((c * t.height + h) * t.width + w)).w = w + t.pad_w ∧
        (t.locals ((c * t.height + h) * t.width + w)).c = c := by
      unfold Col2ImInvoker.locals
      dsimp only
      rw [d1, d2, d3]
      exact ⟨rfl, rfl, rfl⟩
    rw [col2im_val t _ _ _ hH hW hsh hsw, el.1, el.2.1, el.2.2]
    apply Finset.sum_congr rfl
    intro y _
    apply Finset.sum_congr rfl
    intro x _
    exact sum_tap2 t.kernel_h t.kernel_w (y * t.stride_h) (x * t.stride_w) (h + t.pad_h)
      (w + t.pad_w) (fun i j => t.data_col (((c * t.kernel_h + i) * t.kernel_w + j) *
        (t.height_col.toNat * t.width_col.toNat) + (y * t.width_col.toNat + x)))

/-- C27: over exact arithmetic, on the general path (`is1x1` false, strides `≥ 1`, at
least one stripe, whatever split and order of the stripes), `Col2ImInvoker::run` leaves
for every destination `(c, h, w)` in `data_im[(c*H+h)*W+w]` the bias `biasvec[c]` plus the
sum, over exactly the windows `(h_col, w_col)` of `[0,height_col) x [0,width_col)` with
`0 ≤ h+pad_h-h_col*stride_h < kernel_h` and `0 ≤ w+pad_w-w_col*stride_w < kernel_w`, of the
element of the column matrix in row `(c*kernel_h + (h+pad_h-h_col*stride_h))*kernel_w +
(w+pad_w-w_col*stride_w)` and column `h_col*width_col + w_col`. -/
theorem col2im_sums_windows (data_col : Mem) (channels height width kernel_h kernel_w pad_h
    pad_w stride_h stride_w : Nat) (data_im : Nat) (biasvec : Mem) (numThreads : Nat)
    (sched : List Range) (im : Mem)
    (hsh : 1 ≤ stride_h) (hsw : 1 ≤ stride_w) (hnst : 1 ≤ numThreads)
    (hs : ParallelConv.IsSplit sched numThreads) :
    ∀ c h w, c < channels → h < height → w < width →
      Col2ImInvoker.run data_col channels height width kernel_h kernel_w pad_h pad_w stride_h
          stride_w data_im biasvec false numThreads sched im
          (data_im + ((c * height + h) * width + w)) =
        biasvec c +
          ∑ h_col in Finset.range
              (((height : Int) + 2 * pad_h - kernel_h).tdiv stride_h + 1).toNat,
            ∑ w_col in Finset.range
                (((width : Int) + 2 * pad_w - kernel_w).tdiv stride_w + 1).toNat,
              if (h_col * stride_h ≤ h + pad_h ∧ h + pad_h - h_col * stride_h < kernel_h) ∧
                  (w_col * stride_w ≤ w + pad_w ∧ w + pad_w - w_col * stride_w < kernel_w)
              then data_col (((c * kernel_h + (h + pad_h - h_col * stride_h)) * kernel_w +
                  (w + pad_w - w_col * stride_w)) *
                  ((((height : Int) + 2 * pad_h - kernel_h).tdiv stride_h + 1).toNat *
                    (((width : Int) + 2 * pad_w - kernel_w).tdiv stride_w + 1).toNat) +
                (h_col * (((width : Int) + 2 * pad_w - kernel_w).tdiv stride_w + 1).toNat +
                  w_col))
              else 0 := by
  intro c h w hc hh hw
  unfold Col2ImInvoker.run
  have hU := col2im_spec
    { data_col := data_col, biasvec := biasvec, channels := channels, height := height,
      width := width, kernel_h := kernel_h, kernel_w := kernel_w, pad_h := pad_h,
      pad_w := pad_w, stride_h := stride_h, stride_w := stride_w, data_im := data_im,
      height_col := ((height : Int) + 2 * pad_h - kernel_h).tdiv stride_h + 1,
      width_col := ((width : Int) + 2 * pad_w - kernel_w).tdiv stride_w + 1,
      nstripes := numThreads, is1x1 := false } sched im rfl hs hnst
  have hidx : (c * height + h) * width + w < channels * height * width :=
    enc_lt (enc_lt hc hh) hw
  rw [(hU _).1 ⟨_, hidx, rfl⟩]
  unfold Col2ImInvoker.imVal
  dsimp only
  rw [Nat.add_sub_cancel_left]
  have hv := col2im_val_windows
    { data_col := data_col, biasvec := biasvec, channels := channels, height := height,
      width := width, kernel_h := kernel_h, kernel_w := kernel_w, pad_h := pad_h,
      pad_w := pad_w, stride_h := stride_h, stride_w := stride_w, data_im := data_im,
      height_col := ((height : Int) + 2 * pad_h - kernel_h).tdiv stride_h + 1,
      width_col := ((width : Int) + 2 * pad_w - kernel_w).tdiv stride_w + 1,
      nstripes := numThreads, is1x1 := false } c h w hh hw hsh hsw
  rw [hv]
  obtain ⟨d1, _, _⟩ := decode_idx height width c h w hh hw
  have ec : (Col2ImInvoker.locals
    { data_col := data_col, biasvec := biasvec, channels := channels, height := height,
      width := width, kernel_h := kernel_h, kernel_w := kernel_w, pad_h := pad_h,
      pad_w := pad_w, stride_h := stride_h, stride_w := stride_w, data_im := data_im,
      height_col := ((height : Int) + 2 * pad_h - kernel_h).tdiv stride_h + 1,
      width_col := ((width : Int) + 2 * pad_w - kernel_w).tdiv stride_w + 1,
      nstripes := numThreads, is1x1 := false } ((c * height + h) * width + w)).c = c := d1
  rw [ec, add_comm]

theorem col2im_sums_windows_witness :
    Col2ImInvoker.run (fun _ => 5) 1 2 2 2 2 0 0 2 2 0 (fun _ => 1) false 2
        [⟨1, 2⟩, ⟨0, 1⟩] (fun _ => 0) (0 + ((0 * 2 + 1) * 2 + 1)) =
      (fun _ => (1 : ℚ)) 0 +
        ∑ h_col in Finset.range
            ((((2 : Nat) : Int) + 2 * (0 : Nat) - (2 : Nat)).tdiv (2 : Nat) + 1).toNat,
          ∑ w_col in Finset.range
              ((((2 : Nat) : Int) + 2 * (0 : Nat) - (2 : Nat)).tdiv (2 : Nat) + 1).toNat,
            if (h_col * 2 ≤ 1 + 0 ∧ 1 + 0 - h_col * 2 < 2) ∧
                (w_col * 2 ≤ 1 + 0 ∧ 1 + 0 - w_col * 2 < 2)
            then (fun _ => (5 : ℚ)) (((0 * 2 + (1 + 0 - h_col * 2)) * 2 +
                (1 + 0 - w_col * 2)) *
                (((((2 : Nat) : Int) + 2 * (0 : Nat) - (2 : Nat)).tdiv (2 : Nat) + 1).toNat *
                  ((((2 : Nat) : Int) + 2 * (0 : Nat) - (2 : Nat)).tdiv (2 : Nat) + 1).toNat) +
              (h_col * ((((2 : Nat) : Int) + 2 * (0 : Nat) - (2 : Nat)).tdiv (2 : Nat) +
                1).toNat + w_col))
            else 0 :=
  col2im_sums_windows (fun _ => 5) 1 2 2 2 2 0 0 2 2 0 (fun _ => 1) 2 [⟨1, 2⟩, ⟨0, 1⟩]
    (fun _ => 0) (by decide) (by decide) (by decide) isSplit_two 0 1 1 (by decide) (by decide)
    (by decide)

/-- A body whose column range is empty leaves the memory as it is. -/
theorem matMul_call_empty (t : MatMulInvoker) (r : Range) (c : Mem)
    (h : min (r.end_ * alignSize ((t.b_.cols + t.nstripes_ - 1) / t.nstripes_) 16) t.b_.cols ≤
      r.start * alignSize ((t.b_.cols + t.nstripes_ - 1) / t.nstripes_) 16) :
    t.call r c = c := by
  unfold MatMulInvoker.call
  dsimp only
  have e : min (r.end_ * alignSize ((t.b_.cols + t.nstripes_ - 1) / t.nstripes_) 16) t.b_.cols -
      r.start * alignSize ((t.b_.cols + t.nstripes_ - 1) / t.nstripes_) 16 = 0 := by omega
  rw [e]
  refine forStep_inv (fun _ acc => acc = c) 0 t.a_.rows 2 _ c rfl ?_
  intro u _ acc hacc
  rw [hacc]
  unfold MatMulInvoker.rowPair
  dsimp only
  rw [forStep_empty 0 0 1 _ c (Nat.le_refl _) (Nat.le_refl _)]
  refine forStep_inv (fun _ acc => acc = c) 0 t.a_.cols 4 _ c rfl ?_
  intro k _ acc hacc
  rw [hacc]
  unfold MatMulInvoker.kStep
  dsimp only
  rw [forStep_empty _ 0 1 _ _ (Nat.zero_le _) (Nat.le_refl _)]
  cases t.simd
  · rfl
  · simp only [if_true]
    exact forStep_empty 0 (0 - 3) 4 _ c (by omega) (by omega)

/-- C28: over exact arithmetic, for every `A = a_`, `B = b_` and every stripe count
`nstripes ≥ 1`, once the parallel loop has run every stripe (in whatever split and order),
the element `(m, n)` of the result, whose rows are at least as long as those of `B`, is
the sum over `k < K` of `A[m][k]*B[k][n]`, for every `m < M` and `n < N`, whatever the
result held before and with or without the vector loop. -/
theorem matMul_product (t : MatMulInvoker) (sched : List Range) (c : Mem)
    (hnst : 1 ≤ t.nstripes_) (hs : ParallelConv.IsSplit sched t.nstripes_)
    (hcols : t.b_.cols ≤ t.cstep_) :
    ∀ m n, m < t.a_.rows → n < t.b_.cols →
      sched.foldl (fun c r => t.call r c) c (t.cptr_ + t.cstep_ * m + n) =
        ∑ k in Finset.range t.a_.cols,
          t.a_.data (m * t.a_.step1 + k) * t.b_.data (k * t.b_.step1 + n) := by
  intro m n hm hn
  rw [(matMul_spec t sched c hs hnst hcols).1 m n hm hn]
  unfold MatMulInvoker.psum
  apply Finset.sum_congr rfl
  intro k _
  rw [Nat.mul_comm t.a_.step1 m, Nat.zero_add]

theorem matMul_product_witness :
    [(⟨1, 2⟩ : Range), ⟨0, 1⟩].foldl (fun c r => exMatMul.call r c) (fun _ => 7)
        (exMatMul.cptr_ + exMatMul.cstep_ * 0 + 1) =
      ∑ k in Finset.range exMatMul.a_.cols,
        exMatMul.a_.data (0 * exMatMul.a_.step1 + k) *
          exMatMul.b_.data (k * exMatMul.b_.step1 + 1) :=
  matMul_product exMatMul [⟨1, 2⟩, ⟨0, 1⟩] (fun _ => 7) (by decide) isSplit_two (by decide)
    0 1 (by decide) (by decide)

/-- C29: for every stripe count `nstripes ≥ 1` the column ranges
`[r*stripeSize, min((r+1)*stripeSize, N))` of `MatMulInvoker`, with
`stripeSize = alignSize(ceil(N/nstripes), 16)`, are such that every column `n < N` lies in
the range of exactly one stripe `r < nstripes` (so the non-empty ranges are pairwise
disjoint and cover `[0, N)` once), every range starts at a multiple of 16, and a stripe
whose start lies at or beyond `N` leaves the result as it is. -/
theorem matMul_stripes (t : MatMulInvoker) (hnst : 1 ≤ t.nstripes_) :
    t.stripeSize = specRoundUp (specCeil t.b_.cols t.nstripes_) 16 ∧
    (∀ n, n < t.b_.cols → ∃ r, r < t.nstripes_ ∧ t.inStripe r n ∧
      ∀ r1, t.inStripe r1 n → r1 = r) ∧
    (∀ r1 r2 n, t.inStripe r1 n → t.inStripe r2 n → r1 = r2) ∧
    (∀ r, (r * t.stripeSize) % 16 = 0) ∧
    (∀ r c, t.b_.cols ≤ r * t.stripeSize → t.call ⟨r, r + 1⟩ c = c) := by
  have huniq : ∀ r n, t.inStripe r n → r = n / t.stripeSize := by
    intro r n ⟨h1, h2⟩
    have hpos : 0 < t.stripeSize := by
      rcases Nat.eq_zero_or_pos t.stripeSize with h | h
      · rw [h] at h2; simp at h2
      · exact h
    have h3 : n < (r + 1) * t.stripeSize := lt_of_lt_of_le h2 (Nat.min_le_left _ _)
    have e : n = r * t.stripeSize + (n - r * t.stripeSize) := by omega
    have hlt : n - r * t.stripeSize < t.stripeSize := by
      have : (r + 1) * t.stripeSize = r * t.stripeSize + t.stripeSize := by ring
      omega
    rw [e, enc_div _ _ hlt]
  refine ⟨?_, ?_, ?_, ?_, ?_⟩
  · unfold MatMulInvoker.stripeSize
    rw [specRoundUp_eq, specCeil_eq]
  · intro n hn
    obtain ⟨h1, h2⟩ := matMul_cover t.b_.cols t.nstripes_ n hn hnst
    have hb := div_mul_bounds n t.stripeSize h1
    refine ⟨n / t.stripeSize, h2, ⟨hb.1, ?_⟩, fun r1 h => huniq r1 n h⟩
    exact lt_min hb.2 hn
  · intro r1 r2 n h1 h2
    rw [huniq r1 n h1, huniq r2 n h2]
  · intro r
    unfold MatMulInvoker.stripeSize alignSize
    rw [← Nat.mul_assoc]
    exact Nat.mul_mod_left _ _
  · intro r c h
    apply matMul_call_empty
    show min ((r + 1) * t.stripeSize) t.b_.cols ≤ r * t.stripeSize
    exact le_trans (Nat.min_le_right _ _) h

theorem matMul_stripes_witness :
    exMatMul.stripeSize = specRoundUp (specCeil exMatMul.b_.cols exMatMul.nstripes_) 16 ∧
    (∀ n, n < exMatMul.b_.cols → ∃ r, r < exMatMul.nstripes_ ∧ exMatMul.inStripe r n ∧
      ∀ r1, exMatMul.inStripe r1 n → r1 = r) ∧
    (∀ r1 r2 n, exMatMul.inStripe r1 n → exMatMul.inStripe r2 n → r1 = r2) ∧
    (∀ r, (r * exMatMul.stripeSize) % 16 = 0) ∧
    (∀ r c, exMatMul.b_.cols ≤ r * exMatMul.stripeSize → exMatMul.call ⟨r, r + 1⟩ c = c) :=
  matMul_stripes exMatMul (by decide)

/-- C32 (code evaluated at the failing input): `ConvolutionLayerImpl::getMemoryShapes`
accepts the input shape `[1,3,5,5]` for the weight blob `[4,2,3,3]`: the group count is
`3 / 2 = 1` and line 180 only asks that `3 % 1 == 0` and `4 % 1 == 0`.  The 3 input
channels are not `ngroups * blobs[0].size[1] = 2`.  `forward` rejects the same input
(line 927), and so does `DeConvolutionLayerImpl::getMemoryShapes` (line 1016). -/
theorem getMemoryShapes_accepts_remainder :
    exPadLayer.getMemoryShapes noPadMode [[1, 3, 5, 5]] = some ([[1, 4, 3, 3]], []) ∧
    (3 : Int).tdiv 2 = 1 ∧ (3 : Int) ≠ (3 : Int).tdiv 2 * 2 ∧
    (exPadLayer.forward exThreeChannelInput 1 4 3 3 (fun _ => 0) 1 false (fun _ => 0)
      [⟨0, 1⟩]).isNone = true ∧
    exDeconvPadLayer.getMemoryShapes [[1, 3, 5, 5]] = none := by
  refine ⟨by decide, by decide, by decide, by decide, by decide⟩

/-- C33 (code evaluated at the failing input): for the input shape `[1,1,5,5]` and the
weight blob `[4,2,3,3]` the group count of `getMemoryShapes` is `1 / 2 = 0`, in the
convolution and in the deconvolution layer, so that the remainders of lines 180 and 1015
are taken by zero (the model returns `none` there). -/
theorem getMemoryShapes_zero_groups :
    (1 : Int).tdiv (((⟨4, 2, 3, 3, fun _ => 1⟩ : Blob).size1 : Nat) : Int) = 0 ∧
    exPadLayer.getMemoryShapes noPadMode [[1, 1, 5, 5]] = none ∧
    exDeconvPadLayer.getMemoryShapes [[1, 1, 5, 5]] = none := by
  refine ⟨by decide, by decide, by decide⟩

/-- `Col2ImInvoker::run` is the parallel loop over the invoker of `make`. -/
theorem run_eq_make (data_col : Mem) (channels height width kernel_h kernel_w pad_h pad_w
    stride_h stride_w : Nat) (data_im : Nat) (biasvec : Mem) (is1x1 : Bool)
    (numThreads : Nat) (sched : List Range) (im : Mem) :
    Col2ImInvoker.run data_col channels height width kernel_h kernel_w pad_h pad_w stride_h
        stride_w data_im biasvec is1x1 numThreads sched im =
      sched.foldl (fun im r => (Col2ImInvoker.make data_col channels height width kernel_h
        kernel_w pad_h pad_w stride_h stride_w data_im biasvec is1x1 numThreads).call r im) im :=
  rfl

theorem natFold_add {σ : Type} (f : Nat → σ → σ) (a b : Nat) (s : σ) :
    Nat.fold f (a + b) s = Nat.fold (fun t acc => f (a + t) acc) b (Nat.fold f a s) := by
  induction b with
  | zero => rfl
  | succ n ih =>
    rw [← Nat.add_assoc, Nat.fold, Nat.fold, ih]

/-- A unit-step loop is its first part followed by the rest. -/
theorem forStep_split {σ : Type} (start mid stop : Nat) (f : Nat → σ → σ) (s : σ)
    (h1 : start ≤ mid) (h2 : mid ≤ stop) :
    forStep start stop 1 f s = forStep mid stop 1 f (forStep start mid 1 f s) := by
  unfold forStep
  have e1 : (stop - start + 1 - 1) / 1 = (mid - start) + (stop - mid) := by
    rw [Nat.div_one]; omega
  have e2 : (mid - start + 1 - 1) / 1 = mid - start := by rw [Nat.div_one]; omega
  have e3 : (stop - mid + 1 - 1) / 1 = stop - mid := by rw [Nat.div_one]; omega
  rw [e1, e2, e3, natFold_add]
  congr 1
  funext t acc
  have : start + (mid - start + t) * 1 = mid + t * 1 := by omega
  rw [this]

/-- One iteration takes the locals of `index` to the locals of `index + 1`, on both
paths. -/
theorem step_locals (t : Col2ImInvoker) (index : Nat) (st : Col2ImLocals × Mem)
    (h : st.1 = t.locals index) : (t.step index st).1 = t.locals (index + 1) := by
  obtain ⟨l, m⟩ := st
  have hl : l = t.locals index := h
  subst hl
  unfold Col2ImInvoker.step
  dsimp only
  by_cases hw : (t.locals index).w + 1 ≥ t.width + t.pad_w
  · rw [if_pos hw]
  · rw [if_neg hw, locals_succ t index hw]

theorem stateAt_locals (t : Col2ImInvoker) (startIndex index : Nat) (im : Mem)
    (hlo : startIndex ≤ index) : (t.stateAt startIndex index im).1 = t.locals index := by
  unfold Col2ImInvoker.stateAt
  exact forStep_one_inv (fun i (st : Col2ImLocals × Mem) => st.1 = t.locals i)
    startIndex index t.step (t.locals startIndex, im) hlo rfl
    (fun i _ _ acc hacc => step_locals t i acc hacc)

/-- C38: the loop of `Col2ImInvoker::operator()` on the range `r` is the iterations
before `index` followed by the iterations from `index` on, and in the state at the start
of the iteration for `index` the incrementally maintained locals are
`w = index % width + pad_w`, `h = (index / width) % height + pad_h`,
`c = index / (width*height)`,
`offset = (c*kernel_h*kernel_w + h*kernel_w + w)*height_col*width_col`, and
`h_col_start`, `h_col_end` are the values of lines 1214-1215 for that `h`. -/
theorem col2im_loop_invariant (t : Col2ImInvoker) (r : Range) (im : Mem) (index : Nat)
    (hlo : r.start * t.stripeSize ≤ index)
    (hhi : index ≤ min (r.end_ * t.stripeSize) (t.channels * t.height * t.width)) :
    t.call r im =
      (forStep index (min (r.end_ * t.stripeSize) (t.channels * t.height * t.width)) 1 t.step
        (t.stateAt (r.start * t.stripeSize) index im)).2 ∧
    (t.stateAt (r.start * t.stripeSize) index im).1.w = index % t.width + t.pad_w ∧
    (t.stateAt (r.start * t.stripeSize) index im).1.h = (index / t.width) % t.height + t.pad_h ∧
    (t.stateAt (r.start * t.stripeSize) index im).1.c = index / (t.width * t.height) ∧
    (t.stateAt (r.start * t.stripeSize) index im).1.offset =
      (((t.stateAt (r.start * t.stripeSize) index im).1.c * t.kernel_h * t.kernel_w +
        (t.stateAt (r.start * t.stripeSize) index im).1.h * t.kernel_w +
        (t.stateAt (r.start * t.stripeSize) index im).1.w : Nat) : Int) *
          (t.height_col * t.width_col) ∧
    (t.stateAt (r.start * t.stripeSize) index im).1.h_col_start =
      (if (t.stateAt (r.start * t.stripeSize) index im).1.h < t.kernel_h then 0
       else ((((t.stateAt (r.start * t.stripeSize) index im).1.h - t.kernel_h) / t.stride_h + 1 :
         Nat) : Int)) ∧
    (t.stateAt (r.start * t.stripeSize) index im).1.h_col_end =
      min ((((t.stateAt (r.start * t.stripeSize) index im).1.h / t.stride_h + 1 : Nat) : Int))
        t.height_col := by
  rw [stateAt_locals t _ index im hlo]
  refine ⟨?_, rfl, rfl, rfl, rfl, rfl, rfl⟩
  unfold Col2ImInvoker.call Col2ImInvoker.stateAt
  dsimp only
  rw [← forStep_split _ _ _ _ _ hlo hhi]
  rfl

theorem col2im_loop_invariant_witness :
    (exCol2Im.stateAt (1 * exCol2Im.stripeSize) 3 (fun _ => 0)).1.w = 3 % exCol2Im.width +
      exCol2Im.pad_w ∧
    (exCol2Im.stateAt (1 * exCol2Im.stripeSize) 3 (fun _ => 0)).1.h =
      (3 / exCol2Im.width) % exCol2Im.height + exCol2Im.pad_h :=
  have h := col2im_loop_invariant exCol2Im ⟨1, 2⟩ (fun _ => 0) 3 (by decide) (by decide)
  ⟨h.2.1, h.2.2.1⟩

theorem forInt_pres {σ : Type} (Q : σ → Prop) (lo hi : Int) (body : Int → σ → σ) (s : σ)
    (h0 : Q s) (hstep : ∀ i, lo ≤ i → i < hi → ∀ acc, Q acc → Q (body i acc)) :
    Q (forInt lo hi body s) := by
  unfold forInt
  refine natFold_inv (fun _ acc => Q acc) _ _ s h0 ?_
  intro k hk acc hacc
  exact hstep _ (by omega) (by omega) acc hacc

theorem col2im_addr_int (c kh kw h1 w1 sh sw Hc Wc y x : Nat) (hy : y * sh ≤ h1)
    (hx : x * sw ≤ w1) :
    ((c * kh * kw + h1 * kw + w1 : Nat) : Int) * ((Hc : Int) * (Wc : Int)) +
        (y : Int) * ((1 - (sh : Int) * kw * Hc) * Wc) +
        (x : Int) * (1 - (sw : Int) * Hc * Wc) =
      ((((c * kh + (h1 - y * sh)) * kw + (w1 - x * sw)) * (Hc * Wc) + (y * Wc + x) : Nat) : Int) := by
  push_cast [Nat.cast_sub hy, Nat.cast_sub hx]
  ring

/-- The index of the column matrix formed for a position `(h_col, w_col)` of the two
windows lies inside the matrix of `channels*kernel_h*kernel_w` rows and
`height_col*width_col` columns. -/
theorem col2im_read_bound (channels kh kw sh sw c h1 w1 : Nat) (Hcz Wcz hcol wcol : Int)
    (hc : c < channels) (hsh : 1 ≤ sh) (hsw : 1 ≤ sw)
    (hlo : (if h1 < kh then (0 : Int) else (((h1 - kh) / sh + 1 : Nat) : Int)) ≤ hcol)
    (hhi : hcol < min (((h1 / sh + 1 : Nat) : Int)) Hcz)
    (wlo : (if w1 < kw then (0 : Int) else (((w1 - kw) / sw + 1 : Nat) : Int)) ≤ wcol)
    (whi : wcol < min (((w1 / sw + 1 : Nat) : Int)) Wcz) :
    0 ≤ ((c * kh * kw + h1 * kw + w1 : Nat) : Int) * (Hcz * Wcz) +
        hcol * ((1 - (sh : Int) * kw * Hcz) * Wcz) + wcol * (1 - (sw : Int) * Hcz * Wcz) ∧
    ((c * kh * kw + h1 * kw + w1 : Nat) : Int) * (Hcz * Wcz) +
        hcol * ((1 - (sh : Int) * kw * Hcz) * Wcz) + wcol * (1 - (sw : Int) * Hcz * Wcz) <
      (channels : Int) * kh * kw * Hcz * Wcz := by
  have hy0 : 0 ≤ hcol := by
    refine le_trans ?_ hlo
    split_ifs
    · exact le_refl _
    · exact Int.natCast_nonneg _
  have hx0 : 0 ≤ wcol := by
    refine le_trans ?_ wlo
    split_ifs
    · exact le_refl _
    · exact Int.natCast_nonneg _
  obtain ⟨y, rfl⟩ := Int.eq_ofNat_of_zero_le hy0
  obtain ⟨x, rfl⟩ := Int.eq_ofNat_of_zero_le hx0
  have hH0 : 0 ≤ Hcz := by
    have := (lt_min_iff.1 hhi).2
    omega
  have hW0 : 0 ≤ Wcz := by
    have := (lt_min_iff.1 whi).2
    omega
  obtain ⟨Hc, rfl⟩ := Int.eq_ofNat_of_zero_le hH0
  obtain ⟨Wc, rfl⟩ := Int.eq_ofNat_of_zero_le hW0
  have hyH : y < Hc := by exact_mod_cast (lt_min_iff.1 hhi).2
  have hxW : x < Wc := by exact_mod_cast (lt_min_iff.1 whi).2
  have hwinY : (if h1 < kh then 0 else (h1 - kh) / sh + 1) ≤ y ∧ y < min (h1 / sh + 1) Hc := by
    refine ⟨?_, lt_min (by exact_mod_cast (lt_min_iff.1 hhi).1) hyH⟩
    split_ifs with hk
    · exact Nat.zero_le _
    · rw [if_neg hk] at hlo
      exact_mod_cast hlo
  have hwinX : (if w1 < kw then 0 else (w1 - kw) / sw + 1) ≤ x ∧ x < min (w1 / sw + 1) Wc := by
    refine ⟨?_, lt_min (by exact_mod_cast (lt_min_iff.1 whi).1) hxW⟩
    split_ifs with hk
    · exact Nat.zero_le _
    · rw [if_neg hk] at wlo
      exact_mod_cast wlo
  have hY := (window_iff h1 kh sh Hc y hsh hyH).1 hwinY
  have hX := (window_iff w1 kw sw Wc x hsw hxW).1 hwinX
  rw [col2im_addr_int c kh kw h1 w1 sh sw Hc Wc y x hY.1 hX.1]
  refine ⟨Int.natCast_nonneg _, ?_⟩
  have b1 : c * kh + (h1 - y * sh) < channels * kh := enc_lt hc hY.2
  have b2 : (c * kh + (h1 - y * sh)) * kw + (w1 - x * sw) < channels * kh * kw := enc_lt b1 hX.2
  have b3 : y * Wc + x < Hc * Wc := enc_lt hyH hxW
  have b4 := enc_lt b2 b3
  have e : (channels : Int) * kh * kw * Hc * Wc = ((channels * kh * kw * (Hc * Wc) : Nat) : Int) := by
    push_cast
    ring
  rw [e]
  exact_mod_cast b4

/-- The instrumentation does not change the image. -/
theorem callReads_fst (t : Col2ImInvoker) (r : Range) (im : Mem) :
    (t.callReads r im).1 = t.call r im := by
  unfold Col2ImInvoker.callReads Col2ImInvoker.call
  dsimp only
  rw [forStep_fst _ _ _ t.stepReads t.step _ (fun _ _ => rfl)]

/-- C37: on the general path of `Col2ImInvoker::operator()` with strides of at least 1,
every index `offset + h_col*coeff_h + w_col*coeff_w` at which a call reads the column
matrix lies in `[0, channels*kernel_h*kernel_w*height_col*width_col)`, and every index
`c` at which it reads the bias is below `channels`; this holds for the sizes
`height_col`, `width_col` that the invoker carries, so also for those that
`Col2ImInvoker::run` computes from the output size of `getMemoryShapes`. -/
theorem col2im_reads_in_bounds (t : Col2ImInvoker) (r : Range) (im : Mem)
    (h1 : t.is1x1 = false) (hsh : 1 ≤ t.stride_h) (hsw : 1 ≤ t.stride_w) :
    (∀ a ∈ (t.callReads r im).2.1,
      0 ≤ a ∧ a < (t.channels : Int) * t.kernel_h * t.kernel_w * t.height_col * t.width_col) ∧
    (∀ c ∈ (t.callReads r im).2.2, c < t.channels) := by
  unfold Col2ImInvoker.callReads
  dsimp only
  generalize (t.channels * t.height * t.width + t.nstripes - 1) / t.nstripes = ss
  generalize r.start * ss = s0
  generalize hs1 : min (r.end_ * ss) (t.channels * t.height * t.width) = s1
  have hs1le : s1 ≤ t.channels * t.height * t.width := by
    rw [← hs1]; exact Nat.min_le_right _ _
  by_cases hle : s0 ≤ s1
  · have h := forStep_one_inv
      (fun i (st : (Col2ImLocals × Mem) × List Int × List Nat) => st.1.1 = t.locals i ∧
        (∀ a ∈ st.2.1, 0 ≤ a ∧
          a < (t.channels : Int) * t.kernel_h * t.kernel_w * t.height_col * t.width_col) ∧
        (∀ c ∈ st.2.2, c < t.channels))
      s0 s1 t.stepReads ((t.locals s0, im), [], []) hle
      ⟨rfl, fun a ha => absurd ha (List.not_mem_nil a), fun c hc => absurd hc (List.not_mem_nil c)⟩
      (by
        rintro i hi1 hi2 ⟨⟨l, m⟩, cr, br⟩ ⟨hl, hcr, hbr⟩
        have hl' : l = t.locals i := hl
        subst hl'
        have hcidx : (t.locals i).c < t.channels := by
          show i / (t.width * t.height) < t.channels
          have hi3 : i < t.channels * t.height * t.width := by omega
          have hpos : 0 < t.width * t.height := by
            rcases Nat.eq_zero_or_pos (t.width * t.height) with e | e
            · have : t.channels * t.height * t.width = 0 := by
                rw [Nat.mul_assoc, Nat.mul_comm t.height, e, Nat.mul_zero]
              omega
            · exact e
          rw [Nat.div_lt_iff_lt_mul hpos]
          calc i < t.channels * t.height * t.width := hi3
            _ = t.channels * (t.width * t.height) := by ring
        refine ⟨step_locals t i _ rfl, ?_, ?_⟩
        · unfold Col2ImInvoker.stepReads
          dsimp only
          rw [h1]
          simp only [Bool.false_eq_true, if_false]
          refine forInt_pres (fun acc : List Int => ∀ a ∈ acc, 0 ≤ a ∧
            a < (t.channels : Int) * t.kernel_h * t.kernel_w * t.height_col * t.width_col)
            _ _ _ _ hcr ?_
          intro hcol hlo hhi acc hacc
          refine forInt_pres (fun acc : List Int => ∀ a ∈ acc, 0 ≤ a ∧
            a < (t.channels : Int) * t.kernel_h * t.kernel_w * t.height_col * t.width_col)
            _ _ _ _ hacc ?_
          intro wcol wlo whi acc1 hacc1 a ha
          rcases List.mem_append.1 ha with ha | ha
          · exact hacc1 a ha
          · rw [List.mem_singleton] at ha
            rw [ha]
            exact col2im_read_bound t.channels t.kernel_h t.kernel_w t.stride_h t.stride_w
              (t.locals i).c (t.locals i).h (t.locals i).w t.height_col t.width_col hcol wcol
              hcidx hsh hsw hlo hhi wlo whi
        · intro c hc
          rcases List.mem_append.1 hc with hc | hc
          · exact hbr c hc
          · rw [List.mem_singleton] at hc
            rw [hc]
            exact hcidx)
    exact ⟨h.2.1, h.2.2⟩
  · rw [forStep_empty _ _ _ _ _ (by omega) (Nat.le_refl 1)]
    exact ⟨fun a ha => absurd ha (List.not_mem_nil a), fun c hc => absurd hc (List.not_mem_nil c)⟩

theorem col2im_reads_in_bounds_witness :
    (0 ≤ (1 : Int) ∧ (1 : Int) < (exCol2Im.channels : Int) * exCol2Im.kernel_h *
      exCol2Im.kernel_w * exCol2Im.height_col * exCol2Im.width_col) ∧
    0 < exCol2Im.channels :=
  have h := col2im_reads_in_bounds exCol2Im ⟨0, 1⟩ (fun _ => 0) rfl (by decide) (by decide)
  ⟨h.1 1 (by decide), h.2 0 (by decide)⟩

/-- The reads recorded for the first stripe of `exCol2Im`: the two image elements of the
stripe read the rows 0 and 1 of the `4 x 1` column matrix and the bias of channel 0. -/
theorem callReads_example :
    (exCol2Im.callReads ⟨0, 1⟩ (fun _ => 0)).2 = ([0, 1], [0, 0]) := by
  decide

/-- The weights behind the `vsz` columns of a channel block, up to the next multiple of
four, are zero when the rows are zero-padded to a multiple of `VEC_ALIGN` columns: the
block starts at a multiple of `BLK_SIZE_CN` channels, and only the last block has a
length `vsz` that is not a multiple of four. -/
theorem block_pad_zero (p : ParallelConv) (row cn0 : Nat)
    (hstep : p.weights_.step1 % VEC_ALIGN = 0)
    (hcols : p.inpCn * p.karea ≤ p.weights_.step1)
    (hzero : ∀ k, p.inpCn * p.karea ≤ k → k < p.weights_.step1 →
      p.weights_.data (row * p.weights_.step1 + k) = 0)
    (hcn0 : cn0 % BLK_SIZE_CN = 0) (hcn : cn0 < p.inpCn) :
    ∀ k, p.karea * (min (cn0 + BLK_SIZE_CN) p.inpCn - cn0) ≤ k →
      k < (p.karea * (min (cn0 + BLK_SIZE_CN) p.inpCn - cn0) + 3) / 4 * 4 →
      p.weights_.data (row * p.weights_.step1 + cn0 * p.karea + k) = 0 := by
  intro k h1 h2
  have hB : BLK_SIZE_CN = 64 := rfl
  have hV : VEC_ALIGN = 8 := rfl
  rw [hB] at hcn0 h1 h2
  rw [hV] at hstep
  by_cases hlast : cn0 + 64 ≤ p.inpCn
  · exfalso
    rw [Nat.min_eq_left hlast] at h1 h2
    have e : cn0 + 64 - cn0 = 64 := by omega
    rw [e] at h1 h2
    omega
  · have hmin : min (cn0 + 64) p.inpCn = p.inpCn := Nat.min_eq_right (by omega)
    rw [hmin] at h1 h2
    have e : p.karea * (p.inpCn - cn0) + cn0 * p.karea = p.inpCn * p.karea := by
      obtain ⟨d, hd⟩ := Nat.exists_eq_add_of_le (Nat.le_of_lt hcn)
      rw [hd, Nat.add_sub_cancel_left]
      ring
    have h4 : (cn0 * p.karea) % 4 = 0 := by
      have h64 : cn0 = 64 * (cn0 / 64) := by omega
      rw [h64]
      have : 64 * (cn0 / 64) * p.karea = 4 * (16 * (cn0 / 64) * p.karea) := by ring
      rw [this, Nat.mul_mod_right]
    rw [Nat.add_assoc]
    apply hzero
    · omega
    · omega

/-- C36: for a pair of output channels with weight rows `row0`, `row1` that are
zero-padded to a multiple of `VEC_ALIGN` columns, and a block of input channels starting
at `cn0` (a multiple of `BLK_SIZE_CN`), the vectorized loop of lines 503-544 leaves at
every position `j < bsz/4*4` of both output rows the seed (the bias when `cn0 == 0`,
the previous output otherwise) plus the sum over `k < vsz` of `w[k]*row[k]`, whatever
the row buffer holds behind the `vsz` elements of a row; the scalar loop of lines
546-571, run over the same positions, stores the same values. -/
theorem simd_loop_equals_scalar (p : ParallelConv) (row0 row1 outptr0 outptr1 : Nat)
    (bias0 bias1 : ℚ) (cn0 vsz_a bsz : Nat) (rowbuf0 out : Mem) (j : Nat)
    (hstep : p.weights_.step1 % VEC_ALIGN = 0)
    (hcols : p.inpCn * p.karea ≤ p.weights_.step1)
    (hzero : ∀ o k, o = row0 ∨ o = row1 → p.inpCn * p.karea ≤ k → k < p.weights_.step1 →
      p.weights_.data (o * p.weights_.step1 + k) = 0)
    (hcn0 : cn0 % BLK_SIZE_CN = 0) (hcn : cn0 < p.inpCn)
    (hsep : (outptr1 = outptr0 ∧ row1 = row0 ∧ bias1 = bias0) ∨ outptr0 + bsz ≤ outptr1)
    (hj : j < bsz / 4 * 4) :
    p.dotSimd (row0 * p.weights_.step1 + cn0 * p.karea) (row1 * p.weights_.step1 + cn0 * p.karea)
        outptr0 outptr1 bias0 bias1 cn0 (p.karea * (min (cn0 + BLK_SIZE_CN) p.inpCn - cn0))
        vsz_a bsz rowbuf0 out (outptr0 + j) =
      (if cn0 = 0 then bias0 else out (outptr0 + j)) +
        ∑ k in Finset.range (p.karea * (min (cn0 + BLK_SIZE_CN) p.inpCn - cn0)),
          p.weights_.data (row0 * p.weights_.step1 + cn0 * p.karea + k) *
            rowbuf0 (j * vsz_a + k) ∧
    p.dotSimd (row0 * p.weights_.step1 + cn0 * p.karea) (row1 * p.weights_.step1 + cn0 * p.karea)
        outptr0 outptr1 bias0 bias1 cn0 (p.karea * (min (cn0 + BLK_SIZE_CN) p.inpCn - cn0))
        vsz_a bsz rowbuf0 out (outptr1 + j) =
      (if cn0 = 0 then bias1 else out (outptr1 + j)) +
        ∑ k in Finset.range (p.karea * (min (cn0 + BLK_SIZE_CN) p.inpCn - cn0)),
          p.weights_.data (row1 * p.weights_.step1 + cn0 * p.karea + k) *
            rowbuf0 (j * vsz_a + k) ∧
    p.dotScalar (row0 * p.weights_.step1 + cn0 * p.karea)
        (row1 * p.weights_.step1 + cn0 * p.karea)
        outptr0 outptr1 bias0 bias1 cn0 (p.karea * (min (cn0 + BLK_SIZE_CN) p.inpCn - cn0))
        vsz_a 0 (bsz / 4 * 4) rowbuf0 out (outptr0 + j) =
      p.dotSimd (row0 * p.weights_.step1 + cn0 * p.karea)
        (row1 * p.weights_.step1 + cn0 * p.karea)
        outptr0 outptr1 bias0 bias1 cn0 (p.karea * (min (cn0 + BLK_SIZE_CN) p.inpCn - cn0))
        vsz_a bsz rowbuf0 out (outptr0 + j) ∧
    p.dotScalar (row0 * p.weights_.step1 + cn0 * p.karea)
        (row1 * p.weights_.step1 + cn0 * p.karea)
        outptr0 outptr1 bias0 bias1 cn0 (p.karea * (min (cn0 + BLK_SIZE_CN) p.inpCn - cn0))
        vsz_a 0 (bsz / 4 * 4) rowbuf0 out (outptr1 + j) =
      p.dotSimd (row0 * p.weights_.step1 + cn0 * p.karea)
        (row1 * p.weights_.step1 + cn0 * p.karea)
        outptr0 outptr1 bias0 bias1 cn0 (p.karea * (min (cn0 + BLK_SIZE_CN) p.inpCn - cn0))
        vsz_a bsz rowbuf0 out (outptr1 + j) := by
  generalize hvsz : p.karea * (min (cn0 + BLK_SIZE_CN) p.inpCn - cn0) = vsz
  have hp0 := block_pad_zero p row0 cn0 hstep hcols (fun k => hzero row0 k (Or.inl rfl)) hcn0 hcn
  have hp1 := block_pad_zero p row1 cn0 hstep hcols (fun k => hzero row1 k (Or.inr rfl)) hcn0 hcn
  rw [hvsz] at hp0 hp1
  generalize hw0 : row0 * p.weights_.step1 + cn0 * p.karea = wptr0 at hp0 ⊢
  generalize hw1 : row1 * p.weights_.step1 + cn0 * p.karea = wptr1 at hp1 ⊢
  have hle4 : vsz ≤ (vsz + 3) / 4 * 4 := by omega
  let F0 : Nat → ℚ := fun i => (if cn0 = 0 then bias0 else out (outptr0 + i)) +
    ∑ k in Finset.range vsz, p.weights_.data (wptr0 + k) * rowbuf0 (i * vsz_a + k)
  let F1 : Nat → ℚ := fun i => (if cn0 = 0 then bias1 else out (outptr1 + i)) +
    ∑ k in Finset.range vsz, p.weights_.data (wptr1 + k) * rowbuf0 (i * vsz_a + k)
  let v : Nat → ℚ := fun a =>
    if outptr0 ≤ a ∧ a < outptr0 + bsz then F0 (a - outptr0) else F1 (a - outptr1)
  have hb4 : bsz / 4 * 4 ≤ bsz := by omega
  have hv0 : ∀ i, i < bsz → v (outptr0 + i) = F0 i := by
    intro i hi
    show (if outptr0 ≤ outptr0 + i ∧ outptr0 + i < outptr0 + bsz then F0 (outptr0 + i - outptr0)
      else F1 (outptr0 + i - outptr1)) = F0 i
    rw [if_pos ⟨by omega, by omega⟩, Nat.add_sub_cancel_left]
  have hF : (outptr1 = outptr0 ∧ wptr1 = wptr0 ∧ bias1 = bias0) ∨ outptr0 + bsz ≤ outptr1 := by
    rcases hsep with ⟨h1, h2, h3⟩ | h
    · left
      refine ⟨h1, ?_, h3⟩
      rw [← hw1, h2, hw0]
    · exact Or.inr h
  have hv1 : ∀ i, i < bsz → v (outptr1 + i) = F1 i := by
    intro i hi
    rcases hF with ⟨h1, h2, h3⟩ | h
    · rw [h1, hv0 i hi]
      show _ = (if cn0 = 0 then bias1 else out (outptr1 + i)) +
        ∑ k in Finset.range vsz, p.weights_.data (wptr1 + k) * rowbuf0 (i * vsz_a + k)
      rw [h1, h2, h3]
    · show (if outptr0 ≤ outptr1 + i ∧ outptr1 + i < outptr0 + bsz then F0 (outptr1 + i - outptr0)
        else F1 (outptr1 + i - outptr1)) = F1 i
      rw [if_neg (by omega), Nat.add_sub_cancel_left]
  have hsep1 : outptr1 = outptr0 ∨ outptr0 + bsz ≤ outptr1 := by
    rcases hF with ⟨h1, _, _⟩ | h
    · exact Or.inl h1
    · exact Or.inr h
  have hsep2 : outptr1 = outptr0 ∨ outptr0 + bsz / 4 * 4 ≤ outptr1 := by
    rcases hsep1 with h | h
    · exact Or.inl h
    · exact Or.inr (by omega)
  have hS := dotSimd_upd p wptr0 wptr1 outptr0 outptr1 bias0 bias1 cn0 vsz vsz_a bsz rowbuf0 out v
    hsep1
    (fun i hi => by
      rw [hv0 i (by omega)]
      show _ = _ + _
      rw [sum_pad_eq (fun k => p.weights_.data (wptr0 + k) * rowbuf0 (i * vsz_a + k)) vsz _ hle4
        (fun k h1 h2 => by
          show p.weights_.data (wptr0 + k) * rowbuf0 (i * vsz_a + k) = 0
          rw [hp0 k h1 h2, zero_mul])])
    (fun i hi => by
      rw [hv1 i (by omega)]
      show _ = _ + _
      rw [sum_pad_eq (fun k => p.weights_.data (wptr1 + k) * rowbuf0 (i * vsz_a + k)) vsz _ hle4
        (fun k h1 h2 => by
          show p.weights_.data (wptr1 + k) * rowbuf0 (i * vsz_a + k) = 0
          rw [hp1 k h1 h2, zero_mul])])
  have hC := dotScalar_upd p wptr0 wptr1 outptr0 outptr1 bias0 bias1 cn0 vsz vsz_a 0 (bsz / 4 * 4)
    rowbuf0 out v hsep2
    (fun i _ hi => hv0 i (by omega))
    (fun i _ hi => hv1 i (by omega))
  have s0 := (hS (outptr0 + j)).1 ⟨j, hj, Or.inl rfl⟩
  have s1 := (hS (outptr1 + j)).1 ⟨j, hj, Or.inr rfl⟩
  have c0 := (hC (outptr0 + j)).1 ⟨j, Nat.zero_le _, hj, Or.inl rfl⟩
  have c1 := (hC (outptr1 + j)).1 ⟨j, Nat.zero_le _, hj, Or.inr rfl⟩
  rw [s0, s1, c0, c1, hv0 j (by omega), hv1 j (by omega)]
  exact ⟨rfl, rfl, rfl, rfl⟩

theorem simd_loop_equals_scalar_witness :
    exConv.dotScalar (0 * exConv.weights_.step1 + 0 * exConv.karea)
        (0 * exConv.weights_.step1 + 0 * exConv.karea) 0 0 0 0 0
        (exConv.karea * (min (0 + BLK_SIZE_CN) exConv.inpCn - 0)) 16 0 (4 / 4 * 4)
        (fun _ => 1) (fun _ => 0) (0 + 1) =
      exConv.dotSimd (0 * exConv.weights_.step1 + 0 * exConv.karea)
        (0 * exConv.weights_.step1 + 0 * exConv.karea) 0 0 0 0 0
        (exConv.karea * (min (0 + BLK_SIZE_CN) exConv.inpCn - 0)) 16 4
        (fun _ => 1) (fun _ => 0) (0 + 1) :=
  (simd_loop_equals_scalar exConv 0 0 0 0 0 0 0 16 4 (fun _ => 1) (fun _ => 0) 1
    (by decide) (by decide)
    (fun o k ho h1 h2 => by
      have h1k : 9 ≤ k := h1
      have h2k : k < 16 := h2
      rcases ho with rfl | rfl <;>
        (show (if (0 * 16 + k) % 16 < 9 then (1 : ℚ) else 0) = 0
         rw [if_neg (by omega)]))
    (by decide) (by decide) (Or.inl ⟨rfl, rfl, rfl⟩) (by decide)).2.2.1

theorem gatherRow1x1Acc_fst (p : ParallelConv) (data_inp0 : Int)
    (cn0 vsz vsz_a ofs0 ofs : Nat) (st : Mem × List TileAccess) :
    (p.gatherRow1x1Acc data_inp0 cn0 vsz vsz_a ofs0 ofs st).1 =
      p.gatherRow1x1 data_inp0 cn0 vsz vsz_a ofs0 ofs st.1 := by
  unfold ParallelConv.gatherRow1x1Acc ParallelConv.gatherRow1x1
  exact forStep_fst _ _ _ _ _ _ (fun _ _ => rfl)

theorem gatherRowAcc_fst (p : ParallelConv) (data_inp0 : Int)
    (cn0 ncn vsz vsz_a ofs0 ofs : Nat) (st : Mem × List TileAccess) :
    (p.gatherRowAcc data_inp0 cn0 ncn vsz vsz_a ofs0 ofs st).1 =
      p.gatherRow data_inp0 cn0 ncn vsz vsz_a ofs0 ofs st.1 := by
  unfold ParallelConv.gatherRowAcc ParallelConv.gatherRow
  dsimp only
  split_ifs with hint
  · exact forStep_fst _ _ _ _ _ _ (fun _ _ => rfl)
  · refine forStep_fst _ _ _ _ _ _ (fun k st => ?_)
    refine forStep_fst _ _ _ _ _ _ (fun i st => ?_)
    exact forStep_fst _ _ _ _ _ _ (fun j st => rfl)

theorem dotScalarAcc_fst (p : ParallelConv) (wptr0 wptr1 outptr0 outptr1 : Nat)
    (bias0 bias1 : ℚ) (cn0 vsz vsz_a jstart bsz : Nat) (rowbuf0 : Mem)
    (st : Mem × List TileAccess) :
    (p.dotScalarAcc wptr0 wptr1 outptr0 outptr1 bias0 bias1 cn0 vsz vsz_a jstart bsz rowbuf0 st).1 =
      p.dotScalar wptr0 wptr1 outptr0 outptr1 bias0 bias1 cn0 vsz vsz_a jstart bsz rowbuf0 st.1 := by
  unfold ParallelConv.dotScalarAcc ParallelConv.dotScalar
  refine forStep_fst _ _ _ _ _ _ (fun j st => ?_)
  dsimp only
  rw [forStep_fst 0 vsz 1 _ (fun k (s : ℚ × ℚ) =>
    (s.1 + p.weights_.data (wptr0 + k) * rowbuf0 (j * vsz_a + k),
      s.2 + p.weights_.data (wptr1 + k) * rowbuf0 (j * vsz_a + k))) _ (fun _ _ => rfl)]

theorem dotSimdAcc_fst (p : ParallelConv) (wptr0 wptr1 outptr0 outptr1 : Nat)
    (bias0 bias1 : ℚ) (cn0 vsz vsz_a bsz : Nat) (rowbuf0 : Mem)
    (st : Mem × List TileAccess) :
    (p.dotSimdAcc wptr0 wptr1 outptr0 outptr1 bias0 bias1 cn0 vsz vsz_a bsz rowbuf0 st).1 =
      p.dotSimd wptr0 wptr1 outptr0 outptr1 bias0 bias1 cn0 vsz vsz_a bsz rowbuf0 st.1 := by
  unfold ParallelConv.dotSimdAcc ParallelConv.dotSimd
  refine forStep_fst _ _ _ _ _ _ (fun j st => ?_)
  dsimp only
  rw [forStep_fst 0 vsz 4 _
    (fun k (vs : (Fin 4 → v_float32x4) × (Fin 4 → v_float32x4)) =>
      ((fun q => vs.1 q + v_load p.weights_.data (wptr0 + k) *
          v_load rowbuf0 (j * vsz_a + k + vsz_a * q.val)),
        (fun q => vs.2 q + v_load p.weights_.data (wptr1 + k) *
          v_load rowbuf0 (j * vsz_a + k + vsz_a * q.val)))) _ (fun _ _ => rfl)]

theorem dotProductAcc_fst (p : ParallelConv)
    (wptr biasptr data_out0 ofs0 cn0 vsz vsz_a bsz : Nat) (rowbuf0 : Mem)
    (st : Mem × List TileAccess) :
    (p.dotProductAcc wptr biasptr data_out0 ofs0 cn0 vsz vsz_a bsz rowbuf0 st).1 =
      p.dotProduct wptr biasptr data_out0 ofs0 cn0 vsz vsz_a bsz rowbuf0 st.1 := by
  unfold ParallelConv.dotProductAcc ParallelConv.dotProduct
  refine forStep_fst _ _ _ _ _ _ (fun i st => ?_)
  dsimp only
  rw [dotScalarAcc_fst]
  cases p.simd
  · rfl
  · simp only [if_true]
    rw [dotSimdAcc_fst]

theorem tileAcc_fst (p : ParallelConv) (data_inp0 : Int)
    (data_out0 wptr biasptr cn0 ncn vsz vsz_a stripeEnd ofs0 : Nat)
    (st : (Mem × Mem) × List TileAccess) :
    (p.tileAcc data_inp0 data_out0 wptr biasptr cn0 ncn vsz vsz_a stripeEnd ofs0 st).1 =
      p.tile data_inp0 data_out0 wptr biasptr cn0 ncn vsz vsz_a stripeEnd ofs0 st.1 := by
  unfold ParallelConv.tileAcc ParallelConv.tile
  dsimp only
  rw [dotProductAcc_fst]
  have hg : (if p.is1x1_ = true then
        p.im2row1x1Acc data_inp0 cn0 vsz vsz_a ofs0 (min (ofs0 + BLK_SIZE) stripeEnd) (st.1.1, st.2)
      else p.im2rowGeneralAcc data_inp0 cn0 ncn vsz vsz_a ofs0 (min (ofs0 + BLK_SIZE) stripeEnd)
        (st.1.1, st.2)).1 =
      (if p.is1x1_ = true then
        p.im2row1x1 data_inp0 cn0 vsz vsz_a ofs0 (min (ofs0 + BLK_SIZE) stripeEnd) st.1.1
      else p.im2rowGeneral data_inp0 cn0 ncn vsz vsz_a ofs0 (min (ofs0 + BLK_SIZE) stripeEnd)
        st.1.1) := by
    split_ifs
    · unfold ParallelConv.im2row1x1Acc ParallelConv.im2row1x1
      exact forStep_fst _ _ _ _ _ _ (fun ofs s => gatherRow1x1Acc_fst p _ _ _ _ _ ofs s)
    · unfold ParallelConv.im2rowGeneralAcc ParallelConv.im2rowGeneral
      exact forStep_fst _ _ _ _ _ _ (fun ofs s => gatherRowAcc_fst p _ _ _ _ _ _ ofs s)
  rw [hg]

/-- The instrumentation does not change the row buffer or the output. -/
theorem channelBlockAcc_fst (p : ParallelConv) (data_inp0 : Int)
    (data_out0 wptr_orig biasptr stripeStart stripeEnd cn0 : Nat)
    (st : (Mem × Mem) × List TileAccess) :
    (p.channelBlockAcc data_inp0 data_out0 wptr_orig biasptr stripeStart stripeEnd cn0 st).1 =
      p.channelBlock data_inp0 data_out0 wptr_orig biasptr stripeStart stripeEnd cn0 st.1 := by
  unfold ParallelConv.channelBlockAcc ParallelConv.channelBlock
  exact forStep_fst _ _ _ _ _ _ (fun ofs0 s => tileAcc_fst p _ _ _ _ _ _ _ _ _ ofs0 s)

theorem forStep_pres {σ : Type} (Q : σ → Prop) (start stop step : Nat) (body : Nat → σ → σ)
    (s : σ) (hs : 1 ≤ step) (h0 : Q s)
    (hstep : ∀ t, start + t * step < stop → ∀ acc, Q acc → Q (body (start + t * step) acc)) :
    Q (forStep start stop step body s) :=
  forStep_inv (fun _ acc => Q acc) start stop step body s h0
    (fun t ht acc hacc => hstep t (iterCount_lt start stop step t hs ht) acc hacc)

theorem traceOK_append (p : ParallelConv) (tr tr2 : List TileAccess) (h : p.TraceOK tr)
    (h2 : p.TraceOK tr2) : p.TraceOK (tr ++ tr2) := by
  refine ⟨fun i hi => ?_, fun k hk => ?_⟩
  · rcases List.mem_append.1 hi with h1 | h1
    · exact h.1 i h1
    · exact h2.1 i h1
  · rcases List.mem_append.1 hk with h1 | h1
    · exact h.2 k h1
    · exact h2.2 k h1

theorem traceOK_rowbuf (p : ParallelConv) (i : Nat)
    (hi : i < p.karea * BLK_SIZE_CN * BLK_SIZE) : p.TraceOK [TileAccess.rowbuf i] := by
  refine ⟨fun j hj => ?_, fun k hk => ?_⟩
  · rw [List.mem_singleton] at hj
    injection hj with e
    rw [e]
    exact hi
  · rw [List.mem_singleton] at hk
    cases hk

theorem traceOK_ofstab (p : ParallelConv) (k : Nat)
    (hk : k < p.kernel_.width * p.kernel_.height * min p.inpCn BLK_SIZE_CN) :
    p.TraceOK [TileAccess.ofstab k] := by
  refine ⟨fun j hj => ?_, fun k1 hk1 => ?_⟩
  · rw [List.mem_singleton] at hj
    cases hj
  · rw [List.mem_singleton] at hk1
    injection hk1 with e
    rw [e]
    exact hk

/-- The element `t` of row `j` of the row buffer lies inside the buffer. -/
theorem rowbuf_idx_lt (K j vsz_a t : Nat) (hj : j < BLK_SIZE) (ht : t < vsz_a)
    (hva : vsz_a ≤ K * BLK_SIZE_CN) : j * vsz_a + t < K * BLK_SIZE_CN * BLK_SIZE := by
  have h1 : j * vsz_a + t < BLK_SIZE * vsz_a := enc_lt hj ht
  have h2 : BLK_SIZE * vsz_a ≤ BLK_SIZE * (K * BLK_SIZE_CN) := Nat.mul_le_mul_left _ hva
  have h3 : BLK_SIZE * (K * BLK_SIZE_CN) = K * BLK_SIZE_CN * BLK_SIZE := Nat.mul_comm _ _
  omega

theorem gatherRow1x1Acc_ok (p : ParallelConv) (data_inp0 : Int)
    (cn0 vsz vsz_a ofs0 ofs : Nat) (st : Mem × List TileAccess)
    (hrow : ofs - ofs0 < BLK_SIZE) (hva : vsz ≤ vsz_a) (hK : vsz_a ≤ p.karea * BLK_SIZE_CN)
    (h : p.TraceOK st.2) :
    p.TraceOK (p.gatherRow1x1Acc data_inp0 cn0 vsz vsz_a ofs0 ofs st).2 := by
  unfold ParallelConv.gatherRow1x1Acc
  dsimp only
  refine forStep_one_pres (fun s : Mem × List TileAccess => p.TraceOK s.2) _ _ _ _ h ?_
  intro k _ hk acc hacc
  exact traceOK_append p _ _ hacc
    (traceOK_rowbuf p _ (rowbuf_idx_lt _ _ _ _ hrow (by omega) hK))

theorem gatherRowAcc_ok (p : ParallelConv) (data_inp0 : Int)
    (cn0 ncn vsz vsz_a ofs0 ofs : Nat) (st : Mem × List TileAccess)
    (hrow : ofs - ofs0 < BLK_SIZE) (hva : vsz ≤ vsz_a) (hK : vsz_a ≤ p.karea * BLK_SIZE_CN)
    (hvsz : vsz = p.karea * ncn) (hncn : ncn ≤ min p.inpCn BLK_SIZE_CN)
    (h : p.TraceOK st.2) :
    p.TraceOK (p.gatherRowAcc data_inp0 cn0 ncn vsz vsz_a ofs0 ofs st).2 := by
  have htab : vsz ≤ p.kernel_.width * p.kernel_.height * min p.inpCn BLK_SIZE_CN := by
    rw [hvsz]
    exact Nat.mul_le_mul_left _ hncn
  unfold ParallelConv.gatherRowAcc
  dsimp only
  split_ifs with hint
  · refine forStep_one_pres (fun s : Mem × List TileAccess => p.TraceOK s.2) _ _ _ _ h ?_
    intro k _ hk acc hacc
    have e : [TileAccess.ofstab k, TileAccess.rowbuf ((ofs - ofs0) * vsz_a + k)] =
        [TileAccess.ofstab k] ++ [TileAccess.rowbuf ((ofs - ofs0) * vsz_a + k)] := rfl
    show p.TraceOK (acc.2 ++ [TileAccess.ofstab k, TileAccess.rowbuf ((ofs - ofs0) * vsz_a + k)])
    rw [e]
    exact traceOK_append p _ _ hacc (traceOK_append p _ _
      (traceOK_ofstab p k (by omega))
      (traceOK_rowbuf p _ (rowbuf_idx_lt _ _ _ _ hrow (by omega) hK)))
  · have hmem : p.TraceOK (st.2 ++ (List.range vsz).map
        (fun t => TileAccess.rowbuf ((ofs - ofs0) * vsz_a + t))) := by
      refine traceOK_append p _ _ h ⟨fun i hi => ?_, fun k hk => ?_⟩
      · obtain ⟨t, ht, e⟩ := List.mem_map.1 hi
        rw [List.mem_range] at ht
        injection e with e1
        rw [← e1]
        exact rowbuf_idx_lt _ _ _ _ hrow (by omega) hK
      · obtain ⟨t, _, e⟩ := List.mem_map.1 hk
        cases e
    refine forStep_one_pres (fun s : Mem × List TileAccess => p.TraceOK s.2) _ _ _ _ hmem ?_
    intro k _ hk acc hacc
    refine forStep_one_pres (fun s : Mem × List TileAccess => p.TraceOK s.2) _ _ _ _ hacc ?_
    intro i _ hi acc1 hacc1
    refine forStep_one_pres (fun s : Mem × List TileAccess => p.TraceOK s.2) _ _ _ _ hacc1 ?_
    intro j _ hj acc2 hacc2
    have hi1 : i < p.kernel_.height := by
      have := (Int.lt_toNat.1 hi)
      have := (lt_min_iff.1 this).1
      exact_mod_cast this
    have hj1 : j < p.kernel_.width := by
      have := (Int.lt_toNat.1 hj)
      have := (lt_min_iff.1 this).1
      exact_mod_cast this
    have b1 : k * p.kernel_.height + i < ncn * p.kernel_.height := enc_lt hk hi1
    have b2 : (k * p.kernel_.height + i) * p.kernel_.width + j <
        ncn * p.kernel_.height * p.kernel_.width := enc_lt b1 hj1
    have e : ncn * p.kernel_.height * p.kernel_.width = vsz := by
      rw [hvsz]
      unfold ParallelConv.karea
      ring
    exact traceOK_append p _ _ hacc2
      (traceOK_rowbuf p _ (rowbuf_idx_lt _ _ _ _ hrow (by omega) hK))

theorem dotScalarAcc_ok (p : ParallelConv) (wptr0 wptr1 outptr0 outptr1 : Nat)
    (bias0 bias1 : ℚ) (cn0 vsz vsz_a jstart bsz : Nat) (rowbuf0 : Mem)
    (st : Mem × List TileAccess)
    (hbsz : bsz ≤ BLK_SIZE) (hva : vsz ≤ vsz_a) (hK : vsz_a ≤ p.karea * BLK_SIZE_CN)
    (h : p.TraceOK st.2) :
    p.TraceOK (p.dotScalarAcc wptr0 wptr1 outptr0 outptr1 bias0 bias1 cn0 vsz vsz_a jstart bsz
      rowbuf0 st).2 := by
  unfold ParallelConv.dotScalarAcc
  refine forStep_one_pres (fun s : Mem × List TileAccess => p.TraceOK s.2) _ _ _ _ h ?_
  intro j _ hj acc hacc
  dsimp only
  refine forStep_one_pres (fun s : (ℚ × ℚ) × List TileAccess => p.TraceOK s.2) _ _ _ _ hacc ?_
  intro k _ hk acc1 hacc1
  exact traceOK_append p _ _ hacc1
    (traceOK_rowbuf p _ (rowbuf_idx_lt _ _ _ _ (by omega) (by omega) hK))

theorem dotSimdAcc_ok (p : ParallelConv) (wptr0 wptr1 outptr0 outptr1 : Nat)
    (bias0 bias1 : ℚ) (cn0 vsz vsz_a bsz : Nat) (rowbuf0 : Mem)
    (st : Mem × List TileAccess)
    (hbsz : bsz ≤ BLK_SIZE) (hva : vsz ≤ vsz_a) (h4 : vsz_a % 4 = 0)
    (hK : vsz_a ≤ p.karea * BLK_SIZE_CN) (h : p.TraceOK st.2) :
    p.TraceOK (p.dotSimdAcc wptr0 wptr1 outptr0 outptr1 bias0 bias1 cn0 vsz vsz_a bsz
      rowbuf0 st).2 := by
  unfold ParallelConv.dotSimdAcc
  refine forStep_pres (fun s : Mem × List TileAccess => p.TraceOK s.2) _ _ _ _ _
    (by omega) h ?_
  intro t ht acc hacc
  dsimp only
  refine forStep_pres
    (fun s : ((Fin 4 → v_float32x4) × (Fin 4 → v_float32x4)) × List TileAccess => p.TraceOK s.2)
    _ _ _ _ _ (by omega) hacc ?_
  intro t1 ht1 acc1 hacc1
  refine traceOK_append p _ _ hacc1 ⟨fun i hi => ?_, fun k hk => ?_⟩
  · simp only [List.mem_flatMap, List.mem_map, List.mem_range] at hi
    obtain ⟨q, hq, l, hl, e⟩ := hi
    injection e with e1
    rw [← e1]
    have e2 : (0 + t * 4) * vsz_a + (0 + t1 * 4) + vsz_a * q + l =
        (t * 4 + q) * vsz_a + (t1 * 4 + l) := by ring
    rw [e2]
    exact rowbuf_idx_lt _ _ _ _ (by omega) (by omega) hK
  · simp only [List.mem_flatMap, List.mem_map, List.mem_range] at hk
    obtain ⟨q, _, l, _, e⟩ := hk
    cases e

theorem dotProductAcc_ok (p : ParallelConv)
    (wptr biasptr data_out0 ofs0 cn0 vsz vsz_a bsz : Nat) (rowbuf0 : Mem)
    (st : Mem × List TileAccess)
    (hbsz : bsz ≤ BLK_SIZE) (hva : vsz ≤ vsz_a) (h4 : vsz_a % 4 = 0)
    (hK : vsz_a ≤ p.karea * BLK_SIZE_CN) (h : p.TraceOK st.2) :
    p.TraceOK (p.dotProductAcc wptr biasptr data_out0 ofs0 cn0 vsz vsz_a bsz rowbuf0 st).2 := by
  unfold ParallelConv.dotProductAcc
  refine forStep_pres (fun s : Mem × List TileAccess => p.TraceOK s.2) _ _ _ _ _
    (by omega) h ?_
  intro t _ acc hacc
  dsimp only
  apply dotScalarAcc_ok p _ _ _ _ _ _ _ _ _ _ _ _ _ hbsz hva hK
  cases p.simd
  · exact hacc
  · simp only [if_true]
    exact dotSimdAcc_ok p _ _ _ _ _ _ _ _ _ _ _ _ hbsz hva h4 hK hacc

/-- The indices of one tile are inside the row buffer and the offset table when the
block has `ncn ≤ min(inpCn, BLK_SIZE_CN)` channels, rows of `vsz = karea*ncn` elements
and the row stride `vsz_a = alignSize(vsz, VEC_ALIGN)`. -/
theorem tileAcc_ok (p : ParallelConv) (data_inp0 : Int)
    (data_out0 wptr biasptr cn0 ncn vsz vsz_a stripeEnd ofs0 : Nat)
    (st : (Mem × Mem) × List TileAccess)
    (hncn : ncn ≤ min p.inpCn BLK_SIZE_CN) (hvsz : vsz = p.karea * ncn)
    (hva : vsz_a = alignSize vsz VEC_ALIGN) (h : p.TraceOK st.2) :
    p.TraceOK
      (p.tileAcc data_inp0 data_out0 wptr biasptr cn0 ncn vsz vsz_a stripeEnd ofs0 st).2 := by
  have hB : BLK_SIZE = 32 := rfl
  have hC : BLK_SIZE_CN = 64 := rfl
  have hle : vsz ≤ vsz_a := by
    rw [hva]
    exact alignSize_ge _ _ (by decide)
  have hn64 : ncn ≤ 64 := le_trans hncn (Nat.min_le_right _ _)
  have hv64 : vsz ≤ p.karea * 64 := by
    rw [hvsz]
    exact Nat.mul_le_mul_left _ hn64
  have hva8 : vsz_a = (vsz + 8 - 1) / 8 * 8 := hva
  have h4 : vsz_a % 4 = 0 := by omega
  have hK : vsz_a ≤ p.karea * BLK_SIZE_CN := by
    rw [hC]
    omega
  unfold ParallelConv.tileAcc
  dsimp only
  apply dotProductAcc_ok p _ _ _ _ _ _ _ _ _ _ (by omega) hle h4 hK
  show p.TraceOK (if p.is1x1_ = true then
      p.im2row1x1Acc data_inp0 cn0 vsz vsz_a ofs0 (min (ofs0 + BLK_SIZE) stripeEnd) (st.1.1, st.2)
    else p.im2rowGeneralAcc data_inp0 cn0 ncn vsz vsz_a ofs0 (min (ofs0 + BLK_SIZE) stripeEnd)
      (st.1.1, st.2)).2
  split_ifs
  · unfold ParallelConv.im2row1x1Acc
    refine forStep_one_pres (fun s : Mem × List TileAccess => p.TraceOK s.2) _ _ _ _ h ?_
    intro ofs h1 h2 acc hacc
    exact gatherRow1x1Acc_ok p _ _ _ _ _ _ _ (by omega) hle hK hacc
  · unfold ParallelConv.im2rowGeneralAcc
    refine forStep_one_pres (fun s : Mem × List TileAccess => p.TraceOK s.2) _ _ _ _ h ?_
    intro ofs h1 h2 acc hacc
    exact gatherRowAcc_ok p _ _ _ _ _ _ _ _ (by omega) hle hK hvsz hncn hacc

/-- The indices of a whole channel block, with the sizes `ncn`, `vsz` and `vsz_a` that
lines 405-407 compute, are inside the row buffer and the offset table. -/
theorem channelBlockAcc_ok (p : ParallelConv) (data_inp0 : Int)
    (data_out0 wptr_orig biasptr stripeStart stripeEnd cn0 : Nat)
    (st : (Mem × Mem) × List TileAccess) (h : p.TraceOK st.2) :
    p.TraceOK (p.channelBlockAcc data_inp0 data_out0 wptr_orig biasptr stripeStart stripeEnd
      cn0 st).2 := by
  unfold ParallelConv.channelBlockAcc
  dsimp only
  refine forStep_pres (fun s : (Mem × Mem) × List TileAccess => p.TraceOK s.2) _ _ _ _ _
    (by decide) h ?_
  intro t _ acc hacc
  exact tileAcc_ok p _ _ _ _ _ _ _ _ _ _ _ (by
    have hC : BLK_SIZE_CN = 64 := rfl
    rw [hC]
    omega) rfl rfl hacc

/-- C39: in one tile of a channel block with `ncn ≤ min(inpCn, BLK_SIZE_CN)` channels,
rows of `vsz = karea*ncn` elements at the stride `vsz_a = alignSize(vsz, VEC_ALIGN)` and
at most `BLK_SIZE` positions, every index of the row buffer that the gather writes or
that the product reads (the four-element loads of the vectorized loop in four
consecutive rows included) is below `karea*BLK_SIZE_CN*BLK_SIZE`, and every index of the
offset table that the gather uses is below `kernel_w*kernel_h*min(inpCn, BLK_SIZE_CN)`;
the instrumented tile computes the row buffer and the output of the tile itself. -/
theorem tile_indices_in_bounds (p : ParallelConv) (data_inp0 : Int)
    (data_out0 wptr biasptr cn0 ncn vsz vsz_a stripeEnd ofs0 : Nat) (st : Mem × Mem)
    (hncn : ncn ≤ min p.inpCn BLK_SIZE_CN) (hvsz : vsz = p.karea * ncn)
    (hva : vsz_a = alignSize vsz VEC_ALIGN) :
    (∀ i, TileAccess.rowbuf i ∈
        (p.tileAcc data_inp0 data_out0 wptr biasptr cn0 ncn vsz vsz_a stripeEnd ofs0 (st, [])).2 →
      i < p.karea * BLK_SIZE_CN * BLK_SIZE) ∧
    (∀ k, TileAccess.ofstab k ∈
        (p.tileAcc data_inp0 data_out0 wptr biasptr cn0 ncn vsz vsz_a stripeEnd ofs0 (st, [])).2 →
      k < p.kernel_.width * p.kernel_.height * min p.inpCn BLK_SIZE_CN) ∧
    (p.tileAcc data_inp0 data_out0 wptr biasptr cn0 ncn vsz vsz_a stripeEnd ofs0 (st, [])).1 =
      p.tile data_inp0 data_out0 wptr biasptr cn0 ncn vsz vsz_a stripeEnd ofs0 st := by
  have h := tileAcc_ok p data_inp0 data_out0 wptr biasptr cn0 ncn vsz vsz_a stripeEnd ofs0
    (st, []) hncn hvsz hva
    ⟨fun i hi => absurd hi (List.not_mem_nil _), fun k hk => absurd hk (List.not_mem_nil _)⟩
  exact ⟨h.1, h.2, tileAcc_fst p _ _ _ _ _ _ _ _ _ _ _⟩

theorem tile_indices_in_bounds_witness :
    8 < exConv.karea * BLK_SIZE_CN * BLK_SIZE ∧
    8 < exConv.kernel_.width * exConv.kernel_.height * min exConv.inpCn BLK_SIZE_CN :=
  have h := tile_indices_in_bounds exConv 0 0 0 0 0 1 9 16 5 4 (fun _ => 0, fun _ => 0)
    (by decide) (by decide) (by decide)
  ⟨h.1 8 (by decide), h.2.1 8 (by decide)⟩

/-- The quotient of the `int` division of the source (truncated toward zero) by a
positive divisor is the floor quotient when the dividend is not negative or is a
multiple of the divisor, and one more otherwise. -/
theorem tdiv_floor (x : Int) (s : Nat) (hs : 1 ≤ s) :
    x.tdiv (s : Int) = x / (s : Int) + (if 0 ≤ x ∨ (s : Int) ∣ x then 0 else 1) := by
  have hsZ : (0 : Int) < (s : Int) := by exact_mod_cast hs
  by_cases hx : 0 ≤ x
  · rw [if_pos (Or.inl hx), Int.tdiv_eq_ediv hx (Int.natCast_nonneg _), add_zero]
  · obtain ⟨y, hy⟩ : ∃ y : Nat, x = -(y : Int) := ⟨(-x).toNat, by omega⟩
    subst hy
    have ht : (-(y : Int)).tdiv (s : Int) = -(((y / s : Nat)) : Int) := by
      rw [Int.neg_tdiv, Int.tdiv_eq_ediv (Int.natCast_nonneg _) (Int.natCast_nonneg _)]
      rfl
    have hdm : (s : Int) * ((y / s : Nat) : Int) + ((y % s : Nat) : Int) = (y : Int) := by
      exact_mod_cast Nat.div_add_mod y s
    have hlt : ((y % s : Nat) : Int) < (s : Int) := by exact_mod_cast Nat.mod_lt y hs
    have h0 : (0 : Int) ≤ ((y % s : Nat) : Int) := Int.natCast_nonneg _
    by_cases hd : y % s = 0
    · have hdvd : (s : Int) ∣ -(y : Int) := by
        rw [dvd_neg]
        exact_mod_cast Nat.dvd_of_mod_eq_zero hd
      have hdZ : ((y % s : Nat) : Int) = 0 := by exact_mod_cast hd
      have key := (Int.ediv_emod_unique hsZ).2
        (⟨by rw [mul_neg]; linarith, le_refl 0, hsZ⟩ :
          (0 : Int) + (s : Int) * (-((y / s : Nat) : Int)) = -(y : Int) ∧ (0 : Int) ≤ 0 ∧
            (0 : Int) < (s : Int))
      rw [if_pos (Or.inr hdvd), add_zero, ht, key.1]
    · have hndvd : ¬ ((s : Int) ∣ -(y : Int)) := by
        rw [dvd_neg, Int.natCast_dvd_natCast]
        intro h
        exact hd (Nat.mod_eq_zero_of_dvd h)
      have hpos : (0 : Int) < ((y % s : Nat) : Int) := by
        have : 0 < y % s := Nat.pos_of_ne_zero hd
        exact_mod_cast this
      have key := (Int.ediv_emod_unique hsZ).2
        (⟨by rw [mul_sub, mul_neg, mul_one]; linarith, by linarith, by linarith⟩ :
          ((s : Int) - ((y % s : Nat) : Int)) + (s : Int) * (-((y / s : Nat) : Int) - 1) =
              -(y : Int) ∧ (0 : Int) ≤ (s : Int) - ((y % s : Nat) : Int) ∧
            (s : Int) - ((y % s : Nat) : Int) < (s : Int))
      rw [if_neg (by
        rintro (h | h)
        · exact hx h
        · exact hndvd h), ht, key.1]
      ring

/-- The truncated quotient by a divisor that is not negative lies between the dividend
and zero. -/
theorem tdiv_between (x : Int) (s : Nat) :
    (0 ≤ x → 0 ≤ x.tdiv (s : Int) ∧ x.tdiv (s : Int) ≤ x) ∧
    (x < 0 → x ≤ x.tdiv (s : Int) ∧ x.tdiv (s : Int) ≤ 0) := by
  constructor
  · intro hx
    obtain ⟨y, hy⟩ : ∃ y : Nat, x = (y : Int) := ⟨x.toNat, by omega⟩
    subst hy
    rw [Int.tdiv_eq_ediv (Int.natCast_nonneg _) (Int.natCast_nonneg _)]
    have h1 : ((y / s : Nat) : Int) ≤ (y : Int) := by exact_mod_cast Nat.div_le_self y s
    have h2 : (0 : Int) ≤ ((y / s : Nat) : Int) := Int.natCast_nonneg _
    exact ⟨h2, h1⟩
  · intro hx
    obtain ⟨y, hy⟩ : ∃ y : Nat, x = -(y : Int) := ⟨(-x).toNat, by omega⟩
    subst hy
    rw [Int.neg_tdiv, Int.tdiv_eq_ediv (Int.natCast_nonneg _) (Int.natCast_nonneg _)]
    have h1 : ((y / s : Nat) : Int) ≤ (y : Int) := by exact_mod_cast Nat.div_le_self y s
    have h2 : (0 : Int) ≤ ((y / s : Nat) : Int) := Int.natCast_nonneg _
    constructor
    · exact neg_le_neg h1
    · exact neg_nonpos.2 h2

/-- Along one axis: when `in + 2*pad` and the dilated kernel size are below `2^31`, the
`int` arithmetic of lines 171-172 is exact. -/
theorem outSize_exact (inp pad kernel stride dilation : Nat) (hk : 1 ≤ kernel)
    (hin : inp + 2 * pad < 2147483648)
    (hker : dilation * (kernel - 1) + 1 ≤ 2147483648) :
    int32 ((int32 ((inp : Int) + 2 * pad - (dilation * ((kernel : Int) - 1) + 1))).tdiv
        (stride : Int) + 1) =
      ((inp : Int) + 2 * pad - (dilation * ((kernel : Int) - 1) + 1)).tdiv (stride : Int) + 1 := by
  have e : ((dilation : Int) * ((kernel : Int) - 1) + 1) =
      ((dilation * (kernel - 1) + 1 : Nat) : Int) := by
    push_cast [Nat.cast_sub hk]
    ring
  rw [e]
  generalize hKe : dilation * (kernel - 1) + 1 = K at hker
  have hK1 : 1 ≤ K := by omega
  have hfit : IsInt32 ((inp : Int) + 2 * pad - (K : Int)) := by
    constructor <;> omega
  rw [int32_eq _ hfit]
  have hb := tdiv_between ((inp : Int) + 2 * pad - (K : Int)) stride
  apply int32_eq
  by_cases hx : 0 ≤ (inp : Int) + 2 * pad - (K : Int)
  · obtain ⟨h1, h2⟩ := hb.1 hx
    constructor <;> omega
  · obtain ⟨h1, h2⟩ := hb.2 (by omega)
    constructor <;> omega

/-- Along one axis, for a stride of at least 1: the size with the truncated quotient is
the size of the specification exactly when the dividend is not negative or is a multiple
of the stride, and it is one more otherwise. -/
theorem outSize_floor (inp pad kernel stride dilation : Nat) (hs : 1 ≤ stride) :
    (((inp : Int) + 2 * pad - (dilation * ((kernel : Int) - 1) + 1)).tdiv (stride : Int) + 1 =
        specOutSize inp pad kernel stride dilation ↔
      (0 ≤ (inp : Int) + 2 * pad - (dilation * ((kernel : Int) - 1) + 1) ∨
        (stride : Int) ∣ (inp : Int) + 2 * pad - (dilation * ((kernel : Int) - 1) + 1))) ∧
    (¬ (0 ≤ (inp : Int) + 2 * pad - (dilation * ((kernel : Int) - 1) + 1) ∨
        (stride : Int) ∣ (inp : Int) + 2 * pad - (dilation * ((kernel : Int) - 1) + 1)) →
      ((inp : Int) + 2 * pad - (dilation * ((kernel : Int) - 1) + 1)).tdiv (stride : Int) + 1 =
        specOutSize inp pad kernel stride dilation + 1) := by
  unfold specOutSize
  rw [tdiv_floor _ stride hs]
  constructor
  · constructor
    · intro h
      by_contra hc
      rw [if_neg hc] at h
      omega
    · intro h
      rw [if_pos h, add_zero]
  · intro hc
    rw [if_neg hc]

/-- C7 fails as stated, on three valid configurations with an empty pad mode.  For a
`2 x 2` input, kernel 3, stride 2, pad 0 and dilation 1, `getMemoryShapes` returns the
spatial size `1 x 1`, while the formula with floor division gives `0`.  For an input of
height `2^31 - 1`, kernel 1, stride 1, pad 1 and dilation 1, the `int` arithmetic of line
171 wraps and the returned height is `-2147483647`, while the formula gives
`2147483649`.  For an input of 5 channels and a `[4,2,3,3]` weight blob the assertion of
line 180 fails and nothing is returned. -/
theorem getMemoryShapes_floor_counterexample :
    (exStride2Layer.getMemoryShapes noPadMode [[1, 1, 2, 2]] = some ([[1, 1, 1, 1]], []) ∧
      specOutSize 2 0 3 2 1 = 0) ∧
    (exUnitConvLayer.getMemoryShapes noPadMode [[1, 1, 2147483647, 1]] =
        some ([[1, 1, -2147483647, 3]], []) ∧
      specOutSize 2147483647 1 1 1 1 = 2147483649) ∧
    exPadLayer.getMemoryShapes noPadMode [[1, 5, 5, 5]] = none := by
  refine ⟨⟨by decide, by decide⟩, ⟨by decide, by decide⟩, by decide⟩

/-- C7 (amended): with an empty pad mode, for all configurations with kernel and stride
of at least 1 on which the assertions of `getMemoryShapes` hold and for which
`in + 2*pad` and the dilated kernel size `dilation*(kernel-1)+1` are below `2^31` on both
axes, the returned output size along each spatial axis is
`(in + 2*pad - (dilation*(kernel-1)+1)) / stride + 1` with the quotient truncated toward
zero; it equals the floor formula exactly when the dividend
`in + 2*pad - (dilation*(kernel-1)+1)` is not negative or is a multiple of the stride, and
it is larger by one when the dividend is negative and not a multiple of the stride. -/
theorem getMemoryShapes_output_size (l : ConvolutionLayerImpl) (b0 : Blob) (rest : List Blob)
    (f : Int → Int → Size → Size → String → Int × Int) (N inpCn inpH inpW : Nat)
    (hblobs : l.blobs = b0 :: rest)
    (hbias : rest = [] ∨ ∃ b1 tl, rest = b1 :: tl ∧ b1.total = b0.size0)
    (hmode : l.padMode = "")
    (hg : inpCn / b0.size1 ≠ 0)
    (hdivC : inpCn % (inpCn / b0.size1) = 0) (hdivO : b0.size0 % (inpCn / b0.size1) = 0)
    (hkh : 1 ≤ l.kernel.height) (hkw : 1 ≤ l.kernel.width)
    (hsh : 1 ≤ l.stride.height) (hsw : 1 ≤ l.stride.width)
    (hinH : inpH + 2 * l.pad.height < 2147483648)
    (hinW : inpW + 2 * l.pad.width < 2147483648)
    (hkerH : l.dilation.height * (l.kernel.height - 1) + 1 ≤ 2147483648)
    (hkerW : l.dilation.width * (l.kernel.width - 1) + 1 ≤ 2147483648) :
    l.getMemoryShapes f [[(N : Int), inpCn, inpH, inpW]] =
      some ([[(N : Int), b0.size0,
        ((inpH : Int) + 2 * l.pad.height -
          (l.dilation.height * ((l.kernel.height : Int) - 1) + 1)).tdiv l.stride.height + 1,
        ((inpW : Int) + 2 * l.pad.width -
          (l.dilation.width * ((l.kernel.width : Int) - 1) + 1)).tdiv l.stride.width + 1]], []) ∧
    ((((inpH : Int) + 2 * l.pad.height -
          (l.dilation.height * ((l.kernel.height : Int) - 1) + 1)).tdiv l.stride.height + 1 =
        specOutSize inpH l.pad.height l.kernel.height l.stride.height l.dilation.height ↔
      (0 ≤ (inpH : Int) + 2 * l.pad.height -
          (l.dilation.height * ((l.kernel.height : Int) - 1) + 1) ∨
        (l.stride.height : Int) ∣ (inpH : Int) + 2 * l.pad.height -
          (l.dilation.height * ((l.kernel.height : Int) - 1) + 1))) ∧
     (¬ (0 ≤ (inpH : Int) + 2 * l.pad.height -
          (l.dilation.height * ((l.kernel.height : Int) - 1) + 1) ∨
        (l.stride.height : Int) ∣ (inpH : Int) + 2 * l.pad.height -
          (l.dilation.height * ((l.kernel.height : Int) - 1) + 1)) →
      ((inpH : Int) + 2 * l.pad.height -
          (l.dilation.height * ((l.kernel.height : Int) - 1) + 1)).tdiv l.stride.height + 1 =
        specOutSize inpH l.pad.height l.kernel.height l.stride.height l.dilation.height + 1)) ∧
    ((((inpW : Int) + 2 * l.pad.width -
          (l.dilation.width * ((l.kernel.width : Int) - 1) + 1)).tdiv l.stride.width + 1 =
        specOutSize inpW l.pad.width l.kernel.width l.stride.width l.dilation.width ↔
      (0 ≤ (inpW : Int) + 2 * l.pad.width -
          (l.dilation.width * ((l.kernel.width : Int) - 1) + 1) ∨
        (l.stride.width : Int) ∣ (inpW : Int) + 2 * l.pad.width -
          (l.dilation.width * ((l.kernel.width : Int) - 1) + 1))) ∧
     (¬ (0 ≤ (inpW : Int) + 2 * l.pad.width -
          (l.dilation.width * ((l.kernel.width : Int) - 1) + 1) ∨
        (l.stride.width : Int) ∣ (inpW : Int) + 2 * l.pad.width -
          (l.dilation.width * ((l.kernel.width : Int) - 1) + 1)) →
      ((inpW : Int) + 2 * l.pad.width -
          (l.dilation.width * ((l.kernel.width : Int) - 1) + 1)).tdiv l.stride.width + 1 =
        specOutSize inpW l.pad.width l.kernel.width l.stride.width l.dilation.width + 1)) := by
  refine ⟨?_, outSize_floor _ _ _ _ _ hsh, outSize_floor _ _ _ _ _ hsw⟩
  have hng : (inpCn : Int).tdiv (b0.size1 : Int) = ((inpCn / b0.size1 : Nat) : Int) := by
    rw [Int.tdiv_eq_ediv (Int.natCast_nonneg _) (Int.natCast_nonneg _)]
    rfl
  have hm1 : (inpCn : Int).tmod ((inpCn / b0.size1 : Nat) : Int) = 0 := by
    rw [Int.tmod_eq_emod (Int.natCast_nonneg _) (Int.natCast_nonneg _)]
    exact_mod_cast hdivC
  have hm2 : (b0.size0 : Int).tmod ((inpCn / b0.size1 : Nat) : Int) = 0 := by
    rw [Int.tmod_eq_emod (Int.natCast_nonneg _) (Int.natCast_nonneg _)]
    exact_mod_cast hdivO
  have hne : ¬ (((inpCn / b0.size1 : Nat) : Int) = 0) := by
    exact_mod_cast hg
  have hempty : l.padMode.isEmpty = true := by rw [hmode]; rfl
  have hstr : ¬ (True ∧ (l.stride.height = 0 ∨ l.stride.width = 0)) := by
    rintro ⟨_, h | h⟩ <;> omega
  have eH := outSize_exact inpH l.pad.height l.kernel.height l.stride.height l.dilation.height
    hkh hinH hkerH
  have eW := outSize_exact inpW l.pad.width l.kernel.width l.stride.width l.dilation.width
    hkw hinW hkerW
  unfold ConvolutionLayerImpl.getMemoryShapes
  rw [hblobs]
  rcases hbias with h | ⟨b1, tl, h, ht⟩
  · subst h
    simp only [if_true, List.getD_cons_zero, List.getD_cons_succ, hempty, hng, if_neg hne, hm1,
      hm2, and_self, if_neg hstr, eH, eW]
  · subst h
    simp only [ht, decide_True, if_true, List.getD_cons_zero, List.getD_cons_succ, hempty, hng,
      if_neg hne, hm1, hm2, and_self, if_neg hstr, eH, eW]

theorem getMemoryShapes_output_size_witness :
    exPadLayer.getMemoryShapes noPadMode [[1, 2, 5, 6]] = some ([[1, 4, 3, 3]], []) ∧
      (2 : Int) + 1 = specOutSize 5 1 3 2 1 ∧ (2 : Int) + 1 = specOutSize 6 1 3 2 1 :=
  have h := getMemoryShapes_output_size exPadLayer ⟨4, 2, 3, 3, fun _ => 1⟩ [] noPadMode
    1 2 5 6 rfl (Or.inl rfl) rfl (by decide) (by decide) (by decide) (by decide) (by decide)
    (by decide) (by decide) (by decide) (by decide) (by decide) (by decide)
  ⟨h.1, h.2.1.1.2 (Or.inl (by decide)), h.2.2.1.2 (Or.inl (by decide))⟩

/-- C31 fails as stated, on two inputs of the layer of scenario B and of the layer
`exDeconvPadLayer`.  For the input `[1,1,1073741825,1]` with stride 2 and kernel 2 the
`int` arithmetic of line 1006 wraps: `getMemoryShapes` returns the output height
`-2147483646`, while `stride_h*(inpH-1) + kernel_h - 2*pad_h + adjustPad_h` is
`2147483650`.  For the input `[1,3,5,5]` and a `[4,2,3,3]` weight blob the assertion of
line 1016 fails and nothing is returned. -/
theorem deconv_output_shape_counterexample :
    (scenarioBLayer (fun _ => 1)).getMemoryShapes [[1, 1, 1073741825, 1]] =
      some ([[1, 1, -2147483646, 2]], [[4, 1073741825]]) ∧
    (((scenarioBLayer (fun _ => 1)).stride.height : Nat) : Int) * (1073741825 - 1) +
        ((scenarioBLayer (fun _ => 1)).kernel.height : Nat) -
        2 * ((scenarioBLayer (fun _ => 1)).pad.height : Nat) +
        ((scenarioBLayer (fun _ => 1)).adjustPad.height : Nat) = 2147483650 ∧
    exDeconvPadLayer.getMemoryShapes [[1, 3, 5, 5]] = none := by
  refine ⟨by decide, by decide, by decide⟩

/-- C31 (amended): whenever `DeConvolutionLayerImpl::getMemoryShapes` returns, every
output shape is `[N, outCn, outH, outW]` with `N` the batch size of the first input,
`outCn = blobs[0].size[0]` and `outH`, `outW` the `int` values of
`stride_h*(inpH-1) + kernel_h - 2*pad_h + adjustPad_h` and
`stride_w*(inpW-1) + kernel_w - 2*pad_w + adjustPad_w`; it does return when its
assertions hold (bias of `outCn` elements or none, group count not zero, both channel
counts divisible by it, `blobs[0].size[1] == inpCn / ngroups`); and the `int` value of
each formula is its exact value when that lies in `[-2^31, 2^31)`. -/
theorem deconv_output_shape (l : DeConvolutionLayerImpl) (b0 : Blob) (rest : List Blob)
    (inp : MatShape) (tl : List MatShape) (hblobs : l.blobs = b0 :: rest) :
    (∀ outs ints, l.getMemoryShapes (inp :: tl) = some (outs, ints) →
      outs = List.replicate (tl.length + 1)
        [inp.getD 0 0, (b0.size0 : Int),
          int32 ((l.stride.height : Int) * (inp.getD 2 0 - 1) + l.kernel.height -
            2 * l.pad.height + l.adjustPad.height),
          int32 ((l.stride.width : Int) * (inp.getD 3 0 - 1) + l.kernel.width -
            2 * l.pad.width + l.adjustPad.width)]) ∧
    ((rest = [] ∨ ∃ b1 t, rest = b1 :: t ∧ b1.total = b0.size0) →
      (inp.getD 1 0).tdiv b0.size1 ≠ 0 →
      (inp.getD 1 0).tmod ((inp.getD 1 0).tdiv b0.size1) = 0 →
      (b0.size0 : Int).tmod ((inp.getD 1 0).tdiv b0.size1) = 0 →
      (b0.size1 : Int) = (inp.getD 1 0).tdiv ((inp.getD 1 0).tdiv b0.size1) →
      ∃ ints, l.getMemoryShapes (inp :: tl) = some (List.replicate (tl.length + 1)
        [inp.getD 0 0, (b0.size0 : Int),
          int32 ((l.stride.height : Int) * (inp.getD 2 0 - 1) + l.kernel.height -
            2 * l.pad.height + l.adjustPad.height),
          int32 ((l.stride.width : Int) * (inp.getD 3 0 - 1) + l.kernel.width -
            2 * l.pad.width + l.adjustPad.width)], ints)) ∧
    (IsInt32 ((l.stride.height : Int) * (inp.getD 2 0 - 1) + l.kernel.height -
        2 * l.pad.height + l.adjustPad.height) →
      int32 ((l.stride.height : Int) * (inp.getD 2 0 - 1) + l.kernel.height -
          2 * l.pad.height + l.adjustPad.height) =
        (l.stride.height : Int) * (inp.getD 2 0 - 1) + l.kernel.height -
          2 * l.pad.height + l.adjustPad.height) ∧
    (IsInt32 ((l.stride.width : Int) * (inp.getD 3 0 - 1) + l.kernel.width -
        2 * l.pad.width + l.adjustPad.width) →
      int32 ((l.stride.width : Int) * (inp.getD 3 0 - 1) + l.kernel.width -
          2 * l.pad.width + l.adjustPad.width) =
        (l.stride.width : Int) * (inp.getD 3 0 - 1) + l.kernel.width -
          2 * l.pad.width + l.adjustPad.width) := by
  refine ⟨?_, ?_, int32_eq _, int32_eq _⟩
  · intro outs ints h
    unfold DeConvolutionLayerImpl.getMemoryShapes at h
    rw [hblobs] at h
    dsimp only at h
    split_ifs at h <;> exact (congrArg Prod.fst (Option.some.inj h)).symm
  · intro hbias hg h1 h2 h3
    unfold DeConvolutionLayerImpl.getMemoryShapes
    rw [hblobs]
    rcases hbias with h | ⟨b1, t, h, ht⟩
    · subst h
      dsimp only
      rw [if_pos rfl, if_neg hg, if_pos ⟨h1, h2⟩, if_pos ⟨rfl, h3⟩]
      exact ⟨_, rfl⟩
    · subst h
      dsimp only
      rw [if_pos (by simp [ht]), if_neg hg, if_pos ⟨h1, h2⟩, if_pos ⟨rfl, h3⟩]
      exact ⟨_, rfl⟩

theorem deconv_output_shape_witness :
    ∃ ints, (scenarioBLayer (fun _ => 1)).getMemoryShapes ([1, 1, 1, 1] :: []) =
      some (List.replicate (([] : List MatShape).length + 1)
        [([1, 1, 1, 1] : MatShape).getD 0 0, ((exDeconvBlob.size0 : Nat) : Int),
          int32 ((((scenarioBLayer (fun _ => 1)).stride.height : Nat) : Int) *
              (([1, 1, 1, 1] : MatShape).getD 2 0 - 1) +
            ((scenarioBLayer (fun _ => 1)).kernel.height : Nat) -
            2 * ((scenarioBLayer (fun _ => 1)).pad.height : Nat) +
            ((scenarioBLayer (fun _ => 1)).adjustPad.height : Nat)),
          int32 ((((scenarioBLayer (fun _ => 1)).stride.width : Nat) : Int) *
              (([1, 1, 1, 1] : MatShape).getD 3 0 - 1) +
            ((scenarioBLayer (fun _ => 1)).kernel.width : Nat) -
            2 * ((scenarioBLayer (fun _ => 1)).pad.width : Nat) +
            ((scenarioBLayer (fun _ => 1)).adjustPad.width : Nat))], ints) :=
  (deconv_output_shape (scenarioBLayer (fun _ => 1)) exDeconvBlob [] [1, 1, 1, 1] [] rfl).2.1
    (Or.inl rfl) (by decide) (by decide) (by decide) (by decide)

/-- C35 fails as stated: for the `3 x 3` output plane of `exConv` with one sample and four
stripes, `stripesPerSample = 4` and `stripeSize = min(alignSize(3, 8), 9) = 8`; stripe 2
passes the test of line 393 and is processed with `stripeStart = 16` and
`stripeEnd = min(24, 9) = 9`, so not every processed stripe has
`stripeStart ≤ stripeEnd`. -/
theorem stripe_start_past_end :
    1 ≤ exConv.nstripes_ ∧ 1 ≤ exConv.batchSize ∧ 1 ≤ exConv.outPlaneSize ∧
    exConv.stripesPerSample = 4 ∧ exConv.stripeSize = 8 ∧
    exConv.stripeGeom 2 = some (0, 16, 9) ∧
    exConv.callPieces ⟨2, 3⟩ = [(0, 16, 9)] ∧
    (exConv.callPieces ⟨2, 3⟩).all (fun pc => decide (pc.2.1 ≤ pc.2.2)) = false := by
  refine ⟨by decide, by decide, by decide, by decide, by decide, by decide, by decide, by decide⟩

/-- C35 (amended): every stripe that `ParallelConv::operator()` processes (one that
passes the test of line 393) belongs to a sample-group of the batch and has
`stripeEnd ≤ outPlaneSize`, and `stripeStart ≤ stripeEnd` holds for it exactly when
`stripeStart ≤ outPlaneSize`; in the regime `nstripes < 2*batchSize` every stripe has
`stripeStart = 0`.  A stripe with `stripeEnd ≤ stripeStart` visits no output position:
with no activation attached the work on it leaves the row buffer and the output as they
are. -/
theorem stripe_bounds (p : ParallelConv) (stripe b s e : Nat)
    (hgeom : p.stripeGeom stripe = some (b, s, e)) :
    b < p.batchSize ∧ e ≤ p.outPlaneSize ∧
    (s ≤ e ↔ s ≤ p.outPlaneSize) ∧
    (p.nstripes_ < p.batchSize * 2 → s = 0) ∧
    (e ≤ s → p.activ_ = none → ∀ st, p.processStripe b s e st = st) := by
  unfold ParallelConv.stripeGeom at hgeom
  dsimp only at hgeom
  split_ifs at hgeom with hb
  simp only [Option.some.injEq, Prod.mk.injEq] at hgeom
  obtain ⟨e1, e2, e3⟩ := hgeom
  refine ⟨by omega, ?_, ?_, ?_, ?_⟩
  · rw [← e3]
    exact Nat.min_le_right _ _
  · rw [← e3, ← e2]
    constructor
    · intro h
      exact le_trans h (Nat.min_le_right _ _)
    · intro h
      exact le_min (Nat.le_add_right _ _) h
  · intro hreg
    have hsps : p.stripesPerSample = 1 := by
      unfold ParallelConv.stripesPerSample ParallelConv.stripeParams
      rw [if_neg (by omega)]
    rw [← e2, hsps, Nat.div_one, Nat.mul_one, Nat.sub_self, Nat.zero_mul]
  · intro hes hact st
    unfold ParallelConv.processStripe
    dsimp only
    have hloop : forStep 0 p.inpCn BLK_SIZE_CN (fun cn0 st =>
        p.channelBlock ((b * p.inpPlaneSize * p.inpCn : Nat) : Int) (b * p.outPlaneSize * p.outCn)
          (p.weights_.step1 * ((b % p.ngroups_) * p.outCn)) ((b % p.ngroups_) * p.outCn)
          s e cn0 st) st = st := by
      refine forStep_pres (fun acc : Mem × Mem => acc = st) _ _ _ _ _ (by decide) rfl ?_
      intro t _ acc hacc
      rw [hacc]
      unfold ParallelConv.channelBlock
      dsimp only
      exact forStep_empty _ _ _ _ _ hes (by decide)
    rw [hloop, hact]

theorem stripe_bounds_witness :
    0 < exConv.batchSize ∧ 8 ≤ exConv.outPlaneSize ∧ (0 ≤ 8 ↔ 0 ≤ exConv.outPlaneSize) :=
  have h := stripe_bounds exConv 0 0 0 8 (by decide)
  ⟨h.1, h.2.1, h.2.2.1⟩

/-- The work on stripe 2 of `exConv`, whose start lies past its end, changes nothing. -/
theorem stripe_past_end_idle (st : Mem × Mem) : exConv.processStripe 0 16 9 st = st := by
  unfold ParallelConv.processStripe
  dsimp only
  have hloop : forStep 0 exConv.inpCn BLK_SIZE_CN (fun cn0 st =>
      exConv.channelBlock ((0 * exConv.inpPlaneSize * exConv.inpCn : Nat) : Int)
        (0 * exConv.outPlaneSize * exConv.outCn)
        (exConv.weights_.step1 * ((0 % exConv.ngroups_) * exConv.outCn))
        ((0 % exConv.ngroups_) * exConv.outCn) 16 9 cn0 st) st = st := by
    refine forStep_pres (fun acc : Mem × Mem => acc = st) _ _ _ _ _ (by decide) rfl ?_
    intro t _ acc hacc
    rw [hacc]
    unfold ParallelConv.channelBlock
    dsimp only
    exact forStep_empty _ _ _ _ _ (by decide) (by decide)
  rw [hloop]
  rfl

set_option maxRecDepth 100000 in
/-- C4 fails as stated: for the input `[1,1,2,2] = [+Inf, 1, 1, 1]`, a 1x1 convolution
whose only weight is zero and the bias `[5]`, the output is `[NaN, 5, 5, 5]`, with the
scalar loop (lines 562-567) and with the vectorized loop (lines 523-540) alike: the
zero weight is multiplied by the input element, and `0 * Inf` is NaN. -/
theorem forward_zero_weights_nonfinite :
    (∀ a, a < 1 → (⟨1, 1, 1, 1, fun _ => F32.fin 0⟩ : Nonfinite.Blob).data a = F32.fin 0) ∧
    (exZeroWeightLayer.forward exInfInput 1 1 2 2 (fun _ => F32.fin 0) 1 false
        (fun _ => F32.fin 0) [⟨0, 1⟩]).map (fun r => (List.range 4).map r.2) =
      some [F32.nan, F32.fin 5, F32.fin 5, F32.fin 5] ∧
    (exZeroWeightLayer.forward exInfInput 1 1 2 2 (fun _ => F32.fin 0) 1 true
        (fun _ => F32.fin 0) [⟨0, 1⟩]).map (fun r => (List.range 4).map r.2) =
      some [F32.nan, F32.fin 5, F32.fin 5, F32.fin 5] := by
  refine ⟨fun _ _ => rfl, by decide!, by decide!⟩

end ConvLayer
